import Mathlib

/-!
# Sharded collective communication of marian-dev (MPI and oneCCL communicators)

A shallow embedding of `src/training/communicator_mpi.h` and
`src/training/communicator_oneccl.h`.

* `size_t` values are natural numbers; every `size_t` operation of the source is
  written with an explicit reduction modulo `2^64`.
* `ABORT_IF` / `ABORT` become `Except.error` carrying the abort message.
* A tensor of floats is a `List α`; the element type `α` is kept abstract
  (exact arithmetic), and instantiated with `ℤ` or `ℚ` for evaluation.
* The MPI processes of a job are the entries of a `World`: entry `p` holds the
  `graphs_` of the process whose `myMPIRank()` is `p`.
-/

namespace Marian

/-! ## `size_t` arithmetic -/

/-- The number of values of a `size_t` (64 bit). -/
def SIZE_T : Nat := 2 ^ 64

/-- Addition of two `size_t`. -/
def szAdd (a b : Nat) : Nat := (a + b) % SIZE_T

/-- Subtraction of two `size_t` (wraps around below zero). -/
def szSub (a b : Nat) : Nat := (a % SIZE_T + (SIZE_T - b % SIZE_T)) % SIZE_T

/-- Multiplication of two `size_t`. -/
def szMul (a b : Nat) : Nat := (a * b) % SIZE_T

/-! ## The shard partitioner

`shardSize()` and `RankShardRange(rank)` read `dataSize()` and the number of
shards from the communicator; both are passed explicitly here. The text of the
two functions is the same in the two communicators. -/

/-- The abort message of `shardSize()`. -/
def msgShardSize : String := "presently, all shards must have the same size"

/-- The function `shardSize()`: `size = (dataSize() + numShards - 1) / numShards`, aborting when
`size * numShards != dataSize()`. A division by zero is reported as an error. -/
def shardSize (dataSize numShards : Nat) : Except String Nat :=
  if numShards = 0 then .error "division by zero"
  else
    let size := szSub (szAdd dataSize numShards) 1 / numShards
    if szMul size numShards ≠ dataSize then .error msgShardSize
    else .ok size

/-- The function `RankShardRange(rank)`: the index range `(begin, end)` of the shard of `rank`. -/
def RankShardRange (dataSize numShards rank : Nat) : Except String (Nat × Nat) := do
  let size ← shardSize dataSize numShards
  let begin_ := szMul rank size
  let end_ := szAdd begin_ size
  let end_ := min end_ dataSize -- clip last shard
  pure (begin_, end_)

/-! ## Tensors and graphs -/

/-- The parameters of one graph replica: `graph->params()->vals()` and
`graph->params()->grads()`, two flat tensors. -/
structure Graph (α : Type) where
  /-- The tensor `params()->vals()`. -/
  vals : List α
  /-- The tensor `params()->grads()`. -/
  grads : List α
deriving DecidableEq, Repr

/-- The elements of `t->subtensor(offset, size)`. -/
def subtensor {α : Type} (t : List α) (offset size : Nat) : List α :=
  (t.drop offset).take size

/-- Writing `src` over the elements of `t` that start at `offset`
(`copyFrom` on a subtensor, `memcpy`, the receive buffer of a collective). -/
def copyInto {α : Type} (t : List α) (offset : Nat) (src : List α) : List α :=
  t.mapIdx fun k x => if offset ≤ k then (src[k - offset]?).getD x else x

/-- The effect of `t->subtensor(offset, size)->set(v)` on `t`. -/
def setRange {α : Type} (t : List α) (offset size : Nat) (v : α) : List α :=
  t.mapIdx fun k x => if offset ≤ k ∧ k < offset + size then v else x

/-- Every process aborts the job when one of them aborts: the results of the
processes, in rank order, or the first abort. -/
def allOk {ε β : Type} : List (Except ε β) → Except ε (List β)
  | [] => .ok []
  | .error e :: _ => .error e
  | .ok b :: rest =>
    match allOk rest with
    | .error e => .error e
    | .ok bs => .ok (b :: bs)

/-- The state of an MPI job: entry `p` is the `graphs_` vector of the process
with `myMPIRank() == p`; the length is `numMPIProcesses()`. -/
abbrev World (α : Type) := List (List (Graph α))

/-! ## The collective primitives

The process-group primitive `mpi_->reduceScatterBlock` and the calls of the
collective library (`ccl::reduce_scatter`, `ccl::allgatherv`, `ccl::allreduce`,
`ccl::broadcast`) are not part of the sources; `barrier()` has no effect on the
data. Each primitive is given the buffers of all participants, in rank order. -/

/-- The error of a collective that is handed a buffer that is too short. -/
def msgBuffer : String := "collective: buffer too short"

/-- The error of an access to a graph that does not exist. -/
def msgNoGraph : String := "graphs_: index out of range"

/-- The error of a copy that would leave its tensor. -/
def msgRange : String := "tensor: access out of range"

/-- Modelled from the spec: the reduce-scatter primitive (`reduceScatterBlock` of
the process group, `reduce_scatter` of the collective library), which is not in
the sources. "Reduce-scatter: collective operation summing a distributed vector
across ranks, leaving each rank holding only its own summed slice." Each
participant passes a send buffer of `count` elements per participant; the
participant `rank` receives `count` elements, element `k` being the sum over the
participants of element `rank * count + k` of their send buffers. A send buffer
with fewer elements is an error. -/
def reduceScatter {α : Type} [Add α] [Zero α] (sendbufs : List (List α))
    (count rank : Nat) : Except String (List α) :=
  if sendbufs.all (fun s => decide (sendbufs.length * count ≤ s.length)) then
    .ok ((List.range count).map fun k =>
      (sendbufs.map fun s => (s[rank * count + k]?).getD 0).sum)
  else .error msgBuffer

/-- Modelled from the spec: the all-gather primitive `allgatherv` of the
collective library, which is not in the sources. "All-gather: collective
operation distributing each rank's slice to all ranks, reconstructing the full
vector everywhere." Each participant passes `count` elements; every participant
receives the concatenation, in rank order, of what was passed, `recvCounts`
giving the number of elements taken from each participant. -/
def allGatherv {α : Type} (sendbufs : List (List α)) (count : Nat)
    (recvCounts : List Nat) : Except String (List α) :=
  if recvCounts.length = sendbufs.length ∧
      sendbufs.all (fun s => decide (count ≤ s.length)) then
    .ok ((sendbufs.map fun s => s.take count).flatten)
  else .error msgBuffer

/-- Modelled from the spec: the all-reduce primitive of the collective library
with the sum reduction ("sum-reduce across all ranks"), which is not in the
sources. Every participant passes `count` elements and receives, at each index,
the sum over the participants. -/
def allReduce {α : Type} [Add α] [Zero α] (bufs : List (List α)) (count : Nat) :
    Except String (List α) :=
  if bufs.all (fun s => decide (s.length = count)) then
    .ok ((List.range count).map fun k => (bufs.map fun s => (s[k]?).getD 0).sum)
  else .error msgBuffer

/-- Modelled from the spec: the broadcast primitive of the collective library
("copy rank 0's parameters to all ranks"), which is not in the sources. Every
participant receives the `count` elements of the buffer of `root`. -/
def broadcast {α : Type} (bufs : List (List α)) (count root : Nat) :
    Except String (List α) :=
  match bufs[root]? with
  | none => .error msgBuffer
  | some b =>
    if bufs.all (fun s => decide (s.length = count)) then .ok b
    else .error msgBuffer

/-- The body of the callback `resetGrads` on the gradient tensor: everything
outside `[begin, end)` is set to zero. -/
def resetTensor {α : Type} [Zero α] (begin_ end_ : Nat) (grads : List α) : List α :=
  let size := grads.length
  let grads := if begin_ > 0 then setRange grads 0 begin_ 0 else grads
  if end_ < size then setRange grads end_ (szSub size end_) 0 else grads

/-- The size of `graphs_[0]->params()->vals()`. -/
def dataSizeOf {α : Type} (graphs : List (Graph α)) : Nat :=
  match graphs with
  | [] => 0
  | g :: _ => g.vals.length

/-- Replace the gradient of graph `i` of a process. -/
def setGrads {α : Type} (graphs : List (Graph α)) (i : Nat) (f : List α → List α) :
    List (Graph α) :=
  graphs.mapIdx fun j g => if j = i then { g with grads := f g.grads } else g

/-- Replace the parameters of graph `i` of a process. -/
def setVals {α : Type} (graphs : List (Graph α)) (i : Nat) (f : List α → List α) :
    List (Graph α) :=
  graphs.mapIdx fun j g => if j = i then { g with vals := f g.vals } else g

/-- The callback `resetGrads` of `scatterReduceAndResetGrads` (the same text in
both communicators), applied to the gradient of graph `i`. -/
def resetGrads {α : Type} [Zero α] (i begin_ end_ : Nat) (graphs : List (Graph α)) :
    List (Graph α) :=
  setGrads graphs i (resetTensor begin_ end_)

/-- The number of iterations of the loops `for(i = 0; i < graphs_.size(); ++i)`
that the processes of a job run in lockstep. -/
def World.numLocal {α : Type} (w : World α) : Nat := (w.headD []).length

/-! ## `MpiCommunicator` -/

/-- The fields of an `MpiCommunicator` that the code reads: the local graphs and
the two values answered by `mpi_`. -/
structure MpiCommunicator (α : Type) where
  /-- The local graphs, one per local device. -/
  graphs_ : List (Graph α)
  /-- The value of `mpi_->myMPIRank()`. -/
  myMPIRank : Nat
  /-- The value of `mpi_->numMPIProcesses()`. -/
  numMPIProcesses : Nat

namespace MpiCommunicator

variable {α σ : Type}

/-- The function `myRank(localDeviceIndex)`: map a local device index to a global rank. -/
def myRank (c : MpiCommunicator α) (localDeviceIndex : Nat) : Nat :=
  szAdd (szMul c.myMPIRank c.graphs_.length) localDeviceIndex

/-- The function `numRanks()`: total number of devices across all MPI processes. -/
def numRanks (c : MpiCommunicator α) : Nat :=
  szMul c.numMPIProcesses c.graphs_.length

/-- The function `dataSize()`: the size of `graphs_[0]->params()->vals()`. -/
def dataSize (c : MpiCommunicator α) : Nat :=
  dataSizeOf c.graphs_

/-- The function `shardSize()` of the communicator. -/
def shardSize (c : MpiCommunicator α) : Except String Nat :=
  Marian.shardSize c.dataSize c.numRanks

/-- The function `RankShardRange(rank)` of the communicator. -/
def RankShardRange (c : MpiCommunicator α) (rank : Nat) : Except String (Nat × Nat) :=
  Marian.RankShardRange c.dataSize c.numRanks rank

/-- The function `localShardRange(localDeviceIndex)`. -/
def localShardRange (c : MpiCommunicator α) (localDeviceIndex : Nat) :
    Except String (Nat × Nat) :=
  c.RankShardRange (c.myRank localDeviceIndex)

/-- The function `foreach(func, parallel)`. The callback acts on a state `σ`.
Sequential run: the range of device `i` is computed, then `func(i, begin, end)`
is called, device after device. Parallel run (`parallel` and more than one
graph): the loop computes every range and enqueues the task, the tasks are
awaited afterwards; the tasks are executed here in device order, which is the
result of every schedule of the pool for callbacks that touch disjoint data. -/
def foreach (c : MpiCommunicator α) (func : Nat → Nat → Nat → σ → Except String σ)
    (parallel : Bool) (s : σ) : Except String σ :=
  let parallel := parallel && decide (c.graphs_.length > 1)
  if parallel then do
    let ranges ← (List.range c.graphs_.length).mapM fun i => do
      let r ← c.localShardRange i
      pure (i, r)
    ranges.foldlM (fun st ir => func ir.1 ir.2.1 ir.2.2 st) s
  else
    (List.range c.graphs_.length).foldlM (fun st i => do
      let r ← c.localShardRange i
      func i r.1 r.2 st) s

/-- The communicator of the process `p` of a job. -/
def ofWorld (w : World α) (p : Nat) : MpiCommunicator α :=
  ⟨w.getD p [], p, w.length⟩

/-- The abort message of the size check of `scatterReduceAndResetGrads`. -/
def msgSubtensor : String := "unexpected subtensor size??"

/-- The body of the loop of `scatterReduceAndResetGrads` up to the collective,
for the local device `i`: the range, `bufsize = shardSize()`, the check of the
subtensor size, and the `memcpy` of `bufsize` elements of the gradient from
`begin` on into `tmpsendbff`. The result is `(begin, bufsize, tmpsendbff)`. -/
def prepareSend (c : MpiCommunicator α) (i : Nat) : Except String (Nat × Nat × List α) := do
  let r ← c.localShardRange i
  match c.graphs_[i]? with
  | none => .error msgNoGraph
  | some g =>
    let bufsize ← c.shardSize
    if szSub r.2 r.1 ≠ bufsize then .error msgSubtensor
    else if r.1 + bufsize ≤ g.grads.length then
      .ok (r.1, bufsize, subtensor g.grads r.1 bufsize)
    else .error msgRange

/-- One iteration of the loop of `scatterReduceAndResetGrads`, run by all
processes: each process prepares `tmpsendbff`, the processes meet in
`reduceScatterBlock(tmpsendbff, recvbuf, bufsize, MPI_FLOAT, MPI_SUM)`, and each
process finds the result in its shard of the gradient of graph `i`. -/
def scatterReduceStep [Add α] [Zero α] (w : World α) (i : Nat) : Except String (World α) := do
  let sends ← allOk (w.mapIdx fun p _ => (ofWorld w p).prepareSend i)
  let recvs ← allOk (sends.mapIdx fun p s =>
    reduceScatter (sends.map fun t => t.2.2) s.2.1 p)
  pure (w.mapIdx fun p graphs =>
    setGrads graphs i fun grads =>
      copyInto grads (((sends[p]?).map fun t => t.1).getD 0) ((recvs[p]?).getD []))

/-- The first part of `scatterReduceAndResetGrads`: the initialisation
`tmpsendbff(shardSize())` and the loop over the local devices. -/
def reducePhase [Add α] [Zero α] (w : World α) : Except String (World α) := do
  let _ ← allOk (w.mapIdx fun p _ => (ofWorld w p).shardSize)
  (List.range w.numLocal).foldlM scatterReduceStep w

/-- The second part of `scatterReduceAndResetGrads`: `foreach(resetGrads)` in
every process. -/
def resetPhase [Zero α] (w : World α) : Except String (World α) :=
  allOk (w.mapIdx fun p graphs =>
    (ofWorld w p).foreach (fun i b e st => .ok (resetGrads i b e st)) true graphs)

/-- The function `scatterReduceAndResetGrads()`, run by all processes of the job. -/
def scatterReduceAndResetGrads [Add α] [Zero α] (w : World α) : Except String (World α) := do
  let w1 ← reducePhase w
  resetPhase w1

/-- The callback `gather` of `allGatherParams`: the shard `[begin, end)` of the
parameters of graph `idx` is copied to the same place in every other local
graph. -/
def gather (idx begin_ end_ : Nat) (graphs : List (Graph α)) :
    Except String (List (Graph α)) :=
  match graphs[idx]? with
  | none => .error msgNoGraph
  | some cur =>
    let curShard := subtensor cur.vals begin_ (szSub end_ begin_)
    .ok (graphs.mapIdx fun j g =>
      if j ≠ idx then { g with vals := copyInto g.vals begin_ curShard } else g)

/-- The function `allGatherParams()` of one process: `foreach(gather)`. -/
def allGatherParams (c : MpiCommunicator α) : Except String (MpiCommunicator α) := do
  let gs ← c.foreach gather true c.graphs_
  pure { c with graphs_ := gs }

/-- The function `allGatherParams()`, run by all processes of the job (no process talks to
another one). -/
def allGatherParamsWorld (w : World α) : Except String (World α) :=
  allOk (w.mapIdx fun p _ =>
    match (ofWorld w p).allGatherParams with
    | .error e => .error e
    | .ok c => .ok c.graphs_)

end MpiCommunicator

/-! ## `OneCCLCommunicator` -/

/-- The sharding modes of a communicator. -/
inductive ShardingMode where
  | global
  | local_
deriving DecidableEq, Repr

/-- The fields of a `OneCCLCommunicator` that the code reads. `devices_` has one
entry per graph, so `numLocalRanks()` is the number of graphs. -/
structure OneCCLCommunicator (α : Type) where
  /-- The local graphs. -/
  graphs_ : List (Graph α)
  /-- The sharding mode. -/
  shardingMode_ : ShardingMode
  /-- The value of `mpi_->myMPIRank()`. -/
  myMPIRank : Nat
  /-- The value of `mpi_->numMPIProcesses()`. -/
  numMPIProcesses : Nat

namespace OneCCLCommunicator

variable {α σ : Type}

/-- The aborts of the constructor (all graphs are CPU graphs here): more than
one graph is refused inside the loop over the graphs, then a sharding mode
other than `global` is refused. -/
def new (graphs : List (Graph α)) (shardingMode : ShardingMode)
    (myMPIRank numMPIProcesses : Nat) : Except String (OneCCLCommunicator α) :=
  if graphs.length > 1 then
    .error "oneCCL communicator can only be used with one thread per process for now."
  else if shardingMode ≠ ShardingMode.global then
    .error "We only support global sharding mode for now."
  else .ok ⟨graphs, shardingMode, myMPIRank, numMPIProcesses⟩

/-- The function `numLocalRanks()`. -/
def numLocalRanks (c : OneCCLCommunicator α) : Nat := c.graphs_.length

/-- The function `myLocalRank(localDeviceIndex)`. -/
def myLocalRank (_c : OneCCLCommunicator α) (localDeviceIndex : Nat) : Nat :=
  localDeviceIndex

/-- The function `numRanks()`. -/
def numRanks (c : OneCCLCommunicator α) : Nat :=
  szMul c.numMPIProcesses c.numLocalRanks

/-- The function `myRank(localDeviceIndex)`. -/
def myRank (c : OneCCLCommunicator α) (localDeviceIndex : Nat) : Nat :=
  szAdd (szMul c.myMPIRank c.numLocalRanks) (c.myLocalRank localDeviceIndex)

/-- The function `dataSize()`. -/
def dataSize (c : OneCCLCommunicator α) : Nat :=
  dataSizeOf c.graphs_

/-- The number of shards used by `shardSize()`. -/
def numShards (c : OneCCLCommunicator α) : Nat :=
  if c.shardingMode_ = ShardingMode.global then c.numRanks else c.numLocalRanks

/-- The function `shardSize()` of the communicator. -/
def shardSize (c : OneCCLCommunicator α) : Except String Nat :=
  Marian.shardSize c.dataSize c.numShards

/-- The function `RankShardRange(rank)` of the communicator. -/
def RankShardRange (c : OneCCLCommunicator α) (rank : Nat) : Except String (Nat × Nat) :=
  Marian.RankShardRange c.dataSize c.numShards rank

/-- The function `localShardRange(localDeviceIndex)`. -/
def localShardRange (c : OneCCLCommunicator α) (localDeviceIndex : Nat) :
    Except String (Nat × Nat) :=
  c.RankShardRange
    (if c.shardingMode_ = ShardingMode.global then c.myRank localDeviceIndex
     else c.myLocalRank localDeviceIndex)

/-- The function `foreachAcc(func, acc, init, parallel)`: as `MpiCommunicator.foreach`, the
value returned by each call being folded into the result with `acc`. -/
def foreachAcc {Ret : Type} (c : OneCCLCommunicator α)
    (func : Nat → Nat → Nat → σ → Except String (Ret × σ))
    (acc : Ret → Ret → Ret) (init : Ret) (parallel : Bool) (s : σ) :
    Except String (Ret × σ) :=
  let parallel := parallel && decide (c.graphs_.length > 1)
  if parallel then do
    let ranges ← (List.range c.graphs_.length).mapM fun i => do
      let r ← c.localShardRange i
      pure (i, r)
    ranges.foldlM (fun st ir => do
      let res ← func ir.1 ir.2.1 ir.2.2 st.2
      pure (acc st.1 res.1, res.2)) (init, s)
  else
    (List.range c.graphs_.length).foldlM (fun st i => do
      let r ← c.localShardRange i
      let res ← func i r.1 r.2 st.2
      pure (acc st.1 res.1, res.2)) (init, s)

/-- The function `bool foreach(func, parallel)`: `foreachAcc` with the accumulator `allTrue`. -/
def foreach (c : OneCCLCommunicator α)
    (func : Nat → Nat → Nat → σ → Except String (Bool × σ))
    (parallel : Bool) (s : σ) : Except String (Bool × σ) :=
  c.foreachAcc func (fun x y => x && y) true parallel s

/-- The communicator of the process `p` of a job. -/
def ofWorld (mode : ShardingMode) (w : World α) (p : Nat) : OneCCLCommunicator α :=
  ⟨w.getD p [], mode, p, w.length⟩

/-- The abort message of the size check of `scatterReduceAndResetGrads`. -/
def msgSubtensor : String := "unexpected subtensor size??"

/-- The abort of the local sharding mode in `scatterReduceAndResetGrads`. -/
def msgLocalMode : String :=
  "Local sharding mode reduceScatter not supported yet for mpi communicator."

/-- The body of the loop of `scatterReduceAndResetGrads` up to the collective,
for the local device `i`: the range, `bufsize = shardSize()`, the check of the
subtensor size and the abort of the local mode. The send buffer is
`grads->data()`, the whole gradient. The result is `(begin, bufsize, sendbuf)`. -/
def prepareSend (c : OneCCLCommunicator α) (i : Nat) :
    Except String (Nat × Nat × List α) := do
  let r ← c.localShardRange i
  match c.graphs_[i]? with
  | none => .error msgNoGraph
  | some g =>
    let bufsize ← c.shardSize
    if szSub r.2 r.1 ≠ bufsize then .error msgSubtensor
    else if c.shardingMode_ = ShardingMode.global then .ok (r.1, bufsize, g.grads)
    else .error msgLocalMode

/-- One iteration of the loop of `scatterReduceAndResetGrads`, run by all
processes, which meet in
`ccl::reduce_scatter(sendbuf, recvbuf, bufsize, type, sum, comm_)`. -/
def scatterReduceStep [Add α] [Zero α] (mode : ShardingMode) (w : World α) (i : Nat) :
    Except String (World α) := do
  let sends ← allOk (w.mapIdx fun p _ => (ofWorld mode w p).prepareSend i)
  let recvs ← allOk (sends.mapIdx fun p s =>
    reduceScatter (sends.map fun t => t.2.2) s.2.1 p)
  pure (w.mapIdx fun p graphs =>
    setGrads graphs i fun grads =>
      copyInto grads (((sends[p]?).map fun t => t.1).getD 0) ((recvs[p]?).getD []))

/-- The loop of `scatterReduceAndResetGrads`. -/
def reducePhase [Add α] [Zero α] (mode : ShardingMode) (w : World α) :
    Except String (World α) :=
  (List.range w.numLocal).foldlM (scatterReduceStep mode) w

/-- The second part of `scatterReduceAndResetGrads`: `foreach(resetGrads)` in
every process; the callback answers `true`. -/
def resetPhase [Zero α] (mode : ShardingMode) (w : World α) : Except String (World α) :=
  allOk (w.mapIdx fun p graphs =>
    match (ofWorld mode w p).foreach
        (fun i b e st => .ok (true, resetGrads i b e st)) true graphs with
    | .error e => .error e
    | .ok res => .ok res.2)

/-- The function `scatterReduceAndResetGrads()`, run by all processes of the job. -/
def scatterReduceAndResetGrads [Add α] [Zero α] (mode : ShardingMode) (w : World α) :
    Except String (World α) := do
  let w1 ← reducePhase mode w
  resetPhase mode w1

/-- The body of the loop of `allGatherParams` up to the collective, for the
local device `i`: the result is `(bufsize, sendbuf, counts)` with `sendbuf` the
subtensor `[begin, end)` of the parameters and `counts` the vector
`counts(numRanks(), bufsize)`. -/
def prepareGather (c : OneCCLCommunicator α) (i : Nat) :
    Except String (Nat × List α × List Nat) := do
  let r ← c.localShardRange i
  match c.graphs_[i]? with
  | none => .error msgNoGraph
  | some g =>
    let bufsize ← c.shardSize
    if r.1 + szSub r.2 r.1 ≤ g.vals.length then
      .ok (bufsize, subtensor g.vals r.1 (szSub r.2 r.1), List.replicate c.numRanks bufsize)
    else .error msgRange

/-- One iteration of the loop of `allGatherParams`, run by all processes, which
meet in `ccl::allgatherv(sendbuf, bufsize, recvbuf, counts, type, comm_)`; the
receive buffer is `vals->data()`. -/
def allGatherStep (mode : ShardingMode) (w : World α) (i : Nat) : Except String (World α) := do
  let sends ← allOk (w.mapIdx fun p _ => (ofWorld mode w p).prepareGather i)
  let recvs ← allOk (sends.mapIdx fun _ s =>
    allGatherv (sends.map fun t => t.2.1) s.1 s.2.2)
  let _ ← allOk (w.mapIdx fun p graphs =>
    if ((recvs[p]?).getD []).length ≤ ((graphs[i]?).map fun g => g.vals.length).getD 0
    then .ok () else .error msgRange)
  pure (w.mapIdx fun p graphs =>
    setVals graphs i fun vals => copyInto vals 0 ((recvs[p]?).getD []))

/-- The function `allGatherParams()`, run by all processes of the job: the initialisation
`tmpsendbff(shardSize())` and the loop over the local devices. -/
def allGatherParams (mode : ShardingMode) (w : World α) : Except String (World α) := do
  let _ ← allOk (w.mapIdx fun p _ => (ofWorld mode w p).shardSize)
  (List.range w.numLocal).foldlM (allGatherStep mode) w

/-- One iteration of the first loop of `broadcastParams(average)`, run by all
processes: `ccl::allreduce(vals, vals, size, type, sum, comm_)` when `average`,
`ccl::broadcast(vals, size, type, 0, comm_)` otherwise. -/
def broadcastStep [Add α] [Zero α] (average : Bool) (w : World α) (i : Nat) :
    Except String (World α) := do
  let bufs ← allOk (w.mapIdx fun _ graphs =>
    match graphs[i]? with
    | none => .error msgNoGraph
    | some g => .ok g.vals)
  let recvs ← allOk (bufs.mapIdx fun _ b =>
    if average then allReduce bufs b.length else broadcast bufs b.length 0)
  pure (w.mapIdx fun p graphs =>
    setVals graphs i fun vals => copyInto vals 0 ((recvs[p]?).getD []))

/-- The callback `avg` of `broadcastParams`: every parameter of graph `i` is
divided by `(float)mpi_->numMPIProcesses()`. -/
def avg [Div α] [NatCast α] (c : OneCCLCommunicator α) (i _begin _end : Nat)
    (graphs : List (Graph α)) : List (Graph α) :=
  setVals graphs i fun vals => vals.map fun x => x / (c.numMPIProcesses : α)

/-- The function `broadcastParams(average)`, run by all processes of the job. -/
def broadcastParams [Add α] [Zero α] [Div α] [NatCast α] (mode : ShardingMode)
    (average : Bool) (w : World α) : Except String (World α) := do
  let w1 ← (List.range w.numLocal).foldlM (broadcastStep average) w
  if average then
    allOk (w1.mapIdx fun p graphs =>
      match (ofWorld mode w1 p).foreach
          (fun i b e st => .ok (true, avg (ofWorld mode w1 p) i b e st)) true graphs with
      | .error e => .error e
      | .ok res => .ok res.2)
  else pure w1

end OneCCLCommunicator

/-! ## Well-formed jobs -/

/-- Every process of the job has `N` local graphs, and every parameter and
gradient tensor has `D` elements (the graphs are replicas of one model). -/
def Uniform {α : Type} (w : World α) (N D : Nat) : Prop :=
  ∀ gs ∈ w, gs.length = N ∧ ∀ g ∈ gs, g.vals.length = D ∧ g.grads.length = D

/-- The gradient tensor of the local device `i` of process `p`. -/
def World.gradsAt {α : Type} (w : World α) (p i : Nat) : List α :=
  match (w[p]?).bind (fun gs => gs[i]?) with
  | some g => g.grads
  | none => []

/-- The parameter tensor of the local device `i` of process `p`. -/
def World.valsAt {α : Type} (w : World α) (p i : Nat) : List α :=
  match (w[p]?).bind (fun gs => gs[i]?) with
  | some g => g.vals
  | none => []

/-- The world left by the reset phase: in every process the gradient of the
local device `j` is reset outside the shard of its rank. -/
def resetWorld {α : Type} [Zero α] (N S : Nat) (w : World α) : World α :=
  w.mapIdx fun p gs => gs.mapIdx fun j g =>
    if j < N then
      { g with grads := resetTensor ((p * N + j) * S) ((p * N + j) * S + S) g.grads }
    else g

/-- The scenario of the specification: one process with 4 devices, 400
parameters, the gradient of device `d` constant `d + 1` (1.0, 2.0, 3.0, 4.0). -/
def specScenario : World ℚ :=
  [[⟨List.replicate 400 0, List.replicate 400 1⟩,
    ⟨List.replicate 400 0, List.replicate 400 2⟩,
    ⟨List.replicate 400 0, List.replicate 400 3⟩,
    ⟨List.replicate 400 0, List.replicate 400 4⟩]]

/-- A job of two processes with one graph each and two parameters: the
gradients are `[1, 2]` on rank 0 and `[3, 4]` on rank 1. -/
def twoRanks : World ℤ :=
  [[⟨[0, 0], [1, 2]⟩], [⟨[0, 0], [3, 4]⟩]]

/-- A job of two processes with one graph each and two parameters: the
parameters are `[1, 2]` on rank 0 and `[3, 4]` on rank 1. -/
def twoRanksParams : World ℤ :=
  [[⟨[1, 2], [0, 0]⟩], [⟨[3, 4], [0, 0]⟩]]

/-- A job of two processes with one graph each and three parameters. -/
def twoRanksOdd : World ℚ :=
  [[⟨[1, 2, 3], [0, 0, 0]⟩], [⟨[3, 4, 5], [0, 0, 0]⟩]]

/-- The element `k` of the parameters of the local graph `i`, if there is one. -/
def valOf {α : Type} (gs : List (Graph α)) (i k : Nat) : Option α :=
  (gs[i]?).bind fun g => g.vals[k]?

/-- The local graphs after the callbacks `gather` of the local devices
`0 .. n-1` of a process whose first rank is `base`, for the shard size `S`: the
element `k` lies in the shard of rank `k / S`; when that rank is one of the
first `n` local ones and not the graph's own, the element has been replaced by
the one of the graph of that rank. -/
def gathered {α : Type} (base S n : Nat) (gs : List (Graph α)) : List (Graph α) :=
  gs.mapIdx fun j g =>
    { g with vals := g.vals.mapIdx fun k x =>
        if base ≤ k / S ∧ k / S < base + n ∧ k / S - base ≠ j then
          (valOf gs (k / S - base) k).getD x
        else x }

/-- One process with two local graphs whose parameters are `[1, 2]` and
`[3, 4]`. -/
def twoDevices : MpiCommunicator ℤ :=
  ⟨[⟨[1, 2], [0, 0]⟩, ⟨[3, 4], [0, 0]⟩], 0, 1⟩

/-! ## State persistence: `scatterState`, `gatherState`, `swapParams`

A callback `setFn` may abort; the error of these functions carries, next to the
message, the state that the abort leaves behind. -/

/-- The vector `std::vector<float>(begin, end)`: the elements of `data` between
the iterators `data.begin() + begin` and `data.begin() + end`. -/
def sliceOf {α : Type} (data : List α) (begin_ end_ : Nat) : List α :=
  subtensor data begin_ (end_ - begin_)

/-- Modelled from the spec: the primitive `mpi_->bCast(tmp, rootRank)` of the
process group ("broadcast(buffer, rootRank)"), which is not in the sources. It
is given the vector `tmp` of every process, in rank order, and leaves in every
process the vector of the process `rootRank`. -/
def bCast {α : Type} (tmps : List (List α)) (rootRank : Nat) : List (List α) :=
  tmps.map fun _ => tmps.getD rootRank []

/-- The abort message of the length check of `swapParams`. -/
def msgSwapLength : String := "distributed sharded and local params have different size??"

/-- The abort message of the callback of `swapParams`. -/
def msgSwapShard : String := "swapParams size mismatch??"

namespace MpiCommunicator

variable {α σ : Type}

/-- The function `scatterState(data, setFn)`: every local device is handed the
range `[begin, end)` of `data` of its rank; `setFn` receives the device index and
the two iterators (here: `data` and the two positions). -/
def scatterState (c : MpiCommunicator α) (data : List α)
    (setFn : Nat → List α → Nat → Nat → σ → Except (String × σ) σ) (s : σ) :
    Except (String × σ) σ :=
  let dataSize := data.length
  let numShards := c.numRanks
  if numShards = 0 then .error ("division by zero", s)
  else
    let shardSize := szSub (szAdd dataSize numShards) 1 / numShards
    (List.range c.graphs_.length).foldlM (fun st localDeviceIndex =>
      let rank := c.myRank localDeviceIndex
      let begin_ := szMul rank shardSize
      let end_ := min (szAdd begin_ shardSize) dataSize
      setFn localDeviceIndex data begin_ end_ st) s

/-- The first loop of `gatherState(getFn)`: the pair `(tmp, localData)` after
the concatenation over all local devices. -/
def gatherLocal (c : MpiCommunicator α) (getFn : Nat → List α) : List α × List α :=
  (List.range c.graphs_.length).foldl (fun st localDeviceIndex =>
    let tmp := getFn localDeviceIndex
    (tmp, st.2 ++ tmp)) ([], [])

/-- The function `gatherState(getFn)`, run by all processes of the job;
`getFn p` is the callback of process `p`. For each `mpiRank` the process with
that rank puts its `localData` into `tmp`, `bCast` leaves it in the `tmp` of
every process, and every process appends `tmp` to `data`. The result lists the
vector `data` returned in each process. -/
def gatherState (w : World α) (getFn : Nat → Nat → List α) : List (List α) :=
  let locals := w.mapIdx fun p _ => (ofWorld w p).gatherLocal (getFn p)
  let start := locals.map fun l => (l.1, ([] : List α))
  let fin := (List.range w.length).foldl (fun st mpiRank =>
    let tmps := st.mapIdx fun p s =>
      if mpiRank = p then ((locals[p]?).map fun l => l.2).getD [] else s.1
    let recv := bCast tmps mpiRank
    st.mapIdx fun p s =>
      let tmp := (recv[p]?).getD []
      (tmp, s.2 ++ tmp)) start
  fin.map fun s => s.2

/-- The part of `swapParams(distributedParamShards)` that follows
`gatherState`, in one process: `distributedParams` is the gathered vector and
`shards` are the local `distributedParamShards`. The result is the communicator
with the new parameters and the new shards. -/
def swapLocal (c : MpiCommunicator α) (shards : List (List α))
    (distributedParams : List α) :
    Except (String × (MpiCommunicator α × List (List α)))
      (MpiCommunicator α × List (List α)) :=
  let localParams := (c.graphs_.headD ⟨[], []⟩).vals
  if distributedParams.length ≠ localParams.length then
    .error (msgSwapLength, (c, shards))
  else
    -- std::swap(distributedParams, localParams)
    let swapped := (localParams, distributedParams)
    let distributedParams := swapped.1
    let localParams := swapped.2
    match c.scatterState distributedParams (fun localDeviceIndex data begin_ end_ sh =>
        if ((sh[localDeviceIndex]?).getD []).length ≠ szSub end_ begin_ then
          .error (msgSwapShard, sh)
        else
          .ok (sh.mapIdx fun j t =>
            if j = localDeviceIndex then copyInto t 0 (sliceOf data begin_ end_) else t))
        shards with
    | .error e => .error (e.1, (c, e.2))
    | .ok sh =>
      .ok (⟨c.graphs_.map fun g => { g with vals := copyInto g.vals 0 localParams },
        c.myMPIRank, c.numMPIProcesses⟩, sh)

/-- The function `swapParams(distributedParamShards)`, run by all processes of
the job; `shards[p]` are the `distributedParamShards` of process `p`. The result
lists the outcome in each process. -/
def swapParams (w : World α) (shards : List (List (List α))) :
    List (Except (String × (MpiCommunicator α × List (List α)))
      (MpiCommunicator α × List (List α))) :=
  let gathered := gatherState w fun p localDeviceIndex =>
    (((shards[p]?).getD [])[localDeviceIndex]?).getD []
  w.mapIdx fun p _ =>
    (ofWorld w p).swapLocal ((shards[p]?).getD []) ((gathered[p]?).getD [])

end MpiCommunicator

namespace OneCCLCommunicator

variable {α σ : Type}

/-- The function `scatterState(data, setFn)` of the oneCCL communicator. -/
def scatterState (c : OneCCLCommunicator α) (data : List α)
    (setFn : Nat → List α → Nat → Nat → σ → Except (String × σ) σ) (s : σ) :
    Except (String × σ) σ :=
  let dataSize := data.length
  let numShards :=
    if c.shardingMode_ = ShardingMode.global then c.numRanks else c.numLocalRanks
  if numShards = 0 then .error ("division by zero", s)
  else
    let shardSize := szSub (szAdd dataSize numShards) 1 / numShards
    (List.range c.graphs_.length).foldlM (fun st localDeviceIndex =>
      let ncclRank :=
        if c.shardingMode_ = ShardingMode.global then c.myRank localDeviceIndex
        else c.myLocalRank localDeviceIndex
      let begin_ := szMul ncclRank shardSize
      let end_ := min (szAdd begin_ shardSize) dataSize
      setFn localDeviceIndex data begin_ end_ st) s

/-- The first loop of `gatherState(getFn)`: `localData` starts as `getFn(0)`
and the data of the devices `1 .. graphs_.size() - 1` are appended. -/
def gatherLocal (c : OneCCLCommunicator α) (getFn : Nat → List α) : List α :=
  (List.range' 1 (c.graphs_.length - 1)).foldl (fun localData localDeviceIndex =>
    localData ++ getFn localDeviceIndex) (getFn 0)

/-- The function `gatherState(getFn)` of the oneCCL communicator, run by all
processes of the job: in the global mode the `localData` of the processes are
broadcast one rank at a time and concatenated, otherwise `localData` is the
result. -/
def gatherState (mode : ShardingMode) (w : World α) (getFn : Nat → Nat → List α) :
    List (List α) :=
  let locals := w.mapIdx fun p _ => (ofWorld mode w p).gatherLocal (getFn p)
  if mode = ShardingMode.global then
    let start := locals.map fun l => (l, ([] : List α))
    let fin := (List.range w.length).foldl (fun st mpiRank =>
      let tmps := st.mapIdx fun p s =>
        if mpiRank = p then (locals[p]?).getD [] else s.1
      let recv := bCast tmps mpiRank
      st.mapIdx fun p s =>
        let tmp := (recv[p]?).getD []
        (tmp, if mpiRank = 0 then tmp else s.2 ++ tmp)) start
    fin.map fun s => s.2
  else locals

end OneCCLCommunicator

/-- The concatenation of the per-device data in ascending global rank order: the
data of the local devices `0 .. N-1` of process 0, then those of process 1, and
so on; `getFn p i` is the data of the local device `i` of process `p`. -/
def rankOrderConcat {α : Type} (w : World α) (getFn : Nat → Nat → List α) : List α :=
  ((List.range w.length).map fun p =>
    ((List.range (w.getD p []).length).map fun i => getFn p i).flatten).flatten

/-- The callback `setFn` of a caller that keeps one vector per local device:
it stores `std::vector<float>(begin, end)` as the vector of the device;
`set i x s` is the store `s` with `x` as the vector of device `i`. -/
def storeSlice {α σ : Type} (set : Nat → List α → σ → σ) :
    Nat → List α → Nat → Nat → σ → Except (String × σ) σ :=
  fun localDeviceIndex data begin_ end_ s =>
    .ok (set localDeviceIndex (sliceOf data begin_ end_) s)

/-- The store of process `p` after `scatterState` with the callback
`storeSlice set` when every device is handed a slice of `S` elements. -/
def scattered {α σ : Type} (set : Nat → List α → σ → σ) (data : List α)
    (N S p : Nat) (s : σ) : σ :=
  (List.range N).foldl (fun st i =>
    set i (sliceOf data ((p * N + i) * S) ((p * N + i) * S + S)) st) s


/-- The callback `setFn` of an observer: it appends the device index, the two
positions and the slice `std::vector<float>(begin, end)` to a list of calls. -/
def recordSlice {α : Type} :
    Nat → List α → Nat → Nat → List (Nat × Nat × Nat × List α) →
      Except (String × List (Nat × Nat × Nat × List α)) (List (Nat × Nat × Nat × List α)) :=
  fun localDeviceIndex data begin_ end_ calls =>
    .ok (calls ++ [(localDeviceIndex, begin_, end_, sliceOf data begin_ end_)])

/-- A store with one vector per device: `setVec i x s` is `s` with `x` as the
vector of device `i`. -/
def setVec {α : Type} (i : Nat) (x : List α) (s : Nat → List α) : Nat → List α :=
  fun j => if j = i then x else s j

/-- The vector of device `i` in a store. -/
def getVec {α : Type} (i : Nat) (s : Nat → List α) : List α := s i

/-- A job of two processes with two graphs each; every graph holds the
parameters `[1, 2, 3, 4]`. -/
def twoByTwo : World ℤ :=
  [[⟨[1, 2, 3, 4], [0, 0, 0, 0]⟩, ⟨[1, 2, 3, 4], [0, 0, 0, 0]⟩],
   [⟨[1, 2, 3, 4], [0, 0, 0, 0]⟩, ⟨[1, 2, 3, 4], [0, 0, 0, 0]⟩]]


/-- The range `[begin, end)` that `MpiCommunicator.scatterState` hands to `setFn`
for the local device `localDeviceIndex` when the buffer has `dataSize`
elements. -/
def MpiCommunicator.stateRange {α : Type} (c : MpiCommunicator α)
    (dataSize localDeviceIndex : Nat) : Nat × Nat :=
  let numShards := c.numRanks
  let shardSize := szSub (szAdd dataSize numShards) 1 / numShards
  let rank := c.myRank localDeviceIndex
  let begin_ := szMul rank shardSize
  let end_ := min (szAdd begin_ shardSize) dataSize
  (begin_, end_)

/-- The parameter vector `localParams` that `swapParams` reads from
`graphs_[0]`. -/
def MpiCommunicator.localParams {α : Type} (c : MpiCommunicator α) : List α :=
  (c.graphs_.headD ⟨[], []⟩).vals


/-- One process with two local graphs whose parameters are `[1, 2, 3]`. -/
def oneByTwo : World ℤ :=
  [[⟨[1, 2, 3], [0, 0, 0]⟩, ⟨[1, 2, 3], [0, 0, 0]⟩]]


/-- The graphs of every process after `swapParams`, read off its outcome. -/
def swappedWorld {α : Type}
    (rs : List (Except (String × (MpiCommunicator α × List (List α)))
      (MpiCommunicator α × List (List α)))) : World α :=
  rs.map fun r =>
    match r with
    | .ok x => x.1.graphs_
    | .error e => e.2.1.graphs_

/-- The shards of every process after `swapParams`, read off its outcome. -/
def swappedShards {α : Type}
    (rs : List (Except (String × (MpiCommunicator α × List (List α)))
      (MpiCommunicator α × List (List α)))) : List (List (List α)) :=
  rs.map fun r =>
    match r with
    | .ok x => x.2
    | .error e => e.2.2

/-- The shard of the local device `i` of process `p` in `shards`. -/
def shardAt {α : Type} (shards : List (List (List α))) (p i : Nat) : List α :=
  (((shards[p]?).getD [])[i]?).getD []


/-! ## `AsyncGraphGroup`: the asynchronous trainer

Tensors of floats are lists over an ordered field (exact arithmetic). The
declaration of the class is not part of the sources, so the configuration fields
are natural numbers (the staleness window `tau_` is an "integer ≥ 1"). -/

namespace AsyncGraphGroup

/-- The configuration fields of an `AsyncGraphGroup` that the code reads. -/
structure Config (α : Type) where
  /-- The staleness window `tau_`. -/
  tau_ : Nat
  /-- The number of pushes merged into one update, `gradientBufferSize_`. -/
  gradientBufferSize_ : Nat
  /-- The flag `scaleLearningRate_`. -/
  scaleLearningRate_ : Bool
  /-- The running average `avgBatchWords_`. -/
  avgBatchWords_ : α
  /-- The flag `movingAvg_`. -/
  movingAvg_ : Bool
  /-- The minimal decay `mvDecay_`. -/
  mvDecay_ : α
  /-- The shard size `shardSize_`. -/
  shardSize_ : Nat
  /-- Whether `scheduler_` is set. -/
  hasScheduler : Bool

/-- Modelled from the spec: the optimizer of a shard (`shardOpt_[idx]`), whose
code is not in the sources ("apply the optimizer update to the parameter shard,
scaled by the batch's word count relative to a running average word count if
learning-rate scaling is enabled"). The function `update` is given the state of
the optimizer, the parameter shard, the gradient `updater` and the optional
scale, and returns the new state and the new parameter shard. -/
structure Optimizer (α ω : Type) where
  /-- The call `update(params, grads[, scale])`. -/
  update : ω → List α → List α → Option α → ω × List α

/-- The tensors and counters of the shard `idx`: `params_[idx]`, `grads_[idx]`,
`bufferGrads_[idx]`, `bufferCount[idx]`, `paramsAvg_[idx]` and the state of
`shardOpt_[idx]`. -/
structure Shard (α ω : Type) where
  /-- The parameter shard `params_[idx]`. -/
  params_ : List α
  /-- The gradient slot `grads_[idx]`. -/
  grads_ : List α
  /-- The buffer `bufferGrads_[idx]`. -/
  bufferGrads_ : List α
  /-- The counter `bufferCount[idx]`. -/
  bufferCount : Nat
  /-- The moving average `paramsAvg_[idx]`. -/
  paramsAvg_ : List α
  /-- The state of the optimizer `shardOpt_[idx]`. -/
  shardOpt_ : ω

/-- The element-wise sum `Element(_1 = _1 + _2, a, b)` of two tensors of one
shape. -/
def elementAdd {α : Type} [Add α] (a b : List α) : List α :=
  List.zipWith (fun x y => x + y) a b

/-- The function `updateMovingAverage(paramsAvg, params, batches)`; the result
is the pair of the two tensors after the call. The sums `batches + 1` and
`batches + 10` are computed in `size_t` before the conversion to `float`. -/
def updateMovingAverage {α : Type} [LinearOrderedField α] (mvDecay_ : α)
    (paramsAvg params : List α) (batches : Nat) : List α × List α :=
  let decay := max mvDecay_
    (1 - ((szAdd batches 1 : Nat) : α) / ((szAdd batches 10 : Nat) : α))
  (List.zipWith (fun a p => ((1 - decay) * a) + (decay * p)) paramsAvg params, params)

/-- The body of the thread of `pushGradients` for one shard, under the lock of
the shard: `pos` is the offset of the shard in `newGrads` and `numberOfBatches`
is the answer of `scheduler_->numberOfBatches()`. The second component of the
result is the tensor `updater` handed to the optimizer, if the optimizer was
called. -/
def pushShard {α ω : Type} [LinearOrderedField α] (cfg : Config α) (opt : Optimizer α ω)
    (newGrads : List α) (batch_words : Nat) (numberOfBatches : Nat) (pos : Nat)
    (sh : Shard α ω) : Shard α ω × Option (List α) :=
  let grads := copyInto sh.grads_ 0 (subtensor newGrads pos sh.grads_.length)
  let buffered :=
    if cfg.gradientBufferSize_ > 1 then
      let bufferGrads := elementAdd sh.bufferGrads_ grads
      let bufferCount := sh.bufferCount + 1
      if bufferCount < cfg.gradientBufferSize_ then (bufferGrads, bufferCount, true)
      else (bufferGrads, 0, false)
    else (sh.bufferGrads_, sh.bufferCount, false)
  if buffered.2.2 then
    (⟨sh.params_, grads, buffered.1, buffered.2.1, sh.paramsAvg_, sh.shardOpt_⟩, none)
  else
    let updater := if cfg.gradientBufferSize_ > 1 then buffered.1 else grads
    let updated :=
      if cfg.scaleLearningRate_ then
        opt.update sh.shardOpt_ sh.params_ updater
          (some ((batch_words : α) / cfg.avgBatchWords_))
      else opt.update sh.shardOpt_ sh.params_ updater none
    let bufferGrads :=
      if cfg.gradientBufferSize_ > 1 then List.replicate buffered.1.length (0 : α)
      else buffered.1
    let paramsAvg :=
      if cfg.movingAvg_ then
        (updateMovingAverage cfg.mvDecay_ sh.paramsAvg_ updated.2 numberOfBatches).1
      else sh.paramsAvg_
    (⟨updated.2, grads, bufferGrads, buffered.2.1, paramsAvg, updated.1⟩, some updater)

/-- The function `pushGradients(newGrads, batch_words, device_id)`: one thread
per shard, the shard `idx` at the offset `idx * shardSize_`. The result lists
for every shard its new state and the `updater` handed to its optimizer. -/
def pushGradients {α ω : Type} [LinearOrderedField α] (cfg : Config α)
    (opt : Optimizer α ω) (newGrads : List α) (batch_words : Nat) (numberOfBatches : Nat)
    (shards : List (Shard α ω)) : List (Shard α ω × Option (List α)) :=
  shards.mapIdx fun idx sh =>
    pushShard cfg opt newGrads batch_words numberOfBatches (idx * cfg.shardSize_) sh

end AsyncGraphGroup


namespace AsyncGraphGroup

/-- The arguments of one call of `pushGradients`, with the answer of
`scheduler_->numberOfBatches()` at the time of the call. -/
structure Push (α : Type) where
  /-- The tensor `newGrads`. -/
  newGrads : List α
  /-- The word count `batch_words`. -/
  batch_words : Nat
  /-- The answer of `scheduler_->numberOfBatches()`. -/
  numberOfBatches : Nat

/-- The shard at the offset `pos` after the pushes `pushes 0, ..., pushes (n - 1)`
have been processed under its lock, and for each of these pushes the `updater`
handed to the optimizer (or `none` when the optimizer was not called). -/
def shardRun {α ω : Type} [LinearOrderedField α] (cfg : Config α) (opt : Optimizer α ω)
    (pos : Nat) (pushes : Nat → Push α) (sh : Shard α ω) :
    Nat → Shard α ω × List (Option (List α))
  | 0 => (sh, [])
  | n + 1 =>
    let r := shardRun cfg opt pos pushes sh n
    let o := pushShard cfg opt (pushes n).newGrads (pushes n).batch_words
      (pushes n).numberOfBatches pos r.1
    (o.1, r.2 ++ [o.2])

/-- The element-wise sum of the tensors `vs` of `L` elements: the element `i` is
the sum of the elements `i` of all tensors of the list. -/
def elementSum {α : Type} [AddMonoid α] (L : Nat) (vs : List (List α)) : List α :=
  (List.range L).map fun i => (vs.map fun v => v.getD i 0).sum

/-- The conversion of an integer to `int` (32 bits, two's complement). -/
def intOf (n : Int) : Int := (n + 2 ^ 31) % 2 ^ 32 - 2 ^ 31

/-- What one run of the task reads from its batch and from the forward and
backward pass on it. -/
structure StepInput (α : Type) where
  /-- The value `costNode->scalar()`. -/
  cost : α
  /-- The tensor `graph->params()->grads()` after `backward()`. -/
  grads : List α
  /-- The value `batch->wordsTrg()`. -/
  wordsTrg : Nat
  /-- The value `batch->words()`. -/
  words : Nat
  /-- The value `batch->size()`. -/
  size : Nat

/-- The calls a worker makes during one run of the task. -/
inductive Event (α : Type) where
  /-- The call `fetchParams(graph->params()->vals(), params_, t_id)`. -/
  | fetch : Event α
  /-- The call `pushGradients(gradients, num_seen_words, t_id)`. -/
  | push (gradients : List α) (num_seen_words : Nat) : Event α
  /-- The call `scheduler_->update(cost, sentences, words)`. -/
  | update (cost : α) (sentences words : Int) : Event α

/-- The `thread_local` variables of the task; `accGradients` is `[]` while it
is not allocated. -/
structure Worker (α : Type) where
  /-- The step counter `t`. -/
  t : Nat
  /-- The counter `num_seen_words`. -/
  num_seen_words : Nat
  /-- The accumulator `cost`. -/
  cost : α
  /-- The accumulator `sentences`. -/
  sentences : Int
  /-- The accumulator `words`. -/
  words : Int
  /-- The tensor `accGradients`. -/
  accGradients : List α

/-- One run of the lambda `task` of `execute` in a worker thread, up to the
call of `scheduler_->update`: the new `thread_local` variables and the calls
made, in order. -/
def task {α : Type} [LinearOrderedField α] (cfg : Config α) (w : Worker α)
    (b : StepInput α) : Worker α × List (Event α) :=
  let fetched : List (Event α) := if w.t % cfg.tau_ = 0 then [Event.fetch] else []
  let cost := w.cost + b.cost
  let batch_words := b.wordsTrg
  let words := intOf (w.words + b.words)
  let sentences := intOf (w.sentences + b.size)
  -- (accGradients, gradients, num_seen_words)
  let acc : List α × List α × Nat :=
    if cfg.tau_ > 1 then
      let acc0 := if w.t = 0 then List.replicate b.grads.length (0 : α) else w.accGradients
      let acc1 := elementAdd acc0 b.grads
      (acc1, acc1, szAdd w.num_seen_words batch_words)
    else (w.accGradients, b.grads, batch_words)
  let t := szAdd w.t 1
  -- (calls, accGradients, num_seen_words)
  let pushed : List (Event α) × List α × Nat :=
    if t % cfg.tau_ = 0 then
      ([Event.push acc.2.1 acc.2.2],
        (if cfg.tau_ > 1 then List.replicate acc.1.length (0 : α) else acc.1), 0)
    else ([], acc.1, acc.2.2)
  -- (calls, cost, sentences, words)
  let reported : List (Event α) × α × Int × Int :=
    if t % (szMul cfg.tau_ cfg.gradientBufferSize_) = 0 ∧ cfg.hasScheduler = true then
      ([Event.update (cost / ((szMul cfg.tau_ cfg.gradientBufferSize_ : Nat) : α))
          sentences words], 0, 0, 0)
    else ([], cost, sentences, words)
  (⟨t, pushed.2.2, reported.2.1, reported.2.2.1, reported.2.2.2, pushed.2.1⟩,
    fetched ++ pushed.1 ++ reported.1)

/-- The `thread_local` variables of a worker after its first `n` runs of the
task, and the calls made in each of these runs; `steps s` is the input of the
run number `s`. -/
def taskRun {α : Type} [LinearOrderedField α] (cfg : Config α)
    (steps : Nat → StepInput α) : Nat → Worker α × List (List (Event α))
  | 0 => (⟨0, 0, 0, 0, 0, []⟩, [])
  | n + 1 =>
    let r := taskRun cfg steps n
    let o := task cfg r.1 (steps n)
    (o.1, r.2 ++ [o.2])

end AsyncGraphGroup


/-- A configuration with `tau_ = 2` and `gradientBufferSize_ = 2`, without
learning-rate scaling, moving average or scheduler. -/
def bufferedConfig : AsyncGraphGroup.Config ℚ :=
  ⟨2, 2, false, 1, false, 1 / 10000, 2, false⟩

/-- An optimizer without state that subtracts the gradient from the
parameters. -/
def plainSgd : AsyncGraphGroup.Optimizer ℚ Unit :=
  ⟨fun o params grads _ => (o, List.zipWith (fun p g => p - g) params grads)⟩

/-- A shard of two elements with a zero buffer and `bufferCount = 0`. -/
def freshShard : AsyncGraphGroup.Shard ℚ Unit :=
  ⟨[1, 1], [0, 0], [0, 0], 0, [1, 1], ()⟩

/-- The push number `j` carries the gradient `[j + 1, j + 1]`. -/
def countingPushes : Nat → AsyncGraphGroup.Push ℚ :=
  fun j => ⟨[(j : ℚ) + 1, (j : ℚ) + 1], 1, j⟩


/-- The run number `s` of a worker has the cost 1, the gradient `[s + 1, 10]`
and `s % 5 + 1` target words in a batch of 3 sentences and 2 words. -/
def countingSteps : Nat → AsyncGraphGroup.StepInput ℚ :=
  fun s => ⟨1, [(s : ℚ) + 1, 10], s % 5 + 1, 2, 3⟩


/-- A configuration with `tau_ = 2`, `gradientBufferSize_ = 2` and a scheduler. -/
def reportingConfig : AsyncGraphGroup.Config ℚ :=
  ⟨2, 2, false, 1, false, 1 / 10000, 2, true⟩


/-! ## `float` arithmetic in `init`

The shard size of the trainer is computed as `ceil(totalSize / (float)n)`. A
`float` has a significand of 24 bits; conversions and the division round to the
nearest `float`, ties to even. The operands that occur are far inside the range
of the normal numbers. -/

/-- The position of the highest bit of `n` (0 for `n < 2`), for `n < 2 ^ fuel`. -/
def floorLog2 : Nat → Nat → Nat
  | 0, _ => 0
  | fuel + 1, n => if 2 ≤ n then floorLog2 fuel (n / 2) + 1 else 0

/-- The quotient `num / den` rounded to the nearest integer, ties to even. -/
def roundHalfEven (num den : Nat) : Nat :=
  if den < 2 * (num % den) ∨ (2 * (num % den) = den ∧ (num / den) % 2 = 1) then
    num / den + 1
  else num / den

/-- The conversion `(float)n` of a non-negative integer below `2 ^ 64`; the
result is again an integer. -/
def f32OfNat (n : Nat) : Nat :=
  if n < 2 ^ 24 then n
  else roundHalfEven n (2 ^ (floorLog2 64 n - 23)) * 2 ^ (floorLog2 64 n - 23)

/-- The value `ceil(a / b)` for two positive `float`s `a` and `b` that are
integers below `2 ^ 64`: the quotient is rounded to a `float` with the exponent
`e` (`2 ^ e <= a / b < 2 ^ (e + 1)`), then `ceil` is applied. The result is 0
when `a` is 0; the case `b = 0` does not occur. -/
def f32DivCeil (a b : Nat) : Nat :=
  if a = 0 ∨ b = 0 then 0
  else
    -- the exponent `e` of the quotient, as `eUp - eDown`
    let la := floorLog2 64 a
    let lb := floorLog2 64 b
    let low := if a * 2 ^ lb < b * 2 ^ la then 1 else 0
    let eUp := la
    let eDown := lb + low
    -- the significand `m = round (a / b * 2 ^ (23 - e))`
    let m := roundHalfEven (a * 2 ^ (23 + eDown - eUp)) (b * 2 ^ (eUp - (23 + eDown)))
    -- `ceil (m * 2 ^ (e - 23))`
    (m * 2 ^ (eUp - (23 + eDown)) + 2 ^ (23 + eDown - eUp) - 1) / 2 ^ (23 + eDown - eUp)


namespace AsyncGraphGroup

/-- The tensors that `init` creates: `shardSize_`, `params_`, `grads_`,
`bufferGrads_` and `paramsAvg_`. -/
structure Shards (α : Type) where
  /-- The shard size `shardSize_`. -/
  shardSize_ : Nat
  /-- The parameter shards `params_`. -/
  params_ : List (List α)
  /-- The gradient slots `grads_`. -/
  grads_ : List (List α)
  /-- The buffers `bufferGrads_`. -/
  bufferGrads_ : List (List α)
  /-- The moving averages `paramsAvg_`. -/
  paramsAvg_ : List (List α)

/-- The loop `for(auto graph : graphs_)` of `init` that cuts the parameter
shards: `totalSize` elements are left, the next shard starts at `pos`, and
`numGraphs` graphs are still to come. Every iteration takes
`__size__ = min(shardSize_, totalSize)` elements. -/
def cutShards {α : Type} (vals : List α) (shardSize_ : Nat) :
    Nat → Nat → Nat → List (List α)
  | _, _, 0 => []
  | totalSize, pos, numGraphs + 1 =>
    let size := min shardSize_ totalSize
    subtensor vals pos size :: cutShards vals shardSize_ (totalSize - size) (pos + size) numGraphs

/-- The loops `for(auto graph : graphs_)` of `init` that allocate tensors of
`__size__ = min(shardSize_, totalSize)` elements; a new tensor is filled with
`fill` (the memory of `grads_` is not initialised, `bufferGrads_` is set to 0). -/
def allocShards {α : Type} (fill : α) (shardSize_ : Nat) : Nat → Nat → List (List α)
  | _, 0 => []
  | totalSize, numGraphs + 1 =>
    let size := min shardSize_ totalSize
    List.replicate size fill :: allocShards fill shardSize_ (totalSize - size) numGraphs

/-- The function `init(batch)` after the graphs have been built, on a trainer
without shards: `devices` is `devices_.size()` and `junk` is what the memory of a
new tensor holds. The sizes are `int`s (the tensors have fewer than `2 ^ 31`
elements). -/
def init {α : Type} [LinearOrderedField α] (cfg : Config α) (junk : α) (devices : Nat)
    (graphs_ : List (Graph α)) : Shards α :=
  let vals := (graphs_.headD ⟨[], []⟩).vals
  let totalSize := vals.length
  let shardSize_ := f32DivCeil (f32OfNat totalSize) (f32OfNat devices)
  let params_ := cutShards vals shardSize_ totalSize 0 graphs_.length
  let grads_ := allocShards junk shardSize_ totalSize graphs_.length
  let bufferGrads_ :=
    if cfg.gradientBufferSize_ > 1 then allocShards (0 : α) shardSize_ totalSize graphs_.length
    else []
  let paramsAvg_ :=
    if cfg.movingAvg_ then
      (allocShards junk shardSize_ totalSize graphs_.length).mapIdx fun i paramAvg =>
        copyInto paramAvg 0 ((params_[i]?).getD [])
    else []
  ⟨shardSize_, params_, grads_, bufferGrads_, paramsAvg_⟩

/-- The function `fetchParams(oldParams, params, device_id)`: the thread `idx`
copies `params[idx]` into `oldParams` at the offset `idx * shardSize_`; the
threads are joined before the function returns. The result is `oldParams` after
the call. -/
def fetchParams {α : Type} (devices shardSize_ : Nat) (oldParams : List α)
    (params : List (List α)) : List α :=
  (List.range devices).foldl (fun t idx =>
    copyInto t (idx * shardSize_) ((params[idx]?).getD [])) oldParams

end AsyncGraphGroup


/-- Three replicas of a model with the ten parameters `1, ..., 10`. -/
def tenParams : List (Graph ℚ) :=
  [⟨[1, 2, 3, 4, 5, 6, 7, 8, 9, 10], [0, 0, 0, 0, 0, 0, 0, 0, 0, 0]⟩,
   ⟨[1, 2, 3, 4, 5, 6, 7, 8, 9, 10], [0, 0, 0, 0, 0, 0, 0, 0, 0, 0]⟩,
   ⟨[1, 2, 3, 4, 5, 6, 7, 8, 9, 10], [0, 0, 0, 0, 0, 0, 0, 0, 0, 0]⟩]

/-- Four replicas of a model with the five parameters `1, ..., 5`. -/
def fiveParams : List (Graph ℚ) :=
  [⟨[1, 2, 3, 4, 5], [0, 0, 0, 0, 0]⟩, ⟨[1, 2, 3, 4, 5], [0, 0, 0, 0, 0]⟩,
   ⟨[1, 2, 3, 4, 5], [0, 0, 0, 0, 0]⟩, ⟨[1, 2, 3, 4, 5], [0, 0, 0, 0, 0]⟩]


/-! ## `Shortlist`

A `WordIndex` is an unsigned integer of 32 bits; the indices of a shortlist are
natural numbers below `2 ^ 32`. -/

/-- The number of values of a `WordIndex`. -/
def WORD_INDEX : Nat := 2 ^ 32

namespace Shortlist

/-- The loop of the library function `std::lower_bound` (binary search): the
range `[first, first + count)` is halved until it is empty. -/
def lowerBoundLoop (indices_ : List Nat) (wIdx : Nat) : Nat → Nat → Nat → Nat
  | 0, first, _ => first
  | fuel + 1, first, count =>
    if count = 0 then first
    else
      let step := count / 2
      let it := first + step
      if indices_.getD it 0 < wIdx then
        lowerBoundLoop indices_ wIdx fuel (it + 1) (count - (step + 1))
      else lowerBoundLoop indices_ wIdx fuel first step

/-- The call `std::lower_bound(indices_.begin(), indices_.end(), wIdx)`, as the
distance of the result from `indices_.begin()`. -/
def lower_bound (indices_ : List Nat) (wIdx : Nat) : Nat :=
  lowerBoundLoop indices_ wIdx indices_.length 0 indices_.length

/-- The function `reverseMap(idx)`: the element `indices_[idx]`; an index
outside the vector has no result. -/
def reverseMap (indices_ : List Nat) (idx : Int) : Option Nat :=
  if 0 ≤ idx then indices_[idx.toNat]? else none

/-- The function `tryForwardMap(wIdx)`: the position of `wIdx` converted to
`int`, or -1. -/
def tryForwardMap (indices_ : List Nat) (wIdx : Nat) : Int :=
  let first := lower_bound indices_ wIdx
  if first ≠ indices_.length ∧ indices_.getD first 0 = wIdx then
    AsyncGraphGroup.intOf (first : Int)
  else -1

end Shortlist


/-! ## `LexicalShortlistGenerator` -/

/-- The fields of a `LexicalShortlistGenerator` that `generate` reads: of every
map of `data_` only the keys (the target words) matter. -/
structure LexicalShortlistGenerator where
  /-- The number `firstNum_` of most frequent words. -/
  firstNum_ : Nat
  /-- The value `trgVocab_->size()`. -/
  trgVocabSize : Nat
  /-- The flag `shared_`. -/
  shared_ : Bool
  /-- The table `data_`: for every source word the target words of its map. -/
  data_ : List (List Nat)

namespace LexicalShortlistGenerator

/-- The result of reading `data_[i]` outside the vector. -/
def msgData : String := "data_: index out of range"

/-- The result of a padding loop that has not ended when the fuel is used up. -/
def msgPadding : String := "padding loop: no result"

/-- The call `indexSet.insert(x)` on a set kept as a list without duplicates. -/
def setInsert (x : Nat) (indexSet : List Nat) : List Nat :=
  if x ∈ indexSet then indexSet else indexSet ++ [x]

/-- The loop `while (indexSet.size() % 8 != 0) { indexSet.insert(i); i++; }`,
where `i` is a `WordIndex`; the first argument bounds the number of iterations. -/
def padLoop : Nat → Nat → List Nat → Option (List Nat)
  | 0, _, _ => none
  | fuel + 1, i, indexSet =>
    if indexSet.length % 8 ≠ 0 then
      padLoop fuel ((i + 1) % WORD_INDEX) (setInsert i indexSet)
    else some indexSet

/-- The function `generate(batch)`: `srcBatch` are the word indices of
`(*batch)[srcIdx_]->data()`. The result are the sorted indices of the shortlist.
The first loop ends because a vocabulary has at most `2 ^ 32` words. -/
def generate (g : LexicalShortlistGenerator) (srcBatch : List Nat) :
    Except String (List Nat) := do
  -- add firstNum most frequent words
  let first := (List.range (min g.firstNum_ g.trgVocabSize)).foldl
    (fun indexSet i => setInsert i indexSet) []
  -- collect unique words form source
  let srcSet := srcBatch.foldl (fun srcSet i => setInsert i srcSet) []
  -- add aligned target words
  let indexSet ← srcSet.foldlM (fun indexSet i =>
    match g.data_[i]? with
    | none => Except.error msgData
    | some probs =>
      Except.ok (probs.foldl (fun indexSet t => setInsert t indexSet)
        (if g.shared_ then setInsert i indexSet else indexSet))) first
  match padLoop (WORD_INDEX + 1) (g.firstNum_ % WORD_INDEX) indexSet with
  | none => Except.error msgPadding
  | some padded => Except.ok (padded.insertionSort fun a b => a ≤ b)

end LexicalShortlistGenerator

/-- A lexical shortlist over a target vocabulary of 12 words with
`firstNum_ = 12`: the source word 0 is aligned to the target words 5 and 7, the
source word 1 to the target word 3. -/
def smallLexical : LexicalShortlistGenerator :=
  ⟨12, 12, false, [[5, 7], [3]]⟩


/-- The abort message of the column check of `SelectColumnsBNodeOp`. -/
def msgColumns : String := "Shortlist selected vocabulary must be a multiple of 8."

/-- The checks of the constructor of `SelectColumnsBNodeOp` on an input that is
not null: the input has an intgemm type and the number of selected columns is a
multiple of 8. -/
def SelectColumnsBNodeOp.new (isIntgemm : Bool) (indices : List Nat) : Except String Unit :=
  if !isIntgemm then .error "We need to prepareB before getting the indices here."
  else if indices.length % 8 ≠ 0 then .error msgColumns
  else .ok ()


/-! ## `BinaryShortlistGenerator` -/

/-- The fields of a `BinaryShortlistGenerator` that `generate` reads. -/
structure BinaryShortlistGenerator where
  /-- The number `firstNum_` of most frequent words. -/
  firstNum_ : Nat
  /-- The value `srcVocab_->size()`. -/
  srcVocabSize : Nat
  /-- The value `trgVocab_->size()`. -/
  trgVocabSize : Nat
  /-- The flag `shared_`. -/
  shared_ : Bool
  /-- The offsets `word_to_offset_` of the skip list. -/
  word_to_offset_ : List Nat
  /-- The target words `short_lists_` of the skip list. -/
  short_lists_ : List Nat

namespace BinaryShortlistGenerator

/-- The result of an access outside an array or a vector. -/
def msgRange : String := "index out of range"

/-- The assignment `table[i] = 1` to a truth table. -/
def setBit (table : List Bool) (i : Nat) : Except String (List Bool) :=
  if i < table.length then .ok (table.set i true) else .error msgRange

/-- The body of the loop over the words of the batch: the state is the pair
`(srcTruthTable, trgTruthTable)`. -/
def markWord (g : BinaryShortlistGenerator) (st : List Bool × List Bool) (srcIndex : Nat) :
    Except String (List Bool × List Bool) := do
  let trgTruthTable ← if g.shared_ then setBit st.2 srcIndex else pure st.2
  match st.1[srcIndex]? with
  | none => .error msgRange
  | some true => pure (st.1, trgTruthTable)
  | some false =>
    match g.word_to_offset_[srcIndex]?, g.word_to_offset_[srcIndex + 1]? with
    | some b, some e =>
      let trgTruthTable ← (List.range' b (e - b)).foldlM (fun table j =>
        match g.short_lists_[j]? with
        | none => Except.error msgRange
        | some t => setBit table t) trgTruthTable
      let srcTruthTable ← setBit st.1 srcIndex
      pure (srcTruthTable, trgTruthTable)
    | _, _ => .error msgRange

/-- The first part of `generate(batch)`: the truth table `trgTruthTable` after
the `firstNum_` most frequent words and the target words of the source words of
the batch have been marked. -/
def mark (g : BinaryShortlistGenerator) (srcBatch : List Nat) : Except String (List Bool) := do
  let srcTruthTable := List.replicate g.srcVocabSize false
  let trgTruthTable := List.replicate g.trgVocabSize false
  let trgTruthTable := (List.range (min g.firstNum_ g.trgVocabSize)).foldl
    (fun table i => table.set i true) trgTruthTable
  let st ← srcBatch.foldlM (markWord g) (srcTruthTable, trgTruthTable)
  pure st.2

/-- The loop that counts the selected target words, `trgTruthTableOnes`. -/
def countOnes (trgVocabSize : Nat) (trgTruthTable : List Bool) : Nat :=
  (List.range trgVocabSize).foldl (fun ones i =>
    if trgTruthTable.getD i false then ones + 1 else ones) 0

/-- The padding loop
`for (i = firstNum_; i < trgVocab_->size() && trgTruthTableOnes % 8 != 0; i++)`:
the first argument is the number `trgVocab_->size() - i` of words still to come. -/
def padTable : Nat → Nat → List Bool → Nat → List Bool × Nat
  | 0, _, table, ones => (table, ones)
  | rest + 1, i, table, ones =>
    if ones % 8 ≠ 0 then
      if !table.getD i false then padTable rest (i + 1) (table.set i true) (ones + 1)
      else padTable rest (i + 1) table ones
    else (table, ones)

/-- The last loop of `generate`: the selected indices, in ascending order. -/
def collect (trgVocabSize : Nat) (trgTruthTable : List Bool) : List Nat :=
  (List.range trgVocabSize).filter fun i => trgTruthTable.getD i false

/-- The function `generate(batch)`: `srcBatch` are the word indices of
`(*batch)[srcIdx_]->data()`. The result are the indices of the shortlist. -/
def generate (g : BinaryShortlistGenerator) (srcBatch : List Nat) :
    Except String (List Nat) := do
  let trgTruthTable ← mark g srcBatch
  let trgTruthTableOnes := countOnes g.trgVocabSize trgTruthTable
  let padded := padTable (g.trgVocabSize - g.firstNum_) g.firstNum_ trgTruthTable
    trgTruthTableOnes
  pure (collect g.trgVocabSize padded.1)

end BinaryShortlistGenerator

/-- A binary shortlist over a target vocabulary of 20 words with
`firstNum_ = 3`: the source word 0 is aligned to the target words 5 and 7, the
source word 1 to the target word 4. -/
def roomyBinary : BinaryShortlistGenerator :=
  ⟨3, 2, 20, false, [0, 2, 3], [5, 7, 4]⟩


/-! # Theorems -/

/-! ### Facts about the partitioner -/

theorem szAdd_eq {a b : Nat} (h : a + b < 2 ^ 64) : szAdd a b = a + b := by
  unfold szAdd SIZE_T; omega

theorem szSub_eq {a b : Nat} (ha : a < 2 ^ 64) (h : b ≤ a) : szSub a b = a - b := by
  unfold szSub SIZE_T; omega

theorem szMul_eq {a b : Nat} (h : a * b < 2 ^ 64) : szMul a b = a * b := by
  unfold szMul SIZE_T; omega

/-- The quotient computed by `shardSize()` when the sum does not wrap. -/
theorem shardSize_quot {D R : Nat} (hR : 1 ≤ R) (hsum : D + R ≤ 2 ^ 64) :
    szSub (szAdd D R) 1 / R = (D + R - 1) / R := by
  by_cases h : D + R = 2 ^ 64
  · have : szAdd D R = 0 := by unfold szAdd SIZE_T; omega
    rw [this]
    have : szSub 0 1 = D + R - 1 := by unfold szSub SIZE_T; omega
    rw [this]
  · have h1 : szAdd D R = D + R := szAdd_eq (by omega)
    rw [h1, szSub_eq (by omega) (by omega)]

/-- An accepted configuration: the sum did not wrap and the shards tile the data. -/
theorem shardSize_ok {D R S : Nat} (hD : D < 2 ^ 64) (hR : R < 2 ^ 64)
    (h : shardSize D R = .ok S) :
    1 ≤ R ∧ D + R ≤ 2 ^ 64 ∧ S * R = D ∧ S = (D + R - 1) / R := by
  unfold shardSize at h
  by_cases hR0 : R = 0
  · simp [hR0] at h
  · have hR1 : 1 ≤ R := by omega
    simp only [hR0, if_false] at h
    by_cases hc : szMul (szSub (szAdd D R) 1 / R) R ≠ D
    · simp [hc] at h
    · simp only [hc, if_false] at h
      have hS : szSub (szAdd D R) 1 / R = S := by
        injection h
      push_neg at hc
      rw [hS] at hc
      by_cases hsum : D + R ≤ 2 ^ 64
      · rw [shardSize_quot hR1 hsum] at hS
        have hle : S * R ≤ D + R - 1 := by
          rw [← hS]; exact Nat.div_mul_le_self _ _
        rw [szMul_eq (by omega)] at hc
        exact ⟨hR1, hsum, hc, hS.symm⟩
      · exfalso
        have hw : szAdd D R = D + R - 2 ^ 64 := by unfold szAdd SIZE_T; omega
        have hpos : 1 ≤ D + R - 2 ^ 64 := by omega
        rw [hw, szSub_eq (by omega) hpos] at hS
        have hS0 : S = 0 := by
          rw [← hS]; exact Nat.div_eq_of_lt (by omega)
        rw [hS0] at hc
        simp [szMul] at hc
        omega

/-- When the sum does not wrap, every exact tiling is accepted. -/
theorem shardSize_of_mul {D R S : Nat} (hR : 1 ≤ R) (hsum : D + R ≤ 2 ^ 64)
    (h : S * R = D) : shardSize D R = .ok S := by
  have hq : (D + R - 1) / R = S := by
    subst h
    have : S * R + R - 1 = R - 1 + R * S := by
      have := Nat.mul_comm S R
      omega
    rw [this, Nat.add_mul_div_left _ _ (by omega : 0 < R), Nat.div_eq_of_lt (by omega)]
    omega
  unfold shardSize
  have hR0 : R ≠ 0 := by omega
  simp only [hR0, if_false]
  rw [shardSize_quot hR hsum, hq]
  have hlt : S * R < 2 ^ 64 := by omega
  rw [szMul_eq hlt]
  simp [h]

/-- The range of a rank of an accepted configuration, in closed form. -/
theorem RankShardRange_ok {D R S r : Nat} (hD : D < 2 ^ 64) (hR : R < 2 ^ 64)
    (h : shardSize D R = .ok S) (hr : r < R) :
    RankShardRange D R r = .ok (r * S, r * S + S) := by
  obtain ⟨_, _, hSR, _⟩ := shardSize_ok hD hR h
  have h1 : (r + 1) * S ≤ R * S := Nat.mul_le_mul_right S (by omega)
  have h2 : R * S = D := by rw [Nat.mul_comm]; exact hSR
  have h3 : (r + 1) * S = r * S + S := by ring
  unfold RankShardRange
  rw [h]
  simp only [Except.bind, bind, pure, Except.pure]
  rw [szMul_eq (by omega), szAdd_eq (by omega)]
  congr 2
  omega


/-- The abort of `shardSize()` is the only error besides a division by zero. -/
theorem shardSize_error_iff {D R : Nat} (hR : 1 ≤ R) :
    shardSize D R = .error msgShardSize ↔ szMul (szSub (szAdd D R) 1 / R) R ≠ D := by
  unfold shardSize
  have hR0 : R ≠ 0 := by omega
  simp only [hR0, if_false]
  by_cases hc : szMul (szSub (szAdd D R) 1 / R) R ≠ D
  · simp [hc]
  · simp only [hc, if_false]
    simp

theorem RankShardRange_error {D R : Nat} {e : String} (h : shardSize D R = .error e)
    (rank : Nat) : RankShardRange D R rank = .error e := by
  unfold RankShardRange
  rw [h]
  rfl

/-- C1 (shard coverage): for an accepted configuration the ranges of the ranks
`0 .. numRanks-1` are all defined, range 0 begins at 0, each range ends where the
next begins, the last one ends at `dataSize`, and every index below `dataSize`
lies in the range of exactly one rank. -/
theorem shard_ranges_partition (D R S : Nat) (hD : D < 2 ^ 64) (hR : R < 2 ^ 64)
    (hR1 : 1 ≤ R) (hacc : shardSize D R = .ok S) :
    (∀ r, r < R → ∃ b e, RankShardRange D R r = .ok (b, e) ∧ b ≤ e) ∧
    (∃ e, RankShardRange D R 0 = .ok (0, e)) ∧
    (∀ r b e b' e', r + 1 < R → RankShardRange D R r = .ok (b, e) →
      RankShardRange D R (r + 1) = .ok (b', e') → e = b') ∧
    (∃ b, RankShardRange D R (R - 1) = .ok (b, D)) ∧
    (∀ k, k < D →
      ∃! r, r < R ∧ ∃ b e, RankShardRange D R r = .ok (b, e) ∧ b ≤ k ∧ k < e) := by
  obtain ⟨_, _, hSR, _⟩ := shardSize_ok hD hR hacc
  have hrange : ∀ r, r < R → RankShardRange D R r = .ok (r * S, r * S + S) :=
    fun r hr => RankShardRange_ok hD hR hacc hr
  refine ⟨?_, ?_, ?_, ?_, ?_⟩
  · intro r hr
    exact ⟨_, _, hrange r hr, by omega⟩
  · refine ⟨0 * S + S, ?_⟩
    have := hrange 0 (by omega)
    simpa using this
  · intro r b e b' e' hr h1 h2
    rw [hrange r (by omega)] at h1
    rw [hrange (r + 1) hr] at h2
    injection h1 with h1
    injection h2 with h2
    injection h1 with _ h1
    injection h2 with h2 _
    rw [← h1, ← h2]
    ring
  · refine ⟨(R - 1) * S, ?_⟩
    rw [hrange (R - 1) (by omega)]
    have : (R - 1) * S + S = D := by
      have h3 : (R - 1 + 1) * S = (R - 1) * S + S := by ring
      have h4 : R - 1 + 1 = R := by omega
      rw [h4, Nat.mul_comm] at h3
      omega
    rw [this]
  · intro k hk
    have hS : 0 < S := by
      rcases Nat.eq_zero_or_pos S with h0 | h0
      · subst h0; simp at hSR; omega
      · exact h0
    have hlt : k / S < R := by
      apply (Nat.div_lt_iff_lt_mul hS).2
      rw [Nat.mul_comm]; omega
    have hlo : k / S * S ≤ k := Nat.div_mul_le_self k S
    have hhi : k < k / S * S + S := by
      have := Nat.div_add_mod k S
      have hm := Nat.mod_lt k hS
      have hc := Nat.mul_comm S (k / S)
      omega
    refine ⟨k / S, ⟨hlt, _, _, hrange _ hlt, hlo, hhi⟩, ?_⟩
    rintro r ⟨hr, b, e, hbe, hb, he⟩
    rw [hrange r hr] at hbe
    injection hbe with hbe
    injection hbe with hb' he'
    subst hb' he'
    have h1 : r ≤ k / S := (Nat.le_div_iff_mul_le hS).2 hb
    have h2 : k / S < r + 1 := by
      apply (Nat.div_lt_iff_lt_mul hS).2
      have : (r + 1) * S = r * S + S := by ring
      omega
    omega

/-- Witness of C1: 400 elements over 4 ranks. -/
theorem shard_ranges_partition_witness :
    (∀ r, r < 4 → ∃ b e, RankShardRange 400 4 r = .ok (b, e) ∧ b ≤ e) ∧
    (∃ e, RankShardRange 400 4 0 = .ok (0, e)) ∧
    (∀ r b e b' e', r + 1 < 4 → RankShardRange 400 4 r = .ok (b, e) →
      RankShardRange 400 4 (r + 1) = .ok (b', e') → e = b') ∧
    (∃ b, RankShardRange 400 4 (4 - 1) = .ok (b, 400)) ∧
    (∀ k, k < 400 →
      ∃! r, r < 4 ∧ ∃ b e, RankShardRange 400 4 r = .ok (b, e) ∧ b ≤ k ∧ k < e) :=
  shard_ranges_partition 400 4 100 (by norm_num) (by norm_num) (by norm_num) rfl

/-- The shard size of an accepted configuration is the ceiling of the quotient. -/
theorem shardSize_eq_ceil {D R S : Nat} (hD : D < 2 ^ 64) (hR : R < 2 ^ 64)
    (hacc : shardSize D R = .ok S) : S = ⌈(D : ℚ) / (R : ℚ)⌉₊ := by
  obtain ⟨hR1, _, hSR, _⟩ := shardSize_ok hD hR hacc
  have hRq : (R : ℚ) ≠ 0 := by
    have : (0 : ℚ) < R := by exact_mod_cast hR1
    exact ne_of_gt this
  have : (D : ℚ) / (R : ℚ) = (S : ℚ) := by
    rw [← hSR]; push_cast; field_simp
  rw [this, Nat.ceil_natCast]

/-- C2 (contract of the partitioner): for an accepted configuration `shardSize()`
is the ceiling of `dataSize / numRanks`, and the range of a rank is
`(rank * shardSize, min ((rank + 1) * shardSize) dataSize)`. -/
theorem shardSize_ceil_and_range (D R S rank : Nat) (hD : D < 2 ^ 64) (hR : R < 2 ^ 64)
    (hacc : shardSize D R = .ok S) (hrank : rank < R) :
    S = (D + R - 1) / R ∧ S = ⌈(D : ℚ) / (R : ℚ)⌉₊ ∧
    RankShardRange D R rank = .ok (rank * S, min ((rank + 1) * S) D) := by
  obtain ⟨hR1, _, hSR, hq⟩ := shardSize_ok hD hR hacc
  refine ⟨hq, shardSize_eq_ceil hD hR hacc, ?_⟩
  · rw [RankShardRange_ok hD hR hacc hrank]
    have h1 : (rank + 1) * S ≤ R * S := Nat.mul_le_mul_right S (by omega)
    have h2 : R * S = D := by rw [Nat.mul_comm]; exact hSR
    have h3 : (rank + 1) * S = rank * S + S := by ring
    congr 2
    omega

/-- Witness of C2: rank 2 of 400 elements over 4 ranks owns `[200, 300)`. -/
theorem shardSize_ceil_and_range_witness :
    100 = (400 + 4 - 1) / 4 ∧ 100 = ⌈((400 : ℕ) : ℚ) / ((4 : ℕ) : ℚ)⌉₊ ∧
    RankShardRange 400 4 2 = .ok (2 * 100, min ((2 + 1) * 100) 400) :=
  shardSize_ceil_and_range 400 4 100 2 (by norm_num) (by norm_num) rfl (by norm_num)

/-! ### Aborts of `foreach` -/

theorem mpi_foreach_error {α σ : Type} (c : MpiCommunicator α) {e : String}
    (h : c.localShardRange 0 = .error e) (hN : 1 ≤ c.graphs_.length)
    (func : Nat → Nat → Nat → σ → Except String σ) (parallel : Bool) (s : σ) :
    c.foreach func parallel s = .error e := by
  obtain ⟨n, hn⟩ : ∃ n, c.graphs_.length = n + 1 := ⟨c.graphs_.length - 1, by omega⟩
  unfold MpiCommunicator.foreach
  rw [hn, List.range_succ_eq_map]
  by_cases hp : (parallel && decide (n + 1 > 1)) = true
  · simp only [hp, if_true, List.mapM_cons, h]
    rfl
  · simp only [hp, List.foldlM_cons, h]
    rfl

theorem ccl_foreachAcc_error {α σ Ret : Type} (c : OneCCLCommunicator α)
    {e : String} (h : c.localShardRange 0 = .error e) (hN : 1 ≤ c.graphs_.length)
    (func : Nat → Nat → Nat → σ → Except String (Ret × σ)) (acc : Ret → Ret → Ret)
    (init : Ret) (parallel : Bool) (s : σ) :
    c.foreachAcc func acc init parallel s = .error e := by
  obtain ⟨n, hn⟩ : ∃ n, c.graphs_.length = n + 1 := ⟨c.graphs_.length - 1, by omega⟩
  unfold OneCCLCommunicator.foreachAcc
  rw [hn, List.range_succ_eq_map]
  by_cases hp : (parallel && decide (n + 1 > 1)) = true
  · simp only [hp, if_true, List.mapM_cons, h]
    rfl
  · simp only [hp, List.foldlM_cons, h]
    rfl

theorem szMul_pos_right {a b : Nat} (h : 1 ≤ szMul a b) : 1 ≤ b := by
  rcases Nat.eq_zero_or_pos b with h0 | h0
  · subst h0; simp [szMul] at h
  · exact h0

/-- C3 (uneven sharding is refused): for `numRanks >= 1`, `shardSize()` aborts
exactly when its check `size * numRanks != dataSize` fires, where `size` is
`(dataSize + numRanks - 1) / numRanks`; it aborts whenever `numRanks` does not
divide `dataSize`, and, when the sum `dataSize + numRanks - 1` is representable
in `size_t`, only then. When `shardSize()` aborts, `RankShardRange`,
`localShardRange` and `foreach` of both communicators abort with the same
message whatever the callback is: no callback is reached. -/
theorem shardSize_abort_iff_uneven (D R : Nat) (hD : D < 2 ^ 64) (hR : R < 2 ^ 64)
    (hR1 : 1 ≤ R) :
    (shardSize D R = .error msgShardSize ↔
      szMul (szSub (szAdd D R) 1 / R) R ≠ D) ∧
    (¬ R ∣ D → shardSize D R = .error msgShardSize) ∧
    (D + R ≤ 2 ^ 64 →
      (shardSize D R = .error msgShardSize ↔ (D + R - 1) / R * R ≠ D) ∧
      (shardSize D R = .error msgShardSize ↔ ¬ R ∣ D) ∧
      (R ∣ D → shardSize D R = .ok (D / R))) ∧
    (shardSize D R = .error msgShardSize →
      (∀ rank, RankShardRange D R rank = .error msgShardSize) ∧
      (∀ (α : Type) (c : MpiCommunicator α), c.dataSize = D → c.numRanks = R →
        (∀ i, c.localShardRange i = .error msgShardSize) ∧
        ∀ (σ : Type) (func : Nat → Nat → Nat → σ → Except String σ) (parallel : Bool)
          (s : σ), c.foreach func parallel s = .error msgShardSize) ∧
      (∀ (α : Type) (c : OneCCLCommunicator α), c.dataSize = D → c.numShards = R →
        (∀ i, c.localShardRange i = .error msgShardSize) ∧
        ∀ (σ Ret : Type) (func : Nat → Nat → Nat → σ → Except String (Ret × σ))
          (acc : Ret → Ret → Ret) (init : Ret) (parallel : Bool) (s : σ),
          c.foreachAcc func acc init parallel s = .error msgShardSize)) := by
  have hnd : ¬ R ∣ D → shardSize D R = .error msgShardSize := by
    intro hnd
    rw [shardSize_error_iff hR1]
    intro heq
    have hok : shardSize D R = .ok (szSub (szAdd D R) 1 / R) := by
      unfold shardSize
      have hR0 : R ≠ 0 := by omega
      simp only [hR0, if_false]
      simp [heq]
    obtain ⟨_, _, hSR, _⟩ := shardSize_ok hD hR hok
    exact hnd (Dvd.intro_left _ hSR)
  refine ⟨shardSize_error_iff hR1, hnd, ?_, ?_⟩
  · intro hsum
    have h1 : shardSize D R = .error msgShardSize ↔ (D + R - 1) / R * R ≠ D := by
      rw [shardSize_error_iff hR1, shardSize_quot hR1 hsum]
      have hle : (D + R - 1) / R * R ≤ D + R - 1 := Nat.div_mul_le_self _ _
      rw [szMul_eq (by omega)]
    have hdvd : R ∣ D → shardSize D R = .ok (D / R) := by
      intro hd
      exact shardSize_of_mul hR1 hsum (Nat.div_mul_cancel hd)
    refine ⟨h1, ⟨?_, hnd⟩, hdvd⟩
    intro herr hd
    rw [hdvd hd] at herr
    cases herr
  · intro herr
    refine ⟨fun rank => RankShardRange_error herr rank, ?_, ?_⟩
    · intro α c hcD hcR
      have hl : ∀ i, c.localShardRange i = .error msgShardSize := by
        intro i
        unfold MpiCommunicator.localShardRange MpiCommunicator.RankShardRange
        rw [hcD, hcR]
        exact RankShardRange_error herr _
      refine ⟨hl, ?_⟩
      intro σ func parallel s
      have hN : 1 ≤ c.graphs_.length := by
        unfold MpiCommunicator.numRanks at hcR
        exact szMul_pos_right (hcR ▸ hR1)
      exact mpi_foreach_error c (hl 0) hN func parallel s
    · intro α c hcD hcR
      have hl : ∀ i, c.localShardRange i = .error msgShardSize := by
        intro i
        unfold OneCCLCommunicator.localShardRange OneCCLCommunicator.RankShardRange
        rw [hcD, hcR]
        exact RankShardRange_error herr _
      refine ⟨hl, ?_⟩
      intro σ Ret func acc init parallel s
      have hN : 1 ≤ c.graphs_.length := by
        unfold OneCCLCommunicator.numShards OneCCLCommunicator.numRanks
          OneCCLCommunicator.numLocalRanks at hcR
        by_cases hm : c.shardingMode_ = ShardingMode.global
        · simp only [hm, if_true] at hcR
          exact szMul_pos_right (hcR ▸ hR1)
        · simp only [hm, if_false] at hcR
          omega
      exact ccl_foreachAcc_error c (hl 0) hN func acc init parallel s

/-- Witness of C3: 3 elements over 2 ranks. -/
theorem shardSize_abort_iff_uneven_witness :
    shardSize 3 2 = .error msgShardSize ∧ ¬ 2 ∣ 3 ∧
    (shardSize 3 2 = .error msgShardSize ↔ ¬ 2 ∣ 3) ∧
    ∀ rank, RankShardRange 3 2 rank = .error msgShardSize :=
  have h := shardSize_abort_iff_uneven 3 2 (by norm_num) (by norm_num) (by norm_num)
  ⟨h.2.1 (by decide), by decide, (h.2.2.1 (by norm_num)).2.1,
    (h.2.2.2 (h.2.1 (by decide))).1⟩

/-! ### Lists of results -/

theorem allOk_map_ok {ε β : Type} (l : List β) :
    allOk (l.map fun b => (Except.ok b : Except ε β)) = .ok l := by
  induction l with
  | nil => rfl
  | cons b bs ih => simp only [List.map_cons, allOk, ih]

theorem allOk_eq_ok {ε β : Type} {l : List (Except ε β)} {bs : List β}
    (h : allOk l = .ok bs) : l = bs.map fun b => Except.ok b := by
  induction l generalizing bs with
  | nil =>
    simp only [allOk] at h
    injection h with h
    subst h
    rfl
  | cons x xs ih =>
    cases x with
    | error e => simp [allOk] at h
    | ok b =>
      simp only [allOk] at h
      cases hxs : allOk xs with
      | error e => rw [hxs] at h; simp at h
      | ok cs =>
        rw [hxs] at h
        injection h with h
        subst h
        rw [ih hxs]
        rfl

theorem allOk_mapIdx_ok {ε β γ : Type} (l : List γ) (f : Nat → γ → Except ε β)
    (g : Nat → γ → β) (h : ∀ i (hi : i < l.length), f i l[i] = .ok (g i l[i])) :
    allOk (l.mapIdx f) = .ok (l.mapIdx g) := by
  have : l.mapIdx f = (l.mapIdx g).map fun b => Except.ok b := by
    apply List.ext_getElem?
    intro i
    simp only [List.getElem?_mapIdx, List.getElem?_map, Option.map_map]
    by_cases hi : i < l.length
    · simp only [List.getElem?_eq_getElem hi, Option.map_some', Function.comp]
      rw [h i hi]
    · simp [List.getElem?_eq_none (by omega : l.length ≤ i)]
  rw [this, allOk_map_ok]

theorem allOk_mapIdx_eq_ok {ε β γ : Type} {l : List γ} {f : Nat → γ → Except ε β}
    {bs : List β} (h : allOk (l.mapIdx f) = .ok bs) :
    bs.length = l.length ∧ ∀ i (hi : i < l.length), ∃ b, f i l[i] = .ok b ∧ bs[i]? = some b := by
  have h1 := allOk_eq_ok h
  have hlen : bs.length = l.length := by
    have := congrArg List.length h1
    simpa using this.symm
  refine ⟨hlen, ?_⟩
  intro i hi
  have h2 := congrArg (fun t => t[i]?) h1
  simp only [List.getElem?_mapIdx, List.getElem?_map, List.getElem?_eq_getElem hi,
    Option.map_some'] at h2
  have hb : i < bs.length := by omega
  rw [List.getElem?_eq_getElem hb] at h2
  simp only [Option.map_some', Option.some.injEq] at h2
  exact ⟨bs[i], h2, List.getElem?_eq_getElem hb⟩

/-! ### Loops -/

theorem foldlM_congr_mem {σ ι : Type} (l : List ι) (f g : σ → ι → Except String σ)
    (h : ∀ x ∈ l, ∀ s, f s x = g s x) (s : σ) : l.foldlM f s = l.foldlM g s := by
  induction l generalizing s with
  | nil => rfl
  | cons a as ih =>
    simp only [List.foldlM_cons]
    rw [h a (List.mem_cons_self _ _) s]
    congr 1
    funext s'
    exact ih (fun x hx => h x (List.mem_cons_of_mem _ hx)) s'

theorem foldlM_pure {σ ι : Type} (l : List ι) (F : σ → ι → σ) (s : σ) :
    l.foldlM (fun st i => (Except.ok (F st i) : Except String σ)) s = .ok (l.foldl F s) := by
  induction l generalizing s with
  | nil => rfl
  | cons a as ih =>
    simp only [List.foldlM_cons, List.foldl_cons]
    exact ih (F s a)

theorem mapM_ok_mem {ι β : Type} (l : List ι) (f : ι → Except String β) (g : ι → β)
    (h : ∀ x ∈ l, f x = .ok (g x)) : l.mapM f = .ok (l.map g) := by
  induction l with
  | nil => rfl
  | cons a as ih =>
    simp only [List.mapM_cons, List.map_cons]
    rw [h a (List.mem_cons_self _ _), ih (fun x hx => h x (List.mem_cons_of_mem _ hx))]
    rfl

/-- An invariant of a loop that cannot fail while the invariant holds. -/
theorem foldlM_range_inv {σ : Type} (f : σ → Nat → Except String σ) (Inv : Nat → σ → Prop)
    (n : Nat) (s : σ) (h0 : Inv 0 s)
    (hstep : ∀ i, i < n → ∀ st, Inv i st → ∃ st', f st i = .ok st' ∧ Inv (i + 1) st') :
    ∃ s', (List.range n).foldlM f s = .ok s' ∧ Inv n s' := by
  induction n with
  | zero => exact ⟨s, rfl, h0⟩
  | succ n ih =>
    obtain ⟨s1, hs1, hinv⟩ := ih (fun i hi st hst => hstep i (by omega) st hst)
    obtain ⟨s2, hs2, hinv2⟩ := hstep n (by omega) s1 hinv
    refine ⟨s2, ?_, hinv2⟩
    rw [List.range_succ, List.foldlM_append, hs1]
    simp only [List.foldlM_cons, List.foldlM_nil]
    show (f s1 n >>= fun s' => pure s') = Except.ok s2
    rw [hs2]
    rfl

/-- A property kept by every successful iteration is kept by a successful loop. -/
theorem foldlM_preserves {σ ι : Type} (f : σ → ι → Except String σ) (Inv : σ → Prop)
    (hstep : ∀ st i st', Inv st → f st i = .ok st' → Inv st')
    (l : List ι) (s s' : σ) (h0 : Inv s) (h : l.foldlM f s = .ok s') : Inv s' := by
  induction l generalizing s with
  | nil =>
    simp only [List.foldlM_nil] at h
    injection h with h
    subst h
    exact h0
  | cons a as ih =>
    simp only [List.foldlM_cons] at h
    cases hfa : f s a with
    | error e => rw [hfa] at h; cases h
    | ok s1 =>
      rw [hfa] at h
      exact ih s1 (hstep s a s1 h0 hfa) h

/-! ### `foreach` of an accepted configuration -/

theorem mpi_foreach_eq {α σ : Type} (c : MpiCommunicator α)
    (rng : Nat → Nat × Nat)
    (h : ∀ i, i < c.graphs_.length → c.localShardRange i = .ok (rng i))
    (func : Nat → Nat → Nat → σ → Except String σ) (parallel : Bool) (s : σ) :
    c.foreach func parallel s =
      (List.range c.graphs_.length).foldlM (fun st i => func i (rng i).1 (rng i).2 st) s := by
  unfold MpiCommunicator.foreach
  by_cases hp : (parallel && decide (c.graphs_.length > 1)) = true
  · simp only [hp, if_true]
    rw [mapM_ok_mem (List.range c.graphs_.length) _ (fun i => (i, rng i))]
    · show List.foldlM _ s (List.map _ _) = _
      rw [List.foldlM_map]
    · intro i hi
      rw [h i (List.mem_range.1 hi)]
      rfl
  · simp only [hp]
    apply foldlM_congr_mem
    intro i hi st
    rw [h i (List.mem_range.1 hi)]
    rfl

theorem ccl_foreach_eq {α σ : Type} (c : OneCCLCommunicator α)
    (rng : Nat → Nat × Nat)
    (h : ∀ i, i < c.graphs_.length → c.localShardRange i = .ok (rng i))
    (func : Nat → Nat → Nat → σ → Except String (Bool × σ)) (parallel : Bool) (s : σ) :
    c.foreach func parallel s =
      (List.range c.graphs_.length).foldlM (fun st i => do
        let res ← func i (rng i).1 (rng i).2 st.2
        pure (st.1 && res.1, res.2)) (true, s) := by
  unfold OneCCLCommunicator.foreach OneCCLCommunicator.foreachAcc
  by_cases hp : (parallel && decide (c.graphs_.length > 1)) = true
  · simp only [hp, if_true]
    rw [mapM_ok_mem (List.range c.graphs_.length) _ (fun i => (i, rng i))]
    · show List.foldlM _ (true, s) (List.map _ _) = _
      rw [List.foldlM_map]
    · intro i hi
      rw [h i (List.mem_range.1 hi)]
      rfl
  · simp only [hp]
    apply foldlM_congr_mem
    intro i hi st
    rw [h i (List.mem_range.1 hi)]
    rfl

/-! ### Ranks and ranges of a process -/

theorem mpi_ranges_ok {α : Type} (c : MpiCommunicator α) {N D S : Nat}
    (hN : c.graphs_.length = N) (hD : c.dataSize = D)
    (hp : c.myMPIRank < c.numMPIProcesses) (hPN : c.numMPIProcesses * N < 2 ^ 64)
    (hD64 : D < 2 ^ 64) (hacc : Marian.shardSize D (c.numMPIProcesses * N) = .ok S) :
    c.numRanks = c.numMPIProcesses * N ∧ c.shardSize = .ok S ∧
    ∀ i, i < N → c.myRank i = c.myMPIRank * N + i ∧
      c.myRank i < c.numMPIProcesses * N ∧
      c.localShardRange i =
        .ok ((c.myMPIRank * N + i) * S, (c.myMPIRank * N + i) * S + S) := by
  have hR : c.numRanks = c.numMPIProcesses * N := by
    unfold MpiCommunicator.numRanks
    rw [hN, szMul_eq hPN]
  have hle : (c.myMPIRank + 1) * N ≤ c.numMPIProcesses * N :=
    Nat.mul_le_mul_right N (by omega)
  have hexp : (c.myMPIRank + 1) * N = c.myMPIRank * N + N := by ring
  refine ⟨hR, ?_, ?_⟩
  · unfold MpiCommunicator.shardSize
    rw [hD, hR, hacc]
  · intro i hi
    have hr : c.myRank i = c.myMPIRank * N + i := by
      unfold MpiCommunicator.myRank
      rw [hN, szMul_eq (by omega), szAdd_eq (by omega)]
    refine ⟨hr, by omega, ?_⟩
    unfold MpiCommunicator.localShardRange MpiCommunicator.RankShardRange
    rw [hD, hR, hr]
    exact RankShardRange_ok hD64 hPN hacc (by omega)

theorem ccl_ranges_ok {α : Type} (c : OneCCLCommunicator α) {N D S : Nat}
    (hmode : c.shardingMode_ = ShardingMode.global)
    (hN : c.graphs_.length = N) (hD : c.dataSize = D)
    (hp : c.myMPIRank < c.numMPIProcesses) (hPN : c.numMPIProcesses * N < 2 ^ 64)
    (hD64 : D < 2 ^ 64) (hacc : Marian.shardSize D (c.numMPIProcesses * N) = .ok S) :
    c.numRanks = c.numMPIProcesses * N ∧ c.shardSize = .ok S ∧
    ∀ i, i < N → c.localShardRange i =
        .ok ((c.myMPIRank * N + i) * S, (c.myMPIRank * N + i) * S + S) := by
  have hR : c.numRanks = c.numMPIProcesses * N := by
    unfold OneCCLCommunicator.numRanks OneCCLCommunicator.numLocalRanks
    rw [hN, szMul_eq hPN]
  have hS : c.numShards = c.numMPIProcesses * N := by
    unfold OneCCLCommunicator.numShards
    rw [if_pos hmode, hR]
  have hle : (c.myMPIRank + 1) * N ≤ c.numMPIProcesses * N :=
    Nat.mul_le_mul_right N (by omega)
  have hexp : (c.myMPIRank + 1) * N = c.myMPIRank * N + N := by ring
  refine ⟨hR, ?_, ?_⟩
  · unfold OneCCLCommunicator.shardSize
    rw [hD, hS, hacc]
  · intro i hi
    have hr : c.myRank i = c.myMPIRank * N + i := by
      unfold OneCCLCommunicator.myRank OneCCLCommunicator.numLocalRanks
        OneCCLCommunicator.myLocalRank
      rw [hN, szMul_eq (by omega), szAdd_eq (by omega)]
    unfold OneCCLCommunicator.localShardRange OneCCLCommunicator.RankShardRange
    rw [if_pos hmode, hD, hS, hr]
    exact RankShardRange_ok hD64 hPN hacc (by omega)

/-! ### Tensor updates -/

theorem getElem?_setRange {α : Type} (t : List α) (offset size : Nat) (v : α) (k : Nat) :
    (setRange t offset size v)[k]? =
      if offset ≤ k ∧ k < offset + size then (t[k]?).map (fun _ => v) else t[k]? := by
  unfold setRange
  rw [List.getElem?_mapIdx]
  by_cases h : offset ≤ k ∧ k < offset + size
  · simp only [h, and_self, if_true]
  · simp only [h, if_false]
    cases t[k]? <;> simp

theorem length_setRange {α : Type} (t : List α) (offset size : Nat) (v : α) :
    (setRange t offset size v).length = t.length := by
  unfold setRange
  exact List.length_mapIdx

theorem length_resetTensor {α : Type} [Zero α] (b e : Nat) (t : List α) :
    (resetTensor b e t).length = t.length := by
  unfold resetTensor
  by_cases h1 : b > 0 <;> by_cases h2 : e < t.length <;> simp [h1, h2, length_setRange]

/-- The effect of `resetGrads` on the gradient tensor, element by element. -/
theorem getElem?_resetTensor {α : Type} [Zero α] (b e : Nat) (t : List α)
    (ht : t.length < 2 ^ 64) (k : Nat) :
    (resetTensor b e t)[k]? =
      if b ≤ k ∧ k < e then t[k]? else (t[k]?).map (fun _ => (0 : α)) := by
  unfold resetTensor
  by_cases hk : k < t.length
  · have hs : ∀ x, x ≤ t.length → szSub t.length x = t.length - x :=
      fun x hx => szSub_eq ht hx
    by_cases h1 : b > 0 <;> by_cases h2 : e < t.length
    · simp only [h1, h2, if_true, getElem?_setRange, hs e (by omega),
        List.getElem?_eq_getElem hk, Option.map_some']
      split_ifs <;> first | rfl | (exfalso; omega)
    · simp only [h1, h2, if_true, if_false, getElem?_setRange,
        List.getElem?_eq_getElem hk, Option.map_some']
      split_ifs <;> first | rfl | (exfalso; omega)
    · simp only [h1, h2, if_true, if_false, getElem?_setRange, hs e (by omega),
        List.getElem?_eq_getElem hk, Option.map_some']
      split_ifs <;> first | rfl | (exfalso; omega)
    · simp only [h1, h2, if_false, List.getElem?_eq_getElem hk, Option.map_some']
      have : b ≤ k ∧ k < e := by omega
      simp [this]
  · have hnone : t[k]? = none := List.getElem?_eq_none (by omega)
    have hnone' : (resetTensor b e t)[k]? = none :=
      List.getElem?_eq_none (by rw [length_resetTensor]; omega)
    unfold resetTensor at hnone'
    rw [hnone', hnone]
    simp

/-! ### Graph updates -/

theorem foldl_setGrads {α : Type} (T : Nat → List α → List α) (n : Nat)
    (gs : List (Graph α)) :
    (List.range n).foldl (fun st i => setGrads st i (T i)) gs =
      gs.mapIdx fun j g => if j < n then { g with grads := T j g.grads } else g := by
  induction n with
  | zero =>
    apply List.ext_getElem?
    intro j
    simp only [List.range_zero, List.foldl_nil, List.getElem?_mapIdx]
    cases gs[j]? <;> simp
  | succ n ih =>
    rw [List.range_succ, List.foldl_append, ih]
    simp only [List.foldl_cons, List.foldl_nil, setGrads, List.mapIdx_mapIdx]
    apply List.ext_getElem?
    intro j
    simp only [List.getElem?_mapIdx]
    cases gs[j]? with
    | none => rfl
    | some g =>
      simp only [Option.map_some', Function.comp]
      split_ifs <;> first | rfl | (subst_vars; rfl) | (exfalso; omega)

theorem foldl_setVals {α : Type} (T : Nat → List α → List α) (n : Nat)
    (gs : List (Graph α)) :
    (List.range n).foldl (fun st i => setVals st i (T i)) gs =
      gs.mapIdx fun j g => if j < n then { g with vals := T j g.vals } else g := by
  induction n with
  | zero =>
    apply List.ext_getElem?
    intro j
    simp only [List.range_zero, List.foldl_nil, List.getElem?_mapIdx]
    cases gs[j]? <;> simp
  | succ n ih =>
    rw [List.range_succ, List.foldl_append, ih]
    simp only [List.foldl_cons, List.foldl_nil, setVals, List.mapIdx_mapIdx]
    apply List.ext_getElem?
    intro j
    simp only [List.getElem?_mapIdx]
    cases gs[j]? with
    | none => rfl
    | some g =>
      simp only [Option.map_some', Function.comp]
      split_ifs <;> first | rfl | (subst_vars; rfl) | (exfalso; omega)

/-! ### Uniform jobs -/

theorem Uniform.proc {α : Type} {w : World α} {N D : Nat} (hu : Uniform w N D)
    {p : Nat} (hp : p < w.length) :
    w[p].length = N ∧ ∀ i (hi : i < w[p].length),
      (w[p][i]).vals.length = D ∧ (w[p][i]).grads.length = D := by
  obtain ⟨h1, h2⟩ := hu w[p] (List.getElem_mem _)
  exact ⟨h1, fun i hi => h2 _ (List.getElem_mem _)⟩

theorem dataSize_of_uniform {α : Type} {gs : List (Graph α)} {N D : Nat}
    (hN : gs.length = N) (hN1 : 1 ≤ N) (h : ∀ g ∈ gs, g.vals.length = D) :
    dataSizeOf gs = D := by
  cases gs with
  | nil => simp at hN; omega
  | cons g rest => exact h g (List.mem_cons_self _ _)

theorem mpi_ofWorld_facts {α : Type} {w : World α} {N D : Nat}
    (hu : Uniform w N D) (hN1 : 1 ≤ N) {p : Nat} (hp : p < w.length) :
    (MpiCommunicator.ofWorld w p).graphs_ = w[p] ∧
    (MpiCommunicator.ofWorld w p).graphs_.length = N ∧
    (MpiCommunicator.ofWorld w p).dataSize = D ∧
    (MpiCommunicator.ofWorld w p).myMPIRank = p ∧
    (MpiCommunicator.ofWorld w p).numMPIProcesses = w.length := by
  have hg : (MpiCommunicator.ofWorld w p).graphs_ = w[p] := List.getD_eq_getElem _ _ hp
  obtain ⟨h1, h2⟩ := hu w[p] (List.getElem_mem _)
  refine ⟨hg, by rw [hg]; exact h1, ?_, rfl, rfl⟩
  unfold MpiCommunicator.dataSize
  rw [hg]
  exact dataSize_of_uniform h1 hN1 (fun g hg => (h2 g hg).1)

theorem ccl_ofWorld_facts {α : Type} {w : World α} {N D : Nat}
    (mode : ShardingMode)
    (hu : Uniform w N D) (hN1 : 1 ≤ N) {p : Nat} (hp : p < w.length) :
    (OneCCLCommunicator.ofWorld mode w p).graphs_ = w[p] ∧
    (OneCCLCommunicator.ofWorld mode w p).graphs_.length = N ∧
    (OneCCLCommunicator.ofWorld mode w p).dataSize = D ∧
    (OneCCLCommunicator.ofWorld mode w p).myMPIRank = p ∧
    (OneCCLCommunicator.ofWorld mode w p).numMPIProcesses = w.length ∧
    (OneCCLCommunicator.ofWorld mode w p).shardingMode_ = mode := by
  have hg : (OneCCLCommunicator.ofWorld mode w p).graphs_ = w[p] :=
    List.getD_eq_getElem _ _ hp
  obtain ⟨h1, h2⟩ := hu w[p] (List.getElem_mem _)
  refine ⟨hg, by rw [hg]; exact h1, ?_, rfl, rfl, rfl⟩
  unfold OneCCLCommunicator.dataSize
  rw [hg]
  exact dataSize_of_uniform h1 hN1 (fun g hg => (h2 g hg).1)

theorem mpi_resetPhase_eq {α : Type} [Zero α] {w : World α} {N D S : Nat}
    (hu : Uniform w N D) (hN1 : 1 ≤ N) (hPN : w.length * N < 2 ^ 64) (hD : D < 2 ^ 64)
    (hacc : Marian.shardSize D (w.length * N) = .ok S) :
    MpiCommunicator.resetPhase w = .ok (resetWorld N S w) := by
  unfold MpiCommunicator.resetPhase resetWorld
  apply allOk_mapIdx_ok
  intro p hp
  obtain ⟨hg, hlen, hds, hrk, hnp⟩ := mpi_ofWorld_facts hu hN1 hp
  have hacc' : Marian.shardSize D ((MpiCommunicator.ofWorld w p).numMPIProcesses * N)
      = .ok S := by rw [hnp]; exact hacc
  obtain ⟨_, _, hr⟩ := mpi_ranges_ok (MpiCommunicator.ofWorld w p) hlen hds
    (by rw [hrk, hnp]; exact hp) (by rw [hnp]; exact hPN) hD hacc'
  rw [mpi_foreach_eq (MpiCommunicator.ofWorld w p)
    (fun i => ((p * N + i) * S, (p * N + i) * S + S))
    (fun i hi => by
      have := (hr i (by omega)).2.2
      rw [hrk] at this
      exact this)]
  rw [foldlM_pure, hlen]
  unfold resetGrads
  rw [foldl_setGrads (fun i => resetTensor ((p * N + i) * S) ((p * N + i) * S + S))]

theorem foldlM_pure_acc {σ ι : Type} (l : List ι) (F : σ → ι → σ) (b : Bool) (s : σ) :
    l.foldlM (fun (st : Bool × σ) i => (do
        let res ← (Except.ok (true, F st.2 i) : Except String (Bool × σ))
        pure (st.1 && res.1, res.2))) (b, s) = .ok (b, l.foldl F s) := by
  induction l generalizing s with
  | nil => rfl
  | cons a as ih =>
    simp only [List.foldlM_cons, List.foldl_cons]
    have := ih (F s a)
    simpa [bind, Except.bind, pure, Except.pure] using this

theorem ccl_resetPhase_eq {α : Type} [Zero α] {w : World α} {N D S : Nat}
    (hu : Uniform w N D) (hN1 : 1 ≤ N) (hPN : w.length * N < 2 ^ 64) (hD : D < 2 ^ 64)
    (hacc : Marian.shardSize D (w.length * N) = .ok S) :
    OneCCLCommunicator.resetPhase ShardingMode.global w = .ok (resetWorld N S w) := by
  unfold OneCCLCommunicator.resetPhase resetWorld
  apply allOk_mapIdx_ok
  intro p hp
  obtain ⟨hg, hlen, hds, hrk, hnp, hmode⟩ :=
    ccl_ofWorld_facts ShardingMode.global hu hN1 hp
  have hacc' : Marian.shardSize D
      ((OneCCLCommunicator.ofWorld ShardingMode.global w p).numMPIProcesses * N) = .ok S := by
    rw [hnp]; exact hacc
  obtain ⟨_, _, hr⟩ := ccl_ranges_ok (OneCCLCommunicator.ofWorld ShardingMode.global w p) hmode
    hlen hds (by rw [hrk, hnp]; exact hp) (by rw [hnp]; exact hPN) hD hacc'
  rw [ccl_foreach_eq (OneCCLCommunicator.ofWorld ShardingMode.global w p)
    (fun i => ((p * N + i) * S, (p * N + i) * S + S))
    (fun i hi => by
      have := hr i (by omega)
      rw [hrk] at this
      exact this)]
  rw [hlen]
  have := foldlM_pure_acc (List.range N)
    (fun st i => resetGrads i ((p * N + i) * S) ((p * N + i) * S + S) st) true w[p]
  rw [this]
  unfold resetGrads
  show Except.ok _ = _
  rw [foldl_setGrads (fun i => resetTensor ((p * N + i) * S) ((p * N + i) * S + S))]

theorem length_copyInto {α : Type} (t : List α) (offset : Nat) (src : List α) :
    (copyInto t offset src).length = t.length := by
  unfold copyInto
  exact List.length_mapIdx

theorem getElem?_copyInto {α : Type} (t : List α) (offset : Nat) (src : List α) (k : Nat) :
    (copyInto t offset src)[k]? =
      (t[k]?).map fun x => if offset ≤ k then (src[k - offset]?).getD x else x := by
  unfold copyInto
  rw [List.getElem?_mapIdx]

theorem length_setGrads {α : Type} (gs : List (Graph α)) (i : Nat) (f : List α → List α) :
    (setGrads gs i f).length = gs.length := by
  unfold setGrads
  exact List.length_mapIdx

theorem length_setVals {α : Type} (gs : List (Graph α)) (i : Nat) (f : List α → List α) :
    (setVals gs i f).length = gs.length := by
  unfold setVals
  exact List.length_mapIdx

/-- Length-preserving updates of the gradients keep a job uniform. -/
theorem Uniform.mapIdx_setGrads {α : Type} {w : World α} {N D : Nat} (hu : Uniform w N D)
    (i : Nat) (T : Nat → List α → List α) (hT : ∀ p t, (T p t).length = t.length) :
    Uniform (w.mapIdx fun p gs => setGrads gs i (T p)) N D := by
  intro gs' hgs'
  rw [List.mem_mapIdx] at hgs'
  obtain ⟨p, hp, rfl⟩ := hgs'
  obtain ⟨h1, h2⟩ := hu w[p] (List.getElem_mem _)
  refine ⟨by rw [length_setGrads]; exact h1, ?_⟩
  intro g' hg'
  unfold setGrads at hg'
  rw [List.mem_mapIdx] at hg'
  obtain ⟨j, hj, rfl⟩ := hg'
  have := h2 _ (List.getElem_mem hj)
  by_cases hji : j = i
  · simp only [hji, if_true, hT]
    subst hji
    exact this
  · simp only [hji, if_false]
    exact this

/-- Length-preserving updates of the parameters keep a job uniform. -/
theorem Uniform.mapIdx_setVals {α : Type} {w : World α} {N D : Nat} (hu : Uniform w N D)
    (i : Nat) (T : Nat → List α → List α) (hT : ∀ p t, (T p t).length = t.length) :
    Uniform (w.mapIdx fun p gs => setVals gs i (T p)) N D := by
  intro gs' hgs'
  rw [List.mem_mapIdx] at hgs'
  obtain ⟨p, hp, rfl⟩ := hgs'
  obtain ⟨h1, h2⟩ := hu w[p] (List.getElem_mem _)
  refine ⟨by rw [length_setVals]; exact h1, ?_⟩
  intro g' hg'
  unfold setVals at hg'
  rw [List.mem_mapIdx] at hg'
  obtain ⟨j, hj, rfl⟩ := hg'
  have := h2 _ (List.getElem_mem hj)
  by_cases hji : j = i
  · simp only [hji, if_true, hT]
    subst hji
    exact this
  · simp only [hji, if_false]
    exact this

theorem mpi_scatterReduceStep_uniform {α : Type} [Add α] [Zero α]
    {N D : Nat} (w : World α) (i : Nat) (w' : World α) (hu : Uniform w N D)
    (h : MpiCommunicator.scatterReduceStep w i = .ok w') :
    Uniform w' N D ∧ w'.length = w.length := by
  unfold MpiCommunicator.scatterReduceStep at h
  cases h1 : allOk (w.mapIdx fun p _ => (MpiCommunicator.ofWorld w p).prepareSend i) with
  | error e => rw [h1] at h; cases h
  | ok sends =>
    rw [h1] at h
    simp only [bind, Except.bind] at h
    cases h2 : allOk (sends.mapIdx fun p s =>
        reduceScatter (sends.map fun t => t.2.2) s.2.1 p) with
    | error e => rw [h2] at h; cases h
    | ok recvs =>
      rw [h2] at h
      simp only [pure, Except.pure] at h
      injection h with h
      subst h
      exact ⟨hu.mapIdx_setGrads i _ (fun p t => length_copyInto _ _ _), List.length_mapIdx⟩

theorem ccl_scatterReduceStep_uniform {α : Type} [Add α] [Zero α]
    {N D : Nat} (mode : ShardingMode) (w : World α) (i : Nat) (w' : World α)
    (hu : Uniform w N D)
    (h : OneCCLCommunicator.scatterReduceStep mode w i = .ok w') :
    Uniform w' N D ∧ w'.length = w.length := by
  unfold OneCCLCommunicator.scatterReduceStep at h
  cases h1 : allOk (w.mapIdx fun p _ =>
      (OneCCLCommunicator.ofWorld mode w p).prepareSend i) with
  | error e => rw [h1] at h; cases h
  | ok sends =>
    rw [h1] at h
    simp only [bind, Except.bind] at h
    cases h2 : allOk (sends.mapIdx fun p s =>
        reduceScatter (sends.map fun t => t.2.2) s.2.1 p) with
    | error e => rw [h2] at h; cases h
    | ok recvs =>
      rw [h2] at h
      simp only [pure, Except.pure] at h
      injection h with h
      subst h
      exact ⟨hu.mapIdx_setGrads i _ (fun p t => length_copyInto _ _ _), List.length_mapIdx⟩

theorem mpi_reducePhase_uniform {α : Type} [Add α] [Zero α]
    {N D : Nat} {w w1 : World α} (hu : Uniform w N D)
    (h : MpiCommunicator.reducePhase w = .ok w1) :
    Uniform w1 N D ∧ w1.length = w.length := by
  unfold MpiCommunicator.reducePhase at h
  cases h1 : allOk (w.mapIdx fun p _ => (MpiCommunicator.ofWorld w p).shardSize) with
  | error e => rw [h1] at h; cases h
  | ok sizes =>
    rw [h1] at h
    simp only [bind, Except.bind] at h
    exact foldlM_preserves MpiCommunicator.scatterReduceStep
      (fun st => Uniform st N D ∧ st.length = w.length)
      (fun st i st' hst hstep => by
        obtain ⟨ha, hb⟩ := mpi_scatterReduceStep_uniform st i st' hst.1 hstep
        exact ⟨ha, by rw [hb]; exact hst.2⟩)
      _ w w1 ⟨hu, rfl⟩ h

theorem ccl_reducePhase_uniform {α : Type} [Add α] [Zero α]
    {N D : Nat} {mode : ShardingMode} {w w1 : World α} (hu : Uniform w N D)
    (h : OneCCLCommunicator.reducePhase mode w = .ok w1) :
    Uniform w1 N D ∧ w1.length = w.length := by
  unfold OneCCLCommunicator.reducePhase at h
  exact foldlM_preserves (OneCCLCommunicator.scatterReduceStep mode)
    (fun st => Uniform st N D ∧ st.length = w.length)
    (fun st i st' hst hstep => by
      obtain ⟨ha, hb⟩ :=
        ccl_scatterReduceStep_uniform mode st i st' hst.1 hstep
      exact ⟨ha, by rw [hb]; exact hst.2⟩)
    _ w w1 ⟨hu, rfl⟩ h

theorem gradsAt_eq {α : Type} {w : World α} {p i : Nat} (hp : p < w.length)
    (hi : i < w[p].length) : w.gradsAt p i = (w[p][i]).grads := by
  unfold World.gradsAt
  simp [List.getElem?_eq_getElem hp, List.getElem?_eq_getElem hi]

theorem valsAt_eq {α : Type} {w : World α} {p i : Nat} (hp : p < w.length)
    (hi : i < w[p].length) : w.valsAt p i = (w[p][i]).vals := by
  unfold World.valsAt
  simp [List.getElem?_eq_getElem hp, List.getElem?_eq_getElem hi]

theorem gradsAt_resetWorld {α : Type} [Zero α] (N S : Nat) (w : World α) (p i : Nat)
    (hp : p < w.length) (hi : i < w[p].length) (hiN : i < N) :
    (resetWorld N S w).gradsAt p i =
      resetTensor ((p * N + i) * S) ((p * N + i) * S + S) (w.gradsAt p i) := by
  unfold World.gradsAt resetWorld
  simp [List.getElem?_mapIdx, List.getElem?_eq_getElem hp, List.getElem?_eq_getElem hi, hiN]

/-- The reset phase on the result of a reduce phase: outside the shard zero,
inside the shard unchanged. -/
theorem reset_after_reduce {α : Type} [Zero α] {w1 : World α} {N D S P : Nat}
    (hu : Uniform w1 N D) (hlen : w1.length = P) (hD : D < 2 ^ 64)
    (p i : Nat) (hp : p < P) (hi : i < N) (k : Nat) (hk : k < D) :
    ((k < (p * N + i) * S ∨ (p * N + i) * S + S ≤ k) →
      ((resetWorld N S w1).gradsAt p i)[k]? = some 0) ∧
    (((p * N + i) * S ≤ k ∧ k < (p * N + i) * S + S) →
      ((resetWorld N S w1).gradsAt p i)[k]? = (w1.gradsAt p i)[k]?) := by
  have hp' : p < w1.length := by omega
  obtain ⟨hN, hel⟩ := hu.proc hp'
  have hi' : i < w1[p].length := by omega
  have hlenD : (w1.gradsAt p i).length = D := by
    rw [gradsAt_eq hp' hi']; exact (hel i hi').2
  rw [gradsAt_resetWorld N S w1 p i hp' hi' hi,
    getElem?_resetTensor _ _ _ (by omega)]
  have hsome : (w1.gradsAt p i)[k]? = some ((w1.gradsAt p i)[k]) :=
    List.getElem?_eq_getElem (by omega)
  constructor
  · intro hout
    have : ¬ ((p * N + i) * S ≤ k ∧ k < (p * N + i) * S + S) := by omega
    rw [if_neg this, hsome]
    rfl
  · intro hin
    rw [if_pos hin]

/-- C4 (uniform shards): for an accepted configuration and a rank below
`numRanks`, the range of the rank has exactly `shardSize` elements, the clipping
by `min` leaves `begin + shardSize` as it is, `shardSize` is the ceiling of
`dataSize / numRanks` and `shardSize * numRanks == dataSize`; and the size check
of `scatterReduceAndResetGrads` (both communicators) never fires for a local
device with that rank. -/
theorem shards_uniform_size_check (D R S rank : Nat) (hD : D < 2 ^ 64) (hR : R < 2 ^ 64)
    (hacc : shardSize D R = .ok S) (hrank : rank < R) :
    (∃ b e, RankShardRange D R rank = .ok (b, e) ∧ e - b = S ∧ b + S ≤ D ∧
      e = b + S ∧ szSub e b = S) ∧
    S = ⌈(D : ℚ) / (R : ℚ)⌉₊ ∧ S * R = D ∧
    (∀ (α : Type) (c : MpiCommunicator α) (i : Nat), c.dataSize = D → c.numRanks = R →
      c.myRank i = rank → c.prepareSend i ≠ .error MpiCommunicator.msgSubtensor) ∧
    (∀ (α : Type) (c : OneCCLCommunicator α) (i : Nat), c.dataSize = D →
      c.numShards = R → c.shardingMode_ = ShardingMode.global → c.myRank i = rank →
      c.prepareSend i ≠ .error OneCCLCommunicator.msgSubtensor) := by
  obtain ⟨hR1, _, hSR, _⟩ := shardSize_ok hD hR hacc
  have hrange := RankShardRange_ok hD hR hacc hrank
  have h1 : (rank + 1) * S ≤ R * S := Nat.mul_le_mul_right S (by omega)
  have h2 : R * S = D := by rw [Nat.mul_comm]; exact hSR
  have h3 : (rank + 1) * S = rank * S + S := by ring
  have hsub : szSub (rank * S + S) (rank * S) = S := by
    rw [szSub_eq (by omega) (by omega)]; omega
  have hceil := shardSize_eq_ceil hD hR hacc
  refine ⟨⟨rank * S, rank * S + S, hrange, by omega, by omega, rfl, hsub⟩, hceil, hSR, ?_, ?_⟩
  · intro α c i hcD hcR hcr
    unfold MpiCommunicator.prepareSend MpiCommunicator.localShardRange
      MpiCommunicator.RankShardRange MpiCommunicator.shardSize
    rw [hcD, hcR, hcr, hrange, hacc]
    simp only [bind, Except.bind]
    cases c.graphs_[i]? with
    | none => simp [msgNoGraph, MpiCommunicator.msgSubtensor]
    | some g =>
      simp only [hsub, ne_eq, not_true_eq_false, if_false]
      split_ifs <;> simp [msgRange, MpiCommunicator.msgSubtensor]
  · intro α c i hcD hcR hmode hcr
    unfold OneCCLCommunicator.prepareSend OneCCLCommunicator.localShardRange
      OneCCLCommunicator.RankShardRange OneCCLCommunicator.shardSize
    rw [if_pos hmode, hcD, hcR, hcr, hrange, hacc]
    simp only [bind, Except.bind]
    cases c.graphs_[i]? with
    | none => simp [msgNoGraph, OneCCLCommunicator.msgSubtensor]
    | some g =>
      simp only [hsub, ne_eq, not_true_eq_false, if_false, hmode, if_true]
      simp

/-- Witness of C4: rank 3 of 400 elements over 4 ranks. -/
theorem shards_uniform_size_check_witness :
    (∃ b e, RankShardRange 400 4 3 = .ok (b, e) ∧ e - b = 100 ∧ b + 100 ≤ 400 ∧
      e = b + 100 ∧ szSub e b = 100) ∧
    100 = ⌈((400 : ℕ) : ℚ) / ((4 : ℕ) : ℚ)⌉₊ ∧ 100 * 4 = 400 :=
  have h := shards_uniform_size_check 400 4 100 3 (by norm_num) (by norm_num) rfl
    (by norm_num)
  ⟨h.1, h.2.1, h.2.2.1⟩

/-! ### The reduce phase of the MPI communicator with one process -/

theorem mpi_prepareSend_ok {α : Type} (c : MpiCommunicator α) {N D S : Nat}
    (hN : c.graphs_.length = N) (hD : c.dataSize = D)
    (hp : c.myMPIRank < c.numMPIProcesses) (hPN : c.numMPIProcesses * N < 2 ^ 64)
    (hD64 : D < 2 ^ 64) (hacc : Marian.shardSize D (c.numMPIProcesses * N) = .ok S)
    (i : Nat) (hi : i < c.graphs_.length) (hg : (c.graphs_[i]).grads.length = D) :
    c.prepareSend i = .ok ((c.myMPIRank * N + i) * S, S,
      subtensor (c.graphs_[i]).grads ((c.myMPIRank * N + i) * S) S) := by
  obtain ⟨_, hS, hr⟩ := mpi_ranges_ok c hN hD hp hPN hD64 hacc
  obtain ⟨_, hlt, hrange⟩ := hr i (by omega)
  obtain ⟨_, _, hSR, _⟩ := shardSize_ok hD64 hPN hacc
  have hle : (c.myMPIRank + 1) * N ≤ c.numMPIProcesses * N :=
    Nat.mul_le_mul_right N (by omega)
  have hexp : (c.myMPIRank + 1) * N = c.myMPIRank * N + N := by ring
  have h1 : (c.myMPIRank * N + i + 1) * S ≤ (c.numMPIProcesses * N) * S :=
    Nat.mul_le_mul_right S (by omega)
  have h2 : (c.numMPIProcesses * N) * S = D := by rw [Nat.mul_comm]; exact hSR
  have h3 : (c.myMPIRank * N + i + 1) * S = (c.myMPIRank * N + i) * S + S := by ring
  have hsub : szSub ((c.myMPIRank * N + i) * S + S) ((c.myMPIRank * N + i) * S) = S := by
    rw [szSub_eq (by omega) (by omega)]; omega
  unfold MpiCommunicator.prepareSend
  rw [hrange, hS, List.getElem?_eq_getElem hi]
  simp only [bind, Except.bind, hsub, ne_eq, not_true_eq_false, if_false]
  rw [if_pos (by rw [hg]; omega)]

theorem getElem?_subtensor {α : Type} (t : List α) (offset size k : Nat) :
    (subtensor t offset size)[k]? = if k < size then t[offset + k]? else none := by
  unfold subtensor
  rw [List.getElem?_take]
  split_ifs
  · rw [List.getElem?_drop]
  · rfl

theorem length_subtensor {α : Type} (t : List α) (offset size : Nat)
    (h : offset + size ≤ t.length) : (subtensor t offset size).length = size := by
  unfold subtensor
  rw [List.length_take, List.length_drop]
  omega

/-- With a single participant the reduce-scatter hands back the send buffer. -/
theorem reduceScatter_single {α : Type} [AddMonoid α] (send : List α) :
    reduceScatter [send] send.length 0 = .ok send := by
  unfold reduceScatter
  simp only [List.all_cons, List.all_nil, List.length_singleton, Nat.one_mul,
    Nat.le_refl, decide_True, Bool.and_self, if_true, Nat.zero_mul, Nat.zero_add,
    List.map_cons, List.map_nil, List.sum_cons, List.sum_nil, add_zero]
  congr 1
  apply List.ext_getElem?
  intro k
  rw [List.getElem?_map]
  by_cases hk : k < send.length
  · rw [List.getElem?_range hk, List.getElem?_eq_getElem hk]
    simp [List.getElem?_eq_getElem hk]
  · rw [List.getElem?_eq_none (by simpa using hk), List.getElem?_eq_none (by omega)]
    rfl

theorem copyInto_self {α : Type} (t : List α) (offset size : Nat) :
    copyInto t offset (subtensor t offset size) = t := by
  apply List.ext_getElem?
  intro k
  rw [getElem?_copyInto]
  by_cases hk : k < t.length
  · have hsome : t[k]? = some t[k] := List.getElem?_eq_getElem hk
    rw [hsome]
    simp only [Option.map_some', Option.some.injEq]
    split_ifs with h1
    · rw [getElem?_subtensor]
      split_ifs with h2
      · have : offset + (k - offset) = k := by omega
        rw [this, hsome]
        rfl
      · rfl
    · rfl
  · have hnone : t[k]? = none := List.getElem?_eq_none (by omega)
    rw [hnone]
    rfl

theorem setGrads_self {α : Type} (gs : List (Graph α)) (i : Nat) (f : List α → List α)
    (h : ∀ (hi : i < gs.length), f (gs[i]).grads = (gs[i]).grads) :
    setGrads gs i f = gs := by
  unfold setGrads
  apply List.ext_getElem?
  intro j
  rw [List.getElem?_mapIdx]
  by_cases hj : j < gs.length
  · rw [List.getElem?_eq_getElem hj]
    simp only [Option.map_some', Option.some.injEq]
    split_ifs with hji
    · subst hji
      rw [h hj]
    · rfl
  · rw [List.getElem?_eq_none (by omega)]
    rfl

theorem allOk_singleton {ε β : Type} (b : β) :
    allOk [(Except.ok b : Except ε β)] = .ok [b] := rfl

/-- With one process, an iteration of the loop of `scatterReduceAndResetGrads`
leaves every gradient as it is: the shard is sent and received back. -/
theorem mpi_scatterReduceStep_single {α : Type} [AddMonoid α]
    (gs : List (Graph α)) {N D S : Nat} (hu : Uniform [gs] N D) (hN64 : N < 2 ^ 64)
    (hD : D < 2 ^ 64) (hacc : Marian.shardSize D N = .ok S) (i : Nat) (hi : i < N) :
    MpiCommunicator.scatterReduceStep [gs] i = .ok [gs] := by
  have hN1 : 1 ≤ N := by omega
  have hp : 0 < [gs].length := by simp
  obtain ⟨_, hlen, hds, hrk, hnp⟩ := mpi_ofWorld_facts hu hN1 hp
  obtain ⟨hN, hel⟩ := hu gs (List.mem_singleton_self gs)
  have hnp1 : (MpiCommunicator.ofWorld [gs] 0).numMPIProcesses = 1 := by rw [hnp]; rfl
  have hgs : (MpiCommunicator.ofWorld [gs] 0).graphs_ = gs := rfl
  have higs : i < gs.length := by omega
  have hgl : (gs[i]).grads.length = D := (hel _ (List.getElem_mem higs)).2
  have hprep := mpi_prepareSend_ok (MpiCommunicator.ofWorld [gs] 0) hlen hds
    (by rw [hrk, hnp1]; omega) (by rw [hnp1]; omega) hD
    (by rw [hnp1, Nat.one_mul]; exact hacc) i higs hgl
  rw [hrk, Nat.zero_mul, Nat.zero_add] at hprep
  obtain ⟨_, _, hSR, _⟩ := shardSize_ok hD hN64 hacc
  have h1 : (i + 1) * S ≤ N * S := Nat.mul_le_mul_right S (by omega)
  have h2 : N * S = D := by rw [Nat.mul_comm]; exact hSR
  have h3 : (i + 1) * S = i * S + S := by ring
  have hsl : (subtensor (gs[i]).grads (i * S) S).length = S :=
    length_subtensor _ _ _ (by rw [hgl]; omega)
  have hgeq : ((MpiCommunicator.ofWorld [gs] 0).graphs_[i]) = gs[i] := rfl
  rw [hgeq] at hprep
  have hrs := reduceScatter_single (subtensor (gs[i]).grads (i * S) S)
  rw [hsl] at hrs
  unfold MpiCommunicator.scatterReduceStep
  simp only [List.mapIdx_singleton, hprep, allOk_singleton, bind, Except.bind,
    List.map_cons, List.map_nil, hrs, pure, Except.pure, List.getElem?_cons_zero,
    Option.map_some', Option.getD_some]
  congr 2
  apply setGrads_self
  intro _
  exact copyInto_self _ _ _

/-- With one process the reduce phase of the MPI communicator changes nothing:
every device keeps its own gradient. -/
theorem mpi_reducePhase_single {α : Type} [AddMonoid α]
    (gs : List (Graph α)) {N D S : Nat} (hu : Uniform [gs] N D) (hN1 : 1 ≤ N)
    (hN64 : N < 2 ^ 64) (hD : D < 2 ^ 64) (hacc : Marian.shardSize D N = .ok S) :
    MpiCommunicator.reducePhase [gs] = .ok [gs] := by
  have hp : 0 < [gs].length := by simp
  obtain ⟨_, hlen, hds, hrk, hnp⟩ := mpi_ofWorld_facts hu hN1 hp
  have hnp1 : (MpiCommunicator.ofWorld [gs] 0).numMPIProcesses = 1 := by rw [hnp]; rfl
  obtain ⟨_, hS, _⟩ := mpi_ranges_ok (MpiCommunicator.ofWorld [gs] 0) hlen hds
    (by rw [hrk, hnp1]; omega) (by rw [hnp1]; omega) hD
    (by rw [hnp1, Nat.one_mul]; exact hacc)
  obtain ⟨hN, _⟩ := hu gs (List.mem_singleton_self gs)
  unfold MpiCommunicator.reducePhase
  simp only [List.mapIdx_singleton, hS, allOk_singleton, bind, Except.bind]
  have hnl : World.numLocal [gs] = N := hN
  rw [hnl]
  obtain ⟨s', hs', hinv⟩ := foldlM_range_inv MpiCommunicator.scatterReduceStep
    (fun _ st => st = [gs]) N [gs] rfl
    (fun i hi st hst => by
      subst hst
      exact ⟨[gs], mpi_scatterReduceStep_single gs hu hN64 hD hacc i hi, rfl⟩)
  rw [hs', hinv]

/-- With one process `scatterReduceAndResetGrads()` of the MPI communicator only
resets: the shard of every device holds the gradient of that device alone. -/
theorem mpi_scatterReduce_single {α : Type} [AddMonoid α]
    (gs : List (Graph α)) {N D S : Nat} (hu : Uniform [gs] N D) (hN1 : 1 ≤ N)
    (hN64 : N < 2 ^ 64) (hD : D < 2 ^ 64) (hacc : Marian.shardSize D N = .ok S) :
    MpiCommunicator.scatterReduceAndResetGrads [gs] = .ok (resetWorld N S [gs]) := by
  unfold MpiCommunicator.scatterReduceAndResetGrads
  rw [mpi_reducePhase_single gs hu hN1 hN64 hD hacc]
  exact mpi_resetPhase_eq hu hN1 (by simpa using hN64) hD
    (by simpa using hacc)

theorem specScenario_uniform : Uniform specScenario 4 400 := by
  intro gs hgs
  simp only [specScenario, List.mem_singleton] at hgs
  subst hgs
  refine ⟨rfl, ?_⟩
  intro g hg
  simp only [List.mem_cons, List.mem_singleton, List.not_mem_nil, or_false] at hg
  rcases hg with rfl | rfl | rfl | rfl <;>
    exact ⟨List.length_replicate _ _, List.length_replicate _ _⟩

/-- C5 (evaluation of the code at the scenario of the specification): with one
process of 4 devices, 400 parameters and the constant gradients 1, 2, 3, 4,
`scatterReduceAndResetGrads()` of the MPI communicator returns, and every
element of the shard `[100, 200)` of device 1 is 2, the gradient of device 1
itself, where the sum over the devices is 10. -/
theorem mpi_scatterReduce_keeps_own_gradient :
    ∃ w', MpiCommunicator.scatterReduceAndResetGrads specScenario = .ok w' ∧
      (MpiCommunicator.ofWorld specScenario 0).localShardRange 1 = .ok (100, 200) ∧
      ∀ k, 100 ≤ k → k < 200 →
        (w'.gradsAt 0 1)[k]? = some 2 ∧ (w'.gradsAt 0 1)[k]? ≠ some (1 + 2 + 3 + 4) := by
  have hacc : Marian.shardSize 400 4 = .ok 100 := rfl
  refine ⟨resetWorld 4 100 specScenario,
    mpi_scatterReduce_single _ specScenario_uniform (by norm_num)
      (by norm_num) (by norm_num) hacc, ?_, ?_⟩
  · have hp : 0 < specScenario.length := by decide
    obtain ⟨_, hlen, hds, hrk, hnp⟩ :=
      mpi_ofWorld_facts specScenario_uniform (by norm_num) hp
    have hnp1 : (MpiCommunicator.ofWorld specScenario 0).numMPIProcesses = 1 := hnp
    have := (mpi_ranges_ok (MpiCommunicator.ofWorld specScenario 0) hlen hds
      (by rw [hrk, hnp1]; norm_num) (by rw [hnp1]; norm_num) (by norm_num)
      (by rw [hnp1]; exact hacc)).2.2 1 (by norm_num)
    rw [hrk] at this
    exact this.2.2
  · intro k h1 h2
    have h := (reset_after_reduce (S := 100) (P := 1) specScenario_uniform rfl
      (by norm_num) 0 1 (by norm_num) (by norm_num) k (by omega)).2 (by omega)
    have hg : specScenario.gradsAt 0 1 = List.replicate 400 2 := rfl
    rw [h, hg, List.getElem?_replicate]
    have : k < 400 := by omega
    rw [if_pos this]
    exact ⟨rfl, by norm_num⟩

/-! ### The reduce phase of the oneCCL communicator -/

theorem ccl_prepareSend_ok {α : Type} (c : OneCCLCommunicator α) {N D S : Nat}
    (hmode : c.shardingMode_ = ShardingMode.global)
    (hN : c.graphs_.length = N) (hD : c.dataSize = D)
    (hp : c.myMPIRank < c.numMPIProcesses) (hPN : c.numMPIProcesses * N < 2 ^ 64)
    (hD64 : D < 2 ^ 64) (hacc : Marian.shardSize D (c.numMPIProcesses * N) = .ok S)
    (i : Nat) (hi : i < c.graphs_.length) :
    c.prepareSend i = .ok ((c.myMPIRank * N + i) * S, S, (c.graphs_[i]).grads) := by
  obtain ⟨_, hS, hr⟩ := ccl_ranges_ok c hmode hN hD hp hPN hD64 hacc
  have hrange := hr i (by omega)
  obtain ⟨_, _, hSR, _⟩ := shardSize_ok hD64 hPN hacc
  have hle : (c.myMPIRank + 1) * N ≤ c.numMPIProcesses * N :=
    Nat.mul_le_mul_right N (by omega)
  have hexp : (c.myMPIRank + 1) * N = c.myMPIRank * N + N := by ring
  have h1 : (c.myMPIRank * N + i + 1) * S ≤ (c.numMPIProcesses * N) * S :=
    Nat.mul_le_mul_right S (by omega)
  have h2 : (c.numMPIProcesses * N) * S = D := by rw [Nat.mul_comm]; exact hSR
  have h3 : (c.myMPIRank * N + i + 1) * S = (c.myMPIRank * N + i) * S + S := by ring
  have hsub : szSub ((c.myMPIRank * N + i) * S + S) ((c.myMPIRank * N + i) * S) = S := by
    rw [szSub_eq (by omega) (by omega)]; omega
  unfold OneCCLCommunicator.prepareSend
  rw [hrange, hS, List.getElem?_eq_getElem hi]
  simp only [bind, Except.bind, hsub, ne_eq, not_true_eq_false, if_false, hmode, if_true]

/-- The reduce-scatter succeeds when every send buffer has one block per
participant. -/
theorem reduceScatter_ok {α : Type} [Add α] [Zero α] (bufs : List (List α))
    (count rank : Nat) (h : ∀ b ∈ bufs, bufs.length * count ≤ b.length) :
    reduceScatter bufs count rank = .ok ((List.range count).map fun k =>
      (bufs.map fun s => (s[rank * count + k]?).getD 0).sum) := by
  unfold reduceScatter
  rw [if_pos]
  rw [List.all_eq_true]
  intro b hb
  exact decide_eq_true (h b hb)

/-- With one graph per process and an accepted size, the loop of
`scatterReduceAndResetGrads` of the oneCCL communicator returns. -/
theorem ccl_reducePhase_ok {α : Type} [Add α] [Zero α] {w : World α} {D S : Nat}
    (hu : Uniform w 1 D) (hP1 : 1 ≤ w.length) (hP : w.length < 2 ^ 64) (hD : D < 2 ^ 64)
    (hacc : Marian.shardSize D w.length = .ok S) :
    ∃ w1, OneCCLCommunicator.reducePhase ShardingMode.global w = .ok w1 := by
  have hnl : w.numLocal = 1 := by
    unfold World.numLocal
    cases w with
    | nil => simp at hP1
    | cons gs rest => exact (hu gs (List.mem_cons_self _ _)).1
  obtain ⟨_, _, hSR, _⟩ := shardSize_ok hD hP hacc
  have hsends : allOk (w.mapIdx fun p _ =>
      (OneCCLCommunicator.ofWorld ShardingMode.global w p).prepareSend 0) =
      .ok (w.mapIdx fun p gs => ((p * 1 + 0) * S, S, ((gs[0]?).map Graph.grads).getD [])) := by
    apply allOk_mapIdx_ok
    intro p hp
    obtain ⟨hg, hlen, hds, hrk, hnp, hmode⟩ :=
      ccl_ofWorld_facts ShardingMode.global hu (Nat.le_refl 1) hp
    have h0 : 0 < (OneCCLCommunicator.ofWorld ShardingMode.global w p).graphs_.length := by
      omega
    have := ccl_prepareSend_ok (OneCCLCommunicator.ofWorld ShardingMode.global w p) hmode
      hlen hds (by rw [hrk, hnp]; exact hp) (by rw [hnp]; omega) hD
      (by rw [hnp, Nat.mul_one]; exact hacc) 0 h0
    rw [this, hrk]
    have h0' : 0 < w[p].length := by rw [← hg]; exact h0
    simp only [List.getElem?_eq_getElem h0', Option.map_some', Option.getD_some]
    simp only [hg]
  unfold OneCCLCommunicator.reducePhase
  rw [hnl]
  have hr1 : List.range 1 = [0] := rfl
  rw [hr1]
  simp only [List.foldlM_cons, List.foldlM_nil]
  unfold OneCCLCommunicator.scatterReduceStep
  rw [hsends]
  simp only [bind, Except.bind]
  have hrecv : ∃ recvs, allOk ((w.mapIdx fun p gs =>
        ((p * 1 + 0) * S, S, ((gs[0]?).map Graph.grads).getD [])).mapIdx fun p s =>
      reduceScatter ((w.mapIdx fun p gs =>
        ((p * 1 + 0) * S, S, ((gs[0]?).map Graph.grads).getD [])).map fun t => t.2.2)
        s.2.1 p) = .ok recvs := by
    refine ⟨_, allOk_mapIdx_ok _ _ (fun p s => (List.range s.2.1).map fun k =>
      (((w.mapIdx fun p gs =>
        ((p * 1 + 0) * S, S, ((gs[0]?).map Graph.grads).getD [])).map fun t => t.2.2).map
          fun b => (b[p * s.2.1 + k]?).getD 0).sum) ?_⟩
    intro p hp
    apply reduceScatter_ok
    intro b hb
    simp only [List.mem_map, List.mem_mapIdx] at hb
    obtain ⟨t, ⟨q, hq, rfl⟩, rfl⟩ := hb
    simp only [List.length_map, List.length_mapIdx, List.getElem_mapIdx]
    obtain ⟨hN, hel⟩ := hu.proc hq
    have h0 : 0 < w[q].length := by omega
    simp only [List.getElem?_eq_getElem h0, Option.map_some', Option.getD_some]
    rw [(hel 0 h0).2, ← hSR, Nat.mul_comm]
  obtain ⟨recvs, hrecvs⟩ := hrecv
  rw [hrecvs]
  exact ⟨_, rfl⟩

theorem twoRanks_uniform : Uniform twoRanks 1 2 := by
  intro gs hgs
  simp only [twoRanks, List.mem_cons, List.mem_singleton, List.not_mem_nil, or_false] at hgs
  rcases hgs with rfl | rfl
  · refine ⟨rfl, ?_⟩
    intro g hg
    simp only [List.mem_singleton] at hg
    subst hg
    exact ⟨rfl, rfl⟩
  · refine ⟨rfl, ?_⟩
    intro g hg
    simp only [List.mem_singleton] at hg
    subst hg
    exact ⟨rfl, rfl⟩

/-- C6 (gradients outside the shard are zero): in a job of replicas with an
accepted size, whenever the reduce phase of `scatterReduceAndResetGrads()` has
completed, the reset phase completes, the call returns, and for every device
`i` of every process every gradient element outside `localShardRange(i)` is 0
while every element inside it is the one the reduce phase left. This holds for
both communicators; the reduce phase completes for the MPI communicator with one
process and for the oneCCL communicator with one graph per process. -/
theorem grads_zero_outside_shard {α : Type} [AddMonoid α] (w : World α) (N D S : Nat)
    (hu : Uniform w N D) (hN1 : 1 ≤ N) (hP1 : 1 ≤ w.length)
    (hPN : w.length * N < 2 ^ 64) (hD : D < 2 ^ 64)
    (hacc : shardSize D (w.length * N) = .ok S) :
    (∀ w1, MpiCommunicator.reducePhase w = .ok w1 →
      ∃ w2, MpiCommunicator.resetPhase w1 = .ok w2 ∧
        MpiCommunicator.scatterReduceAndResetGrads w = .ok w2 ∧
        ∀ p i, p < w.length → i < N →
          ∃ b e, (MpiCommunicator.ofWorld w p).localShardRange i = .ok (b, e) ∧
            ∀ k, k < D →
              ((k < b ∨ e ≤ k) → (w2.gradsAt p i)[k]? = some 0) ∧
              ((b ≤ k ∧ k < e) → (w2.gradsAt p i)[k]? = (w1.gradsAt p i)[k]?)) ∧
    (w.length = 1 → ∃ w1, MpiCommunicator.reducePhase w = .ok w1) ∧
    (∀ w1, OneCCLCommunicator.reducePhase ShardingMode.global w = .ok w1 →
      ∃ w2, OneCCLCommunicator.resetPhase ShardingMode.global w1 = .ok w2 ∧
        OneCCLCommunicator.scatterReduceAndResetGrads ShardingMode.global w = .ok w2 ∧
        ∀ p i, p < w.length → i < N →
          ∃ b e, (OneCCLCommunicator.ofWorld ShardingMode.global w p).localShardRange i
              = .ok (b, e) ∧
            ∀ k, k < D →
              ((k < b ∨ e ≤ k) → (w2.gradsAt p i)[k]? = some 0) ∧
              ((b ≤ k ∧ k < e) → (w2.gradsAt p i)[k]? = (w1.gradsAt p i)[k]?)) ∧
    (N = 1 → ∃ w1, OneCCLCommunicator.reducePhase ShardingMode.global w = .ok w1) := by
  refine ⟨?_, ?_, ?_, ?_⟩
  · intro w1 hred
    obtain ⟨hu1, hlen1⟩ := mpi_reducePhase_uniform hu hred
    refine ⟨resetWorld N S w1,
      mpi_resetPhase_eq hu1 hN1 (by rw [hlen1]; exact hPN) hD (by rw [hlen1]; exact hacc),
      ?_, ?_⟩
    · unfold MpiCommunicator.scatterReduceAndResetGrads
      rw [hred]
      exact mpi_resetPhase_eq hu1 hN1 (by rw [hlen1]; exact hPN) hD
        (by rw [hlen1]; exact hacc)
    · intro p i hp hi
      obtain ⟨_, hlen, hds, hrk, hnp⟩ := mpi_ofWorld_facts hu hN1 hp
      obtain ⟨_, _, hr⟩ := mpi_ranges_ok (MpiCommunicator.ofWorld w p) hlen hds
        (by rw [hrk, hnp]; exact hp) (by rw [hnp]; exact hPN) hD
        (by rw [hnp]; exact hacc)
      have hrange := (hr i hi).2.2
      rw [hrk] at hrange
      refine ⟨_, _, hrange, ?_⟩
      intro k hk
      exact reset_after_reduce hu1 hlen1 hD p i hp hi k hk
  · intro hone
    obtain ⟨gs, hgs⟩ : ∃ gs, w = [gs] := by
      cases w with
      | nil => simp at hone
      | cons gs rest =>
        cases rest with
        | nil => exact ⟨gs, rfl⟩
        | cons _ _ => simp at hone
    subst hgs
    exact ⟨_, mpi_reducePhase_single gs hu hN1 (by simpa using hPN) hD
      (by simpa using hacc)⟩
  · intro w1 hred
    obtain ⟨hu1, hlen1⟩ := ccl_reducePhase_uniform hu hred
    refine ⟨resetWorld N S w1,
      ccl_resetPhase_eq hu1 hN1 (by rw [hlen1]; exact hPN) hD (by rw [hlen1]; exact hacc),
      ?_, ?_⟩
    · unfold OneCCLCommunicator.scatterReduceAndResetGrads
      rw [hred]
      exact ccl_resetPhase_eq hu1 hN1 (by rw [hlen1]; exact hPN) hD
        (by rw [hlen1]; exact hacc)
    · intro p i hp hi
      obtain ⟨_, hlen, hds, hrk, hnp, hmode⟩ :=
        ccl_ofWorld_facts ShardingMode.global hu hN1 hp
      obtain ⟨_, _, hr⟩ := ccl_ranges_ok
        (OneCCLCommunicator.ofWorld ShardingMode.global w p) hmode hlen hds
        (by rw [hrk, hnp]; exact hp) (by rw [hnp]; exact hPN) hD
        (by rw [hnp]; exact hacc)
      have hrange := hr i hi
      rw [hrk] at hrange
      refine ⟨_, _, hrange, ?_⟩
      intro k hk
      exact reset_after_reduce hu1 hlen1 hD p i hp hi k hk
  · intro hN
    subst hN
    exact ccl_reducePhase_ok hu hP1 (by omega) hD (by simpa using hacc)

/-- Witness of C6: two processes with one graph each and two parameters; the
oneCCL reduce phase completes. -/
theorem grads_zero_outside_shard_witness :
    Uniform twoRanks 1 2 ∧ shardSize 2 (twoRanks.length * 1) = .ok 1 ∧
    ∃ w1, OneCCLCommunicator.reducePhase ShardingMode.global twoRanks = .ok w1 :=
  ⟨twoRanks_uniform, rfl,
    (grads_zero_outside_shard twoRanks 1 2 1 twoRanks_uniform (by norm_num) (by decide)
      (by decide) (by norm_num) rfl).2.2.2 rfl⟩

/-- C7 (evaluation of the two communicators on one input): two processes with
one graph each, two parameters, gradients `[1, 2]` and `[3, 4]`. The oneCCL
communicator leaves `[4, 0]` on rank 0 and `[0, 6]` on rank 1. The MPI
communicator hands `reduceScatterBlock` a send buffer that holds its own shard
only (one element, where the reduce-scatter consumes one element per process),
so its call has no result. -/
theorem scatterReduce_backends_differ :
    OneCCLCommunicator.scatterReduceAndResetGrads ShardingMode.global twoRanks =
      .ok [[⟨[0, 0], [4, 0]⟩], [⟨[0, 0], [0, 6]⟩]] ∧
    (MpiCommunicator.ofWorld twoRanks 0).prepareSend 0 = .ok (0, 1, [1]) ∧
    (MpiCommunicator.ofWorld twoRanks 1).prepareSend 0 = .ok (1, 1, [4]) ∧
    MpiCommunicator.scatterReduceAndResetGrads twoRanks = .error msgBuffer ∧
    MpiCommunicator.scatterReduceAndResetGrads twoRanks ≠
      OneCCLCommunicator.scatterReduceAndResetGrads ShardingMode.global twoRanks := by
  have h1 : OneCCLCommunicator.scatterReduceAndResetGrads ShardingMode.global twoRanks =
      .ok [[⟨[0, 0], [4, 0]⟩], [⟨[0, 0], [0, 6]⟩]] := by rfl
  have h2 : MpiCommunicator.scatterReduceAndResetGrads twoRanks = .error msgBuffer := by rfl
  refine ⟨h1, by rfl, by rfl, h2, ?_⟩
  rw [h1, h2]
  intro h
  cases h

/-- C8 (evaluation of `allGatherParams()` of the MPI communicator on two
processes): with one graph per process and the parameters `[1, 2]` on rank 0
and `[3, 4]` on rank 1, every process keeps its own parameters, so the replicas
differ at index 0 and rank 0 does not receive element 1 of the shard of rank 1;
the oneCCL communicator leaves `[1, 4]` on both ranks. -/
theorem mpi_allGather_stays_local :
    MpiCommunicator.allGatherParamsWorld twoRanksParams = .ok twoRanksParams ∧
    (twoRanksParams.valsAt 0 0)[0]? = some 1 ∧ (twoRanksParams.valsAt 1 0)[0]? = some 3 ∧
    (twoRanksParams.valsAt 0 0)[1]? = some 2 ∧ (twoRanksParams.valsAt 1 0)[1]? = some 4 ∧
    (MpiCommunicator.ofWorld twoRanksParams 1).localShardRange 0 = .ok (1, 2) ∧
    OneCCLCommunicator.allGatherParams ShardingMode.global twoRanksParams =
      .ok [[⟨[1, 4], [0, 0]⟩], [⟨[1, 4], [0, 0]⟩]] := by
  refine ⟨by rfl, by rfl, by rfl, by rfl, by rfl, by rfl, by rfl⟩

/-! ### `broadcastParams` of the oneCCL communicator -/

/-- A communicator that its constructor has admitted has at most one graph and
shards globally. -/
theorem ccl_new_ok {α : Type} {graphs : List (Graph α)} {mode : ShardingMode}
    {p P : Nat} {c : OneCCLCommunicator α}
    (h : OneCCLCommunicator.new graphs mode p P = .ok c) :
    c.graphs_ = graphs ∧ graphs.length ≤ 1 ∧ c.shardingMode_ = ShardingMode.global ∧
    c.myMPIRank = p ∧ c.numMPIProcesses = P := by
  unfold OneCCLCommunicator.new at h
  by_cases h1 : graphs.length > 1
  · simp [h1] at h
  · by_cases h2 : mode ≠ ShardingMode.global
    · simp [h1, h2] at h
    · simp only [h1, h2, if_false] at h
      injection h with h
      subst h
      push_neg at h2
      exact ⟨rfl, by omega, h2, rfl, rfl⟩

theorem valsAt_mapIdx_setVals {α : Type} (w : World α) (i : Nat)
    (T : Nat → List α → List α) (p : Nat) (hp : p < w.length) (hi : i < w[p].length) :
    World.valsAt (w.mapIdx fun p gs => setVals gs i (T p)) p i = T p (w.valsAt p i) := by
  unfold World.valsAt setVals
  simp [List.getElem?_mapIdx, List.getElem?_eq_getElem hp, List.getElem?_eq_getElem hi]

theorem copyInto_full {α : Type} (t src : List α) (h : src.length = t.length) :
    copyInto t 0 src = src := by
  apply List.ext_getElem?
  intro k
  rw [getElem?_copyInto]
  by_cases hk : k < t.length
  · have h1 : t[k]? = some t[k] := List.getElem?_eq_getElem hk
    have hk2 : k < src.length := by omega
    have h2 : src[k]? = some src[k] := List.getElem?_eq_getElem hk2
    rw [h1]
    simp [h2]
  · have h1 : t[k]? = none := List.getElem?_eq_none (by omega)
    have h2 : src[k]? = none := List.getElem?_eq_none (by omega)
    rw [h1, h2]
    rfl

theorem allOk_mapIdx_error {ε β γ : Type} (l : List γ) (f : Nat → γ → Except ε β)
    (e : ε) (hl : 0 < l.length) (h : f 0 l[0] = .error e) :
    allOk (l.mapIdx f) = .error e := by
  cases l with
  | nil => simp at hl
  | cons a rest =>
    rw [List.mapIdx_cons]
    simp only [List.getElem_cons_zero] at h
    rw [h]
    rfl

/-- The parameters that process `p` sends in `broadcastParams`. -/
theorem valsAt_eq_getD {α : Type} (w : World α) (p : Nat) (hp : p < w.length) :
    w.valsAt p 0 = (((w[p])[0]?).map Graph.vals).getD [] := by
  unfold World.valsAt
  simp only [List.getElem?_eq_getElem hp, Option.some_bind]
  cases (w[p])[0]? <;> rfl

/-- The loop body of `broadcastParams` for a job with one graph per process:
it returns, and every process then holds the sum over the ranks (`average`) or
the parameters of rank 0. -/
theorem ccl_broadcastStep_ok {α : Type} [Add α] [Zero α] (average : Bool)
    {w : World α} {D : Nat} (hu : Uniform w 1 D) (hP1 : 1 ≤ w.length) :
    ∃ w1, OneCCLCommunicator.broadcastStep average w 0 = .ok w1 ∧ Uniform w1 1 D ∧
      w1.length = w.length ∧
      ∀ p, p < w.length → w1.valsAt p 0 =
        if average then
          (List.range D).map fun k =>
            ((List.range w.length).map fun q => ((w.valsAt q 0)[k]?).getD 0).sum
        else w.valsAt 0 0 := by
  have hlenq : ∀ q (hq : q < w.length), (w.valsAt q 0).length = D := by
    intro q hq
    obtain ⟨hN, hel⟩ := hu.proc hq
    have h0 : 0 < w[q].length := by omega
    rw [valsAt_eq hq h0]
    exact (hel 0 h0).1
  have hbufs : allOk (w.mapIdx fun _ graphs =>
      match graphs[0]? with
      | none => (Except.error msgNoGraph : Except String (List α))
      | some g => .ok g.vals) = .ok (w.mapIdx fun q _ => w.valsAt q 0) := by
    have hB : (w.mapIdx fun q _ => w.valsAt q 0) =
        w.mapIdx fun _ gs => (((gs[0]?).map Graph.vals).getD []) := by
      apply List.ext_getElem?
      intro q
      simp only [List.getElem?_mapIdx]
      by_cases hq : q < w.length
      · simp only [List.getElem?_eq_getElem hq, Option.map_some', valsAt_eq_getD w q hq]
      · simp [List.getElem?_eq_none (by omega : w.length ≤ q)]
    rw [hB]
    apply allOk_mapIdx_ok
    intro q hq
    obtain ⟨hN, _⟩ := hu.proc hq
    have h0 : 0 < w[q].length := by omega
    simp [List.getElem?_eq_getElem h0]
  have hBlen : ∀ b ∈ (w.mapIdx fun q _ => w.valsAt q 0), b.length = D := by
    intro b hb
    rw [List.mem_mapIdx] at hb
    obtain ⟨q, hq, rfl⟩ := hb
    exact hlenq q hq
  have hall : (w.mapIdx fun q _ => w.valsAt q 0).all (fun s => decide (s.length = D))
      = true := by
    rw [List.all_eq_true]
    intro b hb
    exact decide_eq_true (hBlen b hb)
  have hsum : ∀ k : Nat,
      ((w.mapIdx fun q _ => w.valsAt q 0).map fun (s : List α) => (s[k]?).getD 0) =
      (List.range w.length).map fun q => ((w.valsAt q 0)[k]?).getD 0 := by
    intro k
    apply List.ext_getElem?
    intro q
    simp only [List.getElem?_map, List.getElem?_mapIdx]
    by_cases hq : q < w.length
    · simp [List.getElem?_eq_getElem hq, List.getElem?_range hq]
    · have h1 : w[q]? = none := List.getElem?_eq_none (by omega)
      have h2 : (List.range w.length)[q]? = none :=
        List.getElem?_eq_none (by rw [List.length_range]; omega)
      rw [h1, h2]
      rfl
  have hrecvs : allOk ((w.mapIdx fun q _ => w.valsAt q 0).mapIdx fun _ b =>
      if average then allReduce (w.mapIdx fun q _ => w.valsAt q 0) b.length
      else broadcast (w.mapIdx fun q _ => w.valsAt q 0) b.length 0) =
      .ok ((w.mapIdx fun q _ => w.valsAt q 0).mapIdx fun _ _ =>
        if average then
          (List.range D).map fun k =>
            ((List.range w.length).map fun q => ((w.valsAt q 0)[k]?).getD 0).sum
        else w.valsAt 0 0) := by
    apply allOk_mapIdx_ok
    intro q hq
    have hbl := hBlen _ (List.getElem_mem hq)
    rw [hbl]
    cases average with
    | true =>
      simp only [if_true]
      unfold allReduce
      rw [if_pos hall]
      congr 1
      apply List.map_congr_left
      intro k _
      rw [hsum k]
    | false =>
      simp only [Bool.false_eq_true, if_false]
      unfold broadcast
      have h0 : (w.mapIdx fun q _ => w.valsAt q 0)[0]? = some (w.valsAt 0 0) := by
        rw [List.getElem?_mapIdx, List.getElem?_eq_getElem (by omega : 0 < w.length)]
        rfl
      rw [h0]
      simp only [hall, if_true]
  unfold OneCCLCommunicator.broadcastStep
  rw [hbufs]
  simp only [bind, Except.bind]
  rw [hrecvs]
  refine ⟨_, rfl, hu.mapIdx_setVals 0 _ (fun p t => length_copyInto _ _ _),
    List.length_mapIdx, ?_⟩
  intro p hp
  obtain ⟨hN, _⟩ := hu.proc hp
  have h0 : 0 < w[p].length := by omega
  rw [valsAt_mapIdx_setVals w 0 _ p hp h0]
  simp only [List.getElem?_mapIdx, List.getElem?_eq_getElem hp, Option.map_some',
    Option.getD_some]
  apply copyInto_full
  rw [hlenq p hp]
  cases average with
  | true => simp
  | false =>
    simp only [Bool.false_eq_true, if_false]
    exact hlenq 0 (by omega)

theorem ccl_numLocal_one {α : Type} {w : World α} {D : Nat} (hu : Uniform w 1 D)
    (hP1 : 1 ≤ w.length) : w.numLocal = 1 := by
  unfold World.numLocal
  cases w with
  | nil => simp at hP1
  | cons gs rest => exact (hu gs (List.mem_cons_self _ _)).1

/-- The first loop of `broadcastParams` for a job with one graph per process. -/
theorem ccl_broadcastLoop_ok {α : Type} [Add α] [Zero α] (average : Bool)
    {w : World α} {D : Nat} (hu : Uniform w 1 D) (hP1 : 1 ≤ w.length) :
    ∃ w1, (List.range w.numLocal).foldlM (OneCCLCommunicator.broadcastStep average) w
        = .ok w1 ∧ Uniform w1 1 D ∧ w1.length = w.length ∧
      ∀ p, p < w.length → w1.valsAt p 0 =
        if average then
          (List.range D).map fun k =>
            ((List.range w.length).map fun q => ((w.valsAt q 0)[k]?).getD 0).sum
        else w.valsAt 0 0 := by
  obtain ⟨w1, h1, h2, h3, h4⟩ := ccl_broadcastStep_ok average hu hP1
  refine ⟨w1, ?_, h2, h3, h4⟩
  rw [ccl_numLocal_one hu hP1]
  have hr1 : List.range 1 = [0] := rfl
  rw [hr1]
  simp only [List.foldlM_cons, List.foldlM_nil]
  rw [h1]
  rfl

/-- C10 (amended: `broadcastParams`): in a job with one graph per process (the
only configuration the constructor admits), `broadcastParams(false)` returns
and leaves on every rank the parameters rank 0 had before the call;
`broadcastParams(true)` returns when `shardSize()` accepts the size of the
parameters, and then every element on every rank is the sum of that element
over all ranks divided by the number of ranks; when `shardSize()` aborts,
`broadcastParams(true)` aborts with the same message. -/
theorem broadcastParams_result {α : Type} [Add α] [Zero α] [Div α] [NatCast α]
    (w : World α) (D : Nat) (hu : Uniform w 1 D) (hP1 : 1 ≤ w.length)
    (hP : w.length < 2 ^ 64) (hD : D < 2 ^ 64) :
    (∃ w', OneCCLCommunicator.broadcastParams ShardingMode.global false w = .ok w' ∧
      ∀ p, p < w.length → w'.valsAt p 0 = w.valsAt 0 0) ∧
    (∀ S, shardSize D w.length = .ok S →
      ∃ w', OneCCLCommunicator.broadcastParams ShardingMode.global true w = .ok w' ∧
        ∀ p, p < w.length → ∀ k, k < D →
          (w'.valsAt p 0)[k]? = some
            (((List.range w.length).map fun q => ((w.valsAt q 0)[k]?).getD 0).sum
              / (w.length : α))) ∧
    (shardSize D w.length = .error msgShardSize →
      OneCCLCommunicator.broadcastParams ShardingMode.global true w
        = .error msgShardSize) := by
  refine ⟨?_, ?_, ?_⟩
  · obtain ⟨w1, h1, _, _, h4⟩ := ccl_broadcastLoop_ok false hu hP1
    refine ⟨w1, ?_, ?_⟩
    · unfold OneCCLCommunicator.broadcastParams
      rw [h1]
      rfl
    · intro p hp
      have := h4 p hp
      simpa using this
  · intro S hacc
    obtain ⟨w1, h1, hu1, hlen1, h4⟩ := ccl_broadcastLoop_ok true hu hP1
    have havg : allOk (w1.mapIdx fun p graphs =>
        match (OneCCLCommunicator.ofWorld ShardingMode.global w1 p).foreach
            (fun i b e st => .ok (true,
              OneCCLCommunicator.avg (OneCCLCommunicator.ofWorld ShardingMode.global w1 p)
                i b e st)) true graphs with
        | .error e => (Except.error e : Except String (List (Graph α)))
        | .ok res => .ok res.2) =
        .ok (w1.mapIdx fun _ gs => gs.mapIdx fun j g =>
          if j < 1 then { g with vals := g.vals.map fun x => x / (w1.length : α) }
          else g) := by
      apply allOk_mapIdx_ok
      intro p hp
      obtain ⟨hg, hlen, hds, hrk, hnp, hmode⟩ :=
        ccl_ofWorld_facts ShardingMode.global hu1 (Nat.le_refl 1) hp
      obtain ⟨_, _, hr⟩ := ccl_ranges_ok
        (OneCCLCommunicator.ofWorld ShardingMode.global w1 p) hmode hlen hds
        (by rw [hrk, hnp]; exact hp) (by rw [hnp, hlen1]; omega) hD
        (by rw [hnp, hlen1, Nat.mul_one]; exact hacc)
      rw [ccl_foreach_eq (OneCCLCommunicator.ofWorld ShardingMode.global w1 p)
        (fun i => ((p * 1 + i) * S, (p * 1 + i) * S + S))
        (fun i hi => by
          have := hr i (by omega)
          rw [hrk] at this
          exact this)]
      rw [hlen]
      have := foldlM_pure_acc (List.range 1)
        (fun st i => OneCCLCommunicator.avg
          (OneCCLCommunicator.ofWorld ShardingMode.global w1 p) i
          ((p * 1 + i) * S) ((p * 1 + i) * S + S) st) true w1[p]
      rw [this]
      unfold OneCCLCommunicator.avg
      show Except.ok _ = _
      rw [foldl_setVals (fun _ vals => vals.map fun x =>
        x / ((OneCCLCommunicator.ofWorld ShardingMode.global w1 p).numMPIProcesses : α))]
      rfl
    refine ⟨w1.mapIdx fun _ gs => gs.mapIdx fun j g =>
      if j < 1 then { g with vals := g.vals.map fun x => x / (w1.length : α) }
      else g, ?_, ?_⟩
    · unfold OneCCLCommunicator.broadcastParams
      rw [h1]
      simp only [bind, Except.bind, if_true]
      exact havg
    · intro p hp k hk
      have hp1 : p < w1.length := by omega
      obtain ⟨hN, _⟩ := hu1.proc hp1
      have h0 : 0 < w1[p].length := by omega
      have hv : World.valsAt (w1.mapIdx fun _ gs => gs.mapIdx fun j g =>
          if j < 1 then { g with vals := g.vals.map fun x => x / (w1.length : α) }
          else g) p 0 = (w1.valsAt p 0).map fun x => x / (w1.length : α) := by
        unfold World.valsAt
        simp [List.getElem?_mapIdx, List.getElem?_eq_getElem hp1,
          List.getElem?_eq_getElem h0]
      rw [hv, h4 p hp]
      simp only [if_true, List.getElem?_map, List.getElem?_range hk, Option.map_some',
        hlen1]
  · intro herr
    obtain ⟨w1, h1, hu1, hlen1, _⟩ := ccl_broadcastLoop_ok true hu hP1
    unfold OneCCLCommunicator.broadcastParams
    rw [h1]
    simp only [bind, Except.bind, if_true]
    have hp : 0 < w1.length := by omega
    apply allOk_mapIdx_error _ _ _ hp
    obtain ⟨hg, hlen, hds, hrk, hnp, hmode⟩ :=
      ccl_ofWorld_facts ShardingMode.global hu1 (Nat.le_refl 1) hp
    have hl : (OneCCLCommunicator.ofWorld ShardingMode.global w1 0).localShardRange 0
        = .error msgShardSize := by
      unfold OneCCLCommunicator.localShardRange OneCCLCommunicator.RankShardRange
        OneCCLCommunicator.numShards OneCCLCommunicator.numRanks
        OneCCLCommunicator.numLocalRanks
      rw [if_pos hmode, if_pos hmode, hds, hlen, hnp, hlen1, szMul_eq (by omega),
        Nat.mul_one]
      exact RankShardRange_error herr _
    have hfe : (OneCCLCommunicator.ofWorld ShardingMode.global w1 0).foreach
        (fun i b e st => .ok (true,
          OneCCLCommunicator.avg (OneCCLCommunicator.ofWorld ShardingMode.global w1 0)
            i b e st)) true w1[0] = .error msgShardSize :=
      ccl_foreachAcc_error _ hl (by omega) _ _ _ _ _
    rw [hfe]

/-- Witness of C10: two processes with the parameters `[1, 2]` and `[3, 4]`;
after `broadcastParams(false)` both hold `[1, 2]`. -/
theorem broadcastParams_result_witness :
    Uniform twoRanksParams 1 2 ∧
    ∃ w', OneCCLCommunicator.broadcastParams ShardingMode.global false twoRanksParams
        = .ok w' ∧
      ∀ p, p < twoRanksParams.length → w'.valsAt p 0 = twoRanksParams.valsAt 0 0 :=
  have hu : Uniform twoRanksParams 1 2 := by
    intro gs hgs
    simp only [twoRanksParams, List.mem_cons, List.mem_singleton, List.not_mem_nil,
      or_false] at hgs
    rcases hgs with rfl | rfl
    · refine ⟨rfl, ?_⟩
      intro g hg
      simp only [List.mem_singleton] at hg
      subst hg
      exact ⟨rfl, rfl⟩
    · refine ⟨rfl, ?_⟩
      intro g hg
      simp only [List.mem_singleton] at hg
      subst hg
      exact ⟨rfl, rfl⟩
  ⟨hu, (broadcastParams_result twoRanksParams 2 hu (by decide) (by decide)
    (by norm_num)).1⟩

/-- Counterexample to C10 as stated: two ranks with three parameters each;
`broadcastParams(true)` aborts in `foreach(avg)`, where `shardSize()` refuses
three parameters over two ranks, so no rank ends with the average. -/
theorem broadcastParams_average_aborts :
    OneCCLCommunicator.broadcastParams ShardingMode.global true twoRanksOdd
      = .error msgShardSize := by
  rfl

/-! ### `allGatherParams` of the MPI communicator -/

theorem getElem?_gathered {α : Type} (base S n : Nat) (gs : List (Graph α)) (j : Nat) :
    (gathered base S n gs)[j]? = (gs[j]?).map fun g =>
      { g with vals := g.vals.mapIdx fun k x =>
          if base ≤ k / S ∧ k / S < base + n ∧ k / S - base ≠ j then
            (valOf gs (k / S - base) k).getD x
          else x } := by
  unfold gathered
  rw [List.getElem?_mapIdx]

theorem gathered_zero {α : Type} (base S : Nat) (gs : List (Graph α)) :
    gathered base S 0 gs = gs := by
  apply List.ext_getElem?
  intro j
  rw [getElem?_gathered]
  cases hj : gs[j]? with
  | none => rfl
  | some g =>
    simp only [Option.map_some', Option.some.injEq]
    have : (g.vals.mapIdx fun k x =>
        if base ≤ k / S ∧ k / S < base + 0 ∧ k / S - base ≠ j then
          (valOf gs (k / S - base) k).getD x
        else x) = g.vals := by
      apply List.ext_getElem?
      intro k
      rw [List.getElem?_mapIdx]
      cases g.vals[k]? with
      | none => rfl
      | some x =>
        simp only [Option.map_some', Option.some.injEq]
        rw [if_neg (by omega)]
    rw [this]

/-- Position `k` belongs to the shard of rank `m` exactly when `k / S = m`. -/
theorem shard_div {S k m : Nat} (hS : 0 < S) :
    (m * S ≤ k ↔ m ≤ k / S) ∧ (k < m * S + S ↔ k / S < m + 1) := by
  constructor
  · exact (Nat.le_div_iff_mul_le hS).symm
  · rw [Nat.div_lt_iff_lt_mul hS]
    have : (m + 1) * S = m * S + S := by ring
    rw [this]

/-- One callback `gather` extends the closed form by one device. -/
theorem gather_step {α : Type} (base S D n : Nat) (gs : List (Graph α))
    (hvals : ∀ g ∈ gs, g.vals.length = D) (hn : n < gs.length)
    (hS : 0 < S ∨ D = 0) (h64 : (base + n) * S + S < 2 ^ 64) :
    MpiCommunicator.gather n ((base + n) * S) ((base + n) * S + S) (gathered base S n gs) =
      .ok (gathered base S (n + 1) gs) := by
  have hsub : szSub ((base + n) * S + S) ((base + n) * S) = S := by
    rw [szSub_eq (by omega) (by omega)]; omega
  unfold MpiCommunicator.gather
  rw [getElem?_gathered, List.getElem?_eq_getElem hn]
  simp only [Option.map_some', hsub]
  congr 1
  apply List.ext_getElem?
  intro j
  rw [List.getElem?_mapIdx, getElem?_gathered, getElem?_gathered]
  cases hj : gs[j]? with
  | none => rfl
  | some g =>
    have hgD : g.vals.length = D := hvals g (List.getElem?_mem hj)
    simp only [Option.map_some', Option.some.injEq]
    by_cases hjn : j = n
    · subst hjn
      simp only [ne_eq, not_true_eq_false, if_false]
      congr 1
      apply List.ext_getElem?
      intro k
      simp only [List.getElem?_mapIdx]
      cases g.vals[k]? with
      | none => rfl
      | some x =>
        simp only [Option.map_some', Option.some.injEq]
        split_ifs <;> first | rfl | (exfalso; omega)
    · simp only [ne_eq, hjn, not_false_eq_true, if_true]
      congr 1
      apply List.ext_getElem?
      intro k
      rw [getElem?_copyInto]
      simp only [List.getElem?_mapIdx]
      cases hk : g.vals[k]? with
      | none => rfl
      | some x =>
        have hkD : k < D := by
          rw [← hgD]
          exact (List.getElem?_eq_some_iff.1 hk).1
        have hSpos : 0 < S := by omega
        obtain ⟨f1, f2⟩ := @shard_div S k (base + n) hSpos
        simp only [Option.map_some', Option.some.injEq]
        have hnD : (gs[n]).vals.length = D := hvals _ (List.getElem_mem hn)
        by_cases hb : (base + n) * S ≤ k
        · rw [if_pos hb, getElem?_subtensor]
          by_cases hin : k - (base + n) * S < S
          · have hr : k / S = base + n := by omega
            have hkk : (base + n) * S + (k - (base + n) * S) = k := by omega
            have hkn : k < (gs[n]).vals.length := by omega
            have hy : (gs[n]).vals[k]? = some (gs[n]).vals[k] := List.getElem?_eq_getElem hkn
            have hv : valOf gs n k = some (gs[n]).vals[k] := by
              unfold valOf
              rw [List.getElem?_eq_getElem hn]
              exact hy
            have hsubn : base + n - base = n := by omega
            rw [if_pos hin, hkk, List.getElem?_mapIdx, hy]
            simp only [Option.map_some', Option.getD_some, hr, hsubn, hv]
            rw [if_neg (by omega), if_pos ⟨by omega, by omega, by omega⟩]
          · rw [if_neg hin]
            simp only [Option.getD_none]
            have hr : base + n + 1 ≤ k / S := by omega
            rw [if_neg (by omega), if_neg (by omega)]
        · rw [if_neg hb]
          have hr : k / S < base + n := by omega
          split_ifs <;> first | rfl | (exfalso; omega)

theorem length_gathered {α : Type} (base S n : Nat) (gs : List (Graph α)) :
    (gathered base S n gs).length = gs.length := by
  unfold gathered
  exact List.length_mapIdx

theorem vals_length_gathered {α : Type} (base S n D : Nat) (gs : List (Graph α))
    (hvals : ∀ g ∈ gs, g.vals.length = D) :
    ∀ g ∈ gathered base S n gs, g.vals.length = D := by
  intro g hg
  unfold gathered at hg
  rw [List.mem_mapIdx] at hg
  obtain ⟨j, hj, rfl⟩ := hg
  simp only [List.length_mapIdx]
  exact hvals _ (List.getElem_mem hj)

theorem valOf_gathered {α : Type} (base S n : Nat) (gs : List (Graph α)) (k : Nat) :
    valOf (gathered base S n gs) (k / S - base) k = valOf gs (k / S - base) k := by
  unfold valOf
  rw [getElem?_gathered]
  cases gs[k / S - base]? with
  | none => rfl
  | some g =>
    simp only [Option.map_some', Option.some_bind, List.getElem?_mapIdx]
    cases g.vals[k]? with
    | none => rfl
    | some x =>
      simp only [Option.map_some', Option.some.injEq]
      rw [if_neg (by simp)]

/-- Gathering a second time changes nothing. -/
theorem gathered_gathered {α : Type} (base S n : Nat) (gs : List (Graph α)) :
    gathered base S n (gathered base S n gs) = gathered base S n gs := by
  apply List.ext_getElem?
  intro j
  rw [getElem?_gathered, getElem?_gathered]
  cases gs[j]? with
  | none => rfl
  | some g =>
    simp only [Option.map_some', Option.some.injEq]
    congr 1
    apply List.ext_getElem?
    intro k
    simp only [List.getElem?_mapIdx]
    cases g.vals[k]? with
    | none => rfl
    | some x =>
      simp only [Option.map_some', Option.some.injEq, valOf_gathered]
      split_ifs
      · cases valOf gs (k / S - base) k <;> rfl
      · rfl

/-- The call `foreach(gather)` in closed form, for an accepted size. -/
theorem mpi_foreach_gather {α : Type} (c : MpiCommunicator α) {D S : Nat}
    (hvals : ∀ g ∈ c.graphs_, g.vals.length = D) (hN1 : 1 ≤ c.graphs_.length)
    (hD : D < 2 ^ 64) (hp : c.myMPIRank < c.numMPIProcesses)
    (hPN : c.numMPIProcesses * c.graphs_.length < 2 ^ 64)
    (hacc : Marian.shardSize D (c.numMPIProcesses * c.graphs_.length) = .ok S) :
    c.foreach MpiCommunicator.gather true c.graphs_ =
      .ok (gathered (c.myMPIRank * c.graphs_.length) S c.graphs_.length c.graphs_) := by
  have hds : c.dataSize = D := dataSize_of_uniform rfl hN1 hvals
  obtain ⟨_, _, hr⟩ := mpi_ranges_ok c rfl hds hp hPN hD hacc
  obtain ⟨_, _, hSR, _⟩ := shardSize_ok hD hPN hacc
  have hle : (c.myMPIRank + 1) * c.graphs_.length ≤ c.numMPIProcesses * c.graphs_.length :=
    Nat.mul_le_mul_right _ (by omega)
  have hexp : (c.myMPIRank + 1) * c.graphs_.length
      = c.myMPIRank * c.graphs_.length + c.graphs_.length := by ring
  have h2 : (c.numMPIProcesses * c.graphs_.length) * S = D := by
    rw [Nat.mul_comm]; exact hSR
  have hS : 0 < S ∨ D = 0 := by
    rcases Nat.eq_zero_or_pos S with h0 | h0
    · right; rw [← h2, h0, Nat.mul_zero]
    · left; exact h0
  rw [mpi_foreach_eq c
    (fun i => ((c.myMPIRank * c.graphs_.length + i) * S,
      (c.myMPIRank * c.graphs_.length + i) * S + S))
    (fun i hi => (hr i hi).2.2)]
  obtain ⟨s', hs', hinv⟩ := foldlM_range_inv
    (fun st i => MpiCommunicator.gather i ((c.myMPIRank * c.graphs_.length + i) * S)
      ((c.myMPIRank * c.graphs_.length + i) * S + S) st)
    (fun i st => st = gathered (c.myMPIRank * c.graphs_.length) S i c.graphs_)
    c.graphs_.length c.graphs_ (gathered_zero _ _ _).symm
    (fun i hi st hst => by
      subst hst
      have h1 : (c.myMPIRank * c.graphs_.length + i + 1) * S
          ≤ (c.numMPIProcesses * c.graphs_.length) * S :=
        Nat.mul_le_mul_right S (by omega)
      have h3 : (c.myMPIRank * c.graphs_.length + i + 1) * S
          = (c.myMPIRank * c.graphs_.length + i) * S + S := by ring
      exact ⟨_, gather_step _ S D i c.graphs_ hvals hi hS (by omega), rfl⟩)
  rw [hs', hinv]

/-- The call `allGatherParams()` of a process in closed form, for an accepted size. -/
theorem mpi_allGatherParams_eq {α : Type} (c : MpiCommunicator α) {D S : Nat}
    (hvals : ∀ g ∈ c.graphs_, g.vals.length = D) (hN1 : 1 ≤ c.graphs_.length)
    (hD : D < 2 ^ 64) (hp : c.myMPIRank < c.numMPIProcesses)
    (hPN : c.numMPIProcesses * c.graphs_.length < 2 ^ 64)
    (hacc : Marian.shardSize D (c.numMPIProcesses * c.graphs_.length) = .ok S) :
    c.allGatherParams =
      .ok ⟨gathered (c.myMPIRank * c.graphs_.length) S c.graphs_.length c.graphs_,
        c.myMPIRank, c.numMPIProcesses⟩ := by
  unfold MpiCommunicator.allGatherParams
  rw [mpi_foreach_gather c hvals hN1 hD hp hPN hacc]
  rfl

/-- C9 (idempotence of `allGatherParams()`): for every process of the MPI
communicator whose local replicas have the same number of parameters, calling
`allGatherParams()` twice in a row gives exactly the result of calling it once
(the same tensors, or the same abort); and for an accepted size the call
returns. -/
theorem allGatherParams_idempotent {α : Type} (c : MpiCommunicator α) (D : Nat)
    (hvals : ∀ g ∈ c.graphs_, g.vals.length = D) (hD : D < 2 ^ 64)
    (hp : c.myMPIRank < c.numMPIProcesses)
    (hPN : c.numMPIProcesses * c.graphs_.length < 2 ^ 64) :
    (c.allGatherParams >>= fun c' => c'.allGatherParams) = c.allGatherParams ∧
    (∀ S, shardSize D (c.numMPIProcesses * c.graphs_.length) = .ok S →
      ∃ c', c.allGatherParams = .ok c') := by
  by_cases hN0 : c.graphs_.length = 0
  · have h1 : c.allGatherParams = .ok c := by
      unfold MpiCommunicator.allGatherParams MpiCommunicator.foreach
      simp [hN0]
      rfl
    refine ⟨?_, fun _ _ => ⟨c, h1⟩⟩
    rw [h1]
    exact h1
  · have hN1 : 1 ≤ c.graphs_.length := by omega
    have hds : c.dataSize = D := dataSize_of_uniform rfl hN1 hvals
    cases hacc : shardSize D (c.numMPIProcesses * c.graphs_.length) with
    | error e =>
      have hl : c.localShardRange 0 = .error e := by
        unfold MpiCommunicator.localShardRange MpiCommunicator.RankShardRange
          MpiCommunicator.numRanks
        rw [hds, szMul_eq hPN]
        exact RankShardRange_error hacc _
      have h1 : c.allGatherParams = .error e := by
        unfold MpiCommunicator.allGatherParams
        rw [mpi_foreach_error c hl hN1]
        rfl
      refine ⟨?_, fun S hS => by cases hS⟩
      rw [h1]
      rfl
    | ok S =>
      have h1 := mpi_allGatherParams_eq c hvals hN1 hD hp hPN hacc
      refine ⟨?_, fun _ _ => ⟨_, h1⟩⟩
      rw [h1]
      show MpiCommunicator.allGatherParams _ = _
      have hlen := length_gathered (c.myMPIRank * c.graphs_.length) S c.graphs_.length
        c.graphs_
      have h2 := mpi_allGatherParams_eq (D := D) (S := S)
        ⟨gathered (c.myMPIRank * c.graphs_.length) S c.graphs_.length c.graphs_,
          c.myMPIRank, c.numMPIProcesses⟩
        (vals_length_gathered _ _ _ _ _ hvals) (by rw [hlen]; exact hN1) hD hp
        (by rw [hlen]; exact hPN) (by rw [hlen]; exact hacc)
      rw [h2]
      simp only [hlen, gathered_gathered]

/-- Witness of C9: one process with two devices holding `[1, 2]` and `[3, 4]`;
after one or two calls both hold `[1, 4]`. -/
theorem allGatherParams_idempotent_witness :
    (twoDevices.allGatherParams >>= fun c' => c'.allGatherParams)
      = twoDevices.allGatherParams ∧
    ∃ c', twoDevices.allGatherParams = .ok c' :=
  have h := allGatherParams_idempotent twoDevices 2
    (by
      intro g hg
      simp only [twoDevices, List.mem_cons, List.mem_singleton, List.not_mem_nil,
        or_false] at hg
      rcases hg with rfl | rfl <;> rfl)
    (by norm_num) (by decide) (by decide)
  ⟨h.1, h.2 1 rfl⟩

/-! ### The call trace of `foreach` -/

theorem foldlM_trace {ι β : Type} (l : List ι) (f : ι → β) (tr : List β) :
    l.foldlM (fun st i => (Except.ok (st ++ [f i]) : Except String (List β))) tr
      = .ok (tr ++ l.map f) := by
  induction l generalizing tr with
  | nil => simp; rfl
  | cons a as ih =>
    simp only [List.foldlM_cons, List.map_cons]
    have := ih (tr ++ [f a])
    simpa [bind, Except.bind] using this

theorem foldlM_trace_acc {ι β : Type} (l : List ι) (f : ι → β) (b : Bool) (tr : List β) :
    l.foldlM (fun (st : Bool × List β) i => (do
        let res ← (Except.ok (true, st.2 ++ [f i]) : Except String (Bool × List β))
        pure (st.1 && res.1, res.2))) (b, tr) = .ok (b, tr ++ l.map f) := by
  induction l generalizing tr with
  | nil => simp; rfl
  | cons a as ih =>
    simp only [List.foldlM_cons, List.map_cons]
    have := ih (tr ++ [f a])
    simpa [bind, Except.bind, pure, Except.pure] using this

/-- C16 (sequential `foreach`): when `parallel` is false or there is at most one
local device, and the ranges `localShardRange(i)` of the local devices are
`r_0 .. r_{n-1}`, `foreach` of either communicator is the sequence of the calls
`func(0, r_0)`, `func(1, r_1)`, ..., `func(n-1, r_{n-1})` in this order, each made
once; with a callback that records its arguments the trace of the calls is
`[(0, r_0), (1, r_1), ..., (n-1, r_{n-1})]`. -/
theorem foreach_sequential_trace {α : Type} (c : MpiCommunicator α)
    (d : OneCCLCommunicator α) (rc rd : Nat → Nat × Nat) (parallel : Bool)
    (hc : ∀ i, i < c.graphs_.length → c.localShardRange i = .ok (rc i))
    (hd : ∀ i, i < d.graphs_.length → d.localShardRange i = .ok (rd i))
    (hseqc : parallel = false ∨ c.graphs_.length ≤ 1)
    (hseqd : parallel = false ∨ d.graphs_.length ≤ 1) :
    (∀ (σ : Type) (func : Nat → Nat → Nat → σ → Except String σ) (s : σ),
      c.foreach func parallel s = (List.range c.graphs_.length).foldlM
        (fun st i => func i (rc i).1 (rc i).2 st) s) ∧
    c.foreach (fun i b e tr => .ok (tr ++ [(i, b, e)])) parallel []
      = .ok ((List.range c.graphs_.length).map fun i => (i, (rc i).1, (rc i).2)) ∧
    (∀ (σ : Type) (func : Nat → Nat → Nat → σ → Except String (Bool × σ)) (s : σ),
      d.foreach func parallel s = (List.range d.graphs_.length).foldlM
        (fun st i => do
          let res ← func i (rd i).1 (rd i).2 st.2
          pure (st.1 && res.1, res.2)) (true, s)) ∧
    d.foreach (fun i b e tr => .ok (true, tr ++ [(i, b, e)])) parallel []
      = .ok (true, (List.range d.graphs_.length).map fun i => (i, (rd i).1, (rd i).2)) := by
  have hpc : (parallel && decide (c.graphs_.length > 1)) = false := by
    rcases hseqc with h | h
    · simp [h]
    · simp; intro _; omega
  have hpd : (parallel && decide (d.graphs_.length > 1)) = false := by
    rcases hseqd with h | h
    · simp [h]
    · simp; intro _; omega
  have h1 : ∀ (σ : Type) (func : Nat → Nat → Nat → σ → Except String σ) (s : σ),
      c.foreach func parallel s = (List.range c.graphs_.length).foldlM
        (fun st i => func i (rc i).1 (rc i).2 st) s := by
    intro σ func s
    unfold MpiCommunicator.foreach
    simp only [hpc, Bool.false_eq_true, if_false]
    apply foldlM_congr_mem
    intro i hi st
    rw [hc i (List.mem_range.1 hi)]
    rfl
  have h3 : ∀ (σ : Type) (func : Nat → Nat → Nat → σ → Except String (Bool × σ)) (s : σ),
      d.foreach func parallel s = (List.range d.graphs_.length).foldlM
        (fun st i => do
          let res ← func i (rd i).1 (rd i).2 st.2
          pure (st.1 && res.1, res.2)) (true, s) := by
    intro σ func s
    unfold OneCCLCommunicator.foreach OneCCLCommunicator.foreachAcc
    simp only [hpd, Bool.false_eq_true, if_false]
    apply foldlM_congr_mem
    intro i hi st
    rw [hd i (List.mem_range.1 hi)]
    rfl
  refine ⟨h1, ?_, h3, ?_⟩
  · rw [h1]
    have := foldlM_trace (List.range c.graphs_.length)
      (fun i => (i, (rc i).1, (rc i).2)) []
    simpa using this
  · rw [h3]
    have := foldlM_trace_acc (List.range d.graphs_.length)
      (fun i => (i, (rd i).1, (rd i).2)) true []
    simpa using this

/-- Witness of C16: one process with two devices and two parameters per graph;
the sequential trace is `[(0, 0, 1), (1, 1, 2)]`. -/
theorem foreach_sequential_trace_witness :
    twoDevices.foreach (fun i b e tr => .ok (tr ++ [(i, b, e)])) false []
      = .ok ((List.range twoDevices.graphs_.length).map fun i => (i, i, i + 1)) :=
  (foreach_sequential_trace twoDevices
    (⟨[⟨[1, 2], [0, 0]⟩], ShardingMode.global, 0, 1⟩ : OneCCLCommunicator ℤ)
    (fun i => (i, i + 1)) (fun _ => (0, 2)) false
    (by
      intro i hi
      have : i = 0 ∨ i = 1 := by
        have : i < 2 := hi
        omega
      rcases this with rfl | rfl <;> rfl)
    (by
      intro i hi
      have : i = 0 := by
        have : i < 1 := hi
        omega
      subst this
      rfl)
    (Or.inl rfl) (Or.inl rfl)).2.1

/-! ### `gatherState` -/

theorem foldl_range_inv {σ : Type} (f : σ → Nat → σ) (Inv : Nat → σ → Prop)
    (n : Nat) (s : σ) (h0 : Inv 0 s)
    (hstep : ∀ i, i < n → ∀ st, Inv i st → Inv (i + 1) (f st i)) :
    Inv n ((List.range n).foldl f s) := by
  induction n with
  | zero => exact h0
  | succ n ih =>
    rw [List.range_succ, List.foldl_append]
    simp only [List.foldl_cons, List.foldl_nil]
    exact hstep n (by omega) _ (ih (fun i hi st hst => hstep i (by omega) st hst))

theorem foldl_append_flatten {α ι : Type} (l : List ι) (f : ι → List α) (acc : List α) :
    l.foldl (fun a i => a ++ f i) acc = acc ++ (l.map f).flatten := by
  induction l generalizing acc with
  | nil => simp
  | cons x xs ih =>
    simp only [List.foldl_cons, List.map_cons, List.flatten_cons]
    rw [ih, List.append_assoc]

theorem foldl_tmp_append {α ι : Type} (l : List ι) (f : ι → List α) (t acc : List α) :
    (l.foldl (fun (st : List α × List α) i => (f i, st.2 ++ f i)) (t, acc)).2
      = acc ++ (l.map f).flatten := by
  induction l generalizing t acc with
  | nil => simp
  | cons x xs ih =>
    simp only [List.foldl_cons, List.map_cons, List.flatten_cons]
    rw [ih, List.append_assoc]

/-- The data gathered locally by a process of the MPI communicator. -/
theorem mpi_gatherLocal_eq {α : Type} (c : MpiCommunicator α) (getFn : Nat → List α) :
    (c.gatherLocal getFn).2 = ((List.range c.graphs_.length).map getFn).flatten := by
  unfold MpiCommunicator.gatherLocal
  have := foldl_tmp_append (List.range c.graphs_.length) getFn [] []
  simpa using this

/-- The data gathered locally by a process of the oneCCL communicator that has
a graph. -/
theorem ccl_gatherLocal_eq {α : Type} (c : OneCCLCommunicator α) (getFn : Nat → List α)
    (hN : 1 ≤ c.graphs_.length) :
    c.gatherLocal getFn = ((List.range c.graphs_.length).map getFn).flatten := by
  unfold OneCCLCommunicator.gatherLocal
  obtain ⟨n, hn⟩ : ∃ n, c.graphs_.length = n + 1 := ⟨c.graphs_.length - 1, by omega⟩
  rw [hn, foldl_append_flatten, List.range_eq_range', List.range'_succ]
  simp

/-- The loop over the ranks of `gatherState`: every process ends with the
concatenation of the local data of all processes. -/
theorem gather_loop {α : Type} (P : Nat) (loc : Nat → List α)
    (start : List (List α × List α)) (hstart : start.length = P)
    (h0 : ∀ p, p < P → ∃ t, start[p]? = some (t, []))
    (step : List (List α × List α) → Nat → List (List α × List α))
    (hstep : ∀ m, m < P → ∀ st : List (List α × List α), st.length = P →
      (step st m).length = P ∧ ∀ p, p < P → ∀ s, st[p]? = some s →
        ∃ t, (step st m)[p]? = some (t, s.2 ++ loc m)) :
    (((List.range P).foldl step start).map fun s => s.2).length = P ∧
    ∀ p, p < P → (((List.range P).foldl step start).map fun s => s.2)[p]?
      = some (((List.range P).map loc).flatten) := by
  have hinv := foldl_range_inv step
    (fun m st => st.length = P ∧ ∀ p, p < P →
      ∃ t, st[p]? = some (t, ((List.range m).map loc).flatten))
    P start ⟨hstart, by simpa using h0⟩
    (fun m hm st hst => by
      obtain ⟨hl, hd⟩ := hst
      obtain ⟨hl', hd'⟩ := hstep m hm st hl
      refine ⟨hl', ?_⟩
      intro p hp
      obtain ⟨t, ht⟩ := hd p hp
      obtain ⟨t', ht'⟩ := hd' p hp _ ht
      refine ⟨t', ?_⟩
      rw [ht', List.range_succ, List.map_append, List.flatten_append]
      simp)
  obtain ⟨hl, hd⟩ := hinv
  refine ⟨by simpa using hl, ?_⟩
  intro p hp
  obtain ⟨t, ht⟩ := hd p hp
  rw [List.getElem?_map, ht]
  rfl

theorem getElem?_bCast {α : Type} (tmps : List (List α)) (root p : Nat)
    (hp : p < tmps.length) : (bCast tmps root)[p]? = some (tmps.getD root []) := by
  unfold bCast
  rw [List.getElem?_map, List.getElem?_eq_getElem hp]
  rfl

/-- The result of `gatherState` of the MPI communicator in every process. -/
theorem mpi_gatherState_eq {α : Type} (w : World α) (getFn : Nat → Nat → List α) :
    (MpiCommunicator.gatherState w getFn).length = w.length ∧
    ∀ p, p < w.length →
      (MpiCommunicator.gatherState w getFn)[p]? = some (rankOrderConcat w getFn) := by
  obtain ⟨locals, hlocals⟩ : ∃ locals, locals =
      w.mapIdx fun p _ => (MpiCommunicator.ofWorld w p).gatherLocal (getFn p) := ⟨_, rfl⟩
  have hlen : locals.length = w.length := by rw [hlocals]; exact List.length_mapIdx
  have hloc : ∀ q, q < w.length → ((locals[q]?).map fun l => l.2).getD [] =
      ((List.range (w.getD q []).length).map fun i => getFn q i).flatten := by
    intro q hq
    rw [hlocals, List.getElem?_mapIdx, List.getElem?_eq_getElem hq]
    simp only [Option.map_some', Option.getD_some]
    exact mpi_gatherLocal_eq _ _
  have hmain := gather_loop w.length
    (fun q => ((locals[q]?).map fun l => l.2).getD [])
    (locals.map fun l => (l.1, ([] : List α)))
    (by simp [hlen])
    (by
      intro p hp
      have hp' : p < locals.length := by omega
      refine ⟨(locals[p]).1, ?_⟩
      rw [List.getElem?_map, List.getElem?_eq_getElem hp']
      rfl)
    (fun st mpiRank =>
      st.mapIdx fun p s =>
        ((((bCast (st.mapIdx fun p s =>
          if mpiRank = p then ((locals[p]?).map fun l => l.2).getD [] else s.1)
            mpiRank)[p]?).getD []),
        s.2 ++ (((bCast (st.mapIdx fun p s =>
          if mpiRank = p then ((locals[p]?).map fun l => l.2).getD [] else s.1)
            mpiRank)[p]?).getD [])))
    (by
      intro m hm st hst
      refine ⟨by simp [hst], ?_⟩
      intro p hp s hs
      refine ⟨((locals[m]?).map fun l => l.2).getD [], ?_⟩
      have hb : (bCast (st.mapIdx fun p s =>
          if m = p then ((locals[p]?).map fun l => l.2).getD [] else s.1) m)[p]?
          = some (((locals[m]?).map fun l => l.2).getD []) := by
        rw [getElem?_bCast _ _ _ (by simp [hst]; exact hp)]
        simp only [List.getD_eq_getElem?_getD, List.getElem?_mapIdx]
        rw [List.getElem?_eq_getElem (by omega : m < st.length)]
        simp
      simp only [List.getElem?_mapIdx, hs, Option.map_some', hb, Option.getD_some])
  obtain ⟨hl, hd⟩ := hmain
  unfold MpiCommunicator.gatherState
  simp only [← hlocals]
  refine ⟨hl, ?_⟩
  intro p hp
  rw [hd p hp]
  unfold rankOrderConcat
  congr 2
  apply List.map_congr_left
  intro q hq
  exact hloc q (List.mem_range.1 hq)

/-- The loop over the ranks of `gatherState`, from the invariant of one
iteration. -/
theorem gather_loop_inv {α : Type} (P : Nat) (loc : Nat → List α)
    (start : List (List α × List α)) (hstart : start.length = P)
    (h0 : ∀ p, p < P → ∃ t, start[p]? = some (t, []))
    (step : List (List α × List α) → Nat → List (List α × List α))
    (hstep : ∀ m, m < P → ∀ st : List (List α × List α), st.length = P →
      (∀ p, p < P → ∃ t, st[p]? = some (t, ((List.range m).map loc).flatten)) →
      (step st m).length = P ∧ ∀ p, p < P →
        ∃ t, (step st m)[p]? = some (t, ((List.range (m + 1)).map loc).flatten)) :
    (((List.range P).foldl step start).map fun s => s.2).length = P ∧
    ∀ p, p < P → (((List.range P).foldl step start).map fun s => s.2)[p]?
      = some (((List.range P).map loc).flatten) := by
  have hinv := foldl_range_inv step
    (fun m st => st.length = P ∧ ∀ p, p < P →
      ∃ t, st[p]? = some (t, ((List.range m).map loc).flatten))
    P start ⟨hstart, by simpa using h0⟩
    (fun m hm st hst => hstep m hm st hst.1 hst.2)
  obtain ⟨hl, hd⟩ := hinv
  refine ⟨by simpa using hl, ?_⟩
  intro p hp
  obtain ⟨t, ht⟩ := hd p hp
  rw [List.getElem?_map, ht]
  rfl

/-- The result of `gatherState` of the oneCCL communicator (global mode, every
process with at least one graph) in every process. -/
theorem ccl_gatherState_eq {α : Type} (w : World α) (getFn : Nat → Nat → List α)
    (hN : ∀ gs ∈ w, 1 ≤ gs.length) :
    (OneCCLCommunicator.gatherState ShardingMode.global w getFn).length = w.length ∧
    ∀ p, p < w.length →
      (OneCCLCommunicator.gatherState ShardingMode.global w getFn)[p]?
        = some (rankOrderConcat w getFn) := by
  obtain ⟨locals, hlocals⟩ : ∃ locals, locals = w.mapIdx fun p _ =>
      (OneCCLCommunicator.ofWorld ShardingMode.global w p).gatherLocal (getFn p) := ⟨_, rfl⟩
  have hlen : locals.length = w.length := by rw [hlocals]; exact List.length_mapIdx
  have hloc : ∀ q, q < w.length → (locals[q]?).getD [] =
      ((List.range (w.getD q []).length).map fun i => getFn q i).flatten := by
    intro q hq
    rw [hlocals, List.getElem?_mapIdx, List.getElem?_eq_getElem hq]
    simp only [Option.map_some', Option.getD_some]
    have hg : (OneCCLCommunicator.ofWorld ShardingMode.global w q).graphs_ = w.getD q [] := rfl
    have h1 : 1 ≤ (OneCCLCommunicator.ofWorld ShardingMode.global w q).graphs_.length := by
      rw [hg, List.getD_eq_getElem _ _ hq]
      exact hN _ (List.getElem_mem hq)
    rw [ccl_gatherLocal_eq _ _ h1, hg]
  have hmain := gather_loop_inv w.length (fun q => (locals[q]?).getD [])
    (locals.map fun l => (l, ([] : List α)))
    (by simp [hlen])
    (by
      intro p hp
      have hp' : p < locals.length := by omega
      refine ⟨locals[p], ?_⟩
      rw [List.getElem?_map, List.getElem?_eq_getElem hp']
      rfl)
    (fun st mpiRank =>
      st.mapIdx fun p s =>
        ((((bCast (st.mapIdx fun p s =>
          if mpiRank = p then (locals[p]?).getD [] else s.1) mpiRank)[p]?).getD []),
        if mpiRank = 0 then
          (((bCast (st.mapIdx fun p s =>
            if mpiRank = p then (locals[p]?).getD [] else s.1) mpiRank)[p]?).getD [])
        else
          s.2 ++ (((bCast (st.mapIdx fun p s =>
            if mpiRank = p then (locals[p]?).getD [] else s.1) mpiRank)[p]?).getD [])))
    (by
      intro m hm st hst hdata
      refine ⟨by simp [hst], ?_⟩
      intro p hp
      obtain ⟨t, ht⟩ := hdata p hp
      refine ⟨(locals[m]?).getD [], ?_⟩
      have hb : (bCast (st.mapIdx fun p s =>
          if m = p then (locals[p]?).getD [] else s.1) m)[p]?
          = some ((locals[m]?).getD []) := by
        rw [getElem?_bCast _ _ _ (by simp [hst]; exact hp)]
        simp only [List.getD_eq_getElem?_getD, List.getElem?_mapIdx]
        rw [List.getElem?_eq_getElem (by omega : m < st.length)]
        simp
      simp only [List.getElem?_mapIdx, ht, Option.map_some', hb, Option.getD_some]
      rw [List.range_succ, List.map_append, List.flatten_append]
      by_cases hm0 : m = 0
      · subst hm0
        simp
      · simp [hm0])
  obtain ⟨hl, hd⟩ := hmain
  unfold OneCCLCommunicator.gatherState
  simp only [← hlocals, if_true]
  refine ⟨hl, ?_⟩
  intro p hp
  rw [hd p hp]
  unfold rankOrderConcat
  congr 2
  apply List.map_congr_left
  intro q hq
  exact hloc q (List.mem_range.1 hq)

/-- C13 (`gatherState`): in every process `gatherState(getFn)` of the MPI
communicator returns the same vector, the concatenation of the data of the local
devices in ascending global rank order (the devices `0 .. N-1` of process 0,
then those of process 1, and so on); its length is the sum of the lengths of all
these data. The same holds for the oneCCL communicator in the global mode when
every process has a graph. -/
theorem gatherState_concat {α : Type} (w : World α) (getFn : Nat → Nat → List α) :
    (MpiCommunicator.gatherState w getFn).length = w.length ∧
    (∀ p, p < w.length →
      (MpiCommunicator.gatherState w getFn)[p]? = some (rankOrderConcat w getFn)) ∧
    (rankOrderConcat w getFn).length =
      ((List.range w.length).map fun p =>
        ((List.range (w.getD p []).length).map fun i => (getFn p i).length).sum).sum ∧
    ((∀ gs ∈ w, 1 ≤ gs.length) →
      (OneCCLCommunicator.gatherState ShardingMode.global w getFn).length = w.length ∧
      ∀ p, p < w.length →
        (OneCCLCommunicator.gatherState ShardingMode.global w getFn)[p]?
          = some (rankOrderConcat w getFn)) := by
  refine ⟨(mpi_gatherState_eq w getFn).1, (mpi_gatherState_eq w getFn).2, ?_,
    fun hN => ccl_gatherState_eq w getFn hN⟩
  unfold rankOrderConcat
  rw [List.length_flatten, List.map_map]
  congr 1
  apply List.map_congr_left
  intro p _
  simp only [Function.comp, List.length_flatten, List.map_map]
  rfl

/-- Witness of C13: two processes with one graph each, the data `[1, 2]` and
`[3, 4]`. -/
theorem gatherState_concat_witness :
    (∀ gs ∈ twoRanksParams, 1 ≤ gs.length) ∧
    ∀ p, p < twoRanksParams.length →
      (OneCCLCommunicator.gatherState ShardingMode.global twoRanksParams
          fun p i => twoRanksParams.valsAt p i)[p]?
        = some (rankOrderConcat twoRanksParams fun p i => twoRanksParams.valsAt p i) :=
  have h : ∀ gs ∈ twoRanksParams, 1 ≤ gs.length := by
    intro gs hgs
    simp only [twoRanksParams, List.mem_cons, List.mem_singleton, List.not_mem_nil,
      or_false] at hgs
    rcases hgs with rfl | rfl <;> decide
  ⟨h, ((gatherState_concat twoRanksParams fun p i => twoRanksParams.valsAt p i).2.2.2 h).2⟩

/-! ### `scatterState` -/

theorem foldlM_congr_memE {ε σ ι : Type} (l : List ι) (f g : σ → ι → Except ε σ)
    (h : ∀ x ∈ l, ∀ s, f s x = g s x) (s : σ) : l.foldlM f s = l.foldlM g s := by
  induction l generalizing s with
  | nil => rfl
  | cons a as ih =>
    simp only [List.foldlM_cons]
    rw [h a (List.mem_cons_self _ _) s]
    congr 1
    funext s'
    exact ih (fun x hx => h x (List.mem_cons_of_mem _ hx)) s'

theorem foldlM_pureE {ε σ ι : Type} (l : List ι) (F : σ → ι → σ) (s : σ) :
    l.foldlM (fun st i => (Except.ok (F st i) : Except ε σ)) s = .ok (l.foldl F s) := by
  induction l generalizing s with
  | nil => rfl
  | cons a as ih =>
    simp only [List.foldlM_cons, List.foldl_cons]
    exact ih (F s a)

/-- The arithmetic of `scatterState` for a buffer of `S * (P * N)` elements:
nothing wraps, the shard size is `S`, and the device `i` of process `p` is handed
the range `[(p * N + i) * S, (p * N + i) * S + S)`. -/
theorem scatter_range_facts {P N S D p i : Nat} (hN : 1 ≤ N) (hp : p < P) (hi : i < N)
    (hD : D = S * (P * N)) (hfit : D + P * N < 2 ^ 64) :
    szMul P N = P * N ∧ P * N ≠ 0 ∧
    szSub (szAdd D (P * N)) 1 / (P * N) = S ∧
    szAdd (szMul p N) i = p * N + i ∧
    szMul (p * N + i) S = (p * N + i) * S ∧
    min (szAdd ((p * N + i) * S) S) D = (p * N + i) * S + S := by
  have hPN : 1 ≤ P * N := Nat.mul_pos (by omega) (by omega)
  have h1 : p * N + i + 1 ≤ P * N := by
    have : (p + 1) * N ≤ P * N := Nat.mul_le_mul_right N (by omega)
    have h2 : (p + 1) * N = p * N + N := by ring
    omega
  have h3 : (p * N + i + 1) * S ≤ D := by
    have : (p * N + i + 1) * S ≤ P * N * S := Nat.mul_le_mul_right S h1
    have h4 : P * N * S = D := by rw [hD]; ring
    omega
  have h5 : (p * N + i + 1) * S = (p * N + i) * S + S := by ring
  have h6 : p * N ≤ p * N + i := by omega
  refine ⟨szMul_eq (by omega), by omega, ?_, ?_, ?_, ?_⟩
  · rw [shardSize_quot hPN (by omega), hD]
    have : S * (P * N) + P * N - 1 = (P * N - 1) + (P * N) * S := by
      have : S * (P * N) = (P * N) * S := by ring
      omega
    rw [this, Nat.add_mul_div_left _ _ (by omega : 0 < P * N),
      Nat.div_eq_of_lt (by omega)]
    omega
  · rw [szMul_eq (by omega), szAdd_eq (by omega)]
  · exact szMul_eq (by omega)
  · rw [szAdd_eq (by omega)]
    omega

/-- The calls of `setFn` made by `scatterState` of the MPI communicator for a
buffer whose length is a multiple of the number of ranks. -/
theorem mpi_scatterState_eq {α σ : Type} (c : MpiCommunicator α) {P N S p : Nat}
    (data : List α) (hg : c.graphs_.length = N) (hr : c.myMPIRank = p)
    (hn : c.numMPIProcesses = P) (hN : 1 ≤ N) (hp : p < P)
    (hD : data.length = S * (P * N)) (hfit : data.length + P * N < 2 ^ 64)
    (setFn : Nat → List α → Nat → Nat → σ → Except (String × σ) σ) (s : σ) :
    c.scatterState data setFn s =
      (List.range N).foldlM (fun st i =>
        setFn i data ((p * N + i) * S) ((p * N + i) * S + S) st) s := by
  unfold MpiCommunicator.scatterState MpiCommunicator.numRanks MpiCommunicator.myRank
  rw [hg, hr, hn]
  obtain ⟨h1, h2, h3, _⟩ := scatter_range_facts (i := 0) hN hp (by omega) hD hfit
  simp only [h1, h2, if_false, h3]
  apply foldlM_congr_memE
  intro i hi st
  obtain ⟨_, _, _, h4, h5, h6⟩ :=
    scatter_range_facts hN hp (List.mem_range.1 hi) hD hfit
  rw [h4, h5, h6]

/-- The calls of `setFn` made by `scatterState` of the oneCCL communicator in
the global mode for a buffer whose length is a multiple of the number of ranks. -/
theorem ccl_scatterState_eq {α σ : Type} (c : OneCCLCommunicator α) {P N S p : Nat}
    (data : List α) (hg : c.graphs_.length = N) (hr : c.myMPIRank = p)
    (hn : c.numMPIProcesses = P) (hm : c.shardingMode_ = ShardingMode.global)
    (hN : 1 ≤ N) (hp : p < P)
    (hD : data.length = S * (P * N)) (hfit : data.length + P * N < 2 ^ 64)
    (setFn : Nat → List α → Nat → Nat → σ → Except (String × σ) σ) (s : σ) :
    c.scatterState data setFn s =
      (List.range N).foldlM (fun st i =>
        setFn i data ((p * N + i) * S) ((p * N + i) * S + S) st) s := by
  unfold OneCCLCommunicator.scatterState OneCCLCommunicator.numRanks
    OneCCLCommunicator.myRank OneCCLCommunicator.numLocalRanks
    OneCCLCommunicator.myLocalRank
  rw [hg, hr, hn, hm]
  obtain ⟨h1, h2, h3, _⟩ := scatter_range_facts (i := 0) hN hp (by omega) hD hfit
  simp only [if_true, h1, h2, if_false, h3]
  apply foldlM_congr_memE
  intro i hi st
  obtain ⟨_, _, _, h4, h5, h6⟩ :=
    scatter_range_facts hN hp (List.mem_range.1 hi) hD hfit
  rw [h4, h5, h6]

/-- The slices of a vector at the consecutive positions `a`, `a + c`, ...
concatenate to one slice. -/
theorem flatten_chunks {α : Type} (v : List α) (a c n : Nat) :
    ((List.range n).map fun r => subtensor v (a + r * c) c).flatten
      = subtensor v a (n * c) := by
  induction n with
  | zero => simp [subtensor]
  | succ n ih =>
    rw [List.range_succ, List.map_append, List.flatten_append, ih]
    simp only [List.map_cons, List.map_nil, List.flatten_cons, List.flatten_nil,
      List.append_nil]
    unfold subtensor
    have h : (n + 1) * c = n * c + c := by ring
    rw [h, List.take_add, List.drop_drop]

/-- The store after `scatterState` with `storeSlice`: every local device holds
the slice of its rank. -/
theorem get_scattered {α σ : Type} (set : Nat → List α → σ → σ) (get : Nat → σ → List α)
    (hget : ∀ i x s, get i (set i x s) = x)
    (hkeep : ∀ i j x s, i ≠ j → get j (set i x s) = get j s)
    (data : List α) (N S p : Nat) (s : σ) (i : Nat) (hi : i < N) :
    get i (scattered set data N S p s) = subtensor data ((p * N + i) * S) S := by
  have h := foldl_range_inv
    (fun st i => set i (sliceOf data ((p * N + i) * S) ((p * N + i) * S + S)) st)
    (fun k st => ∀ i, i < k → get i st = subtensor data ((p * N + i) * S) S)
    N s (fun i hi => by omega)
    (by
      intro k _ st hst i hi
      by_cases hik : i = k
      · subst hik
        rw [hget]
        unfold sliceOf
        congr 1
        omega
      · rw [hkeep k i _ _ (fun h => hik h.symm)]
        exact hst i (by omega))
  exact h i hi

/-- The slices of the ranks, concatenated in rank order, are the buffer. -/
theorem rankOrderConcat_slices {α : Type} (w : World α) (N S : Nat) (data : List α)
    (hw : ∀ gs ∈ w, gs.length = N) (hD : data.length = S * (w.length * N))
    (f : Nat → Nat → List α)
    (hf : ∀ p, p < w.length → ∀ i, i < N → f p i = subtensor data ((p * N + i) * S) S) :
    rankOrderConcat w f = data := by
  unfold rankOrderConcat
  have hin : ∀ p ∈ List.range w.length,
      ((List.range (w.getD p []).length).map fun i => f p i).flatten
        = subtensor data (0 + p * (N * S)) (N * S) := by
    intro p hp
    have hp' : p < w.length := List.mem_range.1 hp
    have hl : (w.getD p []).length = N := by
      rw [List.getD_eq_getElem _ _ hp']
      exact hw _ (List.getElem_mem hp')
    rw [hl, ← flatten_chunks data (0 + p * (N * S)) S N]
    congr 1
    apply List.map_congr_left
    intro i hi
    rw [hf p hp' i (List.mem_range.1 hi)]
    congr 1
    ring
  rw [List.map_congr_left hin, flatten_chunks]
  unfold subtensor
  rw [List.drop_zero]
  apply List.take_of_length_le
  rw [hD]
  apply Nat.le_of_eq
  ring

/-- C11 (round trip of state persistence): for `P >= 1` processes with `N >= 1`
local devices each and a buffer whose length is a multiple `S * (P * N)` of the
number of ranks (lengths representable in `size_t`), with a callback `setFn` that
stores the slice it is given as the vector of its device and a callback `getFn`
that returns the stored vector: `scatterState(buffer, setFn)` returns in every
process, and `gatherState(getFn)` executed afterwards returns the buffer in every
process. This holds for the MPI communicator and for the oneCCL communicator in
the global mode. -/
theorem scatter_gather_round_trip {α σ : Type} (w : World α) (N S : Nat) (data : List α)
    (set : Nat → List α → σ → σ) (get : Nat → σ → List α)
    (hget : ∀ i x s, get i (set i x s) = x)
    (hkeep : ∀ i j x s, i ≠ j → get j (set i x s) = get j s)
    (hN : 1 ≤ N) (hw : ∀ gs ∈ w, gs.length = N)
    (hD : data.length = S * (w.length * N))
    (hfit : data.length + w.length * N < 2 ^ 64) (s0 : Nat → σ) :
    (∀ p, p < w.length →
      (MpiCommunicator.ofWorld w p).scatterState data (storeSlice set) (s0 p)
        = .ok (scattered set data N S p (s0 p))) ∧
    (MpiCommunicator.gatherState w fun p i =>
      get i (scattered set data N S p (s0 p))).length = w.length ∧
    (∀ p, p < w.length →
      (MpiCommunicator.gatherState w fun p i =>
        get i (scattered set data N S p (s0 p)))[p]? = some data) ∧
    (∀ p, p < w.length →
      (OneCCLCommunicator.ofWorld ShardingMode.global w p).scatterState data
          (storeSlice set) (s0 p)
        = .ok (scattered set data N S p (s0 p))) ∧
    (OneCCLCommunicator.gatherState ShardingMode.global w fun p i =>
      get i (scattered set data N S p (s0 p))).length = w.length ∧
    (∀ p, p < w.length →
      (OneCCLCommunicator.gatherState ShardingMode.global w fun p i =>
        get i (scattered set data N S p (s0 p)))[p]? = some data) := by
  have hcat : rankOrderConcat w (fun p i => get i (scattered set data N S p (s0 p)))
      = data :=
    rankOrderConcat_slices w N S data hw hD _
      (fun p _ i hi => get_scattered set get hget hkeep data N S p (s0 p) i hi)
  have hlen : ∀ p, p < w.length → (w.getD p []).length = N := by
    intro p hp
    rw [List.getD_eq_getElem _ _ hp]
    exact hw _ (List.getElem_mem hp)
  have hN' : ∀ gs ∈ w, 1 ≤ gs.length := fun gs hgs => by rw [hw gs hgs]; exact hN
  obtain ⟨hm1, hm2⟩ := mpi_gatherState_eq w
    (fun p i => get i (scattered set data N S p (s0 p)))
  obtain ⟨hc1, hc2⟩ := ccl_gatherState_eq w
    (fun p i => get i (scattered set data N S p (s0 p))) hN'
  refine ⟨?_, hm1, ?_, ?_, hc1, ?_⟩
  · intro p hp
    rw [mpi_scatterState_eq (MpiCommunicator.ofWorld w p) data (hlen p hp) rfl rfl hN hp
      hD hfit]
    exact foldlM_pureE _ _ _
  · intro p hp
    rw [hm2 p hp, hcat]
  · intro p hp
    rw [ccl_scatterState_eq (OneCCLCommunicator.ofWorld ShardingMode.global w p) data
      (hlen p hp) rfl rfl rfl hN hp hD hfit]
    exact foldlM_pureE _ _ _
  · intro p hp
    rw [hc2 p hp, hcat]

/-- Witness of C11: two processes with two devices each and the buffer
`[5, 6, 7, 8]`, one element per rank. -/
theorem scatter_gather_round_trip_witness :
    (MpiCommunicator.gatherState twoByTwo fun p i =>
      getVec i (scattered setVec [5, 6, 7, 8] 2 1 p (fun _ => [])))[0]?
      = some [5, 6, 7, 8] ∧
    (MpiCommunicator.gatherState twoByTwo fun p i =>
      getVec i (scattered setVec [5, 6, 7, 8] 2 1 p (fun _ => [])))[1]?
      = some [5, 6, 7, 8] :=
  have h := (scatter_gather_round_trip twoByTwo 2 1 [5, 6, 7, 8] setVec getVec
    (fun i x s => by simp [getVec, setVec])
    (fun i j x s h => by
      have h' : ¬ j = i := fun e => h e.symm
      simp [getVec, setVec, h'])
    (by decide)
    (by
      intro gs hgs
      simp only [twoByTwo, List.mem_cons, List.mem_singleton, List.not_mem_nil,
        or_false] at hgs
      rcases hgs with rfl | rfl <;> rfl)
    (by decide) (by decide) (fun _ _ => [])).2.2.1
  ⟨h 0 (by decide), h 1 (by decide)⟩

/-- The arithmetic of `scatterState` for any buffer of `D` elements: nothing
wraps, and the shard size is `(D + P * N - 1) / (P * N)`. -/
theorem scatter_range_general {P N D p i : Nat} (hN : 1 ≤ N) (hp : p < P) (hi : i < N)
    (hfit : D + P * N < 2 ^ 64) :
    szMul P N = P * N ∧ P * N ≠ 0 ∧
    szSub (szAdd D (P * N)) 1 / (P * N) = (D + P * N - 1) / (P * N) ∧
    szAdd (szMul p N) i = p * N + i ∧
    szMul (p * N + i) ((D + P * N - 1) / (P * N))
      = (p * N + i) * ((D + P * N - 1) / (P * N)) ∧
    szAdd ((p * N + i) * ((D + P * N - 1) / (P * N))) ((D + P * N - 1) / (P * N))
      = (p * N + i) * ((D + P * N - 1) / (P * N)) + (D + P * N - 1) / (P * N) := by
  have hPN : 1 ≤ P * N := Nat.mul_pos (by omega) (by omega)
  have h1 : p * N + i + 1 ≤ P * N := by
    have : (p + 1) * N ≤ P * N := Nat.mul_le_mul_right N (by omega)
    have h2 : (p + 1) * N = p * N + N := by ring
    omega
  generalize hS : (D + P * N - 1) / (P * N) = S
  have h2 : P * N * S ≤ D + P * N - 1 := by
    rw [← hS]
    exact Nat.mul_div_le _ _
  have h3 : (p * N + i + 1) * S ≤ P * N * S := Nat.mul_le_mul_right S h1
  have h5 : (p * N + i + 1) * S = (p * N + i) * S + S := by ring
  refine ⟨szMul_eq (by omega), by omega, ?_, ?_, szMul_eq (by omega), szAdd_eq (by omega)⟩
  · rw [shardSize_quot hPN (by omega), hS]
  · rw [szMul_eq (by omega), szAdd_eq (by omega)]

theorem foldl_append_singleton {β ι : Type} (l : List ι) (g : ι → β) (acc : List β) :
    l.foldl (fun a i => a ++ [g i]) acc = acc ++ l.map g := by
  induction l generalizing acc with
  | nil => simp
  | cons x xs ih =>
    simp only [List.foldl_cons, List.map_cons]
    rw [ih, List.append_assoc]
    rfl

/-- The calls of `setFn` made by `scatterState` of the MPI communicator, for
any buffer. -/
theorem mpi_scatterState_general {α σ : Type} (c : MpiCommunicator α) (data : List α)
    (hN : 1 ≤ c.graphs_.length) (hp : c.myMPIRank < c.numMPIProcesses)
    (hfit : data.length + c.numMPIProcesses * c.graphs_.length < 2 ^ 64)
    (setFn : Nat → List α → Nat → Nat → σ → Except (String × σ) σ) (s : σ) :
    c.scatterState data setFn s =
      (List.range c.graphs_.length).foldlM (fun st i =>
        setFn i data
          ((c.myMPIRank * c.graphs_.length + i) *
            ((data.length + c.numMPIProcesses * c.graphs_.length - 1) /
              (c.numMPIProcesses * c.graphs_.length)))
          (min ((c.myMPIRank * c.graphs_.length + i) *
              ((data.length + c.numMPIProcesses * c.graphs_.length - 1) /
                (c.numMPIProcesses * c.graphs_.length)) +
            (data.length + c.numMPIProcesses * c.graphs_.length - 1) /
              (c.numMPIProcesses * c.graphs_.length)) data.length) st) s := by
  unfold MpiCommunicator.scatterState MpiCommunicator.numRanks MpiCommunicator.myRank
  obtain ⟨h1, h2, h3, _⟩ := scatter_range_general (i := 0) hN hp (by omega) hfit
  simp only [h1, h2, if_false, h3]
  apply foldlM_congr_memE
  intro i hi st
  obtain ⟨_, _, _, h4, h5, h6⟩ :=
    scatter_range_general hN hp (List.mem_range.1 hi) hfit
  rw [h4, h5, h6]

/-- The calls of `setFn` made by `scatterState` of the oneCCL communicator in
the global mode, for any buffer. -/
theorem ccl_scatterState_general {α σ : Type} (c : OneCCLCommunicator α) (data : List α)
    (hm : c.shardingMode_ = ShardingMode.global)
    (hN : 1 ≤ c.graphs_.length) (hp : c.myMPIRank < c.numMPIProcesses)
    (hfit : data.length + c.numMPIProcesses * c.graphs_.length < 2 ^ 64)
    (setFn : Nat → List α → Nat → Nat → σ → Except (String × σ) σ) (s : σ) :
    c.scatterState data setFn s =
      (List.range c.graphs_.length).foldlM (fun st i =>
        setFn i data
          ((c.myMPIRank * c.graphs_.length + i) *
            ((data.length + c.numMPIProcesses * c.graphs_.length - 1) /
              (c.numMPIProcesses * c.graphs_.length)))
          (min ((c.myMPIRank * c.graphs_.length + i) *
              ((data.length + c.numMPIProcesses * c.graphs_.length - 1) /
                (c.numMPIProcesses * c.graphs_.length)) +
            (data.length + c.numMPIProcesses * c.graphs_.length - 1) /
              (c.numMPIProcesses * c.graphs_.length)) data.length) st) s := by
  unfold OneCCLCommunicator.scatterState OneCCLCommunicator.numRanks
    OneCCLCommunicator.myRank OneCCLCommunicator.numLocalRanks
    OneCCLCommunicator.myLocalRank
  rw [hm]
  obtain ⟨h1, h2, h3, _⟩ := scatter_range_general (i := 0) hN hp (by omega) hfit
  simp only [if_true, h1, h2, if_false, h3]
  apply foldlM_congr_memE
  intro i hi st
  obtain ⟨_, _, _, h4, h5, h6⟩ :=
    scatter_range_general hN hp (List.mem_range.1 hi) hfit
  rw [h4, h5, h6]

/-- C12 (counterexample to "uneven buffers are refused"): `scatterState` of a
process with two devices returns for a buffer of three elements, which two
ranks do not divide, and hands `[7, 8]` to device 0 and `[9]` to device 1; the
oneCCL communicator with two processes of one device each does the same. -/
theorem scatterState_uneven_returns :
    [(7 : ℤ), 8, 9].length % twoDevices.numRanks ≠ 0 ∧
    twoDevices.scatterState [7, 8, 9] recordSlice []
      = .ok [(0, 0, 2, [7, 8]), (1, 2, 3, [9])] ∧
    [(7 : ℤ), 8, 9].length %
      (OneCCLCommunicator.ofWorld ShardingMode.global twoRanksParams 0).numRanks ≠ 0 ∧
    (OneCCLCommunicator.ofWorld ShardingMode.global twoRanksParams 0).scatterState
        [7, 8, 9] recordSlice []
      = .ok [(0, 0, 2, [7, 8])] ∧
    (OneCCLCommunicator.ofWorld ShardingMode.global twoRanksParams 1).scatterState
        [7, 8, 9] recordSlice []
      = .ok [(0, 2, 3, [9])] :=
  ⟨by decide, rfl, by decide, rfl, rfl⟩

/-- C12 (amended): `scatterState` has no check of its own. For every buffer
(lengths representable in `size_t`), multiple of the number of ranks or not, it
calls `setFn` once per local device, in ascending order, with the range
`[rank * S, min (rank * S + S) dataSize)` where `S` is
`(dataSize + numRanks - 1) / numRanks`; hence it fails only if `setFn` fails, and
with an observer as `setFn` it returns the list of these calls. This holds for
the MPI communicator and for the oneCCL communicator in the global mode. -/
theorem scatterState_clips_last_shard {α σ : Type} (c : MpiCommunicator α)
    (d : OneCCLCommunicator α) (data : List α)
    (hcN : 1 ≤ c.graphs_.length) (hcp : c.myMPIRank < c.numMPIProcesses)
    (hcfit : data.length + c.numMPIProcesses * c.graphs_.length < 2 ^ 64)
    (hdm : d.shardingMode_ = ShardingMode.global)
    (hdN : 1 ≤ d.graphs_.length) (hdp : d.myMPIRank < d.numMPIProcesses)
    (hdfit : data.length + d.numMPIProcesses * d.graphs_.length < 2 ^ 64)
    (setFn : Nat → List α → Nat → Nat → σ → Except (String × σ) σ) (s : σ) :
    c.scatterState data setFn s =
      (List.range c.graphs_.length).foldlM (fun st i =>
        setFn i data
          ((c.myMPIRank * c.graphs_.length + i) *
            ((data.length + c.numMPIProcesses * c.graphs_.length - 1) /
              (c.numMPIProcesses * c.graphs_.length)))
          (min ((c.myMPIRank * c.graphs_.length + i) *
              ((data.length + c.numMPIProcesses * c.graphs_.length - 1) /
                (c.numMPIProcesses * c.graphs_.length)) +
            (data.length + c.numMPIProcesses * c.graphs_.length - 1) /
              (c.numMPIProcesses * c.graphs_.length)) data.length) st) s ∧
    c.scatterState data recordSlice [] =
      .ok ((List.range c.graphs_.length).map fun i =>
        (i,
          (c.myMPIRank * c.graphs_.length + i) *
            ((data.length + c.numMPIProcesses * c.graphs_.length - 1) /
              (c.numMPIProcesses * c.graphs_.length)),
          min ((c.myMPIRank * c.graphs_.length + i) *
              ((data.length + c.numMPIProcesses * c.graphs_.length - 1) /
                (c.numMPIProcesses * c.graphs_.length)) +
            (data.length + c.numMPIProcesses * c.graphs_.length - 1) /
              (c.numMPIProcesses * c.graphs_.length)) data.length,
          sliceOf data
            ((c.myMPIRank * c.graphs_.length + i) *
              ((data.length + c.numMPIProcesses * c.graphs_.length - 1) /
                (c.numMPIProcesses * c.graphs_.length)))
            (min ((c.myMPIRank * c.graphs_.length + i) *
                ((data.length + c.numMPIProcesses * c.graphs_.length - 1) /
                  (c.numMPIProcesses * c.graphs_.length)) +
              (data.length + c.numMPIProcesses * c.graphs_.length - 1) /
                (c.numMPIProcesses * c.graphs_.length)) data.length))) ∧
    d.scatterState data setFn s =
      (List.range d.graphs_.length).foldlM (fun st i =>
        setFn i data
          ((d.myMPIRank * d.graphs_.length + i) *
            ((data.length + d.numMPIProcesses * d.graphs_.length - 1) /
              (d.numMPIProcesses * d.graphs_.length)))
          (min ((d.myMPIRank * d.graphs_.length + i) *
              ((data.length + d.numMPIProcesses * d.graphs_.length - 1) /
                (d.numMPIProcesses * d.graphs_.length)) +
            (data.length + d.numMPIProcesses * d.graphs_.length - 1) /
              (d.numMPIProcesses * d.graphs_.length)) data.length) st) s ∧
    ∃ calls, d.scatterState data recordSlice [] = .ok calls ∧
      calls.length = d.graphs_.length := by
  refine ⟨mpi_scatterState_general c data hcN hcp hcfit setFn s, ?_,
    ccl_scatterState_general d data hdm hdN hdp hdfit setFn s, ?_⟩
  · rw [mpi_scatterState_general c data hcN hcp hcfit]
    unfold recordSlice
    rw [foldlM_pureE, foldl_append_singleton]
    rfl
  · rw [ccl_scatterState_general d data hdm hdN hdp hdfit]
    unfold recordSlice
    rw [foldlM_pureE, foldl_append_singleton]
    exact ⟨_, rfl, by simp⟩

/-- Witness of C12 (amended): two devices and a buffer of three elements. -/
theorem scatterState_clips_last_shard_witness :
    twoDevices.scatterState [7, 8, 9] recordSlice [] =
      .ok ((List.range twoDevices.graphs_.length).map fun i =>
        (i,
          (twoDevices.myMPIRank * twoDevices.graphs_.length + i) *
            (([(7 : ℤ), 8, 9].length +
                twoDevices.numMPIProcesses * twoDevices.graphs_.length - 1) /
              (twoDevices.numMPIProcesses * twoDevices.graphs_.length)),
          min ((twoDevices.myMPIRank * twoDevices.graphs_.length + i) *
              (([(7 : ℤ), 8, 9].length +
                  twoDevices.numMPIProcesses * twoDevices.graphs_.length - 1) /
                (twoDevices.numMPIProcesses * twoDevices.graphs_.length)) +
            ([(7 : ℤ), 8, 9].length +
                twoDevices.numMPIProcesses * twoDevices.graphs_.length - 1) /
              (twoDevices.numMPIProcesses * twoDevices.graphs_.length))
            [(7 : ℤ), 8, 9].length,
          sliceOf [7, 8, 9]
            ((twoDevices.myMPIRank * twoDevices.graphs_.length + i) *
              (([(7 : ℤ), 8, 9].length +
                  twoDevices.numMPIProcesses * twoDevices.graphs_.length - 1) /
                (twoDevices.numMPIProcesses * twoDevices.graphs_.length)))
            (min ((twoDevices.myMPIRank * twoDevices.graphs_.length + i) *
                (([(7 : ℤ), 8, 9].length +
                    twoDevices.numMPIProcesses * twoDevices.graphs_.length - 1) /
                  (twoDevices.numMPIProcesses * twoDevices.graphs_.length)) +
              ([(7 : ℤ), 8, 9].length +
                  twoDevices.numMPIProcesses * twoDevices.graphs_.length - 1) /
                (twoDevices.numMPIProcesses * twoDevices.graphs_.length))
              [(7 : ℤ), 8, 9].length))) :=
  (scatterState_clips_last_shard (σ := Unit) twoDevices
    (OneCCLCommunicator.ofWorld ShardingMode.global twoRanksParams 1) [7, 8, 9]
    (by decide) (by decide) (by decide) rfl (by decide) (by decide) (by decide)
    (fun _ _ _ _ s => .ok s) ()).2.1

/-! ### `swapParams` -/

/-- The function `scatterState` in terms of the ranges `stateRange`. -/
theorem mpi_scatterState_ranges {α σ : Type} (c : MpiCommunicator α) (data : List α)
    (hR : c.numRanks ≠ 0)
    (setFn : Nat → List α → Nat → Nat → σ → Except (String × σ) σ) (s : σ) :
    c.scatterState data setFn s =
      (List.range c.graphs_.length).foldlM (fun st i =>
        setFn i data (c.stateRange data.length i).1 (c.stateRange data.length i).2 st) s := by
  unfold MpiCommunicator.scatterState MpiCommunicator.stateRange
  simp only [hR, if_false]

/-- The loop of `scatterState` with the callback of `swapParams`: it completes
when every shard has the size of its slice, and aborts otherwise. -/
theorem swap_fold {α : Type} (msg : String) (L : Nat → Nat) (sl : Nat → List α)
    (shards : List (List α)) (n : Nat) :
    ((∀ i, i < n → ((shards[i]?).getD []).length = L i) →
      (List.range n).foldlM (fun (sh : List (List α)) i =>
        if ((sh[i]?).getD []).length ≠ L i then
          (Except.error (msg, sh) : Except (String × List (List α)) (List (List α)))
        else .ok (sh.mapIdx fun j t => if j = i then copyInto t 0 (sl i) else t)) shards
      = .ok (shards.mapIdx fun j t => if j < n then copyInto t 0 (sl j) else t)) ∧
    ((∃ i, i < n ∧ ((shards[i]?).getD []).length ≠ L i) →
      ∃ sh, (List.range n).foldlM (fun (sh : List (List α)) i =>
        if ((sh[i]?).getD []).length ≠ L i then
          (Except.error (msg, sh) : Except (String × List (List α)) (List (List α)))
        else .ok (sh.mapIdx fun j t => if j = i then copyInto t 0 (sl i) else t)) shards
      = .error (msg, sh)) := by
  induction n with
  | zero =>
    refine ⟨fun _ => ?_, fun ⟨i, hi, _⟩ => absurd hi (by omega)⟩
    simp only [List.range_zero, List.foldlM_nil]
    show Except.ok shards = _
    congr 1
    apply List.ext_getElem?
    intro k
    rw [List.getElem?_mapIdx]
    cases shards[k]? <;> simp
  | succ n ih =>
    obtain ⟨ih1, ih2⟩ := ih
    have hform : ((shards.mapIdx fun j t =>
        if j < n then copyInto t 0 (sl j) else t)[n]?).getD [] = (shards[n]?).getD [] := by
      rw [List.getElem?_mapIdx]
      cases shards[n]? <;> simp
    constructor
    · intro hall
      rw [List.range_succ, List.foldlM_append, ih1 (fun i hi => hall i (by omega))]
      simp only [bind, Except.bind, List.foldlM_cons, List.foldlM_nil, hform,
        hall n (by omega), ne_eq, not_true_eq_false, if_false, pure, Except.pure]
      congr 1
      apply List.ext_getElem?
      intro k
      simp only [List.getElem?_mapIdx]
      cases shards[k]? with
      | none => rfl
      | some t =>
        simp only [Option.map_some', Option.some.injEq]
        by_cases h1 : k = n
        · subst h1
          simp
        · by_cases h2 : k < n
          · rw [if_neg h1, if_pos h2, if_pos (by omega)]
          · rw [if_neg h1, if_neg h2, if_neg (by omega)]
    · rintro ⟨i, hi, hne⟩
      by_cases hprev : ∃ i, i < n ∧ ((shards[i]?).getD []).length ≠ L i
      · obtain ⟨sh, hsh⟩ := ih2 hprev
        refine ⟨sh, ?_⟩
        rw [List.range_succ, List.foldlM_append, hsh]
        rfl
      · have hall : ∀ i, i < n → ((shards[i]?).getD []).length = L i := by
          intro j hj
          by_contra hc
          exact hprev ⟨j, hj, hc⟩
        have hin : i = n := by
          by_contra hc
          exact hne (hall i (by omega))
        subst hin
        refine ⟨shards.mapIdx fun j t => if j < i then copyInto t 0 (sl j) else t, ?_⟩
        rw [List.range_succ, List.foldlM_append, ih1 hall]
        simp only [bind, Except.bind, List.foldlM_cons, List.foldlM_nil, hform, hne,
          ne_eq, not_false_eq_true, if_true]

/-- The outcome of `swapLocal` in its three cases. -/
theorem swapLocal_cases {α : Type} (c : MpiCommunicator α) (shards : List (List α))
    (dp : List α) (hR : c.numRanks ≠ 0) :
    (dp.length ≠ c.localParams.length →
      c.swapLocal shards dp = .error (msgSwapLength, (c, shards))) ∧
    (dp.length = c.localParams.length →
      (∃ i, i < c.graphs_.length ∧ ((shards[i]?).getD []).length ≠
        szSub (c.stateRange c.localParams.length i).2
          (c.stateRange c.localParams.length i).1) →
      ∃ sh, c.swapLocal shards dp = .error (msgSwapShard, (c, sh))) ∧
    (dp.length = c.localParams.length →
      (∀ i, i < c.graphs_.length → ((shards[i]?).getD []).length =
        szSub (c.stateRange c.localParams.length i).2
          (c.stateRange c.localParams.length i).1) →
      c.swapLocal shards dp = .ok
        (⟨c.graphs_.map fun g => { g with vals := copyInto g.vals 0 dp },
          c.myMPIRank, c.numMPIProcesses⟩,
        shards.mapIdx fun j t =>
          if j < c.graphs_.length then
            copyInto t 0 (sliceOf c.localParams (c.stateRange c.localParams.length j).1
              (c.stateRange c.localParams.length j).2)
          else t)) := by
  have hfold := swap_fold msgSwapShard
    (fun i => szSub (c.stateRange c.localParams.length i).2
      (c.stateRange c.localParams.length i).1)
    (fun i => sliceOf c.localParams (c.stateRange c.localParams.length i).1
      (c.stateRange c.localParams.length i).2) shards c.graphs_.length
  unfold MpiCommunicator.localParams at hfold ⊢
  refine ⟨?_, ?_, ?_⟩
  · intro h
    unfold MpiCommunicator.swapLocal
    rw [if_pos h]
  · intro h hex
    obtain ⟨sh, hsh⟩ := hfold.2 hex
    refine ⟨sh, ?_⟩
    unfold MpiCommunicator.swapLocal
    rw [if_neg (by simpa using h)]
    simp only []
    rw [mpi_scatterState_ranges c _ hR]
    rw [hsh]
  · intro h hall
    unfold MpiCommunicator.swapLocal
    rw [if_neg (by simpa using h)]
    simp only []
    rw [mpi_scatterState_ranges c _ hR]
    rw [hfold.1 hall]

/-- The outcome of `swapParams` in the process `p`: `swapLocal` applied to the
concatenation of all shards in rank order. -/
theorem mpi_swapParams_at {α : Type} (w : World α) (shards : List (List (List α)))
    (p : Nat) (hp : p < w.length) :
    (MpiCommunicator.swapParams w shards)[p]? =
      some ((MpiCommunicator.ofWorld w p).swapLocal ((shards[p]?).getD [])
        (rankOrderConcat w fun p i => (((shards[p]?).getD [])[i]?).getD [])) := by
  unfold MpiCommunicator.swapParams
  rw [List.getElem?_mapIdx, List.getElem?_eq_getElem hp,
    (mpi_gatherState_eq w _).2 p hp]
  rfl

/-- C15 (aborts of `swapParams`): in a process with at least one rank,
`swapParams` aborts if and only if the length of the gathered distributed shards
differs from the length of the parameter vector of `graphs_[0]`, or the size of
the shard of a local device differs from `end - begin` of the slice it is handed.
When the length check fails the abort is "distributed sharded and local params
have different size??" and neither a shard nor a graph has been modified; a
shard mismatch aborts with "swapParams size mismatch??" and leaves the graphs
unmodified. -/
theorem swapParams_abort_iff {α : Type} (w : World α) (shards : List (List (List α)))
    (p : Nat) (hp : p < w.length) (hR : (MpiCommunicator.ofWorld w p).numRanks ≠ 0) :
    ∃ r, (MpiCommunicator.swapParams w shards)[p]? = some r ∧
      ((∃ e, r = .error e) ↔
        ((rankOrderConcat w fun p i => (((shards[p]?).getD [])[i]?).getD []).length ≠
            (MpiCommunicator.ofWorld w p).localParams.length ∨
         ∃ i, i < (MpiCommunicator.ofWorld w p).graphs_.length ∧
          ((((shards[p]?).getD [])[i]?).getD []).length ≠
            szSub
              ((MpiCommunicator.ofWorld w p).stateRange
                (MpiCommunicator.ofWorld w p).localParams.length i).2
              ((MpiCommunicator.ofWorld w p).stateRange
                (MpiCommunicator.ofWorld w p).localParams.length i).1)) ∧
      ((rankOrderConcat w fun p i => (((shards[p]?).getD [])[i]?).getD []).length ≠
          (MpiCommunicator.ofWorld w p).localParams.length →
        r = .error (msgSwapLength, (MpiCommunicator.ofWorld w p, (shards[p]?).getD []))) ∧
      ((rankOrderConcat w fun p i => (((shards[p]?).getD [])[i]?).getD []).length =
          (MpiCommunicator.ofWorld w p).localParams.length →
        (∃ i, i < (MpiCommunicator.ofWorld w p).graphs_.length ∧
          ((((shards[p]?).getD [])[i]?).getD []).length ≠
            szSub
              ((MpiCommunicator.ofWorld w p).stateRange
                (MpiCommunicator.ofWorld w p).localParams.length i).2
              ((MpiCommunicator.ofWorld w p).stateRange
                (MpiCommunicator.ofWorld w p).localParams.length i).1) →
        ∃ sh, r = .error (msgSwapShard, (MpiCommunicator.ofWorld w p, sh))) := by
  obtain ⟨h1, h2, h3⟩ := swapLocal_cases (MpiCommunicator.ofWorld w p)
    ((shards[p]?).getD [])
    (rankOrderConcat w fun p i => (((shards[p]?).getD [])[i]?).getD []) hR
  refine ⟨_, mpi_swapParams_at w shards p hp, ?_, h1, h2⟩
  constructor
  · rintro ⟨e, he⟩
    by_contra hcon
    rw [not_or] at hcon
    obtain ⟨hc1, hc2⟩ := hcon
    have hall : ∀ i, i < (MpiCommunicator.ofWorld w p).graphs_.length →
        ((((shards[p]?).getD [])[i]?).getD []).length =
          szSub
            ((MpiCommunicator.ofWorld w p).stateRange
              (MpiCommunicator.ofWorld w p).localParams.length i).2
            ((MpiCommunicator.ofWorld w p).stateRange
              (MpiCommunicator.ofWorld w p).localParams.length i).1 := by
      intro i hi
      by_contra hne
      exact hc2 ⟨i, hi, hne⟩
    rw [h3 (not_not.1 hc1) hall] at he
    cases he
  · rintro (hlen | hex)
    · exact ⟨_, h1 hlen⟩
    · by_cases hlen : (rankOrderConcat w fun p i =>
          (((shards[p]?).getD [])[i]?).getD []).length =
          (MpiCommunicator.ofWorld w p).localParams.length
      · obtain ⟨sh, hsh⟩ := h2 hlen hex
        exact ⟨_, hsh⟩
      · exact ⟨_, h1 hlen⟩

/-- Witness of C15: one process with two devices that hold `[1, 2, 3]` and the
shards `[4]` and `[5, 6]`; device 0 is handed two elements. -/
theorem swapParams_abort_iff_witness :
    ∃ r, (MpiCommunicator.swapParams oneByTwo [[[4], [5, 6]]])[0]? = some r ∧
      ∃ e, r = .error e := by
  obtain ⟨r, h1, h2, _⟩ :=
    swapParams_abort_iff oneByTwo [[[4], [5, 6]]] 0 (by decide) (by decide)
  exact ⟨r, h1, h2.2 (Or.inr ⟨0, by decide, by decide⟩)⟩

/-- The length of the concatenation of lists of one length. -/
theorem length_flatten_uniform {β : Type} (M : List (List β)) (c : Nat)
    (h : ∀ x ∈ M, x.length = c) : M.flatten.length = M.length * c := by
  induction M with
  | nil => simp
  | cons x xs ih =>
    rw [List.flatten_cons, List.length_append, ih (fun y hy => h y (List.mem_cons_of_mem _ hy)),
      h x (List.mem_cons_self _ _), List.length_cons]
    ring

/-- The element `r * c + i` of the concatenation of lists of length `c` is the
element `i` of the list `r`. -/
theorem getElem?_flatten_uniform {β : Type} (M : List (List β)) (c : Nat)
    (h : ∀ x ∈ M, x.length = c) (r i : Nat) (hi : i < c) :
    M.flatten[r * c + i]? = (M[r]?).bind fun x => x[i]? := by
  induction M generalizing r with
  | nil => simp
  | cons x xs ih =>
    have hx : x.length = c := h x (List.mem_cons_self _ _)
    rw [List.flatten_cons]
    cases r with
    | zero =>
      rw [List.getElem?_append_left (by omega)]
      simp
    | succ r =>
      rw [List.getElem?_append_right (by rw [hx]; nlinarith)]
      have : (r + 1) * c + i - x.length = r * c + i := by
        rw [hx]
        have : (r + 1) * c = r * c + c := by ring
        omega
      rw [this, ih (fun y hy => h y (List.mem_cons_of_mem _ hy))]
      simp

/-- The slice of rank `p * N + i` of the concatenation in rank order of shards
of one size is the shard of the device `i` of process `p`. -/
theorem subtensor_rankOrderConcat {α : Type} (w : World α) (N S : Nat)
    (hw : ∀ gs ∈ w, gs.length = N) (f : Nat → Nat → List α)
    (hf : ∀ p, p < w.length → ∀ i, i < N → (f p i).length = S)
    (p i : Nat) (hp : p < w.length) (hi : i < N) :
    subtensor (rankOrderConcat w f) ((p * N + i) * S) S = f p i := by
  have hlen : ∀ p, p < w.length → (w.getD p []).length = N := by
    intro p hp
    rw [List.getD_eq_getElem _ _ hp]
    exact hw _ (List.getElem_mem hp)
  apply List.ext_getElem?
  intro k
  rw [getElem?_subtensor]
  by_cases hk : k < S
  · rw [if_pos hk]
    unfold rankOrderConcat
    have h1 : (p * N + i) * S + k = p * (N * S) + (i * S + k) := by ring
    have h2 : i * S + k < N * S := by
      have : (i + 1) * S ≤ N * S := Nat.mul_le_mul_right S (by omega)
      have h3 : (i + 1) * S = i * S + S := by ring
      omega
    rw [h1, getElem?_flatten_uniform _ (N * S) _ p (i * S + k) h2]
    · rw [List.getElem?_map, List.getElem?_range hp]
      simp only [Option.map_some', Option.some_bind]
      rw [hlen p hp, getElem?_flatten_uniform _ S _ i k hk]
      · rw [List.getElem?_map, List.getElem?_range hi]
        rfl
      · intro x hx
        obtain ⟨j, hj, rfl⟩ := List.mem_map.1 hx
        exact hf p hp j (List.mem_range.1 hj)
    · intro x hx
      obtain ⟨r, hr, rfl⟩ := List.mem_map.1 hx
      have hr' := List.mem_range.1 hr
      rw [hlen r hr', length_flatten_uniform _ S, List.length_map, List.length_range]
      intro y hy
      obtain ⟨j, hj, rfl⟩ := List.mem_map.1 hy
      exact hf r hr' j (List.mem_range.1 hj)
  · rw [if_neg hk, List.getElem?_eq_none (by rw [hf p hp i hi]; omega)]

/-- The length of the concatenation in rank order of shards of one size. -/
theorem length_rankOrderConcat {α : Type} (w : World α) (N S : Nat)
    (hw : ∀ gs ∈ w, gs.length = N) (f : Nat → Nat → List α)
    (hf : ∀ p, p < w.length → ∀ i, i < N → (f p i).length = S) :
    (rankOrderConcat w f).length = S * (w.length * N) := by
  unfold rankOrderConcat
  rw [length_flatten_uniform _ (N * S), List.length_map, List.length_range]
  · ring
  · intro x hx
    obtain ⟨r, hr, rfl⟩ := List.mem_map.1 hx
    have hr' := List.mem_range.1 hr
    have hl : (w.getD r []).length = N := by
      rw [List.getD_eq_getElem _ _ hr']
      exact hw _ (List.getElem_mem hr')
    rw [hl, length_flatten_uniform _ S, List.length_map, List.length_range]
    intro y hy
    obtain ⟨j, hj, rfl⟩ := List.mem_map.1 hy
    exact hf r hr' j (List.mem_range.1 hj)

/-- The function `swapLocal` when all local graphs hold `pvec`, the gathered
vector `q` has the same length and every shard has the size `S` of a slice. -/
theorem swapLocal_uniform {α : Type} (c : MpiCommunicator α) {P N S p : Nat}
    (pvec q : List α) (shards : List (List α))
    (hg : c.graphs_.length = N) (hr : c.myMPIRank = p) (hn : c.numMPIProcesses = P)
    (hN : 1 ≤ N) (hp : p < P) (hvals : ∀ g ∈ c.graphs_, g.vals = pvec)
    (hD : pvec.length = S * (P * N)) (hfit : pvec.length + P * N < 2 ^ 64)
    (hq : q.length = pvec.length)
    (hsl : shards.length = N) (hsS : ∀ t ∈ shards, t.length = S) :
    c.swapLocal shards q = .ok
      (⟨c.graphs_.map fun g => { g with vals := q }, p, P⟩,
        (List.range N).map fun i => subtensor pvec ((p * N + i) * S) S) := by
  have hlp : (c.graphs_.headD ⟨[], []⟩).vals = pvec := by
    cases hgs : c.graphs_ with
    | nil => rw [hgs] at hg; simp at hg; omega
    | cons g rest =>
      simp only [List.headD_cons]
      exact hvals g (by rw [hgs]; exact List.mem_cons_self _ _)
  have hb : ∀ i, i < N → (p * N + i) * S + S ≤ pvec.length := by
    intro i hi
    have h1 : (p + 1) * N ≤ P * N := Nat.mul_le_mul_right N (by omega)
    have h2 : (p + 1) * N = p * N + N := by ring
    have h3 : (p * N + i + 1) * S ≤ P * N * S := Nat.mul_le_mul_right S (by omega)
    have h4 : (p * N + i + 1) * S = (p * N + i) * S + S := by ring
    have h5 : P * N * S = S * (P * N) := by ring
    omega
  have hall : ∀ i, i < N → ((shards[i]?).getD []).length =
      szSub ((p * N + i) * S + S) ((p * N + i) * S) := by
    intro i hi
    rw [szSub_eq (by have := hb i hi; omega) (by omega),
      List.getElem?_eq_getElem (by omega : i < shards.length)]
    simp only [Option.getD_some]
    rw [hsS _ (List.getElem_mem _)]
    omega
  have hfold := (swap_fold msgSwapShard
    (fun i => szSub ((p * N + i) * S + S) ((p * N + i) * S))
    (fun i => sliceOf pvec ((p * N + i) * S) ((p * N + i) * S + S)) shards N).1 hall
  unfold MpiCommunicator.swapLocal
  rw [hlp, if_neg (by simp [hq])]
  simp only []
  rw [mpi_scatterState_eq c pvec hg hr hn hN hp hD hfit, hfold]
  simp only []
  congr 2
  · rw [hr, hn]
    congr 1
    apply List.map_congr_left
    intro g hgm
    rw [copyInto_full _ _ (by rw [hq, hvals g hgm])]
  · apply List.ext_getElem?
    intro k
    rw [List.getElem?_mapIdx, List.getElem?_map]
    by_cases hk : k < N
    · rw [List.getElem?_eq_getElem (by omega : k < shards.length), List.getElem?_range hk]
      simp only [Option.map_some', if_pos hk, Option.some.injEq]
      have hsub : sliceOf pvec ((p * N + k) * S) ((p * N + k) * S + S)
          = subtensor pvec ((p * N + k) * S) S := by
        unfold sliceOf
        congr 1
        omega
      rw [hsub, copyInto_full _ _
        (by rw [length_subtensor _ _ _ (hb k hk), hsS _ (List.getElem_mem _)])]
    · rw [List.getElem?_eq_none (by omega : shards.length ≤ k),
        List.getElem?_eq_none (by simp; omega)]
      rfl

/-- The function `swapParams` in a job whose graphs all hold `pvec`, with shards
of one size `S` where `S * numRanks` is the length of `pvec`. -/
theorem mpi_swapParams_uniform {α : Type} (w : World α) (shards : List (List (List α)))
    (N S : Nat) (pvec : List α) (hN : 1 ≤ N)
    (hw : ∀ gs ∈ w, gs.length = N ∧ ∀ g ∈ gs, g.vals = pvec)
    (hsl : shards.length = w.length)
    (hsh : ∀ sp ∈ shards, sp.length = N ∧ ∀ t ∈ sp, t.length = S)
    (hD : pvec.length = S * (w.length * N))
    (hfit : pvec.length + w.length * N < 2 ^ 64) :
    MpiCommunicator.swapParams w shards = w.mapIdx fun p gs =>
      .ok (⟨gs.map fun g => { g with vals := rankOrderConcat w (shardAt shards) },
          p, w.length⟩,
        (List.range N).map fun i => subtensor pvec ((p * N + i) * S) S) := by
  have hSf : ∀ p, p < w.length → ∀ i, i < N → (shardAt shards p i).length = S := by
    intro p hp i hi
    unfold shardAt
    have hp' : p < shards.length := by omega
    rw [List.getElem?_eq_getElem hp']
    simp only [Option.getD_some]
    obtain ⟨h1, h2⟩ := hsh _ (List.getElem_mem hp')
    rw [List.getElem?_eq_getElem (by omega : i < (shards[p]).length)]
    exact h2 _ (List.getElem_mem _)
  have hq : (rankOrderConcat w (shardAt shards)).length = pvec.length := by
    rw [length_rankOrderConcat w N S (fun gs hgs => (hw gs hgs).1) _ hSf, hD]
  apply List.ext_getElem?
  intro p
  by_cases hp : p < w.length
  · rw [mpi_swapParams_at w shards p hp, List.getElem?_mapIdx, List.getElem?_eq_getElem hp]
    simp only [Option.map_some', Option.some.injEq]
    have hg : (MpiCommunicator.ofWorld w p).graphs_ = w[p] := List.getD_eq_getElem _ _ hp
    obtain ⟨hl, hv⟩ := hw _ (List.getElem_mem hp)
    have hp' : p < shards.length := by omega
    obtain ⟨h1, h2⟩ := hsh _ (List.getElem_mem hp')
    have := swapLocal_uniform (MpiCommunicator.ofWorld w p) pvec
      (rankOrderConcat w (shardAt shards)) ((shards[p]?).getD [])
      (by rw [hg]; exact hl) rfl rfl hN hp (by rw [hg]; exact hv) hD hfit hq
      (by rw [List.getElem?_eq_getElem hp']; exact h1)
      (by rw [List.getElem?_eq_getElem hp']; exact h2)
    rw [hg] at this
    exact this
  · rw [List.getElem?_eq_none (by
        unfold MpiCommunicator.swapParams
        rw [List.length_mapIdx]
        omega),
      List.getElem?_eq_none (by rw [List.length_mapIdx]; omega)]

/-- The concatenation of lists that fill `D` places in chunks of `c`: the list
number `r` has `min c (D - r * c)` elements. -/
theorem flatten_clipped {β : Type} (M : List (List β)) (c D : Nat)
    (h : ∀ r (hr : r < M.length), (M.get ⟨r, hr⟩).length = min c (D - r * c)) :
    M.flatten.length = min (M.length * c) D ∧
    ∀ r i, i < c → M.flatten[r * c + i]? = (M[r]?).bind fun x => x[i]? := by
  induction M generalizing D with
  | nil =>
    refine ⟨by simp, ?_⟩
    intro r i _
    simp
  | cons x xs ih =>
    have hx : x.length = min c D := by
      have := h 0 (by simp)
      simpa using this
    have hxs : ∀ r (hr : r < xs.length), (xs.get ⟨r, hr⟩).length = min c ((D - c) - r * c) := by
      intro r hr
      have := h (r + 1) (by simp; omega)
      simp only [List.get_eq_getElem, List.getElem_cons_succ] at this ⊢
      rw [this]
      have : (r + 1) * c = r * c + c := by ring
      omega
    obtain ⟨ih1, ih2⟩ := ih (D - c) hxs
    rw [List.flatten_cons]
    constructor
    · rw [List.length_append, ih1, hx, List.length_cons]
      have : (xs.length + 1) * c = xs.length * c + c := by ring
      omega
    · intro r i hi
      cases r with
      | zero =>
        simp only [Nat.zero_mul, Nat.zero_add, List.getElem?_cons_zero, Option.some_bind]
        by_cases hil : i < x.length
        · rw [List.getElem?_append_left hil]
        · have h1 : x[i]? = none := List.getElem?_eq_none (by omega)
          have h2 : xs.flatten[i - x.length]? = none :=
            List.getElem?_eq_none (by rw [ih1]; omega)
          rw [List.getElem?_append_right (by omega), h1, h2]
      | succ r =>
        have hmul : (r + 1) * c = r * c + c := by ring
        rw [List.getElem?_append_right (by omega)]
        simp only [List.getElem?_cons_succ]
        by_cases hfull : c ≤ D
        · have hxc : x.length = c := by omega
          have he : (r + 1) * c + i - x.length = r * c + i := by omega
          rw [he, ih2 r i hi]
        · have h2 : xs.flatten[(r + 1) * c + i - x.length]? = none :=
            List.getElem?_eq_none (by rw [ih1]; omega)
          rw [h2]
          cases hr : xs[r]? with
          | none => rfl
          | some y =>
            simp only [Option.some_bind]
            have hrl : r < xs.length := by
              by_contra hcon
              rw [List.getElem?_eq_none (by omega)] at hr
              cases hr
            have hy := hxs r hrl
            rw [List.getElem?_eq_getElem hrl] at hr
            simp only [Option.some.injEq] at hr
            simp only [List.get_eq_getElem] at hy
            rw [hr] at hy
            have h3 : y[i]? = none := List.getElem?_eq_none (by omega)
            rw [h3]

/-- The concatenation in rank order of shards that fill `D` places in chunks of
`S`: its length, and its elements. -/
theorem rankOrderConcat_clipped {α : Type} (w : World α) (N S D : Nat)
    (hw : ∀ gs ∈ w, gs.length = N) (f : Nat → Nat → List α)
    (hf : ∀ p, p < w.length → ∀ i, i < N → (f p i).length = min S (D - (p * N + i) * S)) :
    (rankOrderConcat w f).length = min (w.length * (N * S)) D ∧
    ∀ p i k, p < w.length → i < N → k < S →
      (rankOrderConcat w f)[(p * N + i) * S + k]? = (f p i)[k]? := by
  have hlen : ∀ p, p < w.length → (w.getD p []).length = N := by
    intro p hp
    rw [List.getD_eq_getElem _ _ hp]
    exact hw _ (List.getElem_mem hp)
  have hinner : ∀ p, p < w.length →
      (((List.range (w.getD p []).length).map fun i => f p i).flatten.length
        = min (N * S) (D - p * (N * S))) ∧
      ∀ i k, i < N → k < S →
        ((List.range (w.getD p []).length).map fun i => f p i).flatten[i * S + k]?
          = (f p i)[k]? := by
    intro p hp
    rw [hlen p hp]
    obtain ⟨h1, h2⟩ := flatten_clipped ((List.range N).map fun i => f p i) S
      (D - p * (N * S)) (by
        intro r hr
        have hr' : r < N := by simpa using hr
        simp only [List.get_eq_getElem, List.getElem_map, List.getElem_range]
        rw [hf p hp r hr']
        have : (p * N + r) * S = p * (N * S) + r * S := by ring
        omega)
    refine ⟨by simpa using h1, ?_⟩
    intro i k hi hk
    rw [h2 i k hk, List.getElem?_map, List.getElem?_range hi]
    rfl
  unfold rankOrderConcat
  obtain ⟨h1, h2⟩ := flatten_clipped
    ((List.range w.length).map fun p =>
      ((List.range (w.getD p []).length).map fun i => f p i).flatten) (N * S) D (by
        intro r hr
        have hr' : r < w.length := by simpa using hr
        simp only [List.get_eq_getElem, List.getElem_map, List.getElem_range]
        exact (hinner r hr').1)
  refine ⟨by simpa using h1, ?_⟩
  intro p i k hp hi hk
  have hidx : (p * N + i) * S + k = p * (N * S) + (i * S + k) := by ring
  have hlt : i * S + k < N * S := by
    have : (i + 1) * S ≤ N * S := Nat.mul_le_mul_right S (by omega)
    have h3 : (i + 1) * S = i * S + S := by ring
    omega
  rw [hidx, h2 p (i * S + k) hlt, List.getElem?_map, List.getElem?_range hp]
  simp only [Option.map_some', Option.some_bind]
  exact (hinner p hp).2 i k hi hk

/-- The slice of rank `p * N + i` of the concatenation in rank order of shards
that fill `D` places in chunks of `S` is the shard of the device `i` of
process `p`. -/
theorem subtensor_rankOrderConcat_clipped {α : Type} (w : World α) (N S D : Nat)
    (hw : ∀ gs ∈ w, gs.length = N) (f : Nat → Nat → List α)
    (hf : ∀ p, p < w.length → ∀ i, i < N → (f p i).length = min S (D - (p * N + i) * S))
    (p i : Nat) (hp : p < w.length) (hi : i < N) :
    subtensor (rankOrderConcat w f) ((p * N + i) * S) (min S (D - (p * N + i) * S))
      = f p i := by
  apply List.ext_getElem?
  intro k
  rw [getElem?_subtensor]
  by_cases hk : k < min S (D - (p * N + i) * S)
  · rw [if_pos hk]
    exact (rankOrderConcat_clipped w N S D hw f hf).2 p i k hp hi (by omega)
  · rw [if_neg hk]
    have h3 : (f p i)[k]? = none := List.getElem?_eq_none (by rw [hf p hp i hi]; omega)
    rw [h3]

/-- A slice that is clipped at the end of the vector is the slice. -/
theorem subtensor_clip {α : Type} (data : List α) (b S : Nat) :
    subtensor data b (min S (data.length - b)) = subtensor data b S := by
  apply List.ext_getElem?
  intro k
  rw [getElem?_subtensor, getElem?_subtensor]
  by_cases hk : k < min S (data.length - b)
  · rw [if_pos hk, if_pos (by omega)]
  · rw [if_neg hk]
    by_cases hS : k < S
    · rw [if_pos hS]
      have h3 : data[b + k]? = none := List.getElem?_eq_none (by omega)
      rw [h3]
    · rw [if_neg hS]

/-- The slices of the ranks, with the last ones clipped, concatenated in rank
order, are the buffer. -/
theorem rankOrderConcat_slices_clipped {α : Type} (w : World α) (N S : Nat) (data : List α)
    (hw : ∀ gs ∈ w, gs.length = N) (hD : data.length ≤ S * (w.length * N))
    (f : Nat → Nat → List α)
    (hf : ∀ p, p < w.length → ∀ i, i < N →
      f p i = subtensor data ((p * N + i) * S) (min S (data.length - (p * N + i) * S))) :
    rankOrderConcat w f = data := by
  unfold rankOrderConcat
  have hin : ∀ p ∈ List.range w.length,
      ((List.range (w.getD p []).length).map fun i => f p i).flatten
        = subtensor data (0 + p * (N * S)) (N * S) := by
    intro p hp
    have hp' : p < w.length := List.mem_range.1 hp
    have hl : (w.getD p []).length = N := by
      rw [List.getD_eq_getElem _ _ hp']
      exact hw _ (List.getElem_mem hp')
    rw [hl, ← flatten_chunks data (0 + p * (N * S)) S N]
    congr 1
    apply List.map_congr_left
    intro i hi
    rw [hf p hp' i (List.mem_range.1 hi), subtensor_clip]
    congr 1
    ring
  rw [List.map_congr_left hin, flatten_chunks]
  unfold subtensor
  rw [List.drop_zero]
  apply List.take_of_length_le
  calc data.length ≤ S * (w.length * N) := hD
    _ = w.length * (N * S) := by ring

/-- A shard is not longer than the concatenation of all shards. -/
theorem length_le_rankOrderConcat {α : Type} (w : World α) (f : Nat → Nat → List α)
    (p i : Nat) (hp : p < w.length) (hi : i < (w.getD p []).length) :
    (f p i).length ≤ (rankOrderConcat w f).length := by
  unfold rankOrderConcat
  have h1 : List.Sublist (f p i)
      ((List.range (w.getD p []).length).map fun i => f p i).flatten :=
    List.sublist_flatten_of_mem (List.mem_map.2 ⟨i, List.mem_range.2 hi, rfl⟩)
  have h2 : List.Sublist (((List.range (w.getD p []).length).map fun i => f p i).flatten)
      ((List.range w.length).map fun p =>
        ((List.range (w.getD p []).length).map fun i => f p i).flatten).flatten :=
    List.sublist_flatten_of_mem (List.mem_map.2 ⟨p, List.mem_range.2 hp, rfl⟩)
  exact (h1.trans h2).length_le

/-- The rank, the number of ranks and the range of `scatterState` of the local
device `i` of the process `p` in a job of processes with `N` devices each. -/
theorem mpi_stateRange_eq {α : Type} (w : World α) (N D p i : Nat) (hN : 1 ≤ N)
    (hwp : (w.getD p []).length = N) (hp : p < w.length) (hi : i < N)
    (hfit : D + w.length * N < 2 ^ 64) :
    (MpiCommunicator.ofWorld w p).myRank i = p * N + i ∧
    (MpiCommunicator.ofWorld w p).numRanks = w.length * N ∧
    (MpiCommunicator.ofWorld w p).stateRange D i =
      ((p * N + i) * ((D + w.length * N - 1) / (w.length * N)),
        min ((p * N + i) * ((D + w.length * N - 1) / (w.length * N)) +
          (D + w.length * N - 1) / (w.length * N)) D) := by
  obtain ⟨h1, _, h3, h4, h5, h6⟩ := scatter_range_general (D := D) hN hp hi hfit
  unfold MpiCommunicator.stateRange MpiCommunicator.numRanks MpiCommunicator.myRank
    MpiCommunicator.ofWorld
  simp only [hwp, h1, h3, h4, h5, h6]
  exact ⟨trivial, trivial, trivial⟩

/-- The function `swapParams` in a job whose graphs all hold `pvec`, when the
shard of every rank has the size of the slice of the rank and every slice starts
inside the vector. -/
theorem mpi_swapParams_matched {α : Type} (w : World α) (shards : List (List (List α)))
    (N S : Nat) (pvec : List α) (hN : 1 ≤ N)
    (hw : ∀ gs ∈ w, gs.length = N ∧ ∀ g ∈ gs, g.vals = pvec)
    (hsl : shards.length = w.length) (hsN : ∀ sp ∈ shards, sp.length = N)
    (hS : S = (pvec.length + w.length * N - 1) / (w.length * N))
    (hin : ∀ p, p < w.length → ∀ i, i < N → (p * N + i) * S ≤ pvec.length)
    (hlen : ∀ p, p < w.length → ∀ i, i < N →
      (shardAt shards p i).length = min S (pvec.length - (p * N + i) * S))
    (hq : (rankOrderConcat w (shardAt shards)).length = pvec.length)
    (hfit : pvec.length + w.length * N < 2 ^ 64) :
    MpiCommunicator.swapParams w shards = w.mapIdx fun p gs =>
      .ok (⟨gs.map fun g => { g with vals := rankOrderConcat w (shardAt shards) },
          p, w.length⟩,
        (List.range N).map fun i =>
          subtensor pvec ((p * N + i) * S) (min S (pvec.length - (p * N + i) * S))) := by
  apply List.ext_getElem?
  intro p
  by_cases hp : p < w.length
  · rw [mpi_swapParams_at w shards p hp, List.getElem?_mapIdx, List.getElem?_eq_getElem hp]
    simp only [Option.map_some', Option.some.injEq]
    have hg : (MpiCommunicator.ofWorld w p).graphs_ = w[p] := List.getD_eq_getElem _ _ hp
    obtain ⟨hl, hv⟩ := hw _ (List.getElem_mem hp)
    have hwp : (w.getD p []).length = N := by
      rw [List.getD_eq_getElem _ _ hp]
      exact hl
    have hp' : p < shards.length := by omega
    have hspN : (shards[p]).length = N := hsN _ (List.getElem_mem hp')
    have hlp : (MpiCommunicator.ofWorld w p).localParams = pvec := by
      unfold MpiCommunicator.localParams
      rw [hg]
      cases hgs : w[p] with
      | nil => rw [hgs] at hl; simp at hl; omega
      | cons g rest =>
        simp only [List.headD_cons]
        exact hv g (by rw [hgs]; exact List.mem_cons_self _ _)
    have hrange : ∀ i, i < N →
        (MpiCommunicator.ofWorld w p).stateRange pvec.length i =
          ((p * N + i) * S, min ((p * N + i) * S + S) pvec.length) := by
      intro i hi
      rw [hS]
      exact (mpi_stateRange_eq w N pvec.length p i hN hwp hp hi hfit).2.2
    have hR : (MpiCommunicator.ofWorld w p).numRanks ≠ 0 := by
      rw [(mpi_stateRange_eq w N pvec.length p 0 hN hwp hp (by omega) hfit).2.1]
      exact Nat.mul_ne_zero (by omega) (by omega)
    have hsz : ∀ i, i < N →
        szSub (min ((p * N + i) * S + S) pvec.length) ((p * N + i) * S)
          = min S (pvec.length - (p * N + i) * S) := by
      intro i hi
      have := hin p hp i hi
      rw [szSub_eq (by omega) (by omega)]
      omega
    obtain ⟨_, _, h3⟩ := swapLocal_cases (MpiCommunicator.ofWorld w p)
      ((shards[p]?).getD [])
      (rankOrderConcat w fun p i => (((shards[p]?).getD [])[i]?).getD []) hR
    have hq' : (rankOrderConcat w fun p i => (((shards[p]?).getD [])[i]?).getD []).length
        = (MpiCommunicator.ofWorld w p).localParams.length := by
      rw [hlp]
      exact hq
    rw [h3 hq' (by
      intro i hi
      rw [hg, hl] at hi
      rw [hlp, hrange i hi]
      simp only []
      rw [hsz i hi]
      exact hlen p hp i hi)]
    rw [hlp, hg]
    congr 2
    · congr 1
      apply List.map_congr_left
      intro g hgm
      have hcopy : copyInto g.vals 0
          (rankOrderConcat w fun p i => (((shards[p]?).getD [])[i]?).getD [])
          = rankOrderConcat w (shardAt shards) :=
        copyInto_full _ _ (by rw [hv g hgm]; exact hq)
      rw [hcopy]
    · apply List.ext_getElem?
      intro k
      rw [List.getElem?_mapIdx, List.getElem?_map]
      rw [List.getElem?_eq_getElem hp']
      simp only [Option.getD_some]
      by_cases hk : k < N
      · rw [List.getElem?_eq_getElem (by omega : k < (shards[p]).length),
          List.getElem?_range hk]
        simp only [Option.map_some', Option.some.injEq]
        rw [if_pos (by rw [hl]; exact hk), hrange k hk]
        simp only []
        have hin' := hin p hp k hk
        have hsub : sliceOf pvec ((p * N + k) * S) (min ((p * N + k) * S + S) pvec.length)
            = subtensor pvec ((p * N + k) * S) (min S (pvec.length - (p * N + k) * S)) := by
          unfold sliceOf
          congr 1
          omega
        rw [hsub]
        apply copyInto_full
        rw [length_subtensor _ _ _ (by omega)]
        have := hlen p hp k hk
        unfold shardAt at this
        rw [List.getElem?_eq_getElem hp'] at this
        simp only [Option.getD_some] at this
        rw [List.getElem?_eq_getElem (by omega : k < (shards[p]).length)] at this
        simp only [Option.getD_some] at this
        exact this.symm
      · rw [List.getElem?_eq_none (by omega : (shards[p]).length ≤ k),
          List.getElem?_eq_none (by simp; omega)]
        rfl
  · rw [List.getElem?_eq_none (by
        unfold MpiCommunicator.swapParams
        rw [List.length_mapIdx]
        omega),
      List.getElem?_eq_none (by rw [List.length_mapIdx]; omega)]

/-- C14 (counterexample to "`swapParams` exchanges the two copies" as stated):
one process with two devices, both graphs hold `[1, 2, 3]`, and the shards `[4]`
and `[5, 6]` concatenate to a vector of the same length; `swapParams` aborts
with "swapParams size mismatch??" because device 0 is handed the slice `[0, 2)`.
The layout of the sharding itself does not help when a slice starts beyond the
vector: one process with four devices whose graphs hold five parameters, `S = 2`,
and the shards `[6, 7]`, `[8, 9]`, `[10]` and `[]`, which concatenate to five
elements; the device 3 is handed `begin = 6` and `end = 5`, the difference
`end - begin` wraps around, and `swapParams` aborts with the same message after
the shards of the devices 0, 1 and 2 have been overwritten. -/
theorem swapParams_uneven_shards_abort :
    (∀ gs ∈ oneByTwo, ∀ g ∈ gs, g.vals = [1, 2, 3]) ∧
    rankOrderConcat oneByTwo (shardAt [[[4], [5, 6]]]) = [4, 5, 6] ∧
    MpiCommunicator.swapParams oneByTwo [[[4], [5, 6]]] =
      [.error (msgSwapShard, (MpiCommunicator.ofWorld oneByTwo 0, [[4], [5, 6]]))] ∧
    (∀ gs ∈ [fiveParams], ∀ g ∈ gs, g.vals = [1, 2, 3, 4, 5]) ∧
    rankOrderConcat [fiveParams] (shardAt [[[6, 7], [8, 9], [10], []]]) = [6, 7, 8, 9, 10] ∧
    (MpiCommunicator.ofWorld [fiveParams] 0).stateRange 5 3 = (6, 5) ∧
    MpiCommunicator.swapParams [fiveParams] [[[6, 7], [8, 9], [10], []]] =
      [.error (msgSwapShard,
        (MpiCommunicator.ofWorld [fiveParams] 0, [[1, 2], [3, 4], [5], []]))] := by
  refine ⟨?_, rfl, rfl, ?_, rfl, by decide, rfl⟩
  · intro gs hgs g hg
    simp only [oneByTwo, List.mem_singleton] at hgs
    subst hgs
    simp only [List.mem_cons, List.mem_singleton, List.not_mem_nil, or_false] at hg
    rcases hg with rfl | rfl <;> rfl
  · intro gs hgs g hg
    simp only [List.mem_singleton] at hgs
    subst hgs
    simp only [fiveParams, List.mem_cons, List.mem_singleton, List.not_mem_nil, or_false] at hg
    rcases hg with rfl | rfl | rfl | rfl <;> rfl

/-- The subtraction of two `size_t` where the second is the larger one. -/
theorem szSub_wrap {a b : Nat} (hb : b < 2 ^ 64) (h : a < b) :
    szSub a b = a + 2 ^ 64 - b := by
  unfold szSub SIZE_T; omega

/-- C14 (amended): in a job of `P` processes with `N >= 1` graphs each, where all
graphs hold the same parameter vector `pvec` of `D` elements, the shards
concatenate in rank order to a vector `q` of the same length, and every shard has
the size `end - begin` of the slice that `scatterState` hands to its device
(lengths representable in `size_t`): with `S = (D + P * N - 1) / (P * N)` the
slice of the local device `i` of process `p` is
`[myRank(i) * S, min (myRank(i) * S + S) D)` with `myRank(i) = p * N + i`, it
starts inside the vector, `swapParams` returns in every process, afterwards the
parameters of every graph are `q` and the shard of the local device `i` is this
slice of `pvec`; a second `swapParams` restores the graphs and the shards. -/
theorem swapParams_exchanges {α : Type} (w : World α) (shards : List (List (List α)))
    (N S : Nat) (pvec : List α) (hN : 1 ≤ N)
    (hw : ∀ gs ∈ w, gs.length = N ∧ ∀ g ∈ gs, g.vals = pvec)
    (hsl : shards.length = w.length) (hsN : ∀ sp ∈ shards, sp.length = N)
    (hS : S = (pvec.length + w.length * N - 1) / (w.length * N))
    (hq : (rankOrderConcat w (shardAt shards)).length = pvec.length)
    (hmatch : ∀ p, p < w.length → ∀ i, i < N →
      (shardAt shards p i).length =
        szSub ((MpiCommunicator.ofWorld w p).stateRange pvec.length i).2
          ((MpiCommunicator.ofWorld w p).stateRange pvec.length i).1)
    (hfit : pvec.length + w.length * N < 2 ^ 64) :
    (∀ p, p < w.length → ∀ i, i < N →
      (MpiCommunicator.ofWorld w p).myRank i = p * N + i ∧
      (MpiCommunicator.ofWorld w p).stateRange pvec.length i =
        ((p * N + i) * S, min ((p * N + i) * S + S) pvec.length) ∧
      (p * N + i) * S ≤ pvec.length) ∧
    MpiCommunicator.swapParams w shards = (w.mapIdx fun p gs =>
      .ok (⟨gs.map fun g => { g with vals := rankOrderConcat w (shardAt shards) },
          p, w.length⟩,
        (List.range N).map fun i =>
          sliceOf pvec ((p * N + i) * S) (min ((p * N + i) * S + S) pvec.length))) ∧
    MpiCommunicator.swapParams (swappedWorld (MpiCommunicator.swapParams w shards))
        (swappedShards (MpiCommunicator.swapParams w shards)) =
      (w.mapIdx fun p gs => .ok (⟨gs, p, w.length⟩, shards.getD p [])) := by
  have hlenN : ∀ gs ∈ w, gs.length = N := fun gs hgs => (hw gs hgs).1
  have hwp : ∀ p, p < w.length → (w.getD p []).length = N := by
    intro p hp
    rw [List.getD_eq_getElem _ _ hp]
    exact hlenN _ (List.getElem_mem hp)
  have hrange : ∀ p, p < w.length → ∀ i, i < N →
      (MpiCommunicator.ofWorld w p).stateRange pvec.length i =
        ((p * N + i) * S, min ((p * N + i) * S + S) pvec.length) := by
    intro p hp i hi
    rw [hS]
    exact (mpi_stateRange_eq w N pvec.length p i hN (hwp p hp) hp hi hfit).2.2
  -- the ranks and the shard size
  have hrank : ∀ p, p < w.length → ∀ i, i < N → p * N + i + 1 ≤ w.length * N := by
    intro p hp i hi
    have h1 : (p + 1) * N ≤ w.length * N := Nat.mul_le_mul_right N (by omega)
    have h2 : (p + 1) * N = p * N + N := by ring
    omega
  have hSle : w.length * N * S ≤ pvec.length + w.length * N - 1 := by
    rw [hS]
    exact Nat.mul_div_le _ _
  have hbound : ∀ p, p < w.length → ∀ i, i < N →
      (p * N + i) * S + S ≤ pvec.length + w.length * N - 1 := by
    intro p hp i hi
    have h3 : (p * N + i + 1) * S ≤ w.length * N * S :=
      Nat.mul_le_mul_right S (hrank p hp i hi)
    have h4 : (p * N + i + 1) * S = (p * N + i) * S + S := by ring
    omega
  -- every slice starts inside the vector
  have hin : ∀ p, p < w.length → ∀ i, i < N → (p * N + i) * S ≤ pvec.length := by
    intro p hp i hi
    by_contra hcon
    have hm := hmatch p hp i hi
    rw [hrange p hp i hi] at hm
    simp only [] at hm
    have hb := hbound p hp i hi
    have hmin : min ((p * N + i) * S + S) pvec.length = pvec.length := by omega
    rw [hmin, szSub_wrap (by omega) (by omega)] at hm
    have hle := length_le_rankOrderConcat w (shardAt shards) p i hp (by rw [hwp p hp]; exact hi)
    rw [hq] at hle
    omega
  have hlen : ∀ p, p < w.length → ∀ i, i < N →
      (shardAt shards p i).length = min S (pvec.length - (p * N + i) * S) := by
    intro p hp i hi
    have hm := hmatch p hp i hi
    rw [hrange p hp i hi] at hm
    simp only [] at hm
    have := hin p hp i hi
    rw [szSub_eq (by omega) (by omega)] at hm
    omega
  have hfirst := mpi_swapParams_matched w shards N S pvec hN hw hsl hsN hS hin hlen hq hfit
  have hcover : pvec.length ≤ S * (w.length * N) := by
    by_cases hP : w.length = 0
    · have hnil : w = [] := List.length_eq_zero.1 hP
      rw [← hq, hnil]
      simp [rankOrderConcat]
    · have hR : 0 < w.length * N := Nat.mul_pos (by omega) (by omega)
      have h1 := Nat.lt_mul_div_succ (pvec.length + w.length * N - 1) hR
      rw [← hS] at h1
      have h2 : w.length * N * (S + 1) = S * (w.length * N) + w.length * N := by ring
      omega
  refine ⟨fun p hp i hi =>
    ⟨(mpi_stateRange_eq w N pvec.length p i hN (hwp p hp) hp hi hfit).1,
      hrange p hp i hi, hin p hp i hi⟩, ?_, ?_⟩
  · rw [hfirst]
    apply List.ext_getElem?
    intro p
    simp only [List.getElem?_mapIdx]
    cases w[p]? with
    | none => rfl
    | some gs =>
      simp only [Option.map_some', Option.some.injEq, Except.ok.injEq, Prod.mk.injEq,
        true_and]
      apply List.map_congr_left
      intro i _
      unfold sliceOf
      congr 1
      omega
  -- the world and the shards after the first call
  have hw1 : swappedWorld (MpiCommunicator.swapParams w shards) = w.mapIdx fun _ gs =>
      gs.map fun g => { g with vals := rankOrderConcat w (shardAt shards) } := by
    rw [hfirst]
    unfold swappedWorld
    apply List.ext_getElem?
    intro p
    simp only [List.getElem?_map, List.getElem?_mapIdx]
    cases w[p]? <;> rfl
  have hs1 : swappedShards (MpiCommunicator.swapParams w shards) = w.mapIdx fun p _ =>
      (List.range N).map fun i =>
        subtensor pvec ((p * N + i) * S) (min S (pvec.length - (p * N + i) * S)) := by
    rw [hfirst]
    unfold swappedShards
    apply List.ext_getElem?
    intro p
    simp only [List.getElem?_map, List.getElem?_mapIdx]
    cases w[p]? <;> rfl
  rw [hw1, hs1]
  have hl1 : (w.mapIdx fun _ gs =>
      gs.map fun g => { g with vals := rankOrderConcat w (shardAt shards) }).length
      = w.length := List.length_mapIdx
  have hw1N : ∀ gs ∈ (w.mapIdx fun _ gs =>
      gs.map fun g => { g with vals := rankOrderConcat w (shardAt shards) }),
      gs.length = N := by
    intro gs hgs
    obtain ⟨p, hp, rfl⟩ := List.mem_mapIdx.1 hgs
    rw [List.length_map]
    exact hlenN _ (List.getElem_mem _)
  have hshard1 : ∀ p, p < w.length → ∀ i, i < N →
      shardAt (w.mapIdx fun p _ => (List.range N).map fun i =>
        subtensor pvec ((p * N + i) * S) (min S (pvec.length - (p * N + i) * S))) p i
      = subtensor pvec ((p * N + i) * S) (min S (pvec.length - (p * N + i) * S)) := by
    intro p hp i hi
    unfold shardAt
    rw [List.getElem?_mapIdx, List.getElem?_eq_getElem hp]
    simp only [Option.map_some', Option.getD_some]
    rw [List.getElem?_map, List.getElem?_range hi]
    rfl
  have hback : rankOrderConcat
      (w.mapIdx fun _ gs =>
        gs.map fun g => { g with vals := rankOrderConcat w (shardAt shards) })
      (shardAt (w.mapIdx fun p _ => (List.range N).map fun i =>
        subtensor pvec ((p * N + i) * S) (min S (pvec.length - (p * N + i) * S)))) = pvec := by
    apply rankOrderConcat_slices_clipped _ N S pvec hw1N
    · rw [hl1]; exact hcover
    · intro p hp i hi
      rw [hl1] at hp
      exact hshard1 p hp i hi
  have hsecond := mpi_swapParams_matched
    (w.mapIdx fun _ gs =>
      gs.map fun g => { g with vals := rankOrderConcat w (shardAt shards) })
    (w.mapIdx fun p _ => (List.range N).map fun i =>
      subtensor pvec ((p * N + i) * S) (min S (pvec.length - (p * N + i) * S)))
    N S (rankOrderConcat w (shardAt shards)) hN
    (by
      intro gs hgs
      refine ⟨hw1N gs hgs, ?_⟩
      obtain ⟨p, hp, rfl⟩ := List.mem_mapIdx.1 hgs
      intro g hg
      obtain ⟨g0, _, rfl⟩ := List.mem_map.1 hg
      rfl)
    (by rw [List.length_mapIdx, List.length_mapIdx])
    (by
      intro sp hsp
      obtain ⟨p, hp, rfl⟩ := List.mem_mapIdx.1 hsp
      simp)
    (by rw [hl1, hq]; exact hS)
    (by
      intro p hp i hi
      rw [hl1] at hp
      rw [hq]
      exact hin p hp i hi)
    (by
      intro p hp i hi
      rw [hl1] at hp
      rw [hshard1 p hp i hi, hq]
      have := hin p hp i hi
      exact length_subtensor _ _ _ (by omega))
    (by rw [hback, hq])
    (by rw [hl1, hq]; exact hfit)
  rw [hsecond, hback, hl1]
  apply List.ext_getElem?
  intro p
  simp only [List.getElem?_mapIdx]
  by_cases hp : p < w.length
  · rw [List.getElem?_eq_getElem hp]
    simp only [Option.map_some', Option.some.injEq]
    obtain ⟨hl, hv⟩ := hw _ (List.getElem_mem hp)
    have hp' : p < shards.length := by omega
    have hspN : (shards[p]).length = N := hsN _ (List.getElem_mem hp')
    congr 2
    · congr 1
      rw [List.map_map]
      conv_rhs => rw [← List.map_id w[p]]
      apply List.map_congr_left
      intro g hg
      simp only [Function.comp, id]
      rw [← hv g hg]
    · rw [List.getD_eq_getElem _ _ hp']
      apply List.ext_getElem?
      intro i
      rw [List.getElem?_map]
      by_cases hi : i < N
      · rw [List.getElem?_range hi, List.getElem?_eq_getElem (by omega)]
        simp only [Option.map_some', Option.some.injEq]
        rw [hq, subtensor_rankOrderConcat_clipped w N S pvec.length hlenN _ hlen p i hp hi]
        unfold shardAt
        rw [List.getElem?_eq_getElem hp']
        simp only [Option.getD_some]
        rw [List.getElem?_eq_getElem (by omega)]
        rfl
      · rw [List.getElem?_eq_none (by simp; omega), List.getElem?_eq_none (by omega)]
        rfl
  · rw [List.getElem?_eq_none (by omega)]
    rfl

/-- Witness of C14 (amended): one process with two devices whose graphs hold
`[1, 2, 3]`, and the shards `[4, 5]` and `[6]`, the sizes of the slices `[0, 2)`
and `[2, 3)`: the graphs get `[4, 5, 6]`, the shards `[1, 2]` and `[3]`, and a
second call restores both. -/
theorem swapParams_exchanges_witness :
    MpiCommunicator.swapParams oneByTwo [[[4, 5], [6]]] = (oneByTwo.mapIdx fun p gs =>
      .ok (⟨gs.map fun g =>
            { g with vals := rankOrderConcat oneByTwo (shardAt [[[4, 5], [6]]]) },
          p, oneByTwo.length⟩,
        (List.range 2).map fun i =>
          sliceOf [1, 2, 3] ((p * 2 + i) * 2) (min ((p * 2 + i) * 2 + 2) [1, 2, 3].length))) ∧
    MpiCommunicator.swapParams
        (swappedWorld (MpiCommunicator.swapParams oneByTwo [[[4, 5], [6]]]))
        (swappedShards (MpiCommunicator.swapParams oneByTwo [[[4, 5], [6]]])) =
      (oneByTwo.mapIdx fun p gs =>
        .ok (⟨gs, p, oneByTwo.length⟩, [[[4, 5], [6]]].getD p [])) :=
  (swapParams_exchanges oneByTwo [[[4, 5], [6]]] 2 2 [1, 2, 3] (by decide)
    (by decide) rfl (by decide) (by decide) (by decide) (by decide) (by decide)).2

/-- The values of the witness of C14: with the shards `[4, 5]` and `[6]` the
exchange gives the graphs `[4, 5, 6]` and the shards `[1, 2]` and `[3]`, and the
second call gives back the graphs `[1, 2, 3]` and the shards `[4, 5]` and `[6]`. -/
theorem swapParams_uneven_layout_values :
    swappedWorld (MpiCommunicator.swapParams oneByTwo [[[4, 5], [6]]])
      = [[⟨[4, 5, 6], [0, 0, 0]⟩, ⟨[4, 5, 6], [0, 0, 0]⟩]] ∧
    swappedShards (MpiCommunicator.swapParams oneByTwo [[[4, 5], [6]]]) = [[[1, 2], [3]]] ∧
    swappedWorld (MpiCommunicator.swapParams
        (swappedWorld (MpiCommunicator.swapParams oneByTwo [[[4, 5], [6]]]))
        (swappedShards (MpiCommunicator.swapParams oneByTwo [[[4, 5], [6]]]))) = oneByTwo ∧
    swappedShards (MpiCommunicator.swapParams
        (swappedWorld (MpiCommunicator.swapParams oneByTwo [[[4, 5], [6]]]))
        (swappedShards (MpiCommunicator.swapParams oneByTwo [[[4, 5], [6]]])))
      = [[[4, 5], [6]]] := by
  refine ⟨?_, ?_, ?_, ?_⟩ <;> rfl

/-! ### The asynchronous trainer -/

/-- C20 (`updateMovingAverage`): for tensors of one shape and a batch count
with `batches + 10` representable in `size_t`, `updateMovingAverage(avg, params,
batches)` replaces every element of `avg` by `(1 - d) * avg + d * params` with
`d = max mvDecay (1 - (batches + 1) / (batches + 10))`, which is
`max mvDecay (9 / (batches + 10))` in exact arithmetic, keeps the size of `avg`,
and leaves `params` unchanged. -/
theorem updateMovingAverage_blend {α : Type} [LinearOrderedField α] (mvDecay : α)
    (avg params : List α) (batches : Nat)
    (hlen : avg.length = params.length) (hb : batches + 10 < 2 ^ 64) :
    (AsyncGraphGroup.updateMovingAverage mvDecay avg params batches).2 = params ∧
    (AsyncGraphGroup.updateMovingAverage mvDecay avg params batches).1.length
      = avg.length ∧
    max mvDecay (1 - ((batches : α) + 1) / ((batches : α) + 10))
      = max mvDecay (9 / ((batches : α) + 10)) ∧
    (∀ (i : Nat) (a p : α), avg[i]? = some a → params[i]? = some p →
      (AsyncGraphGroup.updateMovingAverage mvDecay avg params batches).1[i]? =
        some ((1 - max mvDecay (1 - ((batches : α) + 1) / ((batches : α) + 10))) * a
          + max mvDecay (1 - ((batches : α) + 1) / ((batches : α) + 10)) * p)) ∧
    (∀ (i : Nat) (a p : α), avg[i]? = some a → params[i]? = some p →
      (AsyncGraphGroup.updateMovingAverage mvDecay avg params batches).1[i]? =
        some ((1 - max mvDecay (9 / ((batches : α) + 10))) * a
          + max mvDecay (9 / ((batches : α) + 10)) * p)) := by
  have hpos : ((batches : α) + 10) ≠ 0 := by positivity
  have hd : (1 : α) - ((batches : α) + 1) / ((batches : α) + 10)
      = 9 / ((batches : α) + 10) := by
    field_simp
    ring
  have h1 : ((szAdd batches 1 : Nat) : α) = (batches : α) + 1 := by
    rw [szAdd_eq (by omega)]
    push_cast
    ring
  have h10 : ((szAdd batches 10 : Nat) : α) = (batches : α) + 10 := by
    rw [szAdd_eq (by omega)]
    push_cast
    ring
  have helem : ∀ (i : Nat) (a p : α), avg[i]? = some a → params[i]? = some p →
      (AsyncGraphGroup.updateMovingAverage mvDecay avg params batches).1[i]? =
        some ((1 - max mvDecay (1 - ((batches : α) + 1) / ((batches : α) + 10))) * a
          + max mvDecay (1 - ((batches : α) + 1) / ((batches : α) + 10)) * p) := by
    intro i a p ha hp
    unfold AsyncGraphGroup.updateMovingAverage
    simp only [List.getElem?_zipWith, ha, hp, h1, h10]
  refine ⟨rfl, ?_, by rw [hd], helem, ?_⟩
  · unfold AsyncGraphGroup.updateMovingAverage
    simp only [List.length_zipWith]
    omega
  · intro i a p ha hp
    rw [helem i a p ha hp, hd]

/-- Witness of C20: `avg = [1, 2]`, `params = [3, 4]`, no batch seen yet, so the
decay is `9 / 10`. -/
theorem updateMovingAverage_blend_witness :
    (AsyncGraphGroup.updateMovingAverage (1 / 10000 : ℚ) [1, 2] [3, 4] 0).1[1]? =
      some ((1 - max (1 / 10000 : ℚ) (9 / (((0 : ℕ) : ℚ) + 10))) * 2
        + max (1 / 10000 : ℚ) (9 / (((0 : ℕ) : ℚ) + 10)) * 4) :=
  (updateMovingAverage_blend (1 / 10000 : ℚ) [1, 2] [3, 4] 0 rfl (by norm_num)).2.2.2.2
    1 2 4 rfl rfl

/-- The remainder of `n + 1`: either the remainder of `n` plus one, or the
window is complete. -/
theorem succ_mod_cases (n B : Nat) (hB : 0 < B) :
    (n % B + 1 < B ∧ (n + 1) % B = n % B + 1 ∧ n + 1 - (n + 1) % B = n - n % B) ∨
    (n % B + 1 = B ∧ (n + 1) % B = 0 ∧ n + 1 - B = n - n % B) := by
  have hlt : n % B < B := Nat.mod_lt _ hB
  have hdm : B * (n / B) + n % B = n := Nat.div_add_mod n B
  have hle : n % B ≤ n := Nat.mod_le _ _
  by_cases h : n % B + 1 < B
  · left
    have h1 : (n + 1) % B = n % B + 1 := by
      conv_lhs => rw [← hdm, Nat.add_assoc, Nat.mul_add_mod]
      exact Nat.mod_eq_of_lt h
    exact ⟨h, h1, by omega⟩
  · right
    have h1 : n % B + 1 = B := by omega
    have h2 : (n + 1) % B = 0 := by
      conv_lhs => rw [← hdm, Nat.add_assoc, Nat.mul_add_mod, h1]
      exact Nat.mod_self B
    exact ⟨h1, h2, by omega⟩

theorem length_elementSum {α : Type} [AddMonoid α] (L : Nat) (vs : List (List α)) :
    (AsyncGraphGroup.elementSum L vs).length = L := by
  unfold AsyncGraphGroup.elementSum
  simp

/-- The element-wise sum of no tensor is the zero tensor. -/
theorem elementSum_nil {α : Type} [AddMonoid α] (L : Nat) :
    AsyncGraphGroup.elementSum L ([] : List (List α)) = List.replicate L 0 := by
  unfold AsyncGraphGroup.elementSum
  apply List.ext_getElem?
  intro i
  by_cases hi : i < L
  · rw [List.getElem?_map, List.getElem?_range hi, List.getElem?_replicate, if_pos hi]
    rfl
  · rw [List.getElem?_eq_none (by simp; omega), List.getElem?_eq_none (by simp; omega)]

/-- Adding one more tensor to an element-wise sum. -/
theorem elementAdd_elementSum {α : Type} [AddMonoid α] (L : Nat) (vs : List (List α))
    (v : List α) (hv : v.length = L) :
    AsyncGraphGroup.elementAdd (AsyncGraphGroup.elementSum L vs) v
      = AsyncGraphGroup.elementSum L (vs ++ [v]) := by
  unfold AsyncGraphGroup.elementAdd AsyncGraphGroup.elementSum
  apply List.ext_getElem?
  intro i
  by_cases hi : i < L
  · rw [List.getElem?_zipWith, List.getElem?_map, List.getElem?_range hi,
      List.getElem?_eq_getElem (by omega : i < v.length), List.getElem?_map,
      List.getElem?_range hi]
    simp only [Option.map_some', List.map_append, List.sum_append, List.map_cons,
      List.map_nil, List.sum_cons, List.sum_nil, add_zero]
    rw [List.getD_eq_getElem _ _ (by omega : i < v.length)]
  · rw [List.getElem?_eq_none (by simp; omega), List.getElem?_eq_none (by simp; omega)]

/-- The element-wise sum of one tensor is the tensor. -/
theorem elementSum_singleton {α : Type} [AddMonoid α] (L : Nat) (v : List α)
    (hv : v.length = L) : AsyncGraphGroup.elementSum L [v] = v := by
  unfold AsyncGraphGroup.elementSum
  apply List.ext_getElem?
  intro i
  by_cases hi : i < L
  · rw [List.getElem?_map, List.getElem?_range hi,
      List.getElem?_eq_getElem (by omega : i < v.length)]
    simp only [Option.map_some', List.map_cons, List.map_nil, List.sum_cons, List.sum_nil,
      add_zero]
    rw [List.getD_eq_getElem _ _ (by omega : i < v.length)]
  · rw [List.getElem?_eq_none (by simp; omega), List.getElem?_eq_none (by omega)]

/-- One push to a shard with a buffer (`gradientBufferSize_ > 1`). -/
theorem pushShard_buffered {α ω : Type} [LinearOrderedField α]
    (cfg : AsyncGraphGroup.Config α) (opt : AsyncGraphGroup.Optimizer α ω)
    (newGrads : List α) (bw nb pos L : Nat) (sh : AsyncGraphGroup.Shard α ω)
    (vs : List (List α)) (hB : cfg.gradientBufferSize_ > 1)
    (hL : sh.grads_.length = L) (hcover : pos + L ≤ newGrads.length)
    (hbuf : sh.bufferGrads_ = AsyncGraphGroup.elementSum L vs) :
    (AsyncGraphGroup.pushShard cfg opt newGrads bw nb pos sh).1.grads_
      = subtensor newGrads pos L ∧
    (AsyncGraphGroup.pushShard cfg opt newGrads bw nb pos sh).1.bufferCount
      = (if sh.bufferCount + 1 < cfg.gradientBufferSize_ then sh.bufferCount + 1 else 0) ∧
    (AsyncGraphGroup.pushShard cfg opt newGrads bw nb pos sh).1.bufferGrads_
      = (if sh.bufferCount + 1 < cfg.gradientBufferSize_ then
          AsyncGraphGroup.elementSum L (vs ++ [subtensor newGrads pos L])
        else List.replicate L 0) ∧
    (AsyncGraphGroup.pushShard cfg opt newGrads bw nb pos sh).2
      = (if sh.bufferCount + 1 < cfg.gradientBufferSize_ then none
        else some (AsyncGraphGroup.elementSum L (vs ++ [subtensor newGrads pos L]))) := by
  have hpl : (subtensor newGrads pos L).length = L := length_subtensor _ _ _ hcover
  have hg : copyInto sh.grads_ 0 (subtensor newGrads pos sh.grads_.length)
      = subtensor newGrads pos L := by
    rw [hL]
    exact copyInto_full _ _ (by rw [hpl, hL])
  have hsum := elementAdd_elementSum L vs (subtensor newGrads pos L) hpl
  unfold AsyncGraphGroup.pushShard
  simp only [hg, hB, if_true, hbuf, hsum]
  by_cases hc : sh.bufferCount + 1 < cfg.gradientBufferSize_
  · simp only [hc, if_true]
    repeat' constructor
  · simp only [hc, if_false, Bool.false_eq_true, length_elementSum]
    repeat' constructor

/-- One push to a shard without a buffer (`gradientBufferSize_ <= 1`). -/
theorem pushShard_direct {α ω : Type} [LinearOrderedField α]
    (cfg : AsyncGraphGroup.Config α) (opt : AsyncGraphGroup.Optimizer α ω)
    (newGrads : List α) (bw nb pos L : Nat) (sh : AsyncGraphGroup.Shard α ω)
    (hB : cfg.gradientBufferSize_ ≤ 1)
    (hL : sh.grads_.length = L) (hcover : pos + L ≤ newGrads.length) :
    (AsyncGraphGroup.pushShard cfg opt newGrads bw nb pos sh).1.grads_
      = subtensor newGrads pos L ∧
    (AsyncGraphGroup.pushShard cfg opt newGrads bw nb pos sh).2
      = some (subtensor newGrads pos L) := by
  have hpl : (subtensor newGrads pos L).length = L := length_subtensor _ _ _ hcover
  have hg : copyInto sh.grads_ 0 (subtensor newGrads pos sh.grads_.length)
      = subtensor newGrads pos L := by
    rw [hL]
    exact copyInto_full _ _ (by rw [hpl, hL])
  have hB' : ¬ cfg.gradientBufferSize_ > 1 := by omega
  unfold AsyncGraphGroup.pushShard
  simp only [hg, hB', if_false, Bool.false_eq_true]
  repeat' constructor

/-- The state of a shard with a buffer after `n` pushes. -/
theorem shardRun_buffered {α ω : Type} [LinearOrderedField α]
    (cfg : AsyncGraphGroup.Config α) (opt : AsyncGraphGroup.Optimizer α ω)
    (pos L : Nat) (pushes : Nat → AsyncGraphGroup.Push α) (sh : AsyncGraphGroup.Shard α ω)
    (hB : cfg.gradientBufferSize_ > 1) (hL : sh.grads_.length = L)
    (hcover : ∀ j, pos + L ≤ (pushes j).newGrads.length)
    (hcount : sh.bufferCount = 0) (hbuf : sh.bufferGrads_ = List.replicate L 0) (n : Nat) :
    (AsyncGraphGroup.shardRun cfg opt pos pushes sh n).1.grads_.length = L ∧
    (AsyncGraphGroup.shardRun cfg opt pos pushes sh n).1.bufferCount
      = n % cfg.gradientBufferSize_ ∧
    (AsyncGraphGroup.shardRun cfg opt pos pushes sh n).1.bufferGrads_
      = AsyncGraphGroup.elementSum L ((List.range (n % cfg.gradientBufferSize_)).map
          fun m => subtensor (pushes (n - n % cfg.gradientBufferSize_ + m)).newGrads pos L) ∧
    (AsyncGraphGroup.shardRun cfg opt pos pushes sh n).2
      = (List.range n).map fun j =>
          if (j + 1) % cfg.gradientBufferSize_ = 0 then
            some (AsyncGraphGroup.elementSum L ((List.range cfg.gradientBufferSize_).map
              fun m => subtensor (pushes (j + 1 - cfg.gradientBufferSize_ + m)).newGrads pos L))
          else none := by
  induction n with
  | zero =>
    refine ⟨hL, by rw [Nat.zero_mod]; exact hcount, ?_, rfl⟩
    rw [Nat.zero_mod]
    show sh.bufferGrads_ = _
    rw [hbuf, List.range_zero, List.map_nil, elementSum_nil]
  | succ n ih =>
    obtain ⟨ih1, ih2, ih3, ih4⟩ := ih
    obtain ⟨h1, h2, h3, h4⟩ := pushShard_buffered cfg opt (pushes n).newGrads
      (pushes n).batch_words (pushes n).numberOfBatches pos L
      (AsyncGraphGroup.shardRun cfg opt pos pushes sh n).1 _ hB ih1 (hcover n) ih3
    have hle : n % cfg.gradientBufferSize_ ≤ n := Nat.mod_le _ _
    have hwin : (List.range (n % cfg.gradientBufferSize_)).map
          (fun m => subtensor (pushes (n - n % cfg.gradientBufferSize_ + m)).newGrads pos L)
          ++ [subtensor (pushes n).newGrads pos L]
        = (List.range (n % cfg.gradientBufferSize_ + 1)).map
          (fun m => subtensor (pushes (n - n % cfg.gradientBufferSize_ + m)).newGrads pos L) := by
      rw [List.range_succ, List.map_append]
      simp only [List.map_cons, List.map_nil]
      rw [Nat.sub_add_cancel hle]
    rw [ih2] at h2 h3 h4
    rw [hwin] at h3 h4
    show (AsyncGraphGroup.pushShard cfg opt (pushes n).newGrads (pushes n).batch_words
        (pushes n).numberOfBatches pos
        (AsyncGraphGroup.shardRun cfg opt pos pushes sh n).1).1.grads_.length = L ∧
      (AsyncGraphGroup.pushShard cfg opt (pushes n).newGrads (pushes n).batch_words
        (pushes n).numberOfBatches pos
        (AsyncGraphGroup.shardRun cfg opt pos pushes sh n).1).1.bufferCount = _ ∧
      (AsyncGraphGroup.pushShard cfg opt (pushes n).newGrads (pushes n).batch_words
        (pushes n).numberOfBatches pos
        (AsyncGraphGroup.shardRun cfg opt pos pushes sh n).1).1.bufferGrads_ = _ ∧
      (AsyncGraphGroup.shardRun cfg opt pos pushes sh n).2 ++
        [(AsyncGraphGroup.pushShard cfg opt (pushes n).newGrads (pushes n).batch_words
          (pushes n).numberOfBatches pos
          (AsyncGraphGroup.shardRun cfg opt pos pushes sh n).1).2] = _
    have hcases := succ_mod_cases n cfg.gradientBufferSize_ (by omega)
    refine ⟨?_, ?_, ?_, ?_⟩
    · rw [h1]
      exact length_subtensor _ _ _ (hcover n)
    · rw [h2]
      rcases hcases with ⟨c1, c2, _⟩ | ⟨c1, c2, _⟩
      · rw [if_pos c1, c2]
      · rw [if_neg (by omega), c2]
    · rw [h3]
      rcases hcases with ⟨c1, c2, c3⟩ | ⟨c1, c2, c3⟩
      · rw [if_pos c1, c3, c2]
      · rw [if_neg (by omega), c2, List.range_zero, List.map_nil, elementSum_nil]
    · rw [h4, ih4]
      conv_rhs => rw [List.range_succ, List.map_append]
      simp only [List.map_cons, List.map_nil]
      rcases hcases with ⟨c1, c2, c3⟩ | ⟨c1, c2, c3⟩
      · rw [if_pos c1, c2, if_neg (by omega)]
      · rw [if_neg (by omega), c2, if_pos rfl, c3, c1]

/-- The updaters of a shard without a buffer after `n` pushes. -/
theorem shardRun_direct {α ω : Type} [LinearOrderedField α]
    (cfg : AsyncGraphGroup.Config α) (opt : AsyncGraphGroup.Optimizer α ω)
    (pos L : Nat) (pushes : Nat → AsyncGraphGroup.Push α) (sh : AsyncGraphGroup.Shard α ω)
    (hB : cfg.gradientBufferSize_ ≤ 1) (hL : sh.grads_.length = L)
    (hcover : ∀ j, pos + L ≤ (pushes j).newGrads.length) (n : Nat) :
    (AsyncGraphGroup.shardRun cfg opt pos pushes sh n).1.grads_.length = L ∧
    (AsyncGraphGroup.shardRun cfg opt pos pushes sh n).2
      = (List.range n).map fun j => some (subtensor (pushes j).newGrads pos L) := by
  induction n with
  | zero => exact ⟨hL, rfl⟩
  | succ n ih =>
    obtain ⟨ih1, ih2⟩ := ih
    obtain ⟨h1, h2⟩ := pushShard_direct cfg opt (pushes n).newGrads
      (pushes n).batch_words (pushes n).numberOfBatches pos L
      (AsyncGraphGroup.shardRun cfg opt pos pushes sh n).1 hB ih1 (hcover n)
    show (AsyncGraphGroup.pushShard cfg opt (pushes n).newGrads (pushes n).batch_words
        (pushes n).numberOfBatches pos
        (AsyncGraphGroup.shardRun cfg opt pos pushes sh n).1).1.grads_.length = L ∧
      (AsyncGraphGroup.shardRun cfg opt pos pushes sh n).2 ++
        [(AsyncGraphGroup.pushShard cfg opt (pushes n).newGrads (pushes n).batch_words
          (pushes n).numberOfBatches pos
          (AsyncGraphGroup.shardRun cfg opt pos pushes sh n).1).2] = _
    rw [h1, h2, ih2, List.range_succ, List.map_append]
    exact ⟨length_subtensor _ _ _ (hcover n), rfl⟩

/-- The parameters, the optimizer state and the moving average after one push
to a shard with a buffer (`gradientBufferSize_ > 1`): they are untouched while
the buffer fills, and the push that fills it applies the optimizer to the sum
in the buffer. -/
theorem pushShard_buffered_update {α ω : Type} [LinearOrderedField α]
    (cfg : AsyncGraphGroup.Config α) (opt : AsyncGraphGroup.Optimizer α ω)
    (newGrads : List α) (bw nb pos L : Nat) (sh : AsyncGraphGroup.Shard α ω)
    (vs : List (List α)) (hB : cfg.gradientBufferSize_ > 1)
    (hL : sh.grads_.length = L) (hcover : pos + L ≤ newGrads.length)
    (hbuf : sh.bufferGrads_ = AsyncGraphGroup.elementSum L vs) :
    (sh.bufferCount + 1 < cfg.gradientBufferSize_ →
      (AsyncGraphGroup.pushShard cfg opt newGrads bw nb pos sh).1.params_ = sh.params_ ∧
      (AsyncGraphGroup.pushShard cfg opt newGrads bw nb pos sh).1.shardOpt_ = sh.shardOpt_ ∧
      (AsyncGraphGroup.pushShard cfg opt newGrads bw nb pos sh).1.paramsAvg_
        = sh.paramsAvg_) ∧
    (¬ sh.bufferCount + 1 < cfg.gradientBufferSize_ →
      ((AsyncGraphGroup.pushShard cfg opt newGrads bw nb pos sh).1.shardOpt_,
        (AsyncGraphGroup.pushShard cfg opt newGrads bw nb pos sh).1.params_)
        = opt.update sh.shardOpt_ sh.params_
            (AsyncGraphGroup.elementSum L (vs ++ [subtensor newGrads pos L]))
            (if cfg.scaleLearningRate_ then some ((bw : α) / cfg.avgBatchWords_) else none) ∧
      (AsyncGraphGroup.pushShard cfg opt newGrads bw nb pos sh).1.paramsAvg_
        = (if cfg.movingAvg_ then
            (AsyncGraphGroup.updateMovingAverage cfg.mvDecay_ sh.paramsAvg_
              (AsyncGraphGroup.pushShard cfg opt newGrads bw nb pos sh).1.params_ nb).1
          else sh.paramsAvg_)) := by
  have hpl : (subtensor newGrads pos L).length = L := length_subtensor _ _ _ hcover
  have hg : copyInto sh.grads_ 0 (subtensor newGrads pos sh.grads_.length)
      = subtensor newGrads pos L := by
    rw [hL]
    exact copyInto_full _ _ (by rw [hpl, hL])
  have hsum := elementAdd_elementSum L vs (subtensor newGrads pos L) hpl
  unfold AsyncGraphGroup.pushShard
  simp only [hg, hB, if_true, hbuf, hsum]
  constructor
  · intro hc
    simp only [hc, if_true]
    repeat' constructor
  · intro hc
    simp only [hc, if_false, Bool.false_eq_true]
    cases hs : cfg.scaleLearningRate_ <;> simp only [if_true, if_false, Bool.false_eq_true] <;>
      repeat' constructor

/-- The parameters, the optimizer state and the moving average after one push
to a shard without a buffer (`gradientBufferSize_ <= 1`): the optimizer is
applied to the pushed gradient shard. -/
theorem pushShard_direct_update {α ω : Type} [LinearOrderedField α]
    (cfg : AsyncGraphGroup.Config α) (opt : AsyncGraphGroup.Optimizer α ω)
    (newGrads : List α) (bw nb pos L : Nat) (sh : AsyncGraphGroup.Shard α ω)
    (hB : cfg.gradientBufferSize_ ≤ 1)
    (hL : sh.grads_.length = L) (hcover : pos + L ≤ newGrads.length) :
    ((AsyncGraphGroup.pushShard cfg opt newGrads bw nb pos sh).1.shardOpt_,
      (AsyncGraphGroup.pushShard cfg opt newGrads bw nb pos sh).1.params_)
      = opt.update sh.shardOpt_ sh.params_ (subtensor newGrads pos L)
          (if cfg.scaleLearningRate_ then some ((bw : α) / cfg.avgBatchWords_) else none) ∧
    (AsyncGraphGroup.pushShard cfg opt newGrads bw nb pos sh).1.paramsAvg_
      = (if cfg.movingAvg_ then
          (AsyncGraphGroup.updateMovingAverage cfg.mvDecay_ sh.paramsAvg_
            (AsyncGraphGroup.pushShard cfg opt newGrads bw nb pos sh).1.params_ nb).1
        else sh.paramsAvg_) := by
  have hpl : (subtensor newGrads pos L).length = L := length_subtensor _ _ _ hcover
  have hg : copyInto sh.grads_ 0 (subtensor newGrads pos sh.grads_.length)
      = subtensor newGrads pos L := by
    rw [hL]
    exact copyInto_full _ _ (by rw [hpl, hL])
  have hB' : ¬ cfg.gradientBufferSize_ > 1 := by omega
  unfold AsyncGraphGroup.pushShard
  simp only [hg, hB', if_false, Bool.false_eq_true]
  cases hs : cfg.scaleLearningRate_ <;> simp only [if_true, if_false, Bool.false_eq_true] <;>
    repeat' constructor

/-- The shard after the push number `n` is the thread body applied to the shard
after `n` pushes. -/
theorem shardRun_succ {α ω : Type} [LinearOrderedField α]
    (cfg : AsyncGraphGroup.Config α) (opt : AsyncGraphGroup.Optimizer α ω)
    (pos : Nat) (pushes : Nat → AsyncGraphGroup.Push α) (sh : AsyncGraphGroup.Shard α ω)
    (n : Nat) :
    (AsyncGraphGroup.shardRun cfg opt pos pushes sh (n + 1)).1
      = (AsyncGraphGroup.pushShard cfg opt (pushes n).newGrads (pushes n).batch_words
          (pushes n).numberOfBatches pos
          (AsyncGraphGroup.shardRun cfg opt pos pushes sh n).1).1 := rfl

/-- C19 (gradient buffer of a shard): the pushes to the shard `idx` are
processed one at a time under its lock, each by the thread body `pushShard` of
`pushGradients` at the offset `idx * shardSize_`. If `gradientBufferSize_ = B > 1`,
starting from `bufferCount[idx] = 0` and a zero buffer, the optimizer is called
on exactly every `B`-th push (the push number `j`, counted from 0, with
`(j + 1) % B = 0`), with the element-wise sum of the last `B` pushed gradient
shards: that push replaces the parameter shard and the optimizer state by the
result of `update` on them with this sum (and the scale `batch_words /
avgBatchWords_` if `scaleLearningRate_`) and, if `movingAvg_`, blends the new
parameters into the moving average; every other push leaves the parameter shard,
the optimizer state and the moving average as they are. After `n` pushes
`bufferCount[idx] = n % B < B`, and the buffer is zero whenever `n % B = 0`. If
`B <= 1` every push applies `update` with the pushed gradient shard itself. -/
theorem pushGradients_buffer_cycle {α ω : Type} [LinearOrderedField α]
    (cfg : AsyncGraphGroup.Config α) (opt : AsyncGraphGroup.Optimizer α ω)
    (pos L : Nat) (pushes : Nat → AsyncGraphGroup.Push α) (sh : AsyncGraphGroup.Shard α ω)
    (hL : sh.grads_.length = L)
    (hcover : ∀ j, pos + L ≤ (pushes j).newGrads.length) :
    (cfg.gradientBufferSize_ > 1 → sh.bufferCount = 0 →
      sh.bufferGrads_ = List.replicate L 0 → ∀ n,
        (AsyncGraphGroup.shardRun cfg opt pos pushes sh n).2
          = ((List.range n).map fun j =>
              if (j + 1) % cfg.gradientBufferSize_ = 0 then
                some (AsyncGraphGroup.elementSum L
                  ((List.range cfg.gradientBufferSize_).map fun m =>
                    subtensor (pushes (j + 1 - cfg.gradientBufferSize_ + m)).newGrads pos L))
              else none) ∧
        (AsyncGraphGroup.shardRun cfg opt pos pushes sh n).1.bufferCount
          = n % cfg.gradientBufferSize_ ∧
        (AsyncGraphGroup.shardRun cfg opt pos pushes sh n).1.bufferCount
          < cfg.gradientBufferSize_ ∧
        (n % cfg.gradientBufferSize_ = 0 →
          (AsyncGraphGroup.shardRun cfg opt pos pushes sh n).1.bufferGrads_
            = List.replicate L 0) ∧
        ((n + 1) % cfg.gradientBufferSize_ = 0 →
          ((AsyncGraphGroup.shardRun cfg opt pos pushes sh (n + 1)).1.shardOpt_,
            (AsyncGraphGroup.shardRun cfg opt pos pushes sh (n + 1)).1.params_)
            = opt.update (AsyncGraphGroup.shardRun cfg opt pos pushes sh n).1.shardOpt_
                (AsyncGraphGroup.shardRun cfg opt pos pushes sh n).1.params_
                (AsyncGraphGroup.elementSum L
                  ((List.range cfg.gradientBufferSize_).map fun m =>
                    subtensor (pushes (n + 1 - cfg.gradientBufferSize_ + m)).newGrads pos L))
                (if cfg.scaleLearningRate_ then
                  some (((pushes n).batch_words : α) / cfg.avgBatchWords_) else none) ∧
          (AsyncGraphGroup.shardRun cfg opt pos pushes sh (n + 1)).1.paramsAvg_
            = (if cfg.movingAvg_ then
                (AsyncGraphGroup.updateMovingAverage cfg.mvDecay_
                  (AsyncGraphGroup.shardRun cfg opt pos pushes sh n).1.paramsAvg_
                  (AsyncGraphGroup.shardRun cfg opt pos pushes sh (n + 1)).1.params_
                  (pushes n).numberOfBatches).1
              else (AsyncGraphGroup.shardRun cfg opt pos pushes sh n).1.paramsAvg_)) ∧
        ((n + 1) % cfg.gradientBufferSize_ ≠ 0 →
          (AsyncGraphGroup.shardRun cfg opt pos pushes sh (n + 1)).1.params_
            = (AsyncGraphGroup.shardRun cfg opt pos pushes sh n).1.params_ ∧
          (AsyncGraphGroup.shardRun cfg opt pos pushes sh (n + 1)).1.shardOpt_
            = (AsyncGraphGroup.shardRun cfg opt pos pushes sh n).1.shardOpt_ ∧
          (AsyncGraphGroup.shardRun cfg opt pos pushes sh (n + 1)).1.paramsAvg_
            = (AsyncGraphGroup.shardRun cfg opt pos pushes sh n).1.paramsAvg_)) ∧
    (cfg.gradientBufferSize_ ≤ 1 → ∀ n,
      (AsyncGraphGroup.shardRun cfg opt pos pushes sh n).2
        = ((List.range n).map fun j => some (subtensor (pushes j).newGrads pos L)) ∧
      ((AsyncGraphGroup.shardRun cfg opt pos pushes sh (n + 1)).1.shardOpt_,
        (AsyncGraphGroup.shardRun cfg opt pos pushes sh (n + 1)).1.params_)
        = opt.update (AsyncGraphGroup.shardRun cfg opt pos pushes sh n).1.shardOpt_
            (AsyncGraphGroup.shardRun cfg opt pos pushes sh n).1.params_
            (subtensor (pushes n).newGrads pos L)
            (if cfg.scaleLearningRate_ then
              some (((pushes n).batch_words : α) / cfg.avgBatchWords_) else none) ∧
      (AsyncGraphGroup.shardRun cfg opt pos pushes sh (n + 1)).1.paramsAvg_
        = (if cfg.movingAvg_ then
            (AsyncGraphGroup.updateMovingAverage cfg.mvDecay_
              (AsyncGraphGroup.shardRun cfg opt pos pushes sh n).1.paramsAvg_
              (AsyncGraphGroup.shardRun cfg opt pos pushes sh (n + 1)).1.params_
              (pushes n).numberOfBatches).1
          else (AsyncGraphGroup.shardRun cfg opt pos pushes sh n).1.paramsAvg_)) ∧
    (∀ (shards : List (AsyncGraphGroup.Shard α ω)) (newGrads : List α) (bw nb idx : Nat),
      (AsyncGraphGroup.pushGradients cfg opt newGrads bw nb shards)[idx]?
        = (shards[idx]?).map
            (AsyncGraphGroup.pushShard cfg opt newGrads bw nb (idx * cfg.shardSize_))) := by
  refine ⟨?_, ?_, ?_⟩
  · intro hB hcount hbuf n
    obtain ⟨h1, h2, h3, h4⟩ := shardRun_buffered cfg opt pos L pushes sh hB hL hcover
      hcount hbuf n
    obtain ⟨hkeep, hupd⟩ := pushShard_buffered_update cfg opt (pushes n).newGrads
      (pushes n).batch_words (pushes n).numberOfBatches pos L
      (AsyncGraphGroup.shardRun cfg opt pos pushes sh n).1 _ hB h1 (hcover n) h3
    have hle : n % cfg.gradientBufferSize_ ≤ n := Nat.mod_le _ _
    have hwin : (List.range (n % cfg.gradientBufferSize_)).map
          (fun m => subtensor (pushes (n - n % cfg.gradientBufferSize_ + m)).newGrads pos L)
          ++ [subtensor (pushes n).newGrads pos L]
        = (List.range (n % cfg.gradientBufferSize_ + 1)).map
          (fun m => subtensor (pushes (n - n % cfg.gradientBufferSize_ + m)).newGrads pos L) := by
      rw [List.range_succ, List.map_append]
      simp only [List.map_cons, List.map_nil]
      rw [Nat.sub_add_cancel hle]
    rw [h2, hwin] at hupd
    rw [h2] at hkeep
    have hcases := succ_mod_cases n cfg.gradientBufferSize_ (by omega)
    refine ⟨h4, h2, ?_, ?_, ?_, ?_⟩
    · rw [h2]
      exact Nat.mod_lt _ (by omega)
    · intro h0
      rw [h3, h0, List.range_zero, List.map_nil, elementSum_nil]
    · intro h0
      rcases hcases with ⟨c1, c2, _⟩ | ⟨c1, c2, c3⟩
      · omega
      · rw [shardRun_succ]
        have := hupd (by omega)
        rw [c1, ← c3] at this
        exact this
    · intro h0
      rcases hcases with ⟨c1, c2, _⟩ | ⟨c1, c2, c3⟩
      · rw [shardRun_succ]
        exact hkeep c1
      · omega
  · intro hB n
    obtain ⟨h1, h2⟩ := shardRun_direct cfg opt pos L pushes sh hB hL hcover n
    obtain ⟨h3, h4⟩ := pushShard_direct_update cfg opt (pushes n).newGrads
      (pushes n).batch_words (pushes n).numberOfBatches pos L
      (AsyncGraphGroup.shardRun cfg opt pos pushes sh n).1 hB h1 (hcover n)
    rw [shardRun_succ]
    exact ⟨h2, h3, h4⟩
  · intro shards newGrads bw nb idx
    unfold AsyncGraphGroup.pushGradients
    rw [List.getElem?_mapIdx]

/-- Witness of C19: a shard of two elements with `gradientBufferSize_ = 2` and
the pushes `[1, 1]`, `[2, 2]`, `[3, 3]`, `[4, 4]`: the optimizer is called on the
second and on the fourth push, and the fourth push replaces the parameters by
the result of `update` with the sum `[7, 7]` of the third and the fourth
gradient. -/
theorem pushGradients_buffer_cycle_witness :
    (AsyncGraphGroup.shardRun bufferedConfig plainSgd 0 countingPushes freshShard 4).2
      = ((List.range 4).map fun j =>
          if (j + 1) % bufferedConfig.gradientBufferSize_ = 0 then
            some (AsyncGraphGroup.elementSum 2
              ((List.range bufferedConfig.gradientBufferSize_).map fun m =>
                subtensor (countingPushes (j + 1 - bufferedConfig.gradientBufferSize_ + m)).newGrads
                  0 2))
          else none) ∧
    ((AsyncGraphGroup.shardRun bufferedConfig plainSgd 0 countingPushes freshShard 4).1.shardOpt_,
      (AsyncGraphGroup.shardRun bufferedConfig plainSgd 0 countingPushes freshShard 4).1.params_)
      = plainSgd.update
          (AsyncGraphGroup.shardRun bufferedConfig plainSgd 0 countingPushes freshShard 3).1.shardOpt_
          (AsyncGraphGroup.shardRun bufferedConfig plainSgd 0 countingPushes freshShard 3).1.params_
          (AsyncGraphGroup.elementSum 2
            ((List.range bufferedConfig.gradientBufferSize_).map fun m =>
              subtensor (countingPushes (3 + 1 - bufferedConfig.gradientBufferSize_ + m)).newGrads
                0 2))
          (if bufferedConfig.scaleLearningRate_ then
            some (((countingPushes 3).batch_words : ℚ) / bufferedConfig.avgBatchWords_)
          else none) :=
  ⟨((pushGradients_buffer_cycle bufferedConfig plainSgd 0 2 countingPushes freshShard rfl
      (fun _ => Nat.le_refl 2)).1 (by decide) rfl rfl 4).1,
    (((pushGradients_buffer_cycle bufferedConfig plainSgd 0 2 countingPushes freshShard rfl
      (fun _ => Nat.le_refl 2)).1 (by decide) rfl rfl 3).2.2.2.2.1 (by decide)).1⟩

/-- The values of the witness of C19: the parameters `[1, 1]` become `[-2, -2]`
with the second push and `[-9, -9]` with the fourth; the first and the third
push leave them as they are. -/
theorem shardRun_plainSgd_values :
    (AsyncGraphGroup.shardRun bufferedConfig plainSgd 0 countingPushes freshShard 1).1.params_
      = [1, 1] ∧
    (AsyncGraphGroup.shardRun bufferedConfig plainSgd 0 countingPushes freshShard 2).1.params_
      = [-2, -2] ∧
    (AsyncGraphGroup.shardRun bufferedConfig plainSgd 0 countingPushes freshShard 3).1.params_
      = [-2, -2] ∧
    (AsyncGraphGroup.shardRun bufferedConfig plainSgd 0 countingPushes freshShard 4).1.params_
      = [-9, -9] := by
  refine ⟨?_, ?_, ?_, ?_⟩ <;>
    norm_num [AsyncGraphGroup.shardRun, AsyncGraphGroup.pushShard, bufferedConfig, plainSgd,
      countingPushes, freshShard, copyInto, subtensor, AsyncGraphGroup.elementAdd,
      List.mapIdx_cons, List.replicate]

theorem taskRun_length {α : Type} [LinearOrderedField α] (cfg : AsyncGraphGroup.Config α)
    (steps : Nat → AsyncGraphGroup.StepInput α) (n : Nat) :
    (AsyncGraphGroup.taskRun cfg steps n).2.length = n := by
  induction n with
  | zero => rfl
  | succ n ih =>
    show ((AsyncGraphGroup.taskRun cfg steps n).2 ++ [_]).length = n + 1
    rw [List.length_append, ih]
    rfl

/-- The calls of the run number `s` are those of the task in the state after
`s` runs. -/
theorem taskRun_events {α : Type} [LinearOrderedField α] (cfg : AsyncGraphGroup.Config α)
    (steps : Nat → AsyncGraphGroup.StepInput α) (n s : Nat) (hs : s < n) :
    (AsyncGraphGroup.taskRun cfg steps n).2[s]? =
      some (AsyncGraphGroup.task cfg (AsyncGraphGroup.taskRun cfg steps s).1 (steps s)).2 := by
  induction n with
  | zero => omega
  | succ n ih =>
    show ((AsyncGraphGroup.taskRun cfg steps n).2 ++
      [(AsyncGraphGroup.task cfg (AsyncGraphGroup.taskRun cfg steps n).1 (steps n)).2])[s]? = _
    by_cases h : s < n
    · rw [List.getElem?_append_left (by rw [taskRun_length]; exact h)]
      exact ih h
    · have hsn : s = n := by omega
      subst hsn
      rw [List.getElem?_append_right (by rw [taskRun_length]), taskRun_length]
      simp

/-- The counter `t` after `n` runs of the task. -/
theorem taskRun_t {α : Type} [LinearOrderedField α] (cfg : AsyncGraphGroup.Config α)
    (steps : Nat → AsyncGraphGroup.StepInput α) (n : Nat) :
    (AsyncGraphGroup.taskRun cfg steps n).1.t = n % 2 ^ 64 := by
  induction n with
  | zero => rfl
  | succ n ih =>
    show szAdd (AsyncGraphGroup.taskRun cfg steps n).1.t 1 = _
    rw [ih]
    unfold szAdd SIZE_T
    omega

/-- The task calls `fetchParams` exactly when `t % tau_ == 0` at its start. -/
theorem task_fetch {α : Type} [LinearOrderedField α] (cfg : AsyncGraphGroup.Config α)
    (w : AsyncGraphGroup.Worker α) (b : AsyncGraphGroup.StepInput α) :
    AsyncGraphGroup.Event.fetch ∈ (AsyncGraphGroup.task cfg w b).2 ↔ w.t % cfg.tau_ = 0 := by
  unfold AsyncGraphGroup.task
  simp only [List.mem_append]
  constructor
  · rintro ((h | h) | h)
    · by_contra hc
      rw [if_neg hc] at h
      simp at h
    · split at h <;> simp at h
    · split at h <;> simp at h
  · intro h
    left; left
    rw [if_pos h]
    simp

/-- The multiples of `tau` around a step `s`: the last one is at most
`tau - 1` steps before `s`, and there is none after it up to `s`. -/
theorem last_multiple (tau s : Nat) (htau : 1 ≤ tau) :
    (s - s % tau) % tau = 0 ∧ s - (s - s % tau) ≤ tau - 1 ∧
    ∀ k, s - s % tau < k → k ≤ s → k % tau ≠ 0 := by
  have hlt : s % tau < tau := Nat.mod_lt _ (by omega)
  have hdm : tau * (s / tau) + s % tau = s := Nat.div_add_mod s tau
  have hf : s - s % tau = tau * (s / tau) := by omega
  refine ⟨by rw [hf]; exact Nat.mul_mod_right _ _, by omega, ?_⟩
  intro k hk1 hk2 hk0
  have hkd : tau * (k / tau) + k % tau = k := Nat.div_add_mod k tau
  rw [hk0, Nat.add_zero] at hkd
  rw [hf, ← hkd] at hk1
  have hq : s / tau < k / tau := Nat.lt_of_mul_lt_mul_left hk1
  have h1 : tau * (s / tau + 1) ≤ tau * (k / tau) := Nat.mul_le_mul_left tau hq
  have h2 : tau * (s / tau + 1) = tau * (s / tau) + tau := by ring
  omega

/-- C17 (fetch schedule and staleness): for `tau_ >= 1`, with the local runs of
the task of one worker numbered `s = 0, 1, 2, ...` (the value of its counter `t`
at the start of the run), the task calls `fetchParams` at the start of the run
`s` if and only if `s % tau_ == 0`. Hence the last fetch before the forward and
backward pass of the run `s` is that of the run `s - s % tau_`, at most
`tau_ - 1` runs earlier, and no run after it up to `s` fetches. -/
theorem fetch_every_tau {α : Type} [LinearOrderedField α] (cfg : AsyncGraphGroup.Config α)
    (steps : Nat → AsyncGraphGroup.StepInput α) (n s : Nat)
    (htau : 1 ≤ cfg.tau_) (hs : s < n) (h64 : s < 2 ^ 64) :
    (AsyncGraphGroup.Event.fetch ∈ (AsyncGraphGroup.taskRun cfg steps n).2.getD s [] ↔
      s % cfg.tau_ = 0) ∧
    AsyncGraphGroup.Event.fetch ∈
      (AsyncGraphGroup.taskRun cfg steps n).2.getD (s - s % cfg.tau_) [] ∧
    s - (s - s % cfg.tau_) ≤ cfg.tau_ - 1 ∧
    s - (s - s % cfg.tau_) < cfg.tau_ ∧
    (∀ k, s - s % cfg.tau_ < k → k ≤ s →
      AsyncGraphGroup.Event.fetch ∉ (AsyncGraphGroup.taskRun cfg steps n).2.getD k []) := by
  have hfetch : ∀ k, k ≤ s →
      (AsyncGraphGroup.Event.fetch ∈ (AsyncGraphGroup.taskRun cfg steps n).2.getD k [] ↔
        k % cfg.tau_ = 0) := by
    intro k hk
    rw [List.getD_eq_getElem?_getD, taskRun_events cfg steps n k (by omega)]
    simp only [Option.getD_some]
    rw [task_fetch, taskRun_t, Nat.mod_eq_of_lt (by omega : k < 2 ^ 64)]
  obtain ⟨h1, h2, h3⟩ := last_multiple cfg.tau_ s htau
  refine ⟨hfetch s (Nat.le_refl s), (hfetch _ (Nat.sub_le _ _)).2 h1, h2, by omega, ?_⟩
  intro k hk1 hk2 hmem
  exact h3 k hk1 hk2 ((hfetch k hk2).1 hmem)

/-- Witness of C17: with `tau_ = 2` the run 3 of five runs does not fetch; its
parameters were fetched in the run 2. -/
theorem fetch_every_tau_witness :
    (AsyncGraphGroup.Event.fetch ∈
        (AsyncGraphGroup.taskRun bufferedConfig countingSteps 5).2.getD 3 [] ↔
      3 % bufferedConfig.tau_ = 0) ∧
    AsyncGraphGroup.Event.fetch ∈
      (AsyncGraphGroup.taskRun bufferedConfig countingSteps 5).2.getD
        (3 - 3 % bufferedConfig.tau_) [] ∧
    3 - (3 - 3 % bufferedConfig.tau_) ≤ bufferedConfig.tau_ - 1 ∧
    3 - (3 - 3 % bufferedConfig.tau_) < bufferedConfig.tau_ ∧
    (∀ k, 3 - 3 % bufferedConfig.tau_ < k → k ≤ 3 →
      AsyncGraphGroup.Event.fetch ∉
        (AsyncGraphGroup.taskRun bufferedConfig countingSteps 5).2.getD k []) :=
  fetch_every_tau bufferedConfig countingSteps 5 3 (by decide) (by decide) (by norm_num)

/-- The call of `pushGradients` made by one run of the task. -/
theorem task_push {α : Type} [LinearOrderedField α] (cfg : AsyncGraphGroup.Config α)
    (w : AsyncGraphGroup.Worker α) (b : AsyncGraphGroup.StepInput α) (g : List α) (c : Nat) :
    AsyncGraphGroup.Event.push g c ∈ (AsyncGraphGroup.task cfg w b).2 ↔
      (szAdd w.t 1 % cfg.tau_ = 0 ∧
       g = (if cfg.tau_ > 1 then
          AsyncGraphGroup.elementAdd
            (if w.t = 0 then List.replicate b.grads.length 0 else w.accGradients) b.grads
        else b.grads) ∧
       c = (if cfg.tau_ > 1 then szAdd w.num_seen_words b.wordsTrg else b.wordsTrg)) := by
  unfold AsyncGraphGroup.task
  simp only [List.mem_append]
  by_cases hp : szAdd w.t 1 % cfg.tau_ = 0
  · by_cases ht : cfg.tau_ > 1
    · simp only [hp, ht, if_true, List.mem_singleton, true_and]
      constructor
      · rintro ((h | h) | h)
        · split at h <;> simp at h
        · cases h
          exact ⟨rfl, rfl⟩
        · split at h <;> simp at h
      · rintro ⟨rfl, rfl⟩
        left; right
        rfl
    · simp only [hp, ht, if_true, if_false, List.mem_singleton, true_and]
      constructor
      · rintro ((h | h) | h)
        · split at h <;> simp at h
        · cases h
          exact ⟨rfl, rfl⟩
        · split at h <;> simp at h
      · rintro ⟨rfl, rfl⟩
        left; right
        rfl
  · simp only [hp, if_false, false_and, iff_false]
    rintro ((h | h) | h)
    · split at h <;> simp at h
    · simp at h
    · split at h <;> simp at h

/-- The counter `num_seen_words` and the tensor `accGradients` after one run of
the task. -/
theorem task_state {α : Type} [LinearOrderedField α] (cfg : AsyncGraphGroup.Config α)
    (w : AsyncGraphGroup.Worker α) (b : AsyncGraphGroup.StepInput α) :
    (AsyncGraphGroup.task cfg w b).1.num_seen_words =
      (if szAdd w.t 1 % cfg.tau_ = 0 then 0
       else if cfg.tau_ > 1 then szAdd w.num_seen_words b.wordsTrg else b.wordsTrg) ∧
    (cfg.tau_ > 1 →
      (AsyncGraphGroup.task cfg w b).1.accGradients =
        (if szAdd w.t 1 % cfg.tau_ = 0 then
          List.replicate (AsyncGraphGroup.elementAdd
            (if w.t = 0 then List.replicate b.grads.length 0 else w.accGradients)
            b.grads).length 0
         else AsyncGraphGroup.elementAdd
            (if w.t = 0 then List.replicate b.grads.length 0 else w.accGradients)
            b.grads)) := by
  unfold AsyncGraphGroup.task
  constructor
  · by_cases hp : szAdd w.t 1 % cfg.tau_ = 0
    · simp only [hp, if_true]
    · by_cases ht : cfg.tau_ > 1
      · simp only [hp, ht, if_true, if_false]
      · simp only [hp, ht, if_false]
  · intro ht
    by_cases hp : szAdd w.t 1 % cfg.tau_ = 0
    · simp only [hp, ht, if_true]
    · simp only [hp, ht, if_true, if_false]

theorem window_succ {β : Type} (f : Nat → β) (a k n : Nat) (h : a + k = n) :
    (List.range k).map (fun m => f (a + m)) ++ [f n]
      = (List.range (k + 1)).map fun m => f (a + m) := by
  rw [List.range_succ, List.map_append, ← h]
  rfl

/-- The counter `num_seen_words` and the accumulator `accGradients` of a worker
after `n` runs of the task: the sums over the runs of the current window. -/
theorem taskRun_window {α : Type} [LinearOrderedField α] (cfg : AsyncGraphGroup.Config α)
    (steps : Nat → AsyncGraphGroup.StepInput α) (D : Nat) (htau : 1 ≤ cfg.tau_)
    (hD : ∀ s, (steps s).grads.length = D) (n : Nat) (hn : n < 2 ^ 64) :
    (AsyncGraphGroup.taskRun cfg steps n).1.num_seen_words =
      ((List.range (n % cfg.tau_)).map fun m =>
        (steps (n - n % cfg.tau_ + m)).wordsTrg).sum % 2 ^ 64 ∧
    (cfg.tau_ > 1 →
      (if n = 0 then List.replicate D 0
        else (AsyncGraphGroup.taskRun cfg steps n).1.accGradients) =
        AsyncGraphGroup.elementSum D ((List.range (n % cfg.tau_)).map fun m =>
          (steps (n - n % cfg.tau_ + m)).grads)) := by
  induction n with
  | zero =>
    refine ⟨?_, fun _ => ?_⟩
    · rw [Nat.zero_mod]
      rfl
    · rw [if_pos rfl, Nat.zero_mod, List.range_zero, List.map_nil, elementSum_nil]
  | succ n ih =>
    obtain ⟨ih1, ih2⟩ := ih (by omega)
    have ht : (AsyncGraphGroup.taskRun cfg steps n).1.t = n := by
      rw [taskRun_t, Nat.mod_eq_of_lt (by omega)]
    have ht1 : szAdd (AsyncGraphGroup.taskRun cfg steps n).1.t 1 = n + 1 := by
      rw [ht, szAdd_eq (by omega)]
    have hle : n % cfg.tau_ ≤ n := Nat.mod_le _ _
    have hcases := succ_mod_cases n cfg.tau_ (by omega)
    constructor
    · show (AsyncGraphGroup.task cfg (AsyncGraphGroup.taskRun cfg steps n).1
        (steps n)).1.num_seen_words = _
      rw [(task_state cfg _ _).1, ht1]
      rcases hcases with ⟨c1, c2, c3⟩ | ⟨c1, c2, c3⟩
      · rw [if_neg (by omega), if_pos (by omega), ih1, c3, c2,
          ← window_succ (fun k => (steps k).wordsTrg) _ _ n (by omega),
          List.sum_append]
        unfold szAdd SIZE_T
        simp only [List.sum_cons, List.sum_nil]
        omega
      · rw [if_pos c2, c2]
        rfl
    · intro hgt
      rw [if_neg (by omega)]
      show (AsyncGraphGroup.task cfg (AsyncGraphGroup.taskRun cfg steps n).1
        (steps n)).1.accGradients = _
      rw [(task_state cfg _ _).2 hgt, ht1, ht, hD n, ih2 hgt,
        elementAdd_elementSum D _ _ (hD n),
        window_succ (fun k => (steps k).grads) _ _ n (by omega)]
      rcases hcases with ⟨c1, c2, c3⟩ | ⟨c1, c2, c3⟩
      · rw [if_neg (by omega), c3, c2]
      · rw [if_pos c2, c2, length_elementSum, List.range_zero, List.map_nil,
          elementSum_nil]

/-- The gradient and the word count that a run of the task pushes when it
completes a window. -/
theorem task_push_window {α : Type} [LinearOrderedField α] (cfg : AsyncGraphGroup.Config α)
    (steps : Nat → AsyncGraphGroup.StepInput α) (D : Nat) (htau : 1 ≤ cfg.tau_)
    (hD : ∀ s, (steps s).grads.length = D) (hW : ∀ s, (steps s).wordsTrg < 2 ^ 64)
    (s : Nat) (h64 : s + 1 < 2 ^ 64) (h0 : (s + 1) % cfg.tau_ = 0) :
    (if cfg.tau_ > 1 then
        AsyncGraphGroup.elementAdd
          (if (AsyncGraphGroup.taskRun cfg steps s).1.t = 0 then
            List.replicate (steps s).grads.length 0
           else (AsyncGraphGroup.taskRun cfg steps s).1.accGradients) (steps s).grads
      else (steps s).grads) =
      AsyncGraphGroup.elementSum D ((List.range cfg.tau_).map fun m =>
        (steps (s + 1 - cfg.tau_ + m)).grads) ∧
    (if cfg.tau_ > 1 then
        szAdd (AsyncGraphGroup.taskRun cfg steps s).1.num_seen_words (steps s).wordsTrg
      else (steps s).wordsTrg) =
      ((List.range cfg.tau_).map fun m =>
        (steps (s + 1 - cfg.tau_ + m)).wordsTrg).sum % 2 ^ 64 := by
  have ht : (AsyncGraphGroup.taskRun cfg steps s).1.t = s := by
    rw [taskRun_t, Nat.mod_eq_of_lt (by omega)]
  obtain ⟨hw1, hw2⟩ := taskRun_window cfg steps D htau hD s (by omega)
  have hle : s % cfg.tau_ ≤ s := Nat.mod_le _ _
  rcases succ_mod_cases s cfg.tau_ (by omega) with ⟨c1, c2, _⟩ | ⟨c1, _, c3⟩
  · omega
  · by_cases hgt : cfg.tau_ > 1
    · rw [if_pos hgt, if_pos hgt, ht, hD s, hw2 hgt, elementAdd_elementSum D _ _ (hD s),
        window_succ (fun k => (steps k).grads) _ _ s (by omega), hw1, c1, c3]
      refine ⟨rfl, ?_⟩
      have hr : List.range cfg.tau_ = List.range (s % cfg.tau_ + 1) := by rw [c1]
      rw [hr, ← window_succ (fun k => (steps k).wordsTrg) _ _ s (by omega), List.sum_append]
      unfold szAdd SIZE_T
      simp only [List.sum_cons, List.sum_nil]
      omega
    · have h1 : cfg.tau_ = 1 := by omega
      rw [if_neg hgt, if_neg hgt, h1]
      have hr : List.range 1 = [0] := rfl
      simp only [hr, List.map_cons, List.map_nil, List.sum_cons, List.sum_nil,
        Nat.add_sub_cancel, Nat.add_zero]
      exact ⟨(elementSum_singleton D _ (hD s)).symm, (Nat.mod_eq_of_lt (hW s)).symm⟩

/-- C18 (push schedule and accumulation): for `tau_ >= 1` and a worker whose
gradient tensors have `D` elements, the task calls `pushGradients` exactly in the
runs `s` (numbered from 0) that end with a step count `s + 1` that is a multiple
`k * tau_`; the gradient pushed then is the element-wise sum of the gradients of
the `tau_` runs `s + 1 - tau_ .. s` of that window, and the word count pushed is
the sum of their target word counts (in `size_t`); with `tau_ > 1` the
accumulator is zero at the first run of every window. -/
theorem push_every_tau {α : Type} [LinearOrderedField α] (cfg : AsyncGraphGroup.Config α)
    (steps : Nat → AsyncGraphGroup.StepInput α) (D n s : Nat) (htau : 1 ≤ cfg.tau_)
    (hD : ∀ s, (steps s).grads.length = D) (hW : ∀ s, (steps s).wordsTrg < 2 ^ 64)
    (hs : s < n) (h64 : s + 1 < 2 ^ 64) :
    ((∃ g c, AsyncGraphGroup.Event.push g c ∈
        (AsyncGraphGroup.taskRun cfg steps n).2.getD s []) ↔ (s + 1) % cfg.tau_ = 0) ∧
    (∀ g c, AsyncGraphGroup.Event.push g c ∈
        (AsyncGraphGroup.taskRun cfg steps n).2.getD s [] ↔
      ((s + 1) % cfg.tau_ = 0 ∧
       g = AsyncGraphGroup.elementSum D ((List.range cfg.tau_).map fun m =>
          (steps (s + 1 - cfg.tau_ + m)).grads) ∧
       c = ((List.range cfg.tau_).map fun m =>
          (steps (s + 1 - cfg.tau_ + m)).wordsTrg).sum % 2 ^ 64)) ∧
    (cfg.tau_ > 1 → s % cfg.tau_ = 0 →
      (if s = 0 then List.replicate D 0
        else (AsyncGraphGroup.taskRun cfg steps s).1.accGradients) = List.replicate D 0) := by
  have ht1 : szAdd (AsyncGraphGroup.taskRun cfg steps s).1.t 1 = s + 1 := by
    rw [taskRun_t, Nat.mod_eq_of_lt (by omega), szAdd_eq (by omega)]
  have hmem : ∀ g c, AsyncGraphGroup.Event.push g c ∈
        (AsyncGraphGroup.taskRun cfg steps n).2.getD s [] ↔
      ((s + 1) % cfg.tau_ = 0 ∧
       g = AsyncGraphGroup.elementSum D ((List.range cfg.tau_).map fun m =>
          (steps (s + 1 - cfg.tau_ + m)).grads) ∧
       c = ((List.range cfg.tau_).map fun m =>
          (steps (s + 1 - cfg.tau_ + m)).wordsTrg).sum % 2 ^ 64) := by
    intro g c
    rw [List.getD_eq_getElem?_getD, taskRun_events cfg steps n s hs]
    simp only [Option.getD_some]
    rw [task_push, ht1]
    constructor
    · rintro ⟨h0, hg, hc⟩
      obtain ⟨e1, e2⟩ := task_push_window cfg steps D htau hD hW s h64 h0
      exact ⟨h0, hg.trans e1, hc.trans e2⟩
    · rintro ⟨h0, hg, hc⟩
      obtain ⟨e1, e2⟩ := task_push_window cfg steps D htau hD hW s h64 h0
      exact ⟨h0, hg.trans e1.symm, hc.trans e2.symm⟩
  refine ⟨?_, hmem, ?_⟩
  · constructor
    · rintro ⟨g, c, h⟩
      exact ((hmem g c).1 h).1
    · intro h0
      exact ⟨_, _, (hmem _ _).2 ⟨h0, rfl, rfl⟩⟩
  · intro hgt h0
    rw [(taskRun_window cfg steps D htau hD s (by omega)).2 hgt, h0, List.range_zero,
      List.map_nil, elementSum_nil]

/-- Witness of C18: with `tau_ = 2` the run 3 pushes the sum of the gradients
of the runs 2 and 3. -/
theorem push_every_tau_witness :
    AsyncGraphGroup.Event.push
        (AsyncGraphGroup.elementSum 2 ((List.range bufferedConfig.tau_).map fun m =>
          (countingSteps (3 + 1 - bufferedConfig.tau_ + m)).grads))
        (((List.range bufferedConfig.tau_).map fun m =>
          (countingSteps (3 + 1 - bufferedConfig.tau_ + m)).wordsTrg).sum % 2 ^ 64) ∈
      (AsyncGraphGroup.taskRun bufferedConfig countingSteps 5).2.getD 3 [] :=
  ((push_every_tau bufferedConfig countingSteps 2 5 3 (by decide) (fun _ => rfl)
    (fun s => by
      show s % 5 + 1 < 2 ^ 64
      omega)
    (by decide) (by norm_num)).2.1 _ _).2 ⟨by decide, rfl, rfl⟩

/-! ### Global ranks -/

/-- The pairs `(p, d)` with `d < N` and the numbers `p * N + d` correspond one
to one. -/
theorem rank_pair_unique {N p d q e : Nat} (hd : d < N) (he : e < N)
    (h : p * N + d = q * N + e) : p = q ∧ d = e := by
  have hN : 0 < N := by omega
  have h1 : (p * N + d) / N = p := by
    rw [Nat.add_comm, Nat.add_mul_div_right _ _ hN, Nat.div_eq_of_lt hd, Nat.zero_add]
  have h2 : (q * N + e) / N = q := by
    rw [Nat.add_comm, Nat.add_mul_div_right _ _ hN, Nat.div_eq_of_lt he, Nat.zero_add]
  have hpq : p = q := by rw [← h1, ← h2, h]
  subst hpq
  exact ⟨rfl, by omega⟩

/-- C29 (global ranks): in a job of `P` processes with `N` local devices each
(`P * N` representable in `size_t`), `myRank(d)` of the process `p` is
`p * N + d` and `numRanks()` is `P * N`; over the processes `p < P` and the
local devices `d < N` this map is a bijection onto `[0, P * N)`: every rank is
below `numRanks()`, two different pairs get different ranks, and every rank
below `numRanks()` is taken. This holds for both communicators. -/
theorem myRank_bijective {α : Type} (w : World α) (N : Nat) (mode : ShardingMode)
    (hw : ∀ gs ∈ w, gs.length = N) (hfit : w.length * N < 2 ^ 64) :
    (∀ p d, p < w.length → d < N →
      (MpiCommunicator.ofWorld w p).myRank d = p * N + d ∧
      (MpiCommunicator.ofWorld w p).numRanks = w.length * N ∧
      (MpiCommunicator.ofWorld w p).myRank d < (MpiCommunicator.ofWorld w p).numRanks ∧
      (OneCCLCommunicator.ofWorld mode w p).myRank d = p * N + d ∧
      (OneCCLCommunicator.ofWorld mode w p).numRanks = w.length * N) ∧
    (∀ p d q e, p < w.length → d < N → q < w.length → e < N →
      (MpiCommunicator.ofWorld w p).myRank d = (MpiCommunicator.ofWorld w q).myRank e →
      p = q ∧ d = e) ∧
    (∀ r, r < w.length * N → ∃ p d, p < w.length ∧ d < N ∧
      (MpiCommunicator.ofWorld w p).myRank d = r ∧
      (OneCCLCommunicator.ofWorld mode w p).myRank d = r) := by
  have hlen : ∀ p, p < w.length → (w.getD p []).length = N := by
    intro p hp
    rw [List.getD_eq_getElem _ _ hp]
    exact hw _ (List.getElem_mem hp)
  have hlt : ∀ p d, p < w.length → d < N → p * N + d < w.length * N := by
    intro p d hp hd
    have h1 : (p + 1) * N ≤ w.length * N := Nat.mul_le_mul_right N (by omega)
    have h2 : (p + 1) * N = p * N + N := by ring
    omega
  have hmpi : ∀ p d, p < w.length → d < N →
      (MpiCommunicator.ofWorld w p).myRank d = p * N + d := by
    intro p d hp hd
    have := hlt p d hp hd
    unfold MpiCommunicator.myRank MpiCommunicator.ofWorld
    simp only [hlen p hp]
    rw [szMul_eq (by omega), szAdd_eq (by omega)]
  have hccl : ∀ p d, p < w.length → d < N →
      (OneCCLCommunicator.ofWorld mode w p).myRank d = p * N + d := by
    intro p d hp hd
    have := hlt p d hp hd
    unfold OneCCLCommunicator.myRank OneCCLCommunicator.numLocalRanks
      OneCCLCommunicator.myLocalRank OneCCLCommunicator.ofWorld
    simp only [hlen p hp]
    rw [szMul_eq (by omega), szAdd_eq (by omega)]
  have hnum : ∀ p, p < w.length →
      (MpiCommunicator.ofWorld w p).numRanks = w.length * N := by
    intro p hp
    unfold MpiCommunicator.numRanks MpiCommunicator.ofWorld
    simp only [hlen p hp]
    exact szMul_eq hfit
  refine ⟨?_, ?_, ?_⟩
  · intro p d hp hd
    refine ⟨hmpi p d hp hd, hnum p hp, ?_, hccl p d hp hd, ?_⟩
    · rw [hmpi p d hp hd, hnum p hp]
      exact hlt p d hp hd
    · unfold OneCCLCommunicator.numRanks OneCCLCommunicator.numLocalRanks
        OneCCLCommunicator.ofWorld
      simp only [hlen p hp]
      exact szMul_eq hfit
  · intro p d q e hp hd hq he h
    rw [hmpi p d hp hd, hmpi q e hq he] at h
    exact rank_pair_unique hd he h
  · intro r hr
    have hN : 0 < N := by
      rcases Nat.eq_zero_or_pos N with h0 | h0
      · subst h0; simp at hr
      · exact h0
    have hp : r / N < w.length := by
      rw [Nat.div_lt_iff_lt_mul hN]
      exact hr
    have hd : r % N < N := Nat.mod_lt _ hN
    have hr' : r / N * N + r % N = r := by
      rw [Nat.mul_comm]
      exact Nat.div_add_mod r N
    exact ⟨r / N, r % N, hp, hd, by rw [hmpi _ _ hp hd, hr'], by rw [hccl _ _ hp hd, hr']⟩

/-- Witness of C29: two processes with two devices each; the device 1 of the
process 1 has the rank 3. -/
theorem myRank_bijective_witness :
    (MpiCommunicator.ofWorld twoByTwo 1).myRank 1 = 1 * 2 + 1 ∧
    (MpiCommunicator.ofWorld twoByTwo 1).numRanks = twoByTwo.length * 2 ∧
    (MpiCommunicator.ofWorld twoByTwo 1).myRank 1 < (MpiCommunicator.ofWorld twoByTwo 1).numRanks ∧
    (OneCCLCommunicator.ofWorld ShardingMode.global twoByTwo 1).myRank 1 = 1 * 2 + 1 ∧
    (OneCCLCommunicator.ofWorld ShardingMode.global twoByTwo 1).numRanks = twoByTwo.length * 2 :=
  (myRank_bijective twoByTwo 2 ShardingMode.global (by decide) (by decide)).1 1 1
    (by decide) (by decide)

/-! ### Reports to the scheduler -/

theorem intOf_zero : AsyncGraphGroup.intOf 0 = 0 := by
  unfold AsyncGraphGroup.intOf
  norm_num

/-- The conversion to `int` after an addition does not depend on an earlier
conversion. -/
theorem intOf_add (a b : Int) :
    AsyncGraphGroup.intOf (AsyncGraphGroup.intOf a + b) = AsyncGraphGroup.intOf (a + b) := by
  unfold AsyncGraphGroup.intOf
  omega

/-- The conversion to `int` keeps the values of `int`. -/
theorem intOf_small (a : Int) (h0 : -(2 ^ 31) ≤ a) (h1 : a < 2 ^ 31) :
    AsyncGraphGroup.intOf a = a := by
  unfold AsyncGraphGroup.intOf
  omega

/-- The call of `scheduler_->update` made by one run of the task. -/
theorem task_report {α : Type} [LinearOrderedField α] (cfg : AsyncGraphGroup.Config α)
    (w : AsyncGraphGroup.Worker α) (b : AsyncGraphGroup.StepInput α) (c : α) (se wo : Int) :
    AsyncGraphGroup.Event.update c se wo ∈ (AsyncGraphGroup.task cfg w b).2 ↔
      ((szAdd w.t 1 % szMul cfg.tau_ cfg.gradientBufferSize_ = 0 ∧
          cfg.hasScheduler = true) ∧
       c = (w.cost + b.cost) / ((szMul cfg.tau_ cfg.gradientBufferSize_ : Nat) : α) ∧
       se = AsyncGraphGroup.intOf (w.sentences + b.size) ∧
       wo = AsyncGraphGroup.intOf (w.words + b.words)) := by
  unfold AsyncGraphGroup.task
  simp only [List.mem_append]
  by_cases hp : szAdd w.t 1 % szMul cfg.tau_ cfg.gradientBufferSize_ = 0 ∧
      cfg.hasScheduler = true
  · simp only [hp, and_self, if_true, List.mem_singleton, true_and]
    constructor
    · rintro ((h | h) | h)
      · split at h <;> simp at h
      · split at h <;> simp at h
      · cases h
        exact ⟨rfl, rfl, rfl⟩
    · rintro ⟨rfl, rfl, rfl⟩
      right
      rfl
  · simp only [hp, if_false, false_and, iff_false]
    rintro ((h | h) | h)
    · split at h <;> simp at h
    · split at h <;> simp at h
    · simp at h

/-- The accumulators `cost`, `sentences` and `words` after one run of the task. -/
theorem task_acc {α : Type} [LinearOrderedField α] (cfg : AsyncGraphGroup.Config α)
    (w : AsyncGraphGroup.Worker α) (b : AsyncGraphGroup.StepInput α) :
    (AsyncGraphGroup.task cfg w b).1.cost =
      (if szAdd w.t 1 % szMul cfg.tau_ cfg.gradientBufferSize_ = 0 ∧
          cfg.hasScheduler = true then 0 else w.cost + b.cost) ∧
    (AsyncGraphGroup.task cfg w b).1.sentences =
      (if szAdd w.t 1 % szMul cfg.tau_ cfg.gradientBufferSize_ = 0 ∧
          cfg.hasScheduler = true then 0
        else AsyncGraphGroup.intOf (w.sentences + b.size)) ∧
    (AsyncGraphGroup.task cfg w b).1.words =
      (if szAdd w.t 1 % szMul cfg.tau_ cfg.gradientBufferSize_ = 0 ∧
          cfg.hasScheduler = true then 0
        else AsyncGraphGroup.intOf (w.words + b.words)) := by
  unfold AsyncGraphGroup.task
  by_cases hp : szAdd w.t 1 % szMul cfg.tau_ cfg.gradientBufferSize_ = 0 ∧
      cfg.hasScheduler = true
  · simp only [hp, and_self, if_true]
  · simp only [hp, if_false]
    repeat' constructor

/-- The accumulators `cost`, `sentences` and `words` of a worker after `n` runs
of the task: the sums over the runs since its last report. -/
theorem taskRun_acc {α : Type} [LinearOrderedField α] (cfg : AsyncGraphGroup.Config α)
    (steps : Nat → AsyncGraphGroup.StepInput α) (W : Nat)
    (hW : cfg.tau_ * cfg.gradientBufferSize_ = W) (hW1 : 1 ≤ W) (hfit : W < 2 ^ 64)
    (hsched : cfg.hasScheduler = true) (n : Nat) (hn : n < 2 ^ 64) :
    (AsyncGraphGroup.taskRun cfg steps n).1.cost =
      ((List.range (n % W)).map fun m => (steps (n - n % W + m)).cost).sum ∧
    (AsyncGraphGroup.taskRun cfg steps n).1.sentences =
      AsyncGraphGroup.intOf
        ((List.range (n % W)).map fun m => ((steps (n - n % W + m)).size : Int)).sum ∧
    (AsyncGraphGroup.taskRun cfg steps n).1.words =
      AsyncGraphGroup.intOf
        ((List.range (n % W)).map fun m => ((steps (n - n % W + m)).words : Int)).sum := by
  have hsz : szMul cfg.tau_ cfg.gradientBufferSize_ = W := by
    rw [szMul_eq (by omega), hW]
  induction n with
  | zero =>
    rw [Nat.zero_mod]
    exact ⟨rfl, intOf_zero.symm, intOf_zero.symm⟩
  | succ n ih =>
    obtain ⟨ih1, ih2, ih3⟩ := ih (by omega)
    have ht1 : szAdd (AsyncGraphGroup.taskRun cfg steps n).1.t 1 = n + 1 := by
      rw [taskRun_t, Nat.mod_eq_of_lt (by omega), szAdd_eq (by omega)]
    obtain ⟨h1, h2, h3⟩ := task_acc cfg (AsyncGraphGroup.taskRun cfg steps n).1 (steps n)
    rw [ht1, hsz, ih1] at h1
    rw [ht1, hsz, ih2, intOf_add] at h2
    rw [ht1, hsz, ih3, intOf_add] at h3
    have hle : n % W ≤ n := Nat.mod_le _ _
    show (AsyncGraphGroup.task cfg (AsyncGraphGroup.taskRun cfg steps n).1 (steps n)).1.cost
        = _ ∧
      (AsyncGraphGroup.task cfg (AsyncGraphGroup.taskRun cfg steps n).1 (steps n)).1.sentences
        = _ ∧
      (AsyncGraphGroup.task cfg (AsyncGraphGroup.taskRun cfg steps n).1 (steps n)).1.words
        = _
    rw [h1, h2, h3]
    rcases succ_mod_cases n W (by omega) with ⟨c1, c2, c3⟩ | ⟨c1, c2, c3⟩
    · have hne : ¬ ((n + 1) % W = 0 ∧ cfg.hasScheduler = true) := by omega
      rw [if_neg hne, if_neg hne, if_neg hne, c3, c2,
        ← window_succ (fun k => (steps k).cost) _ _ n (by omega),
        ← window_succ (fun k => ((steps k).size : Int)) _ _ n (by omega),
        ← window_succ (fun k => ((steps k).words : Int)) _ _ n (by omega)]
      simp only [List.sum_append, List.sum_cons, List.sum_nil, add_zero]
      exact ⟨trivial, trivial, trivial⟩
    · have hpos : (n + 1) % W = 0 ∧ cfg.hasScheduler = true := ⟨c2, hsched⟩
      rw [if_pos hpos, if_pos hpos, if_pos hpos, c2]
      simp only [List.range_zero, List.map_nil, List.sum_nil]
      exact ⟨trivial, intOf_zero.symm, intOf_zero.symm⟩

/-- The sums over consecutive windows of `W` runs add up to the sum over all
runs. -/
theorem sum_windows {β : Type} [AddMonoid β] (f : Nat → β) (W k : Nat) :
    ((List.range k).map fun j => ((List.range W).map fun m => f (j * W + m)).sum).sum
      = ((List.range (k * W)).map f).sum := by
  induction k with
  | zero => simp
  | succ k ih =>
    have h : (k + 1) * W = k * W + W := by ring
    rw [List.range_succ, List.map_append, List.sum_append, ih, h, List.range_add,
      List.map_append, List.sum_append, List.map_map]
    simp only [List.map_cons, List.map_nil, List.sum_cons, List.sum_nil, add_zero]
    rfl

/-- C21 (reports to the scheduler): for `tau_ >= 1` and `gradientBufferSize_ >= 1`
(their product `W` representable in `size_t`) and a scheduler set, the run `s`
of a worker (numbered from 0) calls `scheduler_->update` if and only if the step
count `s + 1` is a multiple of `W`; it passes the sum of the costs of the `W`
runs since the previous report divided by `W`, and the sums of their sentence
counts and word counts (as `int`, the sums themselves when they fit); the three
accumulators are zero afterwards, and the sums of the windows add up to the
totals of all runs up to the last report. -/
theorem report_every_window {α : Type} [LinearOrderedField α]
    (cfg : AsyncGraphGroup.Config α) (steps : Nat → AsyncGraphGroup.StepInput α)
    (n s : Nat) (htau : 1 ≤ cfg.tau_) (hB : 1 ≤ cfg.gradientBufferSize_)
    (hfit : cfg.tau_ * cfg.gradientBufferSize_ < 2 ^ 64)
    (hsched : cfg.hasScheduler = true) (hs : s < n) (h64 : s + 1 < 2 ^ 64) :
    ((∃ c se wo, AsyncGraphGroup.Event.update c se wo ∈
        (AsyncGraphGroup.taskRun cfg steps n).2.getD s []) ↔
      (s + 1) % (cfg.tau_ * cfg.gradientBufferSize_) = 0) ∧
    (∀ c se wo, AsyncGraphGroup.Event.update c se wo ∈
        (AsyncGraphGroup.taskRun cfg steps n).2.getD s [] ↔
      ((s + 1) % (cfg.tau_ * cfg.gradientBufferSize_) = 0 ∧
       c = ((List.range (cfg.tau_ * cfg.gradientBufferSize_)).map fun m =>
            (steps (s + 1 - cfg.tau_ * cfg.gradientBufferSize_ + m)).cost).sum
          / ((cfg.tau_ * cfg.gradientBufferSize_ : Nat) : α) ∧
       se = AsyncGraphGroup.intOf
          ((List.range (cfg.tau_ * cfg.gradientBufferSize_)).map fun m =>
            ((steps (s + 1 - cfg.tau_ * cfg.gradientBufferSize_ + m)).size : Int)).sum ∧
       wo = AsyncGraphGroup.intOf
          ((List.range (cfg.tau_ * cfg.gradientBufferSize_)).map fun m =>
            ((steps (s + 1 - cfg.tau_ * cfg.gradientBufferSize_ + m)).words : Int)).sum)) ∧
    ((s + 1) % (cfg.tau_ * cfg.gradientBufferSize_) = 0 →
      (AsyncGraphGroup.taskRun cfg steps (s + 1)).1.cost = 0 ∧
      (AsyncGraphGroup.taskRun cfg steps (s + 1)).1.sentences = 0 ∧
      (AsyncGraphGroup.taskRun cfg steps (s + 1)).1.words = 0) ∧
    (∀ x : Int, 0 ≤ x → x < 2 ^ 31 → AsyncGraphGroup.intOf x = x) ∧
    (∀ k,
      ((List.range k).map fun j =>
        ((List.range (cfg.tau_ * cfg.gradientBufferSize_)).map fun m =>
          ((steps (j * (cfg.tau_ * cfg.gradientBufferSize_) + m)).size : Int)).sum).sum
        = ((List.range (k * (cfg.tau_ * cfg.gradientBufferSize_))).map fun i =>
            ((steps i).size : Int)).sum ∧
      ((List.range k).map fun j =>
        ((List.range (cfg.tau_ * cfg.gradientBufferSize_)).map fun m =>
          ((steps (j * (cfg.tau_ * cfg.gradientBufferSize_) + m)).words : Int)).sum).sum
        = ((List.range (k * (cfg.tau_ * cfg.gradientBufferSize_))).map fun i =>
            ((steps i).words : Int)).sum) := by
  obtain ⟨W, hW⟩ : ∃ W, cfg.tau_ * cfg.gradientBufferSize_ = W := ⟨_, rfl⟩
  rw [hW] at hfit ⊢
  have hW1 : 1 ≤ W := by
    rw [← hW]
    exact Nat.mul_pos (by omega) (by omega)
  have hsz : szMul cfg.tau_ cfg.gradientBufferSize_ = W := by
    rw [szMul_eq (by omega), hW]
  have ht1 : szAdd (AsyncGraphGroup.taskRun cfg steps s).1.t 1 = s + 1 := by
    rw [taskRun_t, Nat.mod_eq_of_lt (by omega), szAdd_eq (by omega)]
  obtain ⟨a1, a2, a3⟩ := taskRun_acc cfg steps W hW hW1 hfit hsched s (by omega)
  have hle : s % W ≤ s := Nat.mod_le _ _
  have hwin : (s + 1) % W = 0 →
      (AsyncGraphGroup.taskRun cfg steps s).1.cost + (steps s).cost =
        ((List.range W).map fun m => (steps (s + 1 - W + m)).cost).sum ∧
      AsyncGraphGroup.intOf ((AsyncGraphGroup.taskRun cfg steps s).1.sentences + (steps s).size)
        = AsyncGraphGroup.intOf
          ((List.range W).map fun m => ((steps (s + 1 - W + m)).size : Int)).sum ∧
      AsyncGraphGroup.intOf ((AsyncGraphGroup.taskRun cfg steps s).1.words + (steps s).words)
        = AsyncGraphGroup.intOf
          ((List.range W).map fun m => ((steps (s + 1 - W + m)).words : Int)).sum := by
    intro h0
    rcases succ_mod_cases s W (by omega) with ⟨c1, c2, _⟩ | ⟨c1, _, c3⟩
    · omega
    · have hr : List.range W = List.range (s % W + 1) := by rw [c1]
      rw [a1, a2, a3, intOf_add, intOf_add, c3, hr,
        ← window_succ (fun k => (steps k).cost) _ _ s (by omega),
        ← window_succ (fun k => ((steps k).size : Int)) _ _ s (by omega),
        ← window_succ (fun k => ((steps k).words : Int)) _ _ s (by omega)]
      simp only [List.sum_append, List.sum_cons, List.sum_nil, add_zero]
      exact ⟨trivial, trivial, trivial⟩
  have hmem : ∀ c se wo, AsyncGraphGroup.Event.update c se wo ∈
        (AsyncGraphGroup.taskRun cfg steps n).2.getD s [] ↔
      ((s + 1) % W = 0 ∧
       c = ((List.range W).map fun m => (steps (s + 1 - W + m)).cost).sum / ((W : Nat) : α) ∧
       se = AsyncGraphGroup.intOf
          ((List.range W).map fun m => ((steps (s + 1 - W + m)).size : Int)).sum ∧
       wo = AsyncGraphGroup.intOf
          ((List.range W).map fun m => ((steps (s + 1 - W + m)).words : Int)).sum) := by
    intro c se wo
    rw [List.getD_eq_getElem?_getD, taskRun_events cfg steps n s hs]
    simp only [Option.getD_some]
    rw [task_report, ht1, hsz]
    constructor
    · rintro ⟨⟨h0, _⟩, hc, hse, hwo⟩
      obtain ⟨e1, e2, e3⟩ := hwin h0
      exact ⟨h0, by rw [hc, e1], hse.trans e2, hwo.trans e3⟩
    · rintro ⟨h0, hc, hse, hwo⟩
      obtain ⟨e1, e2, e3⟩ := hwin h0
      exact ⟨⟨h0, hsched⟩, by rw [hc, e1], hse.trans e2.symm, hwo.trans e3.symm⟩
  refine ⟨?_, hmem, ?_, fun x h0 h1 => intOf_small x (by omega) h1, ?_⟩
  · constructor
    · rintro ⟨c, se, wo, h⟩
      exact ((hmem c se wo).1 h).1
    · intro h0
      exact ⟨_, _, _, (hmem _ _ _).2 ⟨h0, rfl, rfl, rfl⟩⟩
  · intro h0
    obtain ⟨b1, b2, b3⟩ := taskRun_acc cfg steps W hW hW1 hfit hsched (s + 1) h64
    rw [b1, b2, b3, h0]
    simp only [List.range_zero, List.map_nil, List.sum_nil]
    exact ⟨trivial, intOf_zero, intOf_zero⟩
  · intro k
    exact ⟨sum_windows (fun i => ((steps i).size : Int)) W k,
      sum_windows (fun i => ((steps i).words : Int)) W k⟩

/-- Witness of C21: with `tau_ = 2` and `gradientBufferSize_ = 2` the run 3
reports the costs, sentences and words of the runs 0 to 3. -/
theorem report_every_window_witness :
    AsyncGraphGroup.Event.update
        (((List.range (reportingConfig.tau_ * reportingConfig.gradientBufferSize_)).map fun m =>
            (countingSteps
              (3 + 1 - reportingConfig.tau_ * reportingConfig.gradientBufferSize_ + m)).cost).sum
          / ((reportingConfig.tau_ * reportingConfig.gradientBufferSize_ : Nat) : ℚ))
        (AsyncGraphGroup.intOf
          ((List.range (reportingConfig.tau_ * reportingConfig.gradientBufferSize_)).map fun m =>
            ((countingSteps
              (3 + 1 - reportingConfig.tau_ * reportingConfig.gradientBufferSize_ + m)).size
                : Int)).sum)
        (AsyncGraphGroup.intOf
          ((List.range (reportingConfig.tau_ * reportingConfig.gradientBufferSize_)).map fun m =>
            ((countingSteps
              (3 + 1 - reportingConfig.tau_ * reportingConfig.gradientBufferSize_ + m)).words
                : Int)).sum) ∈
      (AsyncGraphGroup.taskRun reportingConfig countingSteps 5).2.getD 3 [] :=
  ((report_every_window reportingConfig countingSteps 5 3 (by decide) (by decide)
    (by decide) rfl (by decide) (by norm_num)).2.1 _ _ _).2 ⟨by decide, rfl, rfl, rfl⟩

/-! ### The shards of the trainer: `init` and `fetchParams` -/

theorem length_cutShards {α : Type} (vals : List α) (S T p k : Nat) :
    (AsyncGraphGroup.cutShards vals S T p k).length = k := by
  induction k generalizing T p with
  | zero => rfl
  | succ k ih =>
    show (_ :: AsyncGraphGroup.cutShards vals S _ _ k).length = k + 1
    rw [List.length_cons, ih]

/-- The shard number `j` cut by the loop of `init`. -/
theorem getElem?_cutShards {α : Type} (vals : List α) (S T p k j : Nat) (hj : j < k) :
    (AsyncGraphGroup.cutShards vals S T p k)[j]? =
      some (subtensor vals (p + min (j * S) T) (min S (T - j * S))) := by
  induction k generalizing T p j with
  | zero => omega
  | succ k ih =>
    show (subtensor vals p (min S T) ::
      AsyncGraphGroup.cutShards vals S (T - min S T) (p + min S T) k)[j]? = _
    cases j with
    | zero =>
      simp only [List.getElem?_cons_zero, Nat.zero_mul, Nat.sub_zero, Nat.zero_min,
        Nat.add_zero]
    | succ j =>
      rw [List.getElem?_cons_succ, ih _ _ j (by omega)]
      have h : (j + 1) * S = j * S + S := by ring
      rw [h]
      congr 2
      · omega
      · omega

theorem length_allocShards {α : Type} (fill : α) (S T k : Nat) :
    (AsyncGraphGroup.allocShards fill S T k).length = k := by
  induction k generalizing T with
  | zero => rfl
  | succ k ih =>
    show (_ :: AsyncGraphGroup.allocShards fill S _ k).length = k + 1
    rw [List.length_cons, ih]

/-- The tensor number `j` allocated by a loop of `init`. -/
theorem getElem?_allocShards {α : Type} (fill : α) (S T k j : Nat) (hj : j < k) :
    (AsyncGraphGroup.allocShards fill S T k)[j]? =
      some (List.replicate (min S (T - j * S)) fill) := by
  induction k generalizing T j with
  | zero => omega
  | succ k ih =>
    show (List.replicate (min S T) fill ::
      AsyncGraphGroup.allocShards fill S (T - min S T) k)[j]? = _
    cases j with
    | zero => simp only [List.getElem?_cons_zero, Nat.zero_mul, Nat.sub_zero]
    | succ j =>
      rw [List.getElem?_cons_succ, ih _ j (by omega)]
      have h : (j + 1) * S = j * S + S := by ring
      rw [h]
      congr 2
      omega

/-- The sizes `min S (D - i * S)` of `G` shards are all `S` exactly when
`G * S <= D`. -/
theorem shards_equal_iff (S D G : Nat) (hG : 1 ≤ G) :
    (∀ i, i < G → min S (D - i * S) = S) ↔ G * S ≤ D := by
  constructor
  · intro h
    have h1 := h (G - 1) (by omega)
    have h2 : G * S = (G - 1) * S + S := by
      obtain ⟨g, rfl⟩ : ∃ g, G = g + 1 := ⟨G - 1, by omega⟩
      simp only [Nat.add_sub_cancel]
      ring
    rcases Nat.eq_zero_or_pos S with h0 | h0
    · subst h0
      simp
    · omega
  · intro h i hi
    have h1 : (i + 1) * S ≤ G * S := Nat.mul_le_mul_right S (by omega)
    have h2 : (i + 1) * S = i * S + S := by ring
    omega

/-- C22 (counterexample to "all shards have `shardSize_` elements"): `init` on
three devices and ten parameters sets `shardSize_ = 4` and creates parameter
shards and gradient slots of 4, 4 and 2 elements. -/
theorem init_unequal_last_shard :
    (AsyncGraphGroup.init bufferedConfig 0 3 tenParams).shardSize_ = 4 ∧
    (AsyncGraphGroup.init bufferedConfig 0 3 tenParams).params_.map List.length = [4, 4, 2] ∧
    (AsyncGraphGroup.init bufferedConfig 0 3 tenParams).grads_.map List.length = [4, 4, 2] ∧
    (AsyncGraphGroup.init bufferedConfig 0 3 tenParams).params_
      = [[1, 2, 3, 4], [5, 6, 7, 8], [9, 10]] :=
  ⟨rfl, rfl, rfl, rfl⟩

/-- C22 (amended): after `init` there is one parameter shard and one gradient
slot per graph, and the shard `i` and the slot `i` have
`min(shardSize_, D - i * shardSize_)` elements (`D` the number of parameters,
the difference cut off at 0): a shard has `shardSize_` elements while that many
are left, then comes a shorter shard with the rest, then empty shards. All of
them have `shardSize_` elements exactly when `graphs_.size() * shardSize_ <= D`. -/
theorem init_shard_sizes {α : Type} [LinearOrderedField α] (cfg : AsyncGraphGroup.Config α)
    (junk : α) (devices : Nat) (graphs_ : List (Graph α)) (hG : 1 ≤ graphs_.length) :
    (AsyncGraphGroup.init cfg junk devices graphs_).params_.length = graphs_.length ∧
    (AsyncGraphGroup.init cfg junk devices graphs_).grads_.length = graphs_.length ∧
    (∀ i, i < graphs_.length →
      (((AsyncGraphGroup.init cfg junk devices graphs_).params_[i]?).getD []).length =
        min (AsyncGraphGroup.init cfg junk devices graphs_).shardSize_
          (dataSizeOf graphs_ -
            i * (AsyncGraphGroup.init cfg junk devices graphs_).shardSize_) ∧
      (((AsyncGraphGroup.init cfg junk devices graphs_).grads_[i]?).getD []).length =
        min (AsyncGraphGroup.init cfg junk devices graphs_).shardSize_
          (dataSizeOf graphs_ -
            i * (AsyncGraphGroup.init cfg junk devices graphs_).shardSize_)) ∧
    ((∀ i, i < graphs_.length →
        (((AsyncGraphGroup.init cfg junk devices graphs_).params_[i]?).getD []).length =
          (AsyncGraphGroup.init cfg junk devices graphs_).shardSize_ ∧
        (((AsyncGraphGroup.init cfg junk devices graphs_).grads_[i]?).getD []).length =
          (AsyncGraphGroup.init cfg junk devices graphs_).shardSize_) ↔
      graphs_.length * (AsyncGraphGroup.init cfg junk devices graphs_).shardSize_
        ≤ dataSizeOf graphs_) := by
  obtain ⟨S, hS⟩ : ∃ S, (AsyncGraphGroup.init cfg junk devices graphs_).shardSize_ = S :=
    ⟨_, rfl⟩
  have hD : dataSizeOf graphs_ = (graphs_.headD ⟨[], []⟩).vals.length := by
    cases graphs_ with
    | nil => simp at hG
    | cons g rest => rfl
  have hp : (AsyncGraphGroup.init cfg junk devices graphs_).params_ =
      AsyncGraphGroup.cutShards (graphs_.headD ⟨[], []⟩).vals S
        (graphs_.headD ⟨[], []⟩).vals.length 0 graphs_.length := by
    rw [← hS]
    rfl
  have hg : (AsyncGraphGroup.init cfg junk devices graphs_).grads_ =
      AsyncGraphGroup.allocShards junk S (graphs_.headD ⟨[], []⟩).vals.length
        graphs_.length := by
    rw [← hS]
    rfl
  rw [hS, hp, hg, hD]
  have hsizes : ∀ i, i < graphs_.length →
      (((AsyncGraphGroup.cutShards (graphs_.headD ⟨[], []⟩).vals S
          (graphs_.headD ⟨[], []⟩).vals.length 0 graphs_.length)[i]?).getD []).length =
        min S ((graphs_.headD ⟨[], []⟩).vals.length - i * S) ∧
      (((AsyncGraphGroup.allocShards junk S (graphs_.headD ⟨[], []⟩).vals.length
          graphs_.length)[i]?).getD []).length =
        min S ((graphs_.headD ⟨[], []⟩).vals.length - i * S) := by
    intro i hi
    rw [getElem?_cutShards _ _ _ _ _ _ hi, getElem?_allocShards _ _ _ _ _ hi]
    simp only [Option.getD_some, List.length_replicate, and_true]
    exact length_subtensor _ _ _ (by omega)
  refine ⟨length_cutShards _ _ _ _ _, length_allocShards _ _ _ _, hsizes, ?_⟩
  rw [← shards_equal_iff S _ graphs_.length hG]
  constructor
  · intro h i hi
    rw [← (hsizes i hi).1]
    exact (h i hi).1
  · intro h i hi
    rw [(hsizes i hi).1, (hsizes i hi).2]
    exact ⟨h i hi, h i hi⟩

/-- Witness of C22 (amended): three devices and ten parameters. -/
theorem init_shard_sizes_witness :
    (((AsyncGraphGroup.init bufferedConfig 0 3 tenParams).params_[2]?).getD []).length =
        min (AsyncGraphGroup.init bufferedConfig 0 3 tenParams).shardSize_
          (dataSizeOf tenParams -
            2 * (AsyncGraphGroup.init bufferedConfig 0 3 tenParams).shardSize_) ∧
      (((AsyncGraphGroup.init bufferedConfig 0 3 tenParams).grads_[2]?).getD []).length =
        min (AsyncGraphGroup.init bufferedConfig 0 3 tenParams).shardSize_
          (dataSizeOf tenParams -
            2 * (AsyncGraphGroup.init bufferedConfig 0 3 tenParams).shardSize_) :=
  (init_shard_sizes bufferedConfig 0 3 tenParams (by decide)).2.2.1 2 (by decide)

/-- The sizes of the shards cut by `init` add up to the number of parameters
that `G` shards of size `S` can hold. -/
theorem sum_shard_sizes (S D G : Nat) :
    ((List.range G).map fun i => min S (D - i * S)).sum = min D (G * S) := by
  induction G with
  | zero => simp
  | succ G ih =>
    rw [List.range_succ, List.map_append, List.sum_append, ih]
    simp only [List.map_cons, List.map_nil, List.sum_cons, List.sum_nil, Nat.add_zero]
    have h : (G + 1) * S = G * S + S := by ring
    rw [h]
    omega

/-- The tensor after `fetchParams` of the shards cut by `init`: the elements
that the shards cover are those of the parameter vector. -/
theorem fetch_cut {α : Type} (vals t : List α) (S G : Nat) (ht : t.length = vals.length)
    (j : Nat) :
    (AsyncGraphGroup.fetchParams G S t
        (AsyncGraphGroup.cutShards vals S vals.length 0 G))[j]? =
      if j < min (G * S) vals.length then vals[j]? else t[j]? := by
  unfold AsyncGraphGroup.fetchParams
  have h := foldl_range_inv
    (fun (t : List α) idx => copyInto t (idx * S)
      (((AsyncGraphGroup.cutShards vals S vals.length 0 G)[idx]?).getD []))
    (fun k tk => k ≤ G → ∀ j, tk[j]? = if j < min (k * S) vals.length then vals[j]? else t[j]?)
    G t
    (by
      intro _ j
      rw [if_neg (by simp)])
    (by
      intro k hk tk hinv _ j
      have hinv' := hinv (by omega) j
      rw [getElem?_copyInto, getElem?_cutShards _ _ _ _ _ _ hk, hinv']
      simp only [Option.getD_some, Nat.zero_add]
      have hk1 : (k + 1) * S = k * S + S := by ring
      rw [hk1]
      by_cases hjD : j < vals.length
      · have hv : vals[j]? = some vals[j] := List.getElem?_eq_getElem hjD
        have htj : t[j]? = some (t.get ⟨j, by omega⟩) := List.getElem?_eq_getElem (by omega)
        by_cases h1 : j < k * S
        · rw [if_pos (by omega), if_pos (by omega), hv]
          simp only [Option.map_some', Option.some.injEq]
          rw [if_neg (by omega)]
        · rw [if_neg (by omega), htj]
          simp only [Option.map_some']
          rw [if_pos (by omega), getElem?_subtensor]
          by_cases h2 : j < k * S + S
          · rw [if_pos (by omega), if_pos (by omega),
              (by omega : min (k * S) vals.length + (j - k * S) = j), hv]
            rfl
          · rw [if_neg (by omega), if_neg (by omega)]
            rfl
      · rw [List.getElem?_eq_none (by omega : vals.length ≤ j),
          List.getElem?_eq_none (by omega : t.length ≤ j)]
        simp)
  exact h (Nat.le_refl G) j

/-- The conversion to `float` loses the last of `2 ^ 24 + 1` parameters: on one
device `init` computes a `shardSize_` of `2 ^ 24`. -/
theorem shardSize_float_rounds_down :
    f32DivCeil (f32OfNat 16777217) (f32OfNat 1) = 16777216 := by
  decide

/-- C28 (counterexample to "`idx * shardSize_` stays within the tensor for every
shard"): `init` on four devices and five parameters sets `shardSize_ = 2` and
cuts the shards `[1, 2]`, `[3, 4]`, `[5]` and `[]`; `fetchParams` copies the
shard 3 to the offset `3 * shardSize_ = 6`, beyond the five elements of the
tensor (the shard was cut at the offset 5). -/
theorem fetch_offset_beyond_tensor :
    (AsyncGraphGroup.init bufferedConfig 0 4 fiveParams).shardSize_ = 2 ∧
    (AsyncGraphGroup.init bufferedConfig 0 4 fiveParams).params_
      = [[1, 2], [3, 4], [5], []] ∧
    dataSizeOf fiveParams < 3 * (AsyncGraphGroup.init bufferedConfig 0 4 fiveParams).shardSize_ :=
  ⟨rfl, rfl, by decide⟩

/-- C28 (amended): with as many devices as graphs (at least one) and a
`shardSize_` that covers the `D` parameters (`D <= devices * shardSize_`, as
for the exact `ceil(D / devices)`), the shards created by `init` are contiguous
slices of the parameter vector of graph 0 whose sizes add up to `D`; every
shard that is not empty starts at `idx * shardSize_` and ends inside the vector,
and `fetchParams` into a tensor of `D` elements right after `init` reproduces
the parameter vector of graph 0. -/
theorem init_fetch_round_trip {α : Type} [LinearOrderedField α]
    (cfg : AsyncGraphGroup.Config α) (junk : α) (graphs_ : List (Graph α)) (t : List α)
    (hG : 1 ≤ graphs_.length) (ht : t.length = dataSizeOf graphs_)
    (hcover : dataSizeOf graphs_ ≤
      graphs_.length * (AsyncGraphGroup.init cfg junk graphs_.length graphs_).shardSize_) :
    (∀ i, i < graphs_.length →
      (AsyncGraphGroup.init cfg junk graphs_.length graphs_).params_[i]? =
        some (subtensor (graphs_.headD ⟨[], []⟩).vals
          (min (i * (AsyncGraphGroup.init cfg junk graphs_.length graphs_).shardSize_)
            (dataSizeOf graphs_))
          (min (AsyncGraphGroup.init cfg junk graphs_.length graphs_).shardSize_
            (dataSizeOf graphs_ -
              i * (AsyncGraphGroup.init cfg junk graphs_.length graphs_).shardSize_)))) ∧
    ((AsyncGraphGroup.init cfg junk graphs_.length graphs_).params_.map List.length).sum
      = dataSizeOf graphs_ ∧
    (∀ i, i < graphs_.length →
      ((AsyncGraphGroup.init cfg junk graphs_.length graphs_).params_[i]?).getD [] ≠ [] →
      i * (AsyncGraphGroup.init cfg junk graphs_.length graphs_).shardSize_ +
          (((AsyncGraphGroup.init cfg junk graphs_.length graphs_).params_[i]?).getD []).length
        ≤ dataSizeOf graphs_ ∧
      ((AsyncGraphGroup.init cfg junk graphs_.length graphs_).params_[i]?).getD [] =
        subtensor (graphs_.headD ⟨[], []⟩).vals
          (i * (AsyncGraphGroup.init cfg junk graphs_.length graphs_).shardSize_)
          (((AsyncGraphGroup.init cfg junk graphs_.length graphs_).params_[i]?).getD []).length) ∧
    AsyncGraphGroup.fetchParams graphs_.length
        (AsyncGraphGroup.init cfg junk graphs_.length graphs_).shardSize_ t
        (AsyncGraphGroup.init cfg junk graphs_.length graphs_).params_
      = (graphs_.headD ⟨[], []⟩).vals := by
  obtain ⟨S, hS⟩ : ∃ S,
      (AsyncGraphGroup.init cfg junk graphs_.length graphs_).shardSize_ = S := ⟨_, rfl⟩
  have hD : dataSizeOf graphs_ = (graphs_.headD ⟨[], []⟩).vals.length := by
    cases graphs_ with
    | nil => simp at hG
    | cons g rest => rfl
  have hp : (AsyncGraphGroup.init cfg junk graphs_.length graphs_).params_ =
      AsyncGraphGroup.cutShards (graphs_.headD ⟨[], []⟩).vals S
        (graphs_.headD ⟨[], []⟩).vals.length 0 graphs_.length := by
    rw [← hS]
    rfl
  rw [hS] at hcover ⊢
  rw [hp, hD]
  rw [hD] at hcover ht
  obtain ⟨vals, hvals⟩ : ∃ vals, (graphs_.headD ⟨[], []⟩).vals = vals := ⟨_, rfl⟩
  rw [hvals] at hcover ht ⊢
  have hget : ∀ i, i < graphs_.length →
      (AsyncGraphGroup.cutShards vals S vals.length 0 graphs_.length)[i]? =
        some (subtensor vals (min (i * S) vals.length) (min S (vals.length - i * S))) := by
    intro i hi
    rw [getElem?_cutShards _ _ _ _ _ _ hi, Nat.zero_add]
  have hlen : ∀ i, i < graphs_.length →
      (subtensor vals (min (i * S) vals.length) (min S (vals.length - i * S))).length
        = min S (vals.length - i * S) :=
    fun i _ => length_subtensor _ _ _ (by omega)
  refine ⟨hget, ?_, ?_, ?_⟩
  · have hmap : (AsyncGraphGroup.cutShards vals S vals.length 0 graphs_.length).map List.length
        = (List.range graphs_.length).map fun i => min S (vals.length - i * S) := by
      apply List.ext_getElem?
      intro i
      rw [List.getElem?_map, List.getElem?_map]
      by_cases hi : i < graphs_.length
      · rw [hget i hi, List.getElem?_range hi]
        simp only [Option.map_some', Option.some.injEq]
        exact hlen i hi
      · rw [List.getElem?_eq_none (by rw [length_cutShards]; omega),
          List.getElem?_eq_none (by simp; omega)]
        rfl
    rw [hmap, sum_shard_sizes]
    omega
  · intro i hi hne
    rw [hget i hi] at hne ⊢
    simp only [Option.getD_some] at hne ⊢
    rw [hlen i hi]
    have hpos : 0 < min S (vals.length - i * S) := by
      rcases Nat.eq_zero_or_pos (min S (vals.length - i * S)) with h0 | h0
      · exfalso
        apply hne
        apply List.eq_nil_of_length_eq_zero
        rw [hlen i hi, h0]
      · exact h0
    refine ⟨by omega, ?_⟩
    congr 1
    omega
  · apply List.ext_getElem?
    intro j
    rw [fetch_cut vals t S graphs_.length ht j]
    by_cases hj : j < vals.length
    · rw [if_pos (by omega)]
    · rw [if_neg (by omega), List.getElem?_eq_none (by omega),
        List.getElem?_eq_none (by omega)]

/-- Witness of C28 (amended): three devices and ten parameters; the tensor
`[0, ..., 0]` holds the parameters `1, ..., 10` after `fetchParams`. -/
theorem init_fetch_round_trip_witness :
    AsyncGraphGroup.fetchParams tenParams.length
        (AsyncGraphGroup.init bufferedConfig 0 tenParams.length tenParams).shardSize_
        [0, 0, 0, 0, 0, 0, 0, 0, 0, 0]
        (AsyncGraphGroup.init bufferedConfig 0 tenParams.length tenParams).params_
      = (tenParams.headD ⟨[], []⟩).vals :=
  (init_fetch_round_trip bufferedConfig 0 tenParams [0, 0, 0, 0, 0, 0, 0, 0, 0, 0]
    (by decide) rfl (by decide)).2.2.2

/-! ### `Shortlist` -/

/-- The binary search of `std::lower_bound` on an increasing vector returns the
partition point: the elements before it are smaller than `w`, the others are
not. -/
theorem lowerBoundLoop_spec (xs : List Nat) (w : Nat)
    (hmono : ∀ i j, i < j → j < xs.length → xs.getD i 0 < xs.getD j 0)
    (fuel first count : Nat) (hfuel : count ≤ fuel) (hn : first + count ≤ xs.length)
    (hlow : ∀ i, i < first → xs.getD i 0 < w)
    (hup : ∀ i, first + count ≤ i → i < xs.length → w ≤ xs.getD i 0) :
    Shortlist.lowerBoundLoop xs w fuel first count ≤ xs.length ∧
    (∀ i, i < Shortlist.lowerBoundLoop xs w fuel first count → xs.getD i 0 < w) ∧
    (∀ i, Shortlist.lowerBoundLoop xs w fuel first count ≤ i → i < xs.length →
      w ≤ xs.getD i 0) := by
  induction fuel generalizing first count with
  | zero =>
    have h0 : count = 0 := by omega
    subst h0
    show first ≤ xs.length ∧ (∀ i, i < first → xs.getD i 0 < w) ∧
      (∀ i, first ≤ i → i < xs.length → w ≤ xs.getD i 0)
    exact ⟨by omega, hlow, fun i hi => hup i (by simpa using hi)⟩
  | succ fuel ih =>
    unfold Shortlist.lowerBoundLoop
    by_cases hc : count = 0
    · subst hc
      rw [if_pos rfl]
      exact ⟨by omega, hlow, fun i hi => hup i (by simpa using hi)⟩
    · rw [if_neg hc]
      simp only []
      by_cases hlt : xs.getD (first + count / 2) 0 < w
      · rw [if_pos hlt]
        apply ih
        · omega
        · omega
        · intro i hi
          by_cases hii : i = first + count / 2
          · rw [hii]; exact hlt
          · have := hmono i (first + count / 2) (by omega) (by omega)
            omega
        · intro i hi hin
          exact hup i (by omega) hin
      · rw [if_neg hlt]
        apply ih
        · omega
        · omega
        · exact hlow
        · intro i hi hin
          by_cases hii : i = first + count / 2
          · rw [hii]; omega
          · have := hmono (first + count / 2) i (by omega) hin
            omega

/-- C23 (`tryForwardMap`): for a shortlist whose indices are strictly
increasing (at most `2 ^ 31` of them, so that a position is an `int`) and every
word index `w`, `tryForwardMap(w)` is the position `i` with `indices[i] == w`
when `w` occurs in the list and -1 when it does not; in particular
`tryForwardMap(reverseMap(i)) == i` for every valid position `i`. -/
theorem tryForwardMap_position (indices_ : List Nat)
    (hinc : indices_.Pairwise (fun a b => a < b)) (hlen : indices_.length ≤ 2 ^ 31) :
    (∀ (i w : Nat), indices_[i]? = some w →
      Shortlist.tryForwardMap indices_ w = (i : Int)) ∧
    (∀ w, w ∉ indices_ → Shortlist.tryForwardMap indices_ w = -1) ∧
    (∀ i, i < indices_.length → ∃ w, Shortlist.reverseMap indices_ (i : Int) = some w ∧
      Shortlist.tryForwardMap indices_ w = (i : Int)) := by
  have hmono : ∀ i j, i < j → j < indices_.length →
      indices_.getD i 0 < indices_.getD j 0 := by
    intro i j hij hj
    rw [List.getD_eq_getElem _ _ (by omega : i < indices_.length),
      List.getD_eq_getElem _ _ hj]
    exact List.pairwise_iff_getElem.1 hinc i j (by omega) hj hij
  have hspec : ∀ w, Shortlist.lower_bound indices_ w ≤ indices_.length ∧
      (∀ i, i < Shortlist.lower_bound indices_ w → indices_.getD i 0 < w) ∧
      (∀ i, Shortlist.lower_bound indices_ w ≤ i → i < indices_.length →
        w ≤ indices_.getD i 0) := by
    intro w
    exact lowerBoundLoop_spec indices_ w hmono indices_.length 0 indices_.length
      (Nat.le_refl _) (by omega) (fun i hi => by omega) (fun i hi hin => by omega)
  have hfound : ∀ (i w : Nat), indices_[i]? = some w →
      Shortlist.tryForwardMap indices_ w = (i : Int) := by
    intro i w hiw
    obtain ⟨hi, hval⟩ := List.getElem?_eq_some_iff.1 hiw
    have hgi : indices_.getD i 0 = w := by rw [List.getD_eq_getElem _ _ hi, hval]
    obtain ⟨h1, h2, h3⟩ := hspec w
    have hle : Shortlist.lower_bound indices_ w ≤ i := by
      by_contra hc
      have := h2 i (by omega)
      omega
    have heq : Shortlist.lower_bound indices_ w = i := by
      by_contra hc
      have ha := hmono (Shortlist.lower_bound indices_ w) i (by omega) hi
      have hb := h3 (Shortlist.lower_bound indices_ w) (Nat.le_refl _) (by omega)
      omega
    unfold Shortlist.tryForwardMap
    simp only [heq]
    rw [if_pos ⟨by omega, hgi⟩]
    exact intOf_small _ (by omega) (by omega)
  refine ⟨hfound, ?_, ?_⟩
  · intro w hw
    unfold Shortlist.tryForwardMap
    simp only []
    rw [if_neg]
    rintro ⟨hne, hval⟩
    have h1 := (hspec w).1
    have hlt : Shortlist.lower_bound indices_ w < indices_.length := by omega
    apply hw
    rw [← hval, List.getD_eq_getElem _ _ hlt]
    exact List.getElem_mem hlt
  · intro i hi
    refine ⟨indices_[i], ?_, hfound i _ (List.getElem?_eq_getElem hi)⟩
    unfold Shortlist.reverseMap
    rw [if_pos (by omega)]
    simp only [Int.toNat_ofNat]
    exact List.getElem?_eq_getElem hi

/-- Witness of C23: the shortlist `[1, 3, 5, 8, 9, 10]`; the word 8 is at the
position 3 and the word 4 does not occur. -/
theorem tryForwardMap_position_witness :
    Shortlist.tryForwardMap [1, 3, 5, 8, 9, 10] 8 = ((3 : Nat) : Int) ∧
    Shortlist.tryForwardMap [1, 3, 5, 8, 9, 10] 4 = -1 :=
  ⟨(tryForwardMap_position [1, 3, 5, 8, 9, 10] (by decide) (by decide)).1 3 8 rfl,
    (tryForwardMap_position [1, 3, 5, 8, 9, 10] (by decide) (by decide)).2.1 4 (by decide)⟩

/-! ### `LexicalShortlistGenerator` -/

theorem mem_setInsert (x y : Nat) (s : List Nat) :
    y ∈ LexicalShortlistGenerator.setInsert x s ↔ y = x ∨ y ∈ s := by
  unfold LexicalShortlistGenerator.setInsert
  by_cases h : x ∈ s
  · rw [if_pos h]
    constructor
    · intro hy; exact Or.inr hy
    · rintro (rfl | hy)
      · exact h
      · exact hy
  · rw [if_neg h, List.mem_append, List.mem_singleton]
    exact Or.comm

theorem nodup_setInsert (x : Nat) (s : List Nat) (hs : s.Nodup) :
    (LexicalShortlistGenerator.setInsert x s).Nodup := by
  unfold LexicalShortlistGenerator.setInsert
  by_cases h : x ∈ s
  · rw [if_pos h]; exact hs
  · rw [if_neg h]
    exact List.Nodup.append hs (List.nodup_singleton x)
      (by
        intro a ha hb
        rw [List.mem_singleton] at hb
        subst hb
        exact h ha)

/-- A set of word indices: a list without duplicates of numbers below `2 ^ 32`. -/
theorem valid_setInsert (x : Nat) (s : List Nat) (hx : x < WORD_INDEX)
    (hs : s.Nodup ∧ ∀ y ∈ s, y < WORD_INDEX) :
    (LexicalShortlistGenerator.setInsert x s).Nodup ∧
    ∀ y ∈ LexicalShortlistGenerator.setInsert x s, y < WORD_INDEX := by
  refine ⟨nodup_setInsert x s hs.1, ?_⟩
  intro y hy
  rcases (mem_setInsert x y s).1 hy with rfl | h
  · exact hx
  · exact hs.2 y h

theorem valid_foldl_setInsert (l s : List Nat) (hl : ∀ x ∈ l, x < WORD_INDEX)
    (hs : s.Nodup ∧ ∀ y ∈ s, y < WORD_INDEX) :
    (l.foldl (fun indexSet i => LexicalShortlistGenerator.setInsert i indexSet) s).Nodup ∧
    ∀ y ∈ l.foldl (fun indexSet i => LexicalShortlistGenerator.setInsert i indexSet) s,
      y < WORD_INDEX := by
  induction l generalizing s with
  | nil => exact hs
  | cons a as ih =>
    simp only [List.foldl_cons]
    exact ih _ (fun x hx => hl x (List.mem_cons_of_mem _ hx))
      (valid_setInsert a s (hl a (List.mem_cons_self _ _)) hs)

/-- A set of word indices that holds every word index has `2 ^ 32` elements. -/
theorem length_full_set (s : List Nat) (hs : s.Nodup ∧ ∀ y ∈ s, y < WORD_INDEX)
    (hall : ∀ x, x < WORD_INDEX → x ∈ s) : s.length = WORD_INDEX := by
  have h1 : s.toFinset = Finset.range WORD_INDEX := by
    ext x
    rw [List.mem_toFinset, Finset.mem_range]
    exact ⟨hs.2 x, hall x⟩
  rw [← List.toFinset_card_of_nodup hs.1, h1, Finset.card_range]

/-- The padding loop returns only sets whose size is a multiple of 8. -/
theorem padLoop_multiple (fuel i : Nat) (s s' : List Nat)
    (h : LexicalShortlistGenerator.padLoop fuel i s = some s') : s'.length % 8 = 0 := by
  induction fuel generalizing i s with
  | zero => cases h
  | succ fuel ih =>
    unfold LexicalShortlistGenerator.padLoop at h
    by_cases hc : s.length % 8 ≠ 0
    · rw [if_pos hc] at h
      exact ih _ _ h
    · rw [if_neg hc] at h
      cases h
      omega

/-- The padding loop ends: after `v` iterations the last `v` values of `i` are
in the set, and a set that holds all `2 ^ 32` word indices has a size that is a
multiple of 8. -/
theorem padLoop_terminates (fuel v i : Nat) (s : List Nat) (hv : v ≤ WORD_INDEX)
    (hfuel : WORD_INDEX + 1 ≤ fuel + v) (hi : i < WORD_INDEX)
    (hs : s.Nodup ∧ ∀ y ∈ s, y < WORD_INDEX)
    (hlast : ∀ j, 1 ≤ j → j ≤ v → (i + WORD_INDEX - j) % WORD_INDEX ∈ s) :
    ∃ s', LexicalShortlistGenerator.padLoop fuel i s = some s' ∧
      (s'.Nodup ∧ ∀ y ∈ s', y < WORD_INDEX) ∧ ∀ y ∈ s, y ∈ s' := by
  induction fuel generalizing v i s with
  | zero => omega
  | succ fuel ih =>
    unfold LexicalShortlistGenerator.padLoop
    by_cases hc : s.length % 8 ≠ 0
    · rw [if_pos hc]
      have hvlt : v < WORD_INDEX := by
        by_contra hcon
        have hvM : v = WORD_INDEX := by omega
        have hall : ∀ x, x < WORD_INDEX → x ∈ s := by
          intro x hx
          have hj := hlast ((i + WORD_INDEX - x - 1) % WORD_INDEX + 1) (by omega)
            (by
              rw [hvM]
              have := Nat.mod_lt (i + WORD_INDEX - x - 1) (by unfold WORD_INDEX; omega :
                0 < WORD_INDEX)
              omega)
          have hx' : (i + WORD_INDEX - ((i + WORD_INDEX - x - 1) % WORD_INDEX + 1))
              % WORD_INDEX = x := by
            have hM : WORD_INDEX = 4294967296 := rfl
            rw [hM] at hi hx ⊢
            omega
          rw [hx'] at hj
          exact hj
        have hlen := length_full_set s hs hall
        apply hc
        rw [hlen]
        rfl
      have hi1 : (i + 1) % WORD_INDEX < WORD_INDEX :=
        Nat.mod_lt _ (by unfold WORD_INDEX; omega)
      obtain ⟨s', h1, h2, h3⟩ := ih (v + 1) ((i + 1) % WORD_INDEX)
        (LexicalShortlistGenerator.setInsert i s) (by omega) (by omega) hi1
        (valid_setInsert i s hi hs)
        (by
          intro j hj1 hj2
          rw [mem_setInsert]
          by_cases hj : j = 1
          · left
            subst hj
            have hM : WORD_INDEX = 4294967296 := rfl
            rw [hM] at hi ⊢
            omega
          · right
            have := hlast (j - 1) (by omega) (by omega)
            have he : ((i + 1) % WORD_INDEX + WORD_INDEX - j) % WORD_INDEX
                = (i + WORD_INDEX - (j - 1)) % WORD_INDEX := by
              have hM : WORD_INDEX = 4294967296 := rfl
              rw [hM] at hi hvlt ⊢
              omega
            rw [he]
            exact this)
      exact ⟨s', h1, h2, fun y hy => h3 y ((mem_setInsert i y s).2 (Or.inr hy))⟩
    · rw [if_neg hc]
      exact ⟨s, rfl, hs, fun y hy => hy⟩

theorem mem_foldl_setInsert (l s : List Nat) (y : Nat) :
    y ∈ l.foldl (fun indexSet i => LexicalShortlistGenerator.setInsert i indexSet) s ↔
      y ∈ s ∨ y ∈ l := by
  induction l generalizing s with
  | nil => simp
  | cons a as ih =>
    simp only [List.foldl_cons]
    rw [ih, mem_setInsert, List.mem_cons]
    constructor
    · rintro ((h | h) | h)
      · exact Or.inr (Or.inl h)
      · exact Or.inl h
      · exact Or.inr (Or.inr h)
    · rintro (h | h | h)
      · exact Or.inl (Or.inr h)
      · exact Or.inl (Or.inl h)
      · exact Or.inr h

/-- The loop of `generate` over the source words returns when every source word
has an entry in `data_`. -/
theorem lexical_collect (g : LexicalShortlistGenerator) (l s : List Nat)
    (hl : ∀ i ∈ l, i < g.data_.length ∧ i < WORD_INDEX)
    (htrg : ∀ probs ∈ g.data_, ∀ t ∈ probs, t < WORD_INDEX)
    (hs : s.Nodup ∧ ∀ y ∈ s, y < WORD_INDEX) :
    ∃ s', l.foldlM (fun indexSet i =>
        match g.data_[i]? with
        | none => Except.error LexicalShortlistGenerator.msgData
        | some probs =>
          Except.ok (probs.foldl
            (fun indexSet t => LexicalShortlistGenerator.setInsert t indexSet)
            (if g.shared_ then LexicalShortlistGenerator.setInsert i indexSet
              else indexSet))) s = .ok s' ∧
      (s'.Nodup ∧ ∀ y ∈ s', y < WORD_INDEX) := by
  induction l generalizing s with
  | nil => exact ⟨s, rfl, hs⟩
  | cons a as ih =>
    obtain ⟨ha1, ha2⟩ := hl a (List.mem_cons_self _ _)
    have hvalid : (g.data_[a].foldl
        (fun indexSet t => LexicalShortlistGenerator.setInsert t indexSet)
        (if g.shared_ then LexicalShortlistGenerator.setInsert a s else s)).Nodup ∧
        ∀ y ∈ g.data_[a].foldl
          (fun indexSet t => LexicalShortlistGenerator.setInsert t indexSet)
          (if g.shared_ then LexicalShortlistGenerator.setInsert a s else s),
          y < WORD_INDEX := by
      apply valid_foldl_setInsert _ _ (htrg _ (List.getElem_mem ha1))
      split
      · exact valid_setInsert a s ha2 hs
      · exact hs
    obtain ⟨s', h1, h2⟩ := ih _ (fun i hi => hl i (List.mem_cons_of_mem _ hi)) hvalid
    refine ⟨s', ?_, h2⟩
    rw [List.foldlM_cons, List.getElem?_eq_getElem ha1]
    exact h1

/-- The loop of `generate` over the source words stops with the error of the
read of `data_[i]` when a source word has no entry in `data_`. -/
theorem lexical_collect_error (g : LexicalShortlistGenerator) (l s : List Nat)
    (hl : ∃ i ∈ l, g.data_.length ≤ i) :
    l.foldlM (fun indexSet i =>
        match g.data_[i]? with
        | none => Except.error LexicalShortlistGenerator.msgData
        | some probs =>
          Except.ok (probs.foldl
            (fun indexSet t => LexicalShortlistGenerator.setInsert t indexSet)
            (if g.shared_ then LexicalShortlistGenerator.setInsert i indexSet
              else indexSet))) s = .error LexicalShortlistGenerator.msgData := by
  induction l generalizing s with
  | nil =>
    obtain ⟨i, hi, _⟩ := hl
    exact absurd hi (List.not_mem_nil i)
  | cons a as ih =>
    rw [List.foldlM_cons]
    by_cases ha : a < g.data_.length
    · rw [List.getElem?_eq_getElem ha]
      apply ih
      obtain ⟨i, hi, hlen⟩ := hl
      rcases List.mem_cons.1 hi with rfl | h
      · omega
      · exact ⟨i, h, hlen⟩
    · rw [List.getElem?_eq_none (by omega)]
      rfl

/-- C24 (multiple of eight): for every lexical table and every batch, a
shortlist that `generate` of the `LexicalShortlistGenerator` returns has a number
of indices that is a multiple of 8, so that it passes the column check of
`SelectColumnsBNodeOp`. With a vocabulary of at most `2 ^ 32` words and word
indices below `2 ^ 32` the padding loop ends on every index set, within
`2 ^ 32 + 1` iterations; `generate` returns if every source word of the batch
has an entry in `data_`, and it has no result (the read of `data_[i]` leaves the
vector) if one has none. -/
theorem lexical_generate_multiple_of_eight (g : LexicalShortlistGenerator)
    (srcBatch : List Nat) :
    (∀ indices, g.generate srcBatch = .ok indices →
      indices.length % 8 = 0 ∧ SelectColumnsBNodeOp.new true indices = .ok ()) ∧
    ((∃ i ∈ srcBatch, g.data_.length ≤ i) →
      g.generate srcBatch = .error LexicalShortlistGenerator.msgData) ∧
    (∀ (i : Nat) (indexSet : List Nat), i < WORD_INDEX →
      (indexSet.Nodup ∧ ∀ y ∈ indexSet, y < WORD_INDEX) →
      ∃ padded, LexicalShortlistGenerator.padLoop (WORD_INDEX + 1) i indexSet = some padded ∧
        padded.length % 8 = 0 ∧ ∀ y ∈ indexSet, y ∈ padded) ∧
    (min g.firstNum_ g.trgVocabSize ≤ WORD_INDEX →
      (∀ i ∈ srcBatch, i < WORD_INDEX) →
      (∀ probs ∈ g.data_, ∀ t ∈ probs, t < WORD_INDEX) →
      g.generate srcBatch ≠ .error LexicalShortlistGenerator.msgPadding ∧
      ((∀ i ∈ srcBatch, i < g.data_.length) →
        ∃ indices, g.generate srcBatch = .ok indices ∧ indices.length % 8 = 0 ∧
          SelectColumnsBNodeOp.new true indices = .ok ())) := by
  have hcolumn : ∀ indices : List Nat, indices.length % 8 = 0 →
      SelectColumnsBNodeOp.new true indices = .ok () := by
    intro indices hlen
    unfold SelectColumnsBNodeOp.new
    rw [if_neg (by simp), if_neg (by rw [hlen]; simp)]
  have hmiss : (∃ i ∈ srcBatch, g.data_.length ≤ i) →
      g.generate srcBatch = .error LexicalShortlistGenerator.msgData := by
    rintro ⟨i, hi, hlen⟩
    have herr := lexical_collect_error g
      (srcBatch.foldl (fun srcSet i => LexicalShortlistGenerator.setInsert i srcSet) [])
      ((List.range (min g.firstNum_ g.trgVocabSize)).foldl
        (fun indexSet i => LexicalShortlistGenerator.setInsert i indexSet) [])
      ⟨i, (mem_foldl_setInsert srcBatch [] i).2 (Or.inr hi), hlen⟩
    unfold LexicalShortlistGenerator.generate
    simp only [bind, Except.bind, herr]
  have hok : min g.firstNum_ g.trgVocabSize ≤ WORD_INDEX →
      (∀ i ∈ srcBatch, i < WORD_INDEX) →
      (∀ probs ∈ g.data_, ∀ t ∈ probs, t < WORD_INDEX) →
      (∀ i ∈ srcBatch, i < g.data_.length) →
      ∃ indices, g.generate srcBatch = .ok indices ∧ indices.length % 8 = 0 := by
    intro hV hword htrg hsrc
    have hfirst := valid_foldl_setInsert (List.range (min g.firstNum_ g.trgVocabSize)) []
      (fun x hx => by
        have := List.mem_range.1 hx
        omega)
      ⟨List.nodup_nil, fun y hy => absurd hy (List.not_mem_nil y)⟩
    have hsrcSet : ∀ i ∈ srcBatch.foldl
        (fun srcSet i => LexicalShortlistGenerator.setInsert i srcSet) [],
        i < g.data_.length ∧ i < WORD_INDEX := by
      intro i hi
      rcases (mem_foldl_setInsert srcBatch [] i).1 hi with h | h
      · exact absurd h (List.not_mem_nil i)
      · exact ⟨hsrc i h, hword i h⟩
    obtain ⟨indexSet, hcol, hvalid⟩ := lexical_collect g _ _ hsrcSet htrg hfirst
    obtain ⟨padded, hpad, _, _⟩ := padLoop_terminates (WORD_INDEX + 1) 0
      (g.firstNum_ % WORD_INDEX) indexSet (Nat.zero_le _) (Nat.le_refl _)
      (Nat.mod_lt _ (by unfold WORD_INDEX; omega)) hvalid (fun j h1 h2 => by omega)
    refine ⟨padded.insertionSort fun a b => a ≤ b, ?_, ?_⟩
    · unfold LexicalShortlistGenerator.generate
      simp only [bind, Except.bind, hcol, hpad]
    · rw [List.length_insertionSort]
      exact padLoop_multiple _ _ _ _ hpad
  refine ⟨?_, hmiss, ?_, ?_⟩
  · intro indices hgen
    have hlen : indices.length % 8 = 0 := by
      unfold LexicalShortlistGenerator.generate at hgen
      simp only [bind, Except.bind] at hgen
      split at hgen
      · cases hgen
      · split at hgen
        · cases hgen
        · rename_i padded hpad
          cases hgen
          rw [List.length_insertionSort]
          exact padLoop_multiple _ _ _ _ hpad
    exact ⟨hlen, hcolumn indices hlen⟩
  · intro i indexSet hi hvalid
    obtain ⟨padded, hpad, _, hsub⟩ := padLoop_terminates (WORD_INDEX + 1) 0 i indexSet
      (Nat.zero_le _) (Nat.le_refl _) hi hvalid (fun j h1 h2 => by omega)
    exact ⟨padded, hpad, padLoop_multiple _ _ _ _ hpad, hsub⟩
  · intro hV hword htrg
    constructor
    · by_cases hsrc : ∀ i ∈ srcBatch, i < g.data_.length
      · obtain ⟨indices, hgen, _⟩ := hok hV hword htrg hsrc
        rw [hgen]
        intro hcon
        cases hcon
      · have hex : ∃ i ∈ srcBatch, g.data_.length ≤ i := by
          by_contra hcon
          apply hsrc
          intro i hi
          by_contra hlt
          exact hcon ⟨i, hi, by omega⟩
        rw [hmiss hex]
        intro hcon
        have hne : LexicalShortlistGenerator.msgData ≠ LexicalShortlistGenerator.msgPadding := by
          decide
        exact hne (Except.error.inj hcon)
    · intro hsrc
      obtain ⟨indices, hgen, hlen⟩ := hok hV hword htrg hsrc
      exact ⟨indices, hgen, hlen, hcolumn indices hlen⟩

/-- Witness of C24: a vocabulary of 12 words, `firstNum_ = 12` and the source
words 0, 1, 0. -/
theorem lexical_generate_multiple_of_eight_witness :
    smallLexical.generate [0, 1, 0] ≠ .error LexicalShortlistGenerator.msgPadding ∧
    ∃ indices, smallLexical.generate [0, 1, 0] = .ok indices ∧ indices.length % 8 = 0 ∧
      SelectColumnsBNodeOp.new true indices = .ok () :=
  ⟨((lexical_generate_multiple_of_eight smallLexical [0, 1, 0]).2.2.2 (by decide) (by decide)
      (by decide)).1,
    ((lexical_generate_multiple_of_eight smallLexical [0, 1, 0]).2.2.2 (by decide) (by decide)
      (by decide)).2 (by decide)⟩

/-- C30 (the padding of `LexicalShortlistGenerator::generate` leaves the
vocabulary): with a target vocabulary of 12 words, `firstNum_ = 12`,
`shared_ == false` and a table whose target words 5, 7 and 3 are all below 12,
the batch with the source words 0, 1, 0 gets the shortlist `0, ..., 15`: the
padding loop has added 12, 13, 14 and 15, which are no words of the vocabulary.
For the source words 0, 2 `generate` reads `data_[2]` although `data_` has two
entries. -/
theorem lexical_generate_leaves_vocabulary :
    smallLexical.shared_ = false ∧
    (∀ probs ∈ smallLexical.data_, ∀ t ∈ probs, t < smallLexical.trgVocabSize) ∧
    smallLexical.generate [0, 1, 0]
      = .ok [0, 1, 2, 3, 4, 5, 6, 7, 8, 9, 10, 11, 12, 13, 14, 15] ∧
    ¬ (∀ x ∈ [0, 1, 2, 3, 4, 5, 6, 7, 8, 9, 10, 11, 12, 13, 14, 15],
      x < smallLexical.trgVocabSize) ∧
    smallLexical.data_.length = 2 ∧
    smallLexical.generate [0, 2] = .error LexicalShortlistGenerator.msgData :=
  ⟨rfl, by decide, rfl, by decide, rfl, rfl⟩

/-! ### `BinaryShortlistGenerator` -/

/-- An element of a truth table after `table[i] = 1`. -/
theorem getD_set_true (table : List Bool) (i j : Nat) :
    (table.set i true).getD j false =
      if i = j ∧ i < table.length then true else table.getD j false := by
  rw [List.getD_eq_getElem?_getD, List.getD_eq_getElem?_getD, List.getElem?_set]
  by_cases h : i = j
  · subst h
    by_cases hl : i < table.length
    · simp [hl]
    · simp only [hl, and_false, if_false, if_true]
      rw [List.getElem?_eq_none (by omega)]
  · simp [h]

/-- The loop that counts the selected words counts the indices that `collect`
returns. -/
theorem countOnes_eq (V : Nat) (table : List Bool) :
    BinaryShortlistGenerator.countOnes V table
      = (BinaryShortlistGenerator.collect V table).length := by
  unfold BinaryShortlistGenerator.countOnes BinaryShortlistGenerator.collect
  induction V with
  | zero => rfl
  | succ V ih =>
    rw [List.range_succ, List.foldl_append, List.filter_append, List.length_append, ih]
    simp only [List.foldl_cons, List.foldl_nil, List.filter_cons, List.filter_nil]
    split <;> simp

/-- Marking one more word adds one index to the result of `collect`. -/
theorem collect_set (V i : Nat) (table : List Bool) (hi : i < V) (hl : i < table.length)
    (hf : table.getD i false = false) :
    (BinaryShortlistGenerator.collect V (table.set i true)).length
      = (BinaryShortlistGenerator.collect V table).length + 1 := by
  unfold BinaryShortlistGenerator.collect
  induction V with
  | zero => omega
  | succ V ih =>
    rw [List.range_succ, List.filter_append, List.filter_append, List.length_append,
      List.length_append]
    by_cases hiV : i < V
    · rw [ih hiV]
      have : (table.set i true).getD V false = table.getD V false := by
        rw [getD_set_true, if_neg (by omega)]
      simp only [List.filter_cons, List.filter_nil, this]
      omega
    · have hiV' : i = V := by omega
      subst hiV'
      have hsame : (List.range i).filter (fun j => (table.set i true).getD j false)
          = (List.range i).filter (fun j => table.getD j false) := by
        apply List.filter_congr
        intro x hx
        have := List.mem_range.1 hx
        rw [getD_set_true, if_neg (by omega)]
      have hnew : (table.set i true).getD i false = true := by
        rw [getD_set_true, if_pos ⟨rfl, hl⟩]
      rw [hsame]
      simp only [List.filter_cons, List.filter_nil, hnew, hf, if_true]
      simp

/-- The result of the padding loop of `BinaryShortlistGenerator::generate`: it
selects the words that are not yet selected, in ascending order, until the
number of selected words is a multiple of 8 or the vocabulary ends. -/
theorem padTable_spec (V rest i ones : Nat) (table : List Bool)
    (hr : rest = 0 ∨ i + rest = V) (hV : V ≤ table.length)
    (hones : ones = (BinaryShortlistGenerator.collect V table).length) :
    (BinaryShortlistGenerator.padTable rest i table ones).2
      = (BinaryShortlistGenerator.collect V
          (BinaryShortlistGenerator.padTable rest i table ones).1).length ∧
    (BinaryShortlistGenerator.padTable rest i table ones).2
      = ones + min ((8 - ones % 8) % 8)
          ((List.range' i rest).filter fun j => !table.getD j false).length := by
  induction rest generalizing i ones table with
  | zero =>
    show ones = _ ∧ ones = _
    exact ⟨hones, by simp⟩
  | succ rest ih =>
    have hiV : i + (rest + 1) = V := by omega
    unfold BinaryShortlistGenerator.padTable
    rw [List.range'_succ, List.filter_cons]
    by_cases h8 : ones % 8 ≠ 0
    · rw [if_pos h8]
      by_cases hbit : table.getD i false = false
      · simp only [hbit, Bool.not_false, if_true]
        obtain ⟨h1, h2⟩ := ih (i + 1) (ones + 1) (table.set i true) (Or.inr (by omega))
          (by rw [List.length_set]; exact hV)
          (by rw [collect_set V i table (by omega) (by omega) hbit, hones])
        refine ⟨h1, ?_⟩
        rw [h2]
        have hsame : (List.range' (i + 1) rest).filter
              (fun j => !(table.set i true).getD j false)
            = (List.range' (i + 1) rest).filter (fun j => !table.getD j false) := by
          apply List.filter_congr
          intro x hx
          have := (List.mem_range'_1.1 hx).1
          rw [getD_set_true, if_neg (by omega)]
        rw [hsame, List.length_cons]
        omega
      · have hbit' : table.getD i false = true := by
          cases h : table.getD i false
          · exact absurd h hbit
          · rfl
        simp only [hbit', Bool.not_true, Bool.false_eq_true, if_false]
        exact ih (i + 1) ones table (Or.inr (by omega)) hV hones
    · rw [if_neg h8]
      refine ⟨hones, ?_⟩
      have : (8 - ones % 8) % 8 = 0 := by omega
      rw [this, Nat.zero_min]
      rfl

theorem setBit_ok (table : List Bool) (i : Nat) (hi : i < table.length) :
    BinaryShortlistGenerator.setBit table i = .ok (table.set i true) := by
  unfold BinaryShortlistGenerator.setBit
  rw [if_pos hi]

/-- The loop over the target words of one source word returns when they are
words of the target vocabulary. -/
theorem binary_inner_ok (g : BinaryShortlistGenerator) (V n b : Nat) (table : List Bool)
    (hlen : table.length = V)
    (hj : ∀ j, b ≤ j → j < b + n → ∃ t, g.short_lists_[j]? = some t ∧ t < V) :
    ∃ table', (List.range' b n).foldlM (fun table j =>
        match g.short_lists_[j]? with
        | none => Except.error BinaryShortlistGenerator.msgRange
        | some t => BinaryShortlistGenerator.setBit table t) table = .ok table' ∧
      table'.length = V := by
  induction n generalizing b table with
  | zero => exact ⟨table, rfl, hlen⟩
  | succ n ih =>
    obtain ⟨t, ht, htV⟩ := hj b (Nat.le_refl b) (by omega)
    obtain ⟨table', h1, h2⟩ := ih (b + 1) (table.set t true)
      (by rw [List.length_set]; exact hlen)
      (fun j h1 h2 => hj j (by omega) (by omega))
    refine ⟨table', ?_, h2⟩
    rw [List.range'_succ, List.foldlM_cons, ht]
    simp only []
    rw [setBit_ok table t (by omega)]
    exact h1

/-- The body of the loop over the batch returns for a source word whose
accesses are all inside the arrays. -/
theorem binary_markWord_ok (g : BinaryShortlistGenerator) (st : List Bool × List Bool)
    (w : Nat) (hsrc : st.1.length = g.srcVocabSize) (htrg : st.2.length = g.trgVocabSize)
    (hw : w < g.srcVocabSize) (hshared : g.shared_ = true → w < g.trgVocabSize)
    (hlist : ∃ b e, g.word_to_offset_[w]? = some b ∧ g.word_to_offset_[w + 1]? = some e ∧
      ∀ j, b ≤ j → j < e → ∃ t, g.short_lists_[j]? = some t ∧ t < g.trgVocabSize) :
    ∃ st', BinaryShortlistGenerator.markWord g st w = .ok st' ∧
      st'.1.length = g.srcVocabSize ∧ st'.2.length = g.trgVocabSize := by
  obtain ⟨b, e, hb, he, hj⟩ := hlist
  have hsw : st.1[w]? = some (st.1.get ⟨w, by omega⟩) := List.getElem?_eq_getElem (by omega)
  unfold BinaryShortlistGenerator.markWord
  by_cases hs : g.shared_ = true
  · have h1 := setBit_ok st.2 w (by rw [htrg]; exact hshared hs)
    have hlen1 : (st.2.set w true).length = g.trgVocabSize := by
      rw [List.length_set]; exact htrg
    simp only [bind, Except.bind, hs, if_true, h1, hsw]
    cases hbit : st.1.get ⟨w, by omega⟩
    · obtain ⟨trg2, h2, hlen2⟩ := binary_inner_ok g g.trgVocabSize (e - b) b
        (st.2.set w true) hlen1 (fun j h1 h2 => hj j h1 (by omega))
      simp only [hb, he, h2, setBit_ok st.1 w (by omega)]
      exact ⟨_, rfl, by rw [List.length_set]; exact hsrc, hlen2⟩
    · exact ⟨_, rfl, hsrc, hlen1⟩
  · simp only [bind, Except.bind, hs, if_false, Bool.false_eq_true, pure, Except.pure, hsw]
    cases hbit : st.1.get ⟨w, by omega⟩
    · obtain ⟨trg2, h2, hlen2⟩ := binary_inner_ok g g.trgVocabSize (e - b) b
        st.2 htrg (fun j h1 h2 => hj j h1 (by omega))
      simp only [hb, he, h2, setBit_ok st.1 w (by omega)]
      exact ⟨_, rfl, by rw [List.length_set]; exact hsrc, hlen2⟩
    · exact ⟨_, rfl, hsrc, htrg⟩

/-- The first part of `generate` returns a truth table over the target
vocabulary when all accesses are inside the arrays. -/
theorem binary_mark_ok (g : BinaryShortlistGenerator) (srcBatch : List Nat)
    (hwf : ∀ w ∈ srcBatch, w < g.srcVocabSize ∧ (g.shared_ = true → w < g.trgVocabSize) ∧
      ∃ b e, g.word_to_offset_[w]? = some b ∧ g.word_to_offset_[w + 1]? = some e ∧
        ∀ j, b ≤ j → j < e → ∃ t, g.short_lists_[j]? = some t ∧ t < g.trgVocabSize) :
    ∃ table, g.mark srcBatch = .ok table ∧ table.length = g.trgVocabSize := by
  have hloop : ∀ (l : List Nat) (st : List Bool × List Bool),
      (∀ w ∈ l, w ∈ srcBatch) → st.1.length = g.srcVocabSize →
      st.2.length = g.trgVocabSize →
      ∃ st', l.foldlM (BinaryShortlistGenerator.markWord g) st = .ok st' ∧
        st'.2.length = g.trgVocabSize := by
    intro l
    induction l with
    | nil => exact fun st _ _ h2 => ⟨st, rfl, h2⟩
    | cons a as ih =>
      intro st hmem h1 h2
      obtain ⟨ha1, ha2, ha3⟩ := hwf a (hmem a (List.mem_cons_self _ _))
      obtain ⟨st1, hst1, hl1, hl2⟩ := binary_markWord_ok g st a h1 h2 ha1 ha2 ha3
      obtain ⟨st', hst', hl'⟩ := ih st1 (fun w hw => hmem w (List.mem_cons_of_mem _ hw))
        hl1 hl2
      refine ⟨st', ?_, hl'⟩
      rw [List.foldlM_cons, hst1]
      exact hst'
  have hfirst : ∀ (l : List Nat) (table : List Bool),
      (l.foldl (fun table i => table.set i true) table).length = table.length := by
    intro l
    induction l with
    | nil => exact fun _ => rfl
    | cons a as ih =>
      intro table
      rw [List.foldl_cons, ih, List.length_set]
  obtain ⟨st', hst', hl'⟩ := hloop srcBatch
    (List.replicate g.srcVocabSize false,
      (List.range (min g.firstNum_ g.trgVocabSize)).foldl
        (fun table i => table.set i true) (List.replicate g.trgVocabSize false))
    (fun w hw => hw) (List.length_replicate _ _)
    (by rw [hfirst, List.length_replicate])
  refine ⟨st'.2, ?_, hl'⟩
  unfold BinaryShortlistGenerator.mark
  simp only [bind, Except.bind, hst']
  rfl

/-- The extent of the defect of the padding of the binary shortlist: for a
batch and a binary shortlist whose accesses are all inside the arrays,
`generate` of the `BinaryShortlistGenerator` returns. With `k` words selected
before the padding, the padding loop selects `min ((8 - k % 8) % 8) f` more,
where `f` is the number of words of the target vocabulary at an index from
`firstNum_` on that are not selected; so the number of indices misses the
multiple of 8 exactly when the vocabulary has fewer than `(8 - k % 8) % 8` such
words. -/
theorem binary_generate_multiple_iff (g : BinaryShortlistGenerator) (srcBatch : List Nat)
    (hwf : ∀ w ∈ srcBatch, w < g.srcVocabSize ∧ (g.shared_ = true → w < g.trgVocabSize) ∧
      ∃ b e, g.word_to_offset_[w]? = some b ∧ g.word_to_offset_[w + 1]? = some e ∧
        ∀ j, b ≤ j → j < e → ∃ t, g.short_lists_[j]? = some t ∧ t < g.trgVocabSize) :
    ∃ table indices, g.mark srcBatch = .ok table ∧ g.generate srcBatch = .ok indices ∧
      indices.length = (BinaryShortlistGenerator.collect g.trgVocabSize table).length +
        min ((8 - (BinaryShortlistGenerator.collect g.trgVocabSize table).length % 8) % 8)
          ((List.range' g.firstNum_ (g.trgVocabSize - g.firstNum_)).filter
            fun j => !table.getD j false).length ∧
      (indices.length % 8 = 0 ↔
        (8 - (BinaryShortlistGenerator.collect g.trgVocabSize table).length % 8) % 8 ≤
          ((List.range' g.firstNum_ (g.trgVocabSize - g.firstNum_)).filter
            fun j => !table.getD j false).length) ∧
      (SelectColumnsBNodeOp.new true indices = .ok () ↔ indices.length % 8 = 0) := by
  obtain ⟨table, hmark, hlen⟩ := binary_mark_ok g srcBatch hwf
  obtain ⟨h1, h2⟩ := padTable_spec g.trgVocabSize (g.trgVocabSize - g.firstNum_) g.firstNum_
    (BinaryShortlistGenerator.countOnes g.trgVocabSize table) table (by omega) (by omega)
    (countOnes_eq _ _)
  rw [countOnes_eq] at h1 h2
  have hgen : g.generate srcBatch = .ok (BinaryShortlistGenerator.collect g.trgVocabSize
      (BinaryShortlistGenerator.padTable (g.trgVocabSize - g.firstNum_) g.firstNum_ table
        (BinaryShortlistGenerator.countOnes g.trgVocabSize table)).1) := by
    unfold BinaryShortlistGenerator.generate
    simp only [bind, Except.bind, hmark]
    rfl
  rw [countOnes_eq] at hgen
  refine ⟨table, _, hmark, hgen, ?_, ?_, ?_⟩
  · rw [← h1, h2]
  · rw [← h1, h2]
    omega
  · unfold SelectColumnsBNodeOp.new
    rw [if_neg (by simp)]
    constructor
    · intro h
      by_contra hc
      rw [if_pos hc] at h
      cases h
    · intro h
      rw [if_neg (by rw [h]; simp)]

/-- The padding at work: a target vocabulary of 20 words with `firstNum_ = 3`;
six words are selected and the padding adds two. -/
theorem binary_generate_multiple_iff_witness :
    ∃ table indices, roomyBinary.mark [0, 1, 0] = .ok table ∧
      roomyBinary.generate [0, 1, 0] = .ok indices ∧
      indices.length = (BinaryShortlistGenerator.collect roomyBinary.trgVocabSize table).length +
        min ((8 - (BinaryShortlistGenerator.collect roomyBinary.trgVocabSize table).length % 8)
            % 8)
          ((List.range' roomyBinary.firstNum_
            (roomyBinary.trgVocabSize - roomyBinary.firstNum_)).filter
            fun j => !table.getD j false).length ∧
      (indices.length % 8 = 0 ↔
        (8 - (BinaryShortlistGenerator.collect roomyBinary.trgVocabSize table).length % 8) % 8 ≤
          ((List.range' roomyBinary.firstNum_
            (roomyBinary.trgVocabSize - roomyBinary.firstNum_)).filter
            fun j => !table.getD j false).length) ∧
      (SelectColumnsBNodeOp.new true indices = .ok () ↔ indices.length % 8 = 0) :=
  binary_generate_multiple_iff roomyBinary [0, 1, 0] (by
    intro w hw
    simp only [List.mem_cons, List.mem_singleton, List.not_mem_nil, or_false] at hw
    rcases hw with rfl | rfl | rfl
    · exact ⟨by decide, by decide, 0, 2, rfl, rfl, by
        intro j h1 h2
        interval_cases j
        · exact ⟨5, rfl, by decide⟩
        · exact ⟨7, rfl, by decide⟩⟩
    · exact ⟨by decide, by decide, 2, 3, rfl, rfl, by
        intro j h1 h2
        interval_cases j
        exact ⟨4, rfl, by decide⟩⟩
    · exact ⟨by decide, by decide, 0, 2, rfl, rfl, by
        intro j h1 h2
        interval_cases j
        · exact ⟨5, rfl, by decide⟩
        · exact ⟨7, rfl, by decide⟩⟩)


/-! ## The shard size is exact for tensors below `2 ^ 24` elements -/

/-- The function `floorLog2` finds the highest bit. -/
theorem floorLog2_spec (fuel n : Nat) (h0 : 0 < n) (hn : n < 2 ^ fuel) :
    2 ^ floorLog2 fuel n ≤ n ∧ n < 2 ^ (floorLog2 fuel n + 1) := by
  induction fuel generalizing n with
  | zero => simp at hn; omega
  | succ fuel ih =>
    unfold floorLog2
    by_cases h2 : 2 ≤ n
    · rw [if_pos h2]
      have hlt : n / 2 < 2 ^ fuel := by
        rw [Nat.div_lt_iff_lt_mul (by norm_num)]
        rw [pow_succ] at hn
        exact hn
      obtain ⟨h1, h3⟩ := ih (n / 2) (by omega) hlt
      constructor
      · rw [pow_succ]; omega
      · rw [pow_succ]; omega
    · rw [if_neg h2]
      simp
      omega

/-- Rounding the scaled quotient to the nearest integer and taking `ceil` gives
the ceiling of the quotient when the divisor is below twice the scale. -/
theorem ceil_roundHalfEven (a b P d : Nat) (hb : 0 < b) (hP : 0 < P) (hbP : b < 2 * P)
    (hlo : d * b < a) (hhi : a ≤ (d + 1) * b) :
    (roundHalfEven (a * P) b + P - 1) / P = d + 1 := by
  have hqr : b * (a * P / b) + a * P % b = a * P := Nat.div_add_mod _ _
  have hr : a * P % b < b := Nat.mod_lt _ hb
  obtain ⟨q, hq⟩ : ∃ q, a * P / b = q := ⟨_, rfl⟩
  obtain ⟨r, hr0⟩ : ∃ r, a * P % b = r := ⟨_, rfl⟩
  have hloP : d * b * P + P ≤ a * P := by
    have : (d * b + 1) * P ≤ a * P := Nat.mul_le_mul_right P hlo
    linarith [this, add_mul (d * b) 1 P]
  have hhiP : a * P ≤ (d + 1) * b * P := Nat.mul_le_mul_right P hhi
  have hm : d * P < roundHalfEven (a * P) b ∧ roundHalfEven (a * P) b ≤ (d + 1) * P := by
    unfold roundHalfEven
    rw [hq, hr0]
    rw [hq, hr0] at hqr
    rw [hr0] at hr
    have hqlo : d * P ≤ q := by
      by_contra hcon
      have h1 : q + 1 ≤ d * P := by omega
      have h2 : b * (q + 1) ≤ b * (d * P) := Nat.mul_le_mul_left b h1
      nlinarith [h2, hqr, hr, hloP]
    have hqhi : q ≤ (d + 1) * P := by
      by_contra hcon
      have h1 : (d + 1) * P + 1 ≤ q := by omega
      have h2 : b * ((d + 1) * P + 1) ≤ b * q := Nat.mul_le_mul_left b h1
      nlinarith [h2, hqr, hr, hhiP]
    split_ifs with hc
    · constructor
      · omega
      · by_contra hcon
        have h1 : q = (d + 1) * P := by omega
        have h2 : r = 0 := by
          subst h1
          nlinarith [hqr, hhiP]
        subst h2
        omega
    · constructor
      · by_contra hcon
        have h1 : q = d * P := by omega
        have h2 : P ≤ r := by
          subst h1
          nlinarith [hqr, hloP]
        apply hc
        left
        omega
      · exact hqhi
  apply Nat.div_eq_of_lt_le
  · have : (d + 1) * P = d * P + P := by ring
    omega
  · have : (d + 1 + 1) * P = (d + 1) * P + P := by ring
    show roundHalfEven (a * P) b + P - 1 < (d + 1 + 1) * P
    omega

/-- The shard size `ceil(totalSize / (float)devices)` is the exact ceiling of
the quotient when both numbers are below `2 ^ 24`, where the conversion to
`float` is exact. -/
theorem shardSize_float_exact (D N : Nat) (hD : D < 2 ^ 24) (hN : 0 < N) (hN2 : N < 2 ^ 24) :
    f32DivCeil (f32OfNat D) (f32OfNat N) = (D + N - 1) / N := by
  have hfD : f32OfNat D = D := by unfold f32OfNat; rw [if_pos hD]
  have hfN : f32OfNat N = N := by unfold f32OfNat; rw [if_pos hN2]
  rw [hfD, hfN]
  unfold f32DivCeil
  by_cases hD0 : D = 0
  · subst hD0
    rw [if_pos (Or.inl rfl)]
    symm
    apply Nat.div_eq_of_lt
    omega
  rw [if_neg (by omega)]
  have hDpos : 0 < D := by omega
  obtain ⟨ha1, ha2⟩ := floorLog2_spec 64 D hDpos (lt_trans hD (by norm_num))
  obtain ⟨hb1, hb2⟩ := floorLog2_spec 64 N hN (lt_trans hN2 (by norm_num))
  obtain ⟨la, hla⟩ : ∃ la, floorLog2 64 D = la := ⟨_, rfl⟩
  obtain ⟨lb, hlb⟩ : ∃ lb, floorLog2 64 N = lb := ⟨_, rfl⟩
  rw [hla] at ha1 ha2
  rw [hlb] at hb1 hb2
  simp only [hla, hlb]
  have hla23 : la < 24 := by
    have : 2 ^ la < 2 ^ 24 := lt_of_le_of_lt ha1 hD
    exact (Nat.pow_lt_pow_iff_right (by norm_num)).1 this
  obtain ⟨low, hlow⟩ : ∃ low : Nat, (if D * 2 ^ lb < N * 2 ^ la then 1 else 0) = low := ⟨_, rfl⟩
  rw [hlow]
  have hz : la - (23 + (lb + low)) = 0 := by omega
  rw [hz, pow_zero, Nat.mul_one, Nat.mul_one]
  obtain ⟨k, hk⟩ : ∃ k, 23 + (lb + low) - la = k := ⟨_, rfl⟩
  rw [hk]
  have hNk : N < 2 * 2 ^ k := by
    have h1 : 2 ^ (lb + 1) ≤ 2 ^ (k + 1) := Nat.pow_le_pow_right (by norm_num) (by omega)
    rw [pow_succ 2 k] at h1
    omega
  obtain ⟨d, hd⟩ : ∃ d, (D + N - 1) / N = d + 1 := by
    have : 1 ≤ (D + N - 1) / N := by
      rw [Nat.le_div_iff_mul_le hN]
      omega
    exact ⟨(D + N - 1) / N - 1, by omega⟩
  rw [hd]
  have hdiv : N * ((D + N - 1) / N) + (D + N - 1) % N = D + N - 1 := Nat.div_add_mod _ _
  have hmod : (D + N - 1) % N < N := Nat.mod_lt _ hN
  rw [hd] at hdiv
  have hex : N * (d + 1) = d * N + N := by ring
  have hex2 : (d + 1) * N = d * N + N := by ring
  exact ceil_roundHalfEven D N (2 ^ k) d hN (by positivity) hNk (by omega) (by omega)

/-- On a tensor of fewer than `2 ^ 24` elements the shards of `init` cover all
parameters: `devices * shardSize_` is at least the number of parameters. -/
theorem init_shardSize_covers {α : Type} [LinearOrderedField α] (cfg : AsyncGraphGroup.Config α)
    (junk : α) (devices : Nat) (graphs_ : List (Graph α)) (hN : 0 < devices)
    (hN2 : devices < 2 ^ 24) (hD : (graphs_.headD ⟨[], []⟩).vals.length < 2 ^ 24) :
    (AsyncGraphGroup.init cfg junk devices graphs_).shardSize_
        = ((graphs_.headD ⟨[], []⟩).vals.length + devices - 1) / devices ∧
      (graphs_.headD ⟨[], []⟩).vals.length
        ≤ devices * (AsyncGraphGroup.init cfg junk devices graphs_).shardSize_ := by
  have h := shardSize_float_exact (graphs_.headD ⟨[], []⟩).vals.length devices hD hN hN2
  have hs : (AsyncGraphGroup.init cfg junk devices graphs_).shardSize_
      = ((graphs_.headD ⟨[], []⟩).vals.length + devices - 1) / devices := h
  refine ⟨hs, ?_⟩
  rw [hs]
  obtain ⟨D, hDe⟩ : ∃ D, (graphs_.headD ⟨[], []⟩).vals.length = D := ⟨_, rfl⟩
  rw [hDe]
  have hdiv : devices * ((D + devices - 1) / devices) + (D + devices - 1) % devices
      = D + devices - 1 := Nat.div_add_mod _ _
  have hmod : (D + devices - 1) % devices < devices := Nat.mod_lt _ hN
  omega

end Marian
